import Mathlib

/-!
# CTC prefix beam search decoder: embedding and verified properties

Shallow embedding of `decoder_utils.cpp`, `path_trie.cpp` and
`ctc_beam_search_decoder.cpp`.

Conventions of the embedding.

* Log-domain numbers (`float`/`double` holding a log-probability, `-inf`
  included): a value `x` is stored as the rational `exp x` (`LogProb.exp`).
  `-NUM_FLT_INF` is stored as `0`, `0.0` as `1`, the sum of two logs as the
  product, `log_sum_exp` as the sum, and comparisons of logs are comparisons of
  the stored rationals.
* Rounding is modelled in `get_pruned_log_probs`, where `decoder_utils.cpp`
  fixes the types: `cum_prob` is a `double` (`to_double` after every addition)
  and `log(p + NUM_FLT_MIN)` is a `double` stored in the `float` of a
  `std::pair<size_t, float>` (`LogProb.narrow`).  The sums of logs and
  `log_sum_exp` on the data members of the trie are exact.
* Probabilities are rationals; they are meant to be non-negative, and a
  `double` is the rational it holds.
* `std::string` is `String` with one character per byte: a character stands
  for the byte (`char`) of its code, so that `data.take 1` is `substr(0, 1)`
  and `data.drop 2` is `substr(2)`; a text outside ASCII is the string of its
  UTF-8 bytes.  `std::vector` is `List`.
* A `PathTrie*` is the list of symbols on the way from the root to the node
  (the root is `[]`); `parent` is the list without its last symbol.
-/

namespace PrefixBeamSearch

set_option compiler.reuse false

/-! ## Numeric kernels -/

/-- A log-domain number, stored as its exponential: the rational `0` stands
for minus infinity, the rational `1` for `0.0`. -/
def LogProb : Type := ℚ

namespace LogProb

/-- The stored exponential of a log-domain number. -/
def exp (a : LogProb) : ℚ := a

/-- The log-domain number with a given exponential. -/
def ofExp (q : ℚ) : LogProb := q

instance : DecidableEq LogProb := inferInstanceAs (DecidableEq ℚ)

/-- Comparison of two logs: comparison of the exponentials. -/
instance : LinearOrder LogProb := inferInstanceAs (LinearOrder ℚ)

/-- Addition of two logs: the product of the exponentials. -/
instance : Add LogProb := ⟨fun a b => ofExp (a.exp * b.exp)⟩

/-- Subtraction of two logs: the quotient of the exponentials. -/
instance : Sub LogProb := ⟨fun a b => ofExp (a.exp / b.exp)⟩

/-- The log-domain literal `0.0`. -/
def zero : LogProb := ofExp 1

/-- A log-domain number times a natural number. -/
def nsmul (n : Nat) (a : LogProb) : LogProb := ofExp (a.exp ^ n)

end LogProb

/-- The value `-NUM_FLT_INF` (minus infinity). -/
def NEG_NUM_FLT_INF : LogProb := LogProb.ofExp 0

/-- Modelled from the spec: the header constant `NUM_FLT_MIN`, the "small
positive floor" added before taking a logarithm; the least positive normal
`float`, `2^-126`. -/
def NUM_FLT_MIN : ℚ := 1 / 2 ^ 126

/-- The function `log` applied to a non-negative probability. -/
def log (p : ℚ) : LogProb := LogProb.ofExp p

/-! ### Rounding to `double` and to `float`

A `double` or a `float` is the rational it holds.  Where the source stores the
result of an operation in one of the two formats, the operation is followed by
the rounding to the format: to the nearest number of the format, ties to the
even one.  Overflow is not modelled; it does not occur on probabilities. -/

/-- The least `k' ≥ k` with `n < 2 ^ 2 ^ k'`, searched upwards with a bound. -/
def log2_width : Nat → Nat → Nat → Nat
  | 0, k, _ => k
  | bound + 1, k, n => if n < 2 ^ 2 ^ k then k else log2_width bound (k + 1) n

/-- The position of the leading bit of a number `n < 2 ^ 2 ^ k`, added to
`acc`: a binary search that halves the width. -/
def log2_search : Nat → Nat → Nat → Nat
  | 0, _, acc => acc
  | k + 1, n, acc =>
    if 2 ^ 2 ^ k ≤ n then log2_search k (n / 2 ^ 2 ^ k) (acc + 2 ^ k) else log2_search k n acc

/-- The position of the leading bit of `n`. -/
def log2 (n : Nat) : Nat := log2_search (log2_width n 7 n) n 0

/-- The binary exponent of a non-zero rational: the `e` with
`2 ^ e ≤ |x| < 2 ^ (e + 1)`. -/
def binade (x : ℚ) : Int :=
  let e0 : Int := (log2 x.num.natAbs : Int) - (log2 x.den : Int)
  if x.num.natAbs * 2 ^ (-e0).toNat < x.den * 2 ^ e0.toNat then e0 - 1 else e0

/-- The natural number nearest to `n / d`, the even one of the two when `n / d`
is half-way between them. -/
def round_half_even (n d : Nat) : Nat :=
  if 2 * (n % d) < d then n / d
  else if d < 2 * (n % d) then n / d + 1
  else if n / d % 2 = 0 then n / d else n / d + 1

/-- Rounding to the multiples of `2 ^ s`. -/
def round_at (s : Int) (x : ℚ) : ℚ :=
  mkRat
    (Int.sign x.num
      * (round_half_even (x.num.natAbs * 2 ^ (-s).toNat) (x.den * 2 ^ s.toNat) * 2 ^ s.toNat : Nat))
    (2 ^ (-s).toNat)

/-- Rounding to the binary format with `prec` significant bits whose least
positive number is `2 ^ emin`. -/
def round_to (prec : Nat) (emin : Int) (x : ℚ) : ℚ :=
  if x = 0 then 0 else round_at (max (binade x - ((prec : Int) - 1)) emin) x

/-- Rounding to `double` (53 significant bits). -/
def to_double (x : ℚ) : ℚ := round_to 53 (-1074) x

/-- Rounding to `float` (24 significant bits). -/
def to_float (x : ℚ) : ℚ := round_to 24 (-149) x

/-- The scale of the fixed-point numbers in which logarithms and exponentials
are computed: a natural number `n` stands for `n / 2 ^ 128`. -/
def FX : Nat := 2 ^ 128

/-- The sum of `w ^ j / (2 (i + j) + 1)` over `j < n`, in fixed point. -/
def atanh_series (w : Nat) : Nat → Nat → Nat
  | 0, _ => 0
  | n + 1, i => FX / (2 * i + 1) + atanh_series w n (i + 1) * w / FX

/-- The number `2 artanh (num / den)`, that is `ln ((den + num) / (den - num))`,
for `0 ≤ num / den ≤ 1/3`, in fixed point. -/
def two_artanh (num den : Nat) : Nat :=
  2 * (num * FX / den * atanh_series (num * FX / den * (num * FX / den) / FX) 45 0 / FX)

/-- The number `ln 2` in fixed point: the value of `two_artanh 1 3`. -/
def LN2 : Nat := 235865763225513294137944142764154484396

/-- The natural logarithm of a positive rational `q = m 2 ^ e`, `1 ≤ m < 2`:
`e ln 2 + ln m` with `ln m = 2 artanh ((m - 1) / (m + 1))`, computed to more
than 100 binary digits. -/
def ln (q : ℚ) : ℚ :=
  mkRat
    (binade q * (LN2 : Int)
      + (two_artanh
          (q.num.natAbs * 2 ^ (-binade q).toNat - q.den * 2 ^ (binade q).toNat)
          (q.num.natAbs * 2 ^ (-binade q).toNat + q.den * 2 ^ (binade q).toNat) : Nat))
    FX

/-- The sum of `r ^ i / (j (j + 1) ... (j + i - 1))` over `i ≤ n`, in fixed
point. -/
def exp_series (r : Nat) : Nat → Nat → Nat
  | 0, _ => FX
  | n + 1, j => FX + exp_series r n (j + 1) * r / (FX * j)

/-- The exponential of `k ln 2 + r / 2 ^ 128`, `0 ≤ r / 2 ^ 128 < ln 2`:
`2 ^ k exp r`. -/
def exp_reduced (k : Int) (r : Int) : ℚ :=
  mkRat ((exp_series r.toNat 40 1 * 2 ^ k.toNat : Nat) : Int) (FX * 2 ^ (-k).toNat)

/-- The exponential of a rational, computed to more than 100 binary digits. -/
def exponential (x : ℚ) : ℚ :=
  exp_reduced (x.num * (FX : Int) / ((x.den : Int) * (LN2 : Int)))
    (x.num * (FX : Int) / (x.den : Int)
      - x.num * (FX : Int) / ((x.den : Int) * (LN2 : Int)) * (LN2 : Int))

/-- The conversion of a log-domain `double` to `float`, as in the assignment
of `log(...)` to the `float` of a `std::pair<size_t, float>`: the logarithm is
rounded to `double`, the `double` to `float`; minus infinity is kept. -/
def LogProb.narrow (a : LogProb) : LogProb :=
  if LogProb.exp a ≤ 0 then a
  else LogProb.ofExp (exponential (to_float (to_double (ln (LogProb.exp a)))))

/-- Modelled from the spec: the header template `log_sum_exp(a, b)`, which
"returns `log(exp(a)+exp(b))`" and returns the other operand when one is minus
infinity. -/
def log_sum_exp (a b : LogProb) : LogProb := LogProb.ofExp (a.exp + b.exp)

/-- Modelled from the spec: the header template `pair_comp_second_rev`, the
comparator that "sorts indices by descending probability". -/
def pair_comp_second_rev (a b : Nat × ℚ) : Bool := decide (a.2 > b.2)

/-- The library call `std::sort(first, last, comp)` for a strict comparator
`comp`, as a stable insertion sort. -/
def std_sort {α : Type} (comp : α → α → Bool) (l : List α) : List α :=
  l.insertionSort (fun x y => comp y x = false)

/-- The cumulative-probability loop of `get_pruned_log_probs` (lines 23-27),
started with the running `cum_prob` and `cutoff_len`; returns `cutoff_len`.
`cum_prob` is a `double`: `cum_prob += p` rounds the sum. -/
def cutoff_loop (cutoff_prob : ℚ) (cutoff_top_n : Nat) :
    List (Nat × ℚ) → ℚ → Nat → Nat
  | [], _, cutoff_len => cutoff_len
  | x :: rest, cum_prob, cutoff_len =>
    if to_double (cum_prob + x.2) ≥ cutoff_prob ∨ cutoff_len + 1 ≥ cutoff_top_n then
      cutoff_len + 1
    else cutoff_loop cutoff_prob cutoff_top_n rest (to_double (cum_prob + x.2)) (cutoff_len + 1)

/-- The pair `(prob_idx, cutoff_len)` of `get_pruned_log_probs` after the
pruning block (lines 11-31). -/
def pruned_prob_idx (prob_step : List ℚ) (cutoff_prob : ℚ) (cutoff_top_n : Nat) :
    List (Nat × ℚ) × Nat :=
  let prob_idx := prob_step.enum
  let cutoff_len := prob_step.length
  if cutoff_prob < 1 ∨ cutoff_top_n < cutoff_len then
    let sorted := std_sort pair_comp_second_rev prob_idx
    let cutoff_len :=
      if cutoff_prob < 1 then cutoff_loop cutoff_prob cutoff_top_n sorted 0 0 else cutoff_len
    (sorted.take cutoff_len, cutoff_len)
  else (prob_idx, cutoff_len)

/-- The function `get_pruned_log_probs` of `decoder_utils.cpp`.  The sum
`p + NUM_FLT_MIN` and its logarithm are `double`s; the pair holds a `float`. -/
def get_pruned_log_probs (prob_step : List ℚ) (cutoff_prob : ℚ) (cutoff_top_n : Nat) :
    List (Nat × LogProb) :=
  let r := pruned_prob_idx prob_step cutoff_prob cutoff_top_n
  (r.1.take r.2).map (fun p => (p.1, (log (to_double (p.2 + NUM_FLT_MIN))).narrow))

/-! ## Lexicon automaton (`fst::StdVectorFst` and its sorted matcher) -/

/-- An arc `fst::StdArc(ilabel, olabel, weight, nextstate)`; the weight is not
used by the decoder and is left out. -/
structure StdArc where
  ilabel : Int
  olabel : Int
  nextstate : Int
  deriving DecidableEq

/-- A vector automaton: the arcs leaving each state (state `i` is position `i`),
the start state (`-1` when unset) and the final states. -/
structure StdVectorFst where
  states : List (List StdArc)
  start : Int
  finals : List Int
  deriving DecidableEq

namespace StdVectorFst

/-- The empty automaton. -/
def empty : StdVectorFst := ⟨[], -1, []⟩

/-- The call `NumStates()`. -/
def NumStates (d : StdVectorFst) : Nat := d.states.length

/-- The call `Start()`. -/
def Start (d : StdVectorFst) : Int := d.start

/-- The call `AddState()`: the new state is the old number of states. -/
def AddState (d : StdVectorFst) : Int × StdVectorFst :=
  (d.states.length, { d with states := d.states ++ [[]] })

/-- The call `SetStart(s)`. -/
def SetStart (d : StdVectorFst) (s : Int) : StdVectorFst := { d with start := s }

/-- The call `AddArc(src, arc)`. -/
def AddArc (d : StdVectorFst) (src : Int) (arc : StdArc) : StdVectorFst :=
  if 0 ≤ src then { d with states := d.states.modify (fun as => as ++ [arc]) src.toNat } else d

/-- The call `SetFinal(s, One())`. -/
def SetFinal (d : StdVectorFst) (s : Int) : StdVectorFst := { d with finals := d.finals ++ [s] }

/-- The arcs leaving a state. -/
def arcsOf (d : StdVectorFst) (s : Int) : List StdArc :=
  if 0 ≤ s then d.states.getD s.toNat [] else []

/-- The matcher calls `SetState(s)` then `Find(label)`, with `Value()` on
success: the first arc leaving `s` whose input label is `label`. -/
def Find (d : StdVectorFst) (s : Int) (label : Int) : Option StdArc :=
  (d.arcsOf s).find? (fun a => decide (a.ilabel = label))

end StdVectorFst

/-- The loop of `add_word_to_fst` over the symbols of the word, carrying
`(dictionary, src, dst)`. -/
def add_word_loop : List Int → StdVectorFst × Int × Int → StdVectorFst × Int × Int
  | [], s => s
  | c :: word, (dictionary, src, _) =>
    let r := dictionary.AddState
    add_word_loop word (r.2.AddArc src ⟨c, c, r.1⟩, r.1, r.1)

/-- The function `add_word_to_fst` of `decoder_utils.cpp`, for a non-empty
word (on the empty word `dst` is read uninitialised; `-1` stands for it). -/
def add_word_to_fst (word : List Int) (dictionary : StdVectorFst) : StdVectorFst :=
  let dictionary :=
    if dictionary.NumStates = 0 then
      let r := dictionary.AddState
      r.2.SetStart r.1
    else dictionary
  let r := add_word_loop word (dictionary, dictionary.Start, -1)
  r.1.SetFinal r.2.2

/-! ## The prefix trie -/

/-- The sentinel `ROOT_`. -/
def ROOT_ : Int := -1

/-- The data members of a `PathTrie` node, child list and parent apart.
`matcher_` holds the automaton the shared matcher reads. -/
structure Node where
  log_prob_b_prev : LogProb
  log_prob_nb_prev : LogProb
  log_prob_b_cur : LogProb
  log_prob_nb_cur : LogProb
  score : LogProb
  approx_ctc : LogProb
  character : Int
  offset : Nat
  exists_ : Bool
  has_dictionary_ : Bool
  dictionary_state_ : Int
  dictionary_ : Option StdVectorFst
  matcher_ : Option StdVectorFst
  deriving DecidableEq

/-- The member `children_`: the ordered list of pairs `(first, second)`, where
`second` is a node (`second`) and its own child list (`kids`); `rest` is the tail
of the list. -/
inductive Children where
  | nil : Children
  | cons (first : Int) (second : Node) (kids : Children) (rest : Children) : Children
  deriving DecidableEq

/-- A `PathTrie` object: its data members and its child list. -/
structure PathTrie where
  node : Node
  children_ : Children
  deriving DecidableEq

/-- A `PathTrie*`: the symbols from the root to the node. -/
abbrev Path := List Int

/-- What a decoding call can end with instead of a result. -/
inductive DecodeError where
  | check_failed
  | out_of_range
  | undefined_behaviour
  deriving DecidableEq

deriving instance DecidableEq for Except

namespace Children

/-- The call `children_.size()`. -/
def size : Children → Nat
  | nil => 0
  | cons _ _ _ rest => rest.size + 1

/-- The scan for the first child whose `first` is `c`. -/
def find? : Children → Int → Option PathTrie
  | nil, _ => none
  | cons first second kids rest, c =>
    if first = c then some ⟨second, kids⟩ else rest.find? c

/-- Apply `f` to the first child whose `first` is `c`. -/
def update : Children → Int → (PathTrie → PathTrie) → Children
  | nil, _, _ => nil
  | cons first second kids rest, c, f =>
    if first = c then cons first (f ⟨second, kids⟩).node (f ⟨second, kids⟩).children_ rest
    else cons first second kids (rest.update c f)

/-- The call `children_.push_back(std::make_pair(c, t))`. -/
def push_back : Children → Int → PathTrie → Children
  | nil, c, t => cons c t.node t.children_ nil
  | cons first second kids rest, c, t => cons first second kids (rest.push_back c t)

/-- The scan-and-erase loop of `remove`: erase the first child whose `first`
is `c`. -/
def erase : Children → Int → Children
  | nil, _ => nil
  | cons first second kids rest, c =>
    if first = c then rest else cons first second kids (rest.erase c)

end Children

namespace PathTrie

/-- The constructor `PathTrie()`. -/
def new : PathTrie :=
  ⟨{ log_prob_b_prev := NEG_NUM_FLT_INF, log_prob_nb_prev := NEG_NUM_FLT_INF,
     log_prob_b_cur := NEG_NUM_FLT_INF, log_prob_nb_cur := NEG_NUM_FLT_INF,
     score := NEG_NUM_FLT_INF, approx_ctc := NEG_NUM_FLT_INF, character := ROOT_, offset := 0,
     exists_ := true, has_dictionary_ := false, dictionary_state_ := 0,
     dictionary_ := none, matcher_ := none }, Children.nil⟩

/-- Dereference a pointer: the node reached from `t` along a path. -/
def at? : PathTrie → Path → Option PathTrie
  | t, [] => some t
  | t, c :: p =>
    match t.children_.find? c with
    | some child => child.at? p
    | none => none

/-- The data members read through a pointer. -/
def get (t : PathTrie) (p : Path) : Node :=
  match t.at? p with
  | some x => x.node
  | none => PathTrie.new.node

/-- Write through a pointer: apply `f` to the node reached along a path. -/
def update : PathTrie → Path → (PathTrie → PathTrie) → PathTrie
  | t, [], f => f t
  | t, c :: p, f => { t with children_ := t.children_.update c (fun child => update child p f) }

/-- The method `set_dictionary`. -/
def set_dictionary (t : PathTrie) (dictionary : StdVectorFst) : PathTrie :=
  { t with node := { t.node with dictionary_ := some dictionary,
                                 dictionary_state_ := dictionary.Start,
                                 has_dictionary_ := true } }

/-- The method `set_matcher`, for a matcher built over `dictionary`. -/
def set_matcher (t : PathTrie) (dictionary : StdVectorFst) : PathTrie :=
  { t with node := { t.node with matcher_ := some dictionary } }

/-- The revival of a tombstoned child (lines 46-50 of `path_trie.cpp`). -/
def revive (child : PathTrie) : PathTrie :=
  { child with node := { child.node with exists_ := true,
                                         log_prob_b_prev := NEG_NUM_FLT_INF,
                                         log_prob_nb_prev := NEG_NUM_FLT_INF,
                                         log_prob_b_cur := NEG_NUM_FLT_INF,
                                         log_prob_nb_cur := NEG_NUM_FLT_INF } }

/-- The method `get_path_trie(new_char, reset)`.  The result is `none` when
the method returns `nullptr` (the trie is then unchanged); otherwise it is the
object after the call, and the returned child is its first child labelled
`new_char`. -/
def get_path_trie (this : PathTrie) (new_char : Int) (reset : Bool) : Option PathTrie :=
  match this.children_.find? new_char with
  | some child =>
    if child.node.exists_ = false then
      some { this with children_ := this.children_.update new_char revive }
    else some this
  | none =>
    if this.node.has_dictionary_ then
      match this.node.dictionary_, this.node.matcher_ with
      | some dictionary, some matcher =>
        match matcher.Find (if reset then dictionary.Start else this.node.dictionary_state_)
            (new_char + 1) with
        | none => none
        | some arc =>
          let new_path : PathTrie :=
            ⟨{ PathTrie.new.node with character := new_char,
                                      dictionary_ := this.node.dictionary_,
                                      dictionary_state_ := arc.nextstate,
                                      has_dictionary_ := true,
                                      matcher_ := this.node.matcher_ }, Children.nil⟩
          some { this with children_ := this.children_.push_back new_char new_path }
      | _, _ => none
    else
      let new_path : PathTrie := ⟨{ PathTrie.new.node with character := new_char }, Children.nil⟩
      some { this with children_ := this.children_.push_back new_char new_path }

end PathTrie

/-- The roll of one live node in `iterate_to_vec` (lines 144-150). -/
def Node.roll (n : Node) : Node :=
  { n with log_prob_b_prev := n.log_prob_b_cur,
           log_prob_nb_prev := n.log_prob_nb_cur,
           log_prob_b_cur := NEG_NUM_FLT_INF,
           log_prob_nb_cur := NEG_NUM_FLT_INF,
           score := log_sum_exp n.log_prob_b_cur n.log_prob_nb_cur }

/-- The loop `for (auto child : children_) child.second->iterate_to_vec(output)`
with the body of `iterate_to_vec` for each child; `here` is the pointer of the
object owning the list. -/
def Children.iterate_to_vec : Children → Path → List Path → Children × List Path
  | Children.nil, _, output => (Children.nil, output)
  | Children.cons first second kids rest, here, output =>
    let r1 := kids.iterate_to_vec (here ++ [first])
      (if second.exists_ then output ++ [here ++ [first]] else output)
    let r2 := rest.iterate_to_vec here r1.2
    (Children.cons first (if second.exists_ then second.roll else second) r1.1 r2.1, r2.2)

/-- The method `iterate_to_vec(output)` called on the object with pointer
`here`. -/
def PathTrie.iterate_to_vec (t : PathTrie) (here : Path) (output : List Path) :
    PathTrie × List Path :=
  let r := t.children_.iterate_to_vec here (if t.node.exists_ then output ++ [here] else output)
  (⟨if t.node.exists_ then t.node.roll else t.node, r.1⟩, r.2)

/-- The method `remove()` called through the pointer whose symbols, last
first, are the first argument; `root` is the whole trie.  Dereferencing the
null parent of the root, or a pointer to a deleted node, is undefined. -/
def PathTrie.remove_rev : List Int → PathTrie → Except DecodeError PathTrie
  | [], root =>
    if root.children_.size = 0 then Except.error DecodeError.undefined_behaviour
    else Except.ok { root with node := { root.node with exists_ := false } }
  | c :: rparent, root =>
    match root.at? (c :: rparent).reverse with
    | none => Except.error DecodeError.undefined_behaviour
    | some this =>
      let root1 := root.update (c :: rparent).reverse
        (fun t => { t with node := { t.node with exists_ := false } })
      if this.children_.size = 0 then
        let root2 := root1.update rparent.reverse
          (fun parent => { parent with children_ := parent.children_.erase this.node.character })
        match root2.at? rparent.reverse with
        | none => Except.error DecodeError.undefined_behaviour
        | some parent =>
          if parent.children_.size = 0 ∧ parent.node.exists_ = false then
            PathTrie.remove_rev rparent root2
          else Except.ok root2
      else Except.ok root1

/-- The method `remove()` called through a pointer. -/
def PathTrie.remove (root : PathTrie) (p : Path) : Except DecodeError PathTrie :=
  PathTrie.remove_rev p.reverse root

/-- The loop `for (i = beam_size; i < prefixes.size(); ++i) prefixes[i]->remove()`
over the pointers past position `beam_size`. -/
def remove_all : List Path → PathTrie → Except DecodeError PathTrie
  | [], root => Except.ok root
  | p :: rest, root =>
    match root.remove p with
    | Except.ok root1 => remove_all rest root1
    | Except.error e => Except.error e

/-- The nodes met from the root down to a pointer's node, the root first. -/
def PathTrie.chain : PathTrie → Path → List Node
  | t, [] => [t.node]
  | t, c :: p =>
    t.node :: (match t.children_.find? c with
      | some child => child.chain p
      | none => [])

/-- The recursion of `get_path_vec2`: the first argument lists the object the
method is called on, then its parent, and so on up to the root.  `timestamps` is
`none` for a null pointer. -/
def get_path_vec2_up : List Node → List Int → Option (List Nat) → List Int × Option (List Nat)
  | [], output, timestamps => (output.reverse, timestamps.map List.reverse)
  | this :: up, output, timestamps =>
    if this.character = ROOT_ then (output.reverse, timestamps.map List.reverse)
    else
      get_path_vec2_up up (output ++ [this.character])
        (timestamps.map (fun ts =>
          if ts.length = 0 ∨ this.character = 0
              ∨ (up.headD PathTrie.new.node).character = ROOT_
              ∨ (up.headD PathTrie.new.node).character = 0 then ts ++ [this.offset]
          else ts))

/-- The method `get_path_vec2(output, char_list, timestamps)` called through a
pointer, with `output` (and `timestamps`, when requested) empty at the call. -/
def PathTrie.get_path_vec2 (root : PathTrie) (p : Path) (timestamps : Option (List Nat)) :
    List Int × Option (List Nat) :=
  get_path_vec2_up (root.chain p).reverse [] timestamps

/-- The function `prefix_compare` of `decoder_utils.cpp`. -/
def prefix_compare (x y : Node) : Bool :=
  if x.score = y.score then
    if x.character = y.character then false else decide (x.character < y.character)
  else decide (x.score > y.score)

/-- The comparator `prefix_compare` on pointers into the trie `root`. -/
def prefix_compare_at (root : PathTrie) (x y : Path) : Bool :=
  prefix_compare (root.get x) (root.get y)

/-- The library call `std::nth_element(first, first + n, last, comp)`: no
effect when `first + n` is `last`; otherwise the range is put in the order of
`std_sort`, one of the arrangements the call may produce. -/
def std_nth_element {α : Type} (comp : α → α → Bool) (n : Nat) (l : List α) : List α :=
  if l.length ≤ n then l else std_sort comp l

/-- The call `std::sort(v.begin(), v.begin() + n, comp)` on the first `n`
elements. -/
def sort_first {α : Type} (comp : α → α → Bool) (n : Nat) (l : List α) : List α :=
  std_sort comp (l.take n) ++ l.drop n

/-- The rendering loop of `get_beam_search_result` (lines 63-75) from position
`i` on.  `vocabulary[ind]` outside the vocabulary is undefined; `substr(2)` of
a string shorter than two bytes throws `std::out_of_range`.  A character of
the string is a byte, so `data.take 1` is `substr(0, 1)` and `data.drop 2` is
`substr(2)`. -/
def render_loop (vocabulary : List String) : List Int → Nat → String → Except DecodeError String
  | [], _, output_str => Except.ok output_str
  | ind :: rest, i, output_str =>
    if ind < 0 ∨ vocabulary.length ≤ ind.toNat then Except.error DecodeError.undefined_behaviour
    else if (vocabulary.getD ind.toNat "").data.take 1 = ['#'] then
      if (vocabulary.getD ind.toNat "").data.length < 2 then
        Except.error DecodeError.out_of_range
      else
        render_loop vocabulary rest (i + 1)
          (output_str ++ String.mk ((vocabulary.getD ind.toNat "").data.drop 2))
    else
      render_loop vocabulary rest (i + 1)
        ((if i ≠ 0 then output_str ++ " " else output_str)
          ++ (if vocabulary.getD ind.toNat "" ≠ "???" then vocabulary.getD ind.toNat "" else ""))

/-- The conversion of a symbol-index sequence to a string (lines 62-75). -/
def render (vocabulary : List String) (output : List Int) : Except DecodeError String :=
  render_loop vocabulary output 0 ""

/-- The output loop of `get_beam_search_result` (lines 57-82) over the sorted
pointers. -/
def output_loop (root : PathTrie) (vocabulary : List String) :
    List Path → Except DecodeError (List (LogProb × String))
  | [] => Except.ok []
  | p :: rest =>
    match render vocabulary (root.get_path_vec2 p none).1 with
    | Except.error e => Except.error e
    | Except.ok output_str =>
      match output_loop root vocabulary rest with
      | Except.error e => Except.error e
      | Except.ok output_vecs => Except.ok (((root.get p).score, output_str) :: output_vecs)

/-- The `strtok_r` loop on the delimiter `" "`: the maximal runs of characters
other than the space, in order.  `cur` is the run being read. -/
def strtok_loop : List Char → List Char → List String
  | [], cur => if cur = [] then [] else [String.mk cur]
  | ch :: rest, cur =>
    if ch = ' ' then
      (if cur = [] then strtok_loop rest [] else String.mk cur :: strtok_loop rest [])
    else strtok_loop rest (cur ++ [ch])

/-- The word-list loop (lines 91-97): the word at position `k` reads
`timestamps[2k]` and `timestamps[2k+1]`; a read past the end of the vector gives
`none`. -/
def word_loop (timestamps : List Nat) : List String → Nat → List (String × Option Nat × Option Nat)
  | [], _ => []
  | token :: rest, ts_idx =>
    (token, timestamps.get? ts_idx, timestamps.get? (ts_idx + 1))
      :: word_loop timestamps rest (ts_idx + 2)

/-- The function `get_beam_search_result` of `decoder_utils.cpp`; `root` is the
trie the pointers point into.  Returns `output_vecs` and the new `wordlist`. -/
def get_beam_search_result (root : PathTrie) (prefixes : List Path) (vocabulary : List String)
    (beam_size : Nat) :
    Except DecodeError (List (LogProb × String) × List (String × Option Nat × Option Nat)) :=
  let space_prefixes := std_sort (prefix_compare_at root) (prefixes.take beam_size)
  match output_loop root vocabulary space_prefixes with
  | Except.error e => Except.error e
  | Except.ok output_vecs =>
    match output_vecs with
    | [] => Except.error DecodeError.undefined_behaviour
    | best :: _ =>
      let timestamps := ((root.get_path_vec2 (space_prefixes.headD []) (some [])).2).getD []
      Except.ok (output_vecs,
        if best.2.data.length > 0 then word_loop timestamps (strtok_loop best.2.data []) 0
        else [])

/-! ## The beam search core -/

/-- The operations of the external `Scorer` the decoders call.  `beta` is
stored like every log-domain number; `cond_score p` stands for
`get_log_cond_prob(make_ngram(p)) * alpha` at the prefix `p`, and
`sent_score output` for `get_sent_log_prob(split_labels(output)) * alpha`. -/
structure Scorer where
  is_character_based : Bool
  beta : LogProb
  dictionary : StdVectorFst
  cond_score : Path → LogProb
  sent_score : List Int → LogProb

/-- The repeated-character block of the loop body (one-shot lines 93-97,
streaming lines 358-362) applied to the object `prefix`. -/
def after_repeat (c : Nat) (log_prob_c : LogProb) (pre : PathTrie) : PathTrie :=
  if (c : Int) = pre.node.character then
    { pre with node := { pre.node with
        log_prob_nb_cur :=
          log_sum_exp pre.node.log_prob_nb_cur (log_prob_c + pre.node.log_prob_nb_prev) } }
  else pre

/-- The value of `log_p` before the language-model block (one-shot lines
104-113, streaming lines 367-375), from the data of `prefix`. -/
def new_log_p (c : Nat) (log_prob_c : LogProb) (pre : Node) : LogProb :=
  if (c : Int) = pre.character ∧ pre.log_prob_b_prev > NEG_NUM_FLT_INF then
    log_prob_c + pre.log_prob_b_prev
  else if (c : Int) ≠ pre.character then log_prob_c + pre.score
  else NEG_NUM_FLT_INF

/-- The writes of the loop body to `prefix_new`: the offset (streaming
decoder, line 368; `offset` is `none` in the one-shot decoder) and
`log_prob_nb_cur` (one-shot lines 139-140, streaming lines 395-396). -/
def write_new (offset : Option Nat) (log_p : LogProb) (prefix_new : PathTrie) : PathTrie :=
  { prefix_new with node := { prefix_new.node with
      offset := offset.getD prefix_new.node.offset,
      log_prob_nb_cur := log_sum_exp prefix_new.node.log_prob_nb_cur log_p } }

/-- The body of the loop over prefixes (one-shot lines 87-141, streaming lines
352-397) after the `full_beam` test, applied to the object `prefix`.  `reset` is
the second argument of `get_path_trie`, `lm` the language-model scoring block
applied to `log_p` (given the data of `prefix`), `offset` the value the
streaming decoder writes to `prefix_new->offset` (`none` in the one-shot
decoder). -/
def expand (blank_id c : Nat) (log_prob_c : LogProb) (reset : Bool)
    (lm : Node → LogProb → LogProb) (offset : Option Nat) (pre : PathTrie) : PathTrie :=
  if c = blank_id then
    { pre with node := { pre.node with
        log_prob_b_cur := log_sum_exp pre.node.log_prob_b_cur (log_prob_c + pre.node.score) } }
  else
    match (after_repeat c log_prob_c pre).get_path_trie c reset with
    | none => after_repeat c log_prob_c pre
    | some pre2 =>
      { pre2 with children_ := (pre2.children_.update c
          (write_new offset (lm pre.node (new_log_p c log_prob_c pre.node)))) }

/-- The loop over the first `beam_size` prefixes for one symbol; `stop` is the
test `full_beam && log_prob_c + prefix->score < min_cutoff` that leaves the
loop. -/
def expand_prefixes (stop : Node → Bool) (body : Path → PathTrie → PathTrie) :
    List Path → PathTrie → PathTrie
  | [], root => root
  | p :: rest, root =>
    if stop (root.get p) then root
    else expand_prefixes stop body rest (root.update p (body p))

/-- The loop over the pruned symbols of one frame. -/
def expand_symbols (stop : Nat × LogProb → Node → Bool)
    (body : Nat × LogProb → Path → PathTrie → PathTrie) (beam : List Path) :
    List (Nat × LogProb) → PathTrie → PathTrie
  | [], root => root
  | x :: rest, root =>
    expand_symbols stop body beam rest (expand_prefixes (stop x) (body x) beam root)

/-- The block before the symbol pruning (one-shot lines 56-65, streaming lines
327-338): the prefixes after the partial sort, `min_cutoff` and `full_beam`.
With a scorer, `prefixes[num_prefixes - 1]` for `num_prefixes = 0` and
`prob[blank_id]` outside the frame are undefined. -/
def pre_sort (beam_size blank_id : Nat) (ext_scorer : Option Scorer) (prob : List ℚ)
    (root : PathTrie) (prefixes : List Path) : Except DecodeError (List Path × LogProb × Bool) :=
  match ext_scorer with
  | none => Except.ok (prefixes, NEG_NUM_FLT_INF, false)
  | some scorer =>
    let num_prefixes := min prefixes.length beam_size
    let sorted := sort_first (prefix_compare_at root) num_prefixes prefixes
    if num_prefixes = 0 ∨ prob.length ≤ blank_id then
      Except.error DecodeError.undefined_behaviour
    else
      Except.ok (sorted,
        (root.get (sorted.getD (num_prefixes - 1) [])).score + log (prob.getD blank_id 0)
          - max LogProb.zero scorer.beta,
        decide (num_prefixes = beam_size))

/-- The roll-and-prune block at the end of a frame (one-shot lines 146-159,
streaming lines 401-414). -/
def roll_and_prune (beam_size : Nat) (root : PathTrie) :
    Except DecodeError (PathTrie × List Path) :=
  let r := root.iterate_to_vec [] []
  if r.2.length ≥ beam_size then
    let prefixes := std_nth_element (prefix_compare_at r.1) beam_size r.2
    match remove_all (prefixes.drop beam_size) r.1 with
    | Except.ok root1 => Except.ok (root1, prefixes)
    | Except.error e => Except.error e
  else Except.ok r

/-- One pass of the loop over time for the frame `prob`; `body` is the
decoder's loop body for a symbol `(c, log_prob_c)`. -/
def frame_step (beam_size blank_id : Nat) (cutoff_prob : ℚ) (cutoff_top_n : Nat)
    (ext_scorer : Option Scorer) (body : Nat × LogProb → Path → PathTrie → PathTrie)
    (prob : List ℚ) (st : PathTrie × List Path) : Except DecodeError (PathTrie × List Path) :=
  match pre_sort beam_size blank_id ext_scorer prob st.1 st.2 with
  | Except.error e => Except.error e
  | Except.ok (prefixes, min_cutoff, full_beam) =>
    roll_and_prune beam_size
      (expand_symbols
        (fun x pre => full_beam && decide (x.2 + pre.score < min_cutoff))
        body (prefixes.take beam_size)
        (get_pruned_log_probs prob cutoff_prob cutoff_top_n) st.1)

/-- The loop over time, from the index `time_step` on. -/
def time_loop (step : Nat → List ℚ → PathTrie × List Path → Except DecodeError (PathTrie × List Path)) :
    List (List ℚ) → Nat → PathTrie × List Path → Except DecodeError (PathTrie × List Path)
  | [], _, st => Except.ok st
  | prob :: rest, time_step, st =>
    match step time_step prob st with
    | Except.error e => Except.error e
    | Except.ok st1 => time_loop step rest (time_step + 1) st1

/-- The root built by both decoders: `score = log_prob_b_prev = 0.0`, and the
dictionary and matcher when a word-based scorer is given. -/
def init_root (ext_scorer : Option Scorer) : PathTrie :=
  let root : PathTrie :=
    { PathTrie.new with node := { PathTrie.new.node with
        score := LogProb.zero, log_prob_b_prev := LogProb.zero } }
  match ext_scorer with
  | some scorer =>
    if scorer.is_character_based = false then
      (root.set_dictionary scorer.dictionary).set_matcher scorer.dictionary
    else root
  | none => root

/-- The test `word_end` of the one-shot decoder (lines 74-80). -/
def word_end (vocabulary : List String) (c : Nat) : Bool :=
  decide (c < vocabulary.length) && decide ((vocabulary.getD c "").data.take 1 ≠ ['#'])

/-- The language-model scoring block of the one-shot decoder (lines 118-138). -/
def lm_one_shot (ext_scorer : Option Scorer) (vocabulary : List String) (c : Nat) (p : Path)
    (pre : Node) (log_p : LogProb) : LogProb :=
  match ext_scorer with
  | some scorer =>
    if pre.character ≠ -1 ∧ (word_end vocabulary c = true ∨ scorer.is_character_based = true) then
      log_p + scorer.cond_score (if scorer.is_character_based then p ++ [(c : Int)] else p)
        + scorer.beta
    else log_p
  | none => log_p

/-- The loop body of the one-shot decoder for the symbol `x = (c, log_prob_c)`
and the prefix with pointer `p`. -/
def body_one_shot (ext_scorer : Option Scorer) (vocabulary : List String) (x : Nat × LogProb)
    (p : Path) (pre : PathTrie) : PathTrie :=
  expand vocabulary.length x.1 x.2 (word_end vocabulary x.1)
    (lm_one_shot ext_scorer vocabulary x.1 p) none pre

/-- The final word scoring of the one-shot decoder (lines 163-174), over the
first `beam_size` prefixes.  `is_empty()` is modelled from the spec (the empty
prefix is the root). -/
def final_scores (scorer : Scorer) : List Path → PathTrie → PathTrie
  | [], root => root
  | p :: rest, root =>
    final_scores scorer rest
      (if (root.get p).character ≠ ROOT_ then
        root.update p (fun t => { t with node := { t.node with
          score := t.node.score + (scorer.cond_score p + scorer.beta) } })
      else root)

/-- The approximate-score loop of the one-shot decoder (lines 181-194). -/
def approx_scores (vocabulary : List String) (ext_scorer : Option Scorer) :
    List Path → PathTrie → PathTrie
  | [], root => root
  | p :: rest, root =>
    approx_scores vocabulary ext_scorer rest
      (root.update p (fun t => { t with node := { t.node with
        approx_ctc :=
          match ext_scorer with
          | some scorer =>
            t.node.score - LogProb.nsmul (root.get_path_vec2 p none).1.length scorer.beta
              - scorer.sent_score (root.get_path_vec2 p none).1
          | none => t.node.score } }))

/-- Modelled from the spec: the header macro `VALID_CHECK_EQ` applied to every
frame: "a frame's width ≠ expected" is fatal. -/
def shape_ok (probs_seq : List (List ℚ)) (width : Nat) : Bool :=
  probs_seq.all (fun prob => decide (prob.length = width))

/-- The loop over time of `ctc_beam_search_decoder` (lines 35-160): the trie
and `prefixes` after the last frame. -/
def one_shot_loop (probs_seq : List (List ℚ)) (vocabulary : List String)
    (beam_size : Nat) (cutoff_prob : ℚ) (cutoff_top_n : Nat) (ext_scorer : Option Scorer) :
    Except DecodeError (PathTrie × List Path) :=
  time_loop
    (fun _ prob st => frame_step beam_size vocabulary.length cutoff_prob cutoff_top_n
      ext_scorer (body_one_shot ext_scorer vocabulary) prob st)
    probs_seq 0 (init_root ext_scorer, [[]])

/-- The part of `ctc_beam_search_decoder` after the loop over time (lines
162-196): the final word scoring, the last sort, the approximate scores and
`get_beam_search_result`. -/
def one_shot_finish (vocabulary : List String) (beam_size : Nat) (ext_scorer : Option Scorer)
    (st : PathTrie × List Path) : Except DecodeError (List (LogProb × String)) :=
  let root1 :=
    match ext_scorer with
    | some scorer =>
      if scorer.is_character_based = false then
        final_scores scorer (st.2.take beam_size) st.1
      else st.1
    | none => st.1
  let prefixes1 :=
    sort_first (prefix_compare_at root1) (min st.2.length beam_size) st.2
  let root2 := approx_scores vocabulary ext_scorer (prefixes1.take beam_size) root1
  match get_beam_search_result root2 prefixes1 vocabulary beam_size with
  | Except.error e => Except.error e
  | Except.ok r => Except.ok r.1

/-- The function `ctc_beam_search_decoder`. -/
def ctc_beam_search_decoder (probs_seq : List (List ℚ)) (vocabulary : List String)
    (beam_size : Nat) (cutoff_prob : ℚ) (cutoff_top_n : Nat) (ext_scorer : Option Scorer) :
    Except DecodeError (List (LogProb × String)) :=
  if shape_ok probs_seq (vocabulary.length + 1) = false then
    Except.error DecodeError.check_failed
  else
    match one_shot_loop probs_seq vocabulary beam_size cutoff_prob cutoff_top_n ext_scorer with
    | Except.error e => Except.error e
    | Except.ok st => one_shot_finish vocabulary beam_size ext_scorer st

/-! ## The streaming decoder -/

/-- The data members of `BeamDecoder`.  `reset_default` is not a member: it is
the default value of the parameter `reset` of `get_path_trie`, declared in the
header. -/
structure BeamDecoder where
  ext_scorer : Option Scorer
  beam_size : Nat
  cutoff_prob : ℚ
  cutoff_top_n : Nat
  vocabulary : List String
  blank_id : Nat
  space_id : Int
  root : PathTrie
  prefixes : List Path
  prev_time_offset : Nat
  time_offset : Nat
  last_decoded_timestep : Nat
  wordlist : List (String × Option Nat × Option Nat)
  prev_wordlist : List (String × Option Nat × Option Nat)
  reset_default : Bool

namespace BeamDecoder

/-- The method `reset(keep_offset, keep_words)`. -/
def reset (d : BeamDecoder) (keep_offset keep_words : Bool) : BeamDecoder :=
  { d with
    root := init_root d.ext_scorer
    prefixes := [[]]
    prev_time_offset :=
      if keep_offset then d.prev_time_offset + (d.last_decoded_timestep + d.time_offset) else 0
    prev_wordlist := if keep_words then d.prev_wordlist ++ d.wordlist else []
    wordlist := []
    time_offset := 0
    last_decoded_timestep := 0 }

/-- The constructor of `BeamDecoder`, which ends with `reset()`.  The members
not yet initialised when `reset()` runs are all overwritten by it. -/
def new (vocabulary : List String) (beam_size : Nat) (cutoff_prob : ℚ) (cutoff_top_n : Nat)
    (ext_scorer : Option Scorer) (reset_default : Bool) : BeamDecoder :=
  reset
    { ext_scorer := ext_scorer, beam_size := beam_size, cutoff_prob := cutoff_prob,
      cutoff_top_n := cutoff_top_n, vocabulary := vocabulary,
      blank_id := (vocabulary.length + 2 ^ 64 - 1) % 2 ^ 64,
      space_id :=
        if vocabulary.indexOf " " ≥ vocabulary.length then -2 else (vocabulary.indexOf " " : Int),
      root := PathTrie.new, prefixes := [], prev_time_offset := 0, time_offset := 0,
      last_decoded_timestep := 0, wordlist := [], prev_wordlist := [],
      reset_default := reset_default }
    false false

/-- The language-model scoring block of the streaming decoder (lines 378-394). -/
def lm_streaming (d : BeamDecoder) (c : Nat) (p : Path) (_pre : Node) (log_p : LogProb) :
    LogProb :=
  match d.ext_scorer with
  | some scorer =>
    if (c : Int) = d.space_id ∨ scorer.is_character_based = true then
      log_p + scorer.cond_score (if scorer.is_character_based then p ++ [(c : Int)] else p)
        + scorer.beta
    else log_p
  | none => log_p

/-- The loop body of `decode` at the frame index `time_step` for the symbol
`x = (c, log_prob_c)` and the prefix with pointer `p`. -/
def body (d : BeamDecoder) (time_step : Nat) (x : Nat × LogProb) (p : Path) (pre : PathTrie) :
    PathTrie :=
  expand d.blank_id x.1 x.2 d.reset_default (lm_streaming d x.1 p)
    (some (d.prev_time_offset + d.time_offset + time_step)) pre

/-- The loop over time of `decode` (lines 323-415): the trie and `prefixes`
after the last frame of the call. -/
def loop (d : BeamDecoder) (probs_seq : List (List ℚ)) :
    Except DecodeError (PathTrie × List Path) :=
  time_loop
    (fun time_step prob st => frame_step d.beam_size d.blank_id d.cutoff_prob d.cutoff_top_n
      d.ext_scorer (d.body time_step) prob st)
    probs_seq 0 (d.root, d.prefixes)

/-- The method `decode(probs_seq)`: the decoder after the call and what the
call returns.  After a failed shape check the decoder is unchanged; after an
undefined step the returned decoder has no meaning. -/
def decode (d : BeamDecoder) (probs_seq : List (List ℚ)) :
    BeamDecoder × Except DecodeError (List (LogProb × String)) :=
  if shape_ok probs_seq d.vocabulary.length = false then
    (d, Except.error DecodeError.check_failed)
  else
    match d.loop probs_seq with
    | Except.error e => (d, Except.error e)
    | Except.ok (root, prefixes) =>
      let prefixes1 :=
        sort_first (prefix_compare_at root) (min prefixes.length d.beam_size) prefixes
      let d1 : BeamDecoder :=
        { d with root := root, prefixes := prefixes1, last_decoded_timestep := probs_seq.length }
      match get_beam_search_result root prefixes1 d.vocabulary d.beam_size with
      | Except.error e => (d1, Except.error e)
      | Except.ok r => ({ d1 with wordlist := r.2 }, Except.ok r.1)

/-- The method `get_word_timestamps(words)`. -/
def get_word_timestamps (d : BeamDecoder) : List (String × Option Nat × Option Nat) :=
  d.prev_wordlist ++ d.wordlist

end BeamDecoder

/-- What the rendering loop of `get_beam_search_result` appends for the symbol
`ind` (lines 64-74), given the text `s` rendered so far; `first` tells whether
`ind` is at position `0`. -/
def render_token (vocabulary : List String) (first : Bool) (s : String) (ind : Int) :
    Except DecodeError String :=
  if ind < 0 ∨ vocabulary.length ≤ ind.toNat then Except.error DecodeError.undefined_behaviour
  else if (vocabulary.getD ind.toNat "").data.take 1 = ['#'] then
    if (vocabulary.getD ind.toNat "").data.length < 2 then Except.error DecodeError.out_of_range
    else Except.ok (s ++ String.mk ((vocabulary.getD ind.toNat "").data.drop 2))
  else
    Except.ok ((if first then s else s ++ " ")
      ++ (if vocabulary.getD ind.toNat "" ≠ "???" then vocabulary.getD ind.toNat "" else ""))

/-! ## Inputs used in the statements -/

/-- The dictionary of C7: the automaton built by `add_word_to_fst` for the
word with labels `1, 2` (the word `ab` over the vocabulary `["a","b"]`). -/
def lexicon_ab : StdVectorFst := add_word_to_fst [1, 2] StdVectorFst.empty

/-- A word-based scorer holding the dictionary `lexicon_ab`; its scores are all
`0.0`. -/
def scorer_ab : Scorer :=
  { is_character_based := false, beta := LogProb.zero, dictionary := lexicon_ab,
    cond_score := fun _ => LogProb.zero, sent_score := fun _ => LogProb.zero }

/-- The prefix `"a"` of C7: the child the root with the dictionary returns for
the symbol `a`. -/
def prefix_a : Option PathTrie :=
  ((init_root (some scorer_ab)).get_path_trie 0 (word_end ["a", "b"] 0)).bind
    (fun root => root.at? [0])

/-- The transcripts of a decoding result. -/
def transcripts (r : Except DecodeError (List (LogProb × String))) : Option (List String) :=
  match r with
  | Except.ok l => some (l.map Prod.snd)
  | Except.error _ => none

/-- A streaming decoder over the vocabulary `["a", "_"]` (blank last), beam
size 2, no symbol pruning, no scorer. -/
def decoder_a : BeamDecoder := BeamDecoder.new ["a", "_"] 2 1 40 none true

/-! ## Well-formed tries and live prefixes (used in the statements) -/

/-- Whether the pointer `p` points to a node of `t` whose `exists_` is true. -/
def PathTrie.isLive (t : PathTrie) (p : Path) : Bool :=
  match t.at? p with
  | some x => x.node.exists_
  | none => false

/-- The number of nodes of a child list, descendants included, whose `exists_`
is true. -/
def Children.liveCount : Children → Nat
  | Children.nil => 0
  | Children.cons _ second kids rest =>
    (if second.exists_ then 1 else 0) + kids.liveCount + rest.liveCount

/-- The number of live prefixes of a trie: the nodes whose `exists_` is true. -/
def PathTrie.liveCount (t : PathTrie) : Nat :=
  (if t.node.exists_ then 1 else 0) + t.children_.liveCount

/-- The pointers of the live nodes of a child list in depth-first pre-order;
`here` is the pointer of the owner of the list. -/
def Children.live_paths : Children → Path → List Path
  | Children.nil, _ => []
  | Children.cons first second kids rest, here =>
    (if second.exists_ then [here ++ [first]] else [])
      ++ kids.live_paths (here ++ [first]) ++ rest.live_paths here

/-- The pointers of the live nodes of a trie in depth-first pre-order. -/
def PathTrie.live_paths (t : PathTrie) (here : Path) : List Path :=
  (if t.node.exists_ then [here] else []) ++ t.children_.live_paths here

/-- The child list after the roll of `iterate_to_vec`. -/
def Children.rolled : Children → Children
  | Children.nil => Children.nil
  | Children.cons first second kids rest =>
    Children.cons first (if second.exists_ then second.roll else second) kids.rolled rest.rolled

/-- The trie after the roll of `iterate_to_vec`. -/
def PathTrie.rolled (t : PathTrie) : PathTrie :=
  ⟨if t.node.exists_ then t.node.roll else t.node, t.children_.rolled⟩

/-- A well-formed child list for a vocabulary of `V` symbols: every child is
stored under its own `character`, which is a symbol index below `V`, and no two
children of a node have the same symbol. -/
def Children.WF (V : Nat) : Children → Prop
  | Children.nil => True
  | Children.cons first second kids rest =>
    second.character = first ∧ 0 ≤ first ∧ first < (V : Int) ∧ rest.find? first = none
      ∧ kids.WF V ∧ rest.WF V

/-- A well-formed trie: its root carries `ROOT_` and its child lists are
well formed. -/
def PathTrie.WF (V : Nat) (t : PathTrie) : Prop :=
  t.node.character = ROOT_ ∧ t.children_.WF V

/-- The state kept by the loops: a well-formed trie with a live node. -/
def StateOK (V : Nat) (root : PathTrie) : Prop :=
  root.WF V ∧ ∃ q, root.isLive q = true

/-- The data members of the node a pointer points to, if there is one. -/
def PathTrie.node? (t : PathTrie) (p : Path) : Option Node :=
  (t.at? p).map (fun x => x.node)

/-- The trie `t'` holds only nodes of `t`, each with the data members it has
in `t`, except that `exists_` may have been cleared. -/
def PathTrie.Shrinks (t t' : PathTrie) : Prop :=
  ∀ q, t'.node? q = none ∨ ∃ n, t.node? q = some n
    ∧ (t'.node? q = some n ∨ t'.node? q = some { n with exists_ := false })

/-- The write `exists_ = false` of `remove`. -/
def tombstone (t : PathTrie) : PathTrie := { t with node := { t.node with exists_ := false } }

/-- The invariant of the beam between two frames, for a vocabulary of `V`
symbols and the beam size `K`: the trie is well formed and the first `K` entries
of `prefixes` are, without repetition, the pointers of its live nodes, of which
there is at least one. -/
def BeamInv (V K : Nat) (st : PathTrie × List Path) : Prop :=
  st.1.WF V ∧ (st.2.take K).Nodup ∧ (∀ q, q ∈ st.2.take K ↔ st.1.isLive q = true)
    ∧ st.2.take K ≠ []

/-- Every token that begins with `#` has at least two characters. -/
def TokensOK (vocabulary : List String) : Prop :=
  ∀ tok ∈ vocabulary, tok.data.take 1 = ['#'] → 2 ≤ tok.data.length

instance (vocabulary : List String) : Decidable (TokensOK vocabulary) := by
  unfold TokensOK
  infer_instance

/-- What the writes after the last frame keep: the shape of the trie, its
well-formedness and the liveness of every node. -/
def SameShape (V : Nat) (t t' : PathTrie) : Prop :=
  (t.WF V → t'.WF V) ∧ (∀ q, t'.isLive q = t.isLive q)
    ∧ (∀ q, (t'.node? q).isSome = (t.node? q).isSome)

/-- The states of a streaming decoder that can be reached from its constructor
by `decode` and `reset` calls. -/
inductive BeamDecoder.Reachable : BeamDecoder → Prop where
  | new (vocabulary : List String) (beam_size : Nat) (cutoff_prob : ℚ) (cutoff_top_n : Nat)
      (ext_scorer : Option Scorer) (reset_default : Bool) :
      BeamDecoder.Reachable
        (BeamDecoder.new vocabulary beam_size cutoff_prob cutoff_top_n ext_scorer reset_default)
  | decode (d : BeamDecoder) (probs_seq : List (List ℚ)) :
      BeamDecoder.Reachable d → BeamDecoder.Reachable (d.decode probs_seq).1
  | reset (d : BeamDecoder) (keep_offset keep_words : Bool) :
      BeamDecoder.Reachable d → BeamDecoder.Reachable (d.reset keep_offset keep_words)

/-- The invariant of a streaming decoder. -/
def BeamDecoder.Inv (d : BeamDecoder) : Prop :=
  BeamInv d.vocabulary.length d.beam_size (d.root, d.prefixes)
    ∧ (d.ext_scorer = none ∨ d.blank_id < d.vocabulary.length)

/-- The best transcript of a decoding result. -/
def top1 (r : Except DecodeError (List (LogProb × String))) : Option String :=
  (transcripts r).bind List.head?

/-- Whether, in the loop over time run with the step `step`, the number of
prefixes stays below `K0` after every frame. -/
def beam_never_full
    (step : Nat → List ℚ → PathTrie × List Path → Except DecodeError (PathTrie × List Path))
    (K0 : Nat) : List (List ℚ) → Nat → PathTrie × List Path → Bool
  | [], _, _ => true
  | prob :: rest, t, st =>
    match step t prob st with
    | Except.error _ => false
    | Except.ok st1 => decide (st1.2.length < K0) && beam_never_full step K0 rest (t + 1) st1

/-- The node `get_path_trie(new_char, reset)` creates below an object with the
data members `n` when no child is labelled `new_char` (lines 53-77 of
`path_trie.cpp`); `none` when the lexicon has no such arc. -/
def new_child? (n : Node) (new_char : Int) (reset : Bool) : Option PathTrie :=
  if n.has_dictionary_ then
    match n.dictionary_, n.matcher_ with
    | some dictionary, some matcher =>
      match matcher.Find (if reset then dictionary.Start else n.dictionary_state_)
          (new_char + 1) with
      | none => none
      | some arc =>
        some ⟨{ PathTrie.new.node with character := new_char,
                                       dictionary_ := n.dictionary_,
                                       dictionary_state_ := arc.nextstate,
                                       has_dictionary_ := true,
                                       matcher_ := n.matcher_ }, Children.nil⟩
    | _, _ => none
  else some ⟨{ PathTrie.new.node with character := new_char }, Children.nil⟩

/-- The data members of a node with `offset` set to zero. -/
def Node.no_offset (n : Node) : Node := { n with offset := 0 }

/-- A child list with every `offset` set to zero. -/
def Children.no_offsets : Children → Children
  | Children.nil => Children.nil
  | Children.cons first second kids rest =>
    Children.cons first second.no_offset kids.no_offsets rest.no_offsets

/-- A trie with every `offset` set to zero: what the trie holds apart from the
time stamps. -/
def PathTrie.no_offsets (t : PathTrie) : PathTrie := ⟨t.node.no_offset, t.children_.no_offsets⟩

/-- A state of the loop over time apart from the time stamps. -/
def no_offsets (st : PathTrie × List Path) : PathTrie × List Path := (st.1.no_offsets, st.2)

/-- What the loop body for the symbol `c` writes to the data members of the
object it is applied to: the blank block (one-shot lines 89-92) or the
repeated-character block (lines 93-97). -/
def self_node (blank_id c : Nat) (log_prob_c : LogProb) (n : Node) : Node :=
  if c = blank_id then
    { n with log_prob_b_cur := log_sum_exp n.log_prob_b_cur (log_prob_c + n.score) }
  else if (c : Int) = n.character then
    { n with log_prob_nb_cur :=
        log_sum_exp n.log_prob_nb_cur (log_prob_c + n.log_prob_nb_prev) }
  else n

/-- The data members of the child `get_path_trie(c)` returns on a node without
dictionary, from the data members `o` of the child labelled `c` before the call
(`none` when there is no such child). -/
def child_node (c : Int) (o : Option Node) : Node :=
  match o with
  | some n => if n.exists_ = false then (PathTrie.revive ⟨n, Children.nil⟩).node else n
  | none => { PathTrie.new.node with character := c }

/-- The writes of the loop body to the data members of `prefix_new`. -/
def write_node (offset : Option Nat) (log_p : LogProb) (n : Node) : Node :=
  (write_new offset log_p ⟨n, Children.nil⟩).node

/-- What the loop body for the symbol `x`, applied through the pointer `p`,
makes of the data members `o` of the node with pointer `q`; `v` is the value of
`log_p` the body adds to `prefix_new`. -/
def op_node (blank_id : Nat) (offset : Option Nat) (x : Nat × LogProb) (p q : Path)
    (v : LogProb) (o : Option Node) : Option Node :=
  if q = p then o.map (self_node blank_id x.1 x.2)
  else if x.1 ≠ blank_id ∧ q = p ++ [(x.1 : Int)] then
    some (write_node offset v (child_node x.1 o))
  else o

/-- No node of the trie has a dictionary. -/
def NoDict (t : PathTrie) : Prop := ∀ q n, t.node? q = some n → n.has_dictionary_ = false

/-- What the loop over a beam `beam` for the symbol `x` makes of the data
members `o` of the node with pointer `q`: the write of the loop body applied to
its parent (when the parent is in the beam and `q` is the parent's child for
`x`), and the write of the loop body applied to the node itself (when it is in
the beam); `v` is the value of `log_p` the parent's loop body adds. -/
def pass_node (blank_id : Nat) (offset : Option Nat) (x : Nat × LogProb) (beam : List Path)
    (q : Path) (v : LogProb) (o : Option Node) : Option Node :=
  if x.1 ≠ blank_id ∧ q = q.dropLast ++ [(x.1 : Int)] ∧ q.dropLast ∈ beam then
    some (write_node offset v
      (child_node x.1 (if q ∈ beam then o.map (self_node blank_id x.1 x.2) else o)))
  else if q ∈ beam then o.map (self_node blank_id x.1 x.2) else o

/-- The log-probability of the symbol `c` in a frame. -/
def symbol_log_prob (A B S : LogProb) (c : Nat) : LogProb :=
  if c = 0 then A else if c = 1 then B else S

/-- The trie after the loops of one frame of the one-shot decoder without
scorer, for the vocabulary `["a", "b", " "]` and the symbols `symbols` of the
frame, in the order the pruning left them in. -/
def expand_frame (t : PathTrie) (beam : List Path) (symbols : List (Nat × LogProb)) :
    PathTrie :=
  expand_symbols (fun _ _ => false) (body_one_shot none ["a", "b", " "]) beam symbols t

/-- The data members of a live node after the roll of `iterate_to_vec`: its
symbol `ch`, and `b` and `nb` for the probabilities behind `log_prob_b_prev` and
`log_prob_nb_prev`. -/
def Rolled (n : Node) (ch : Int) (b nb : ℚ) : Prop :=
  n.character = ch ∧ n.exists_ = true ∧ n.log_prob_b_prev.exp = b
    ∧ n.log_prob_nb_prev.exp = nb ∧ n.score.exp = b + nb
    ∧ n.log_prob_b_cur = NEG_NUM_FLT_INF ∧ n.log_prob_nb_cur = NEG_NUM_FLT_INF

/-- Modelled from the spec: the call `pool.enqueue(f, args...)` of the worker
pool of `ThreadPool.h`, read through `get()` on the future it returns.  "Each
task owns its own trie and beam state", so the future holds what the call
`f(args...)` returns or throws, whatever the number of workers and the
schedule. -/
def ThreadPool.enqueue {α : Type} (task : Unit → Except DecodeError α) : Except DecodeError α :=
  task ()

/-- The first loop of `ctc_beam_search_decoder_batch` (lines 453-461): one
task per utterance, its future put at the end of `res`. -/
def enqueue_loop (vocabulary : List String) (beam_size : Nat) (cutoff_prob : ℚ)
    (cutoff_top_n : Nat) (ext_scorer : Option Scorer) :
    List (List (List ℚ)) → List (Except DecodeError (List (LogProb × String)))
      → List (Except DecodeError (List (LogProb × String)))
  | [], res => res
  | probs_seq :: rest, res =>
    enqueue_loop vocabulary beam_size cutoff_prob cutoff_top_n ext_scorer rest
      (res ++ [ThreadPool.enqueue (fun _ =>
        ctc_beam_search_decoder probs_seq vocabulary beam_size cutoff_prob cutoff_top_n
          ext_scorer)])

/-- The second loop of `ctc_beam_search_decoder_batch` (lines 465-467):
`res[i].get()` returns the result of the task or rethrows what the task threw. -/
def get_loop {α : Type} : List (Except DecodeError α) → List α → Except DecodeError (List α)
  | [], batch_results => Except.ok batch_results
  | future :: rest, batch_results =>
    match future with
    | Except.error e => Except.error e
    | Except.ok r => get_loop rest (batch_results ++ [r])

/-- The function `ctc_beam_search_decoder_batch`.  The header macro
`VALID_CHECK_GT(num_processes, 0, ...)` is modelled from the spec: the call
"fails fast (validation error) if `W == 0`". -/
def ctc_beam_search_decoder_batch (probs_split : List (List (List ℚ)))
    (vocabulary : List String) (beam_size num_processes : Nat) (cutoff_prob : ℚ)
    (cutoff_top_n : Nat) (ext_scorer : Option Scorer) :
    Except DecodeError (List (List (LogProb × String))) :=
  if ¬ num_processes > 0 then Except.error DecodeError.check_failed
  else
    get_loop
      (enqueue_loop vocabulary beam_size cutoff_prob cutoff_top_n ext_scorer probs_split []) []

/-- The `float` that `get_pruned_log_probs` pairs with a symbol of probability
`p` (line 35). -/
def stored_log_prob (p : ℚ) : LogProb := (log (to_double (p + NUM_FLT_MIN))).narrow

/-- In the words of the amended claim on repeat collapse: the log-probability
stored for a symbol of probability `a` is above the one stored for a symbol of
probability `x` by `log 1.001` at least. -/
def clearly_above (a x : ℚ) : Prop :=
  (stored_log_prob x).exp * (1001 / 1000) ≤ (stored_log_prob a).exp

instance (a x : ℚ) : Decidable (clearly_above a x) := by
  unfold clearly_above
  infer_instance

/-- The numbers of `l` added one by one to the running sum `cum` in `double`
arithmetic: every partial sum is rounded to `double`, as `cum_prob += p` does. -/
def double_sum (cum : ℚ) (l : List ℚ) : ℚ := l.foldl (fun cum p => to_double (cum + p)) cum

/-- In the words of the amended claim on the cumulative cut-off: the entries
are put in non-increasing order and the first `n` are added up, from the
largest down, in `double` arithmetic. -/
def double_sum_of_largest (prob : List ℚ) (n : Nat) : ℚ :=
  double_sum 0 ((prob.insertionSort (fun a b => b ≤ a)).take n)

/-- Whether the call returns a best hypothesis whose probability (the
exponential of its score) lies strictly between `lo` and `hi`. -/
def top1_prob_between (r : Except DecodeError (List (LogProb × String))) (lo hi : ℚ) : Bool :=
  match r with
  | Except.ok ((s, _) :: _) => decide (lo < s.exp ∧ s.exp < hi)
  | _ => false

/-- Whether, in the trie `E` after the roll of `iterate_to_vec`, the prefix `m`
is live and has a score above the score of every other live prefix. -/
def leads (E : PathTrie) (m : Path) : Bool :=
  match E.rolled.node? m with
  | some n =>
    n.exists_ && (E.live_paths []).all (fun q =>
      decide (q = m) ||
        match E.rolled.node? q with
        | some n' => decide (n'.score.exp < n.score.exp)
        | none => false)
  | none => false

/-- Whether the loop over time has returned fewer than `K0` prefixes and the
prefix `m` leads after the loops of one more frame, of symbols `X`, over the
vocabulary `["a", "b", " "]`. -/
def leads_after (r : Except DecodeError (PathTrie × List Path)) (K0 : Nat)
    (X : List (Nat × LogProb)) (m : Path) : Bool :=
  match r with
  | Except.ok st => decide (st.2.length < K0) && leads (expand_frame st.1 st.2 X) m
  | Except.error _ => false

/-- The sum of the `n` largest entries of a probability vector, in the words
of the claim on the cumulative cut-off: the entries are put in non-increasing
order and the first `n` are added up. -/
def sum_of_largest (prob : List ℚ) (n : Nat) : ℚ :=
  ((prob.insertionSort (fun a b => b ≤ a)).take n).sum

/-- A live node with the given score and symbol, every other data member as
the constructor `PathTrie()` leaves it. -/
def node_with (score : LogProb) (character : Int) : Node :=
  { PathTrie.new.node with score := score, character := character }

/-- The test `(c & 0xc0) != 0x80` of the UTF-8 helpers on the byte `c`: the
byte is not a continuation byte `10xxxxxx`.  A `char` is the number of its bit
pattern, `0` to `255`. -/
def is_lead_byte (c : Nat) : Bool := decide (c &&& 0xc0 ≠ 0x80)

/-- The function `get_utf8_str_len` of `decoder_utils.cpp`; a byte string is
the list of its bytes. -/
def get_utf8_str_len (str : List Nat) : Nat :=
  str.foldl (fun str_len c => str_len + (if is_lead_byte c then 1 else 0)) 0

/-- The loop of `split_utf8_str` (lines 115-125) on the bytes still to read,
from the current `result` and `out_str`. -/
def split_utf8_loop : List Nat → List (List Nat) × List Nat → List (List Nat) × List Nat
  | [], st => st
  | c :: rest, (result, out_str) =>
    if is_lead_byte c ∧ out_str ≠ [] then split_utf8_loop rest (result ++ [out_str], [c])
    else split_utf8_loop rest (result, out_str ++ [c])

/-- The function `split_utf8_str` of `decoder_utils.cpp`: after the loop,
`out_str` is pushed whatever it holds. -/
def split_utf8_str (str : List Nat) : List (List Nat) :=
  (split_utf8_loop str ([], [])).1 ++ [(split_utf8_loop str ([], [])).2]

/-- The pairs `(first, second)` of a child list in their order, every `second`
with its own child list. -/
def Children.toList : Children → List (Int × PathTrie)
  | Children.nil => []
  | Children.cons first second kids rest => (first, ⟨second, kids⟩) :: rest.toList

/-- The score of the best returned hypothesis. -/
def top1_score (r : Except DecodeError (List (LogProb × String))) : Option LogProb :=
  match r with
  | Except.ok l => l.head?.map Prod.fst
  | Except.error _ => none

/-- Whether both calls return a best hypothesis and the score of the first
is strictly below the score of the second. -/
def top1_score_lt (r r' : Except DecodeError (List (LogProb × String))) : Bool :=
  match top1_score r, top1_score r' with
  | some s, some s' => decide (s < s')
  | _, _ => false

/-- The probabilities a node gathers during a frame (`log_prob_b_cur`,
`log_prob_nb_cur`) are, in `n`, at most those in `m`. -/
def NodeCurLe (n m : Node) : Prop :=
  n.log_prob_b_cur.exp ≤ m.log_prob_b_cur.exp ∧ n.log_prob_nb_cur.exp ≤ m.log_prob_nb_cur.exp

/-- The probabilities a node carries from the frame before
(`log_prob_b_prev`, `log_prob_nb_prev`, `score`) are, in `n`, at most those in
`m`, and both nodes carry the same symbol. -/
def NodePrevLe (n m : Node) : Prop :=
  n.character = m.character ∧ n.log_prob_b_prev.exp ≤ m.log_prob_b_prev.exp
    ∧ n.log_prob_nb_prev.exp ≤ m.log_prob_nb_prev.exp ∧ n.score.exp ≤ m.score.exp

/-- The five probabilities of a node are non-negative (no logarithm is below
minus infinity). -/
def NodeNonneg (m : Node) : Prop :=
  0 ≤ m.log_prob_b_prev.exp ∧ 0 ≤ m.log_prob_nb_prev.exp ∧ 0 ≤ m.score.exp
    ∧ 0 ≤ m.log_prob_b_cur.exp ∧ 0 ≤ m.log_prob_nb_cur.exp

/-- The comparison, at one pointer and during a frame, of a run with a pruned
beam (data members `oK`) with a run whose beam is never full (data members
`oF`); `inK` tells whether the pointer is in the beam of the first run.  A live
node of the first run is a node of the second with at least its probabilities;
every node of the second run is live, with non-negative probabilities. -/
def FrameLe (inK : Prop) (oK oF : Option Node) : Prop :=
  (∀ n, oK = some n → n.exists_ = true →
      ∃ m, oF = some m ∧ NodeCurLe n m ∧ (inK → NodePrevLe n m))
    ∧ (∀ m, oF = some m → m.exists_ = true ∧ NodeNonneg m)
    ∧ (inK → ∃ n, oK = some n ∧ n.exists_ = true)

/-- The comparison of two runs between two frames: every live node of the
trie `s` (a run with a pruned beam) is a node of the trie `f` (a run that never
prunes), with the same symbol and at most its probabilities; every node of `f`
is live, with non-negative probabilities. -/
def Dominates (s f : PathTrie) : Prop :=
  (∀ q n, s.node? q = some n → n.exists_ = true →
      ∃ m, f.node? q = some m ∧ NodePrevLe n m ∧ NodeCurLe n m)
    ∧ (∀ q m, f.node? q = some m → m.exists_ = true ∧ NodeNonneg m)

/-- The comparison of two runs of the one-shot decoder between two frames, for
a vocabulary of `V` symbols: the first run has the beam size `K`, the second the
beam size `K'`; both keep the invariant of the beam, no node has a dictionary,
and the trie of the second run bounds the trie of the first. -/
def RunLe (V K K' : Nat) (stK stF : PathTrie × List Path) : Prop :=
  BeamInv V K stK ∧ BeamInv V K' stF ∧ NoDict stK.1 ∧ NoDict stF.1 ∧ Dominates stK.1 stF.1

/-- In the words of the claim on `iterate_to_vec`: the nodes of a child list,
each with its pointer, in depth-first pre-order following the order of the list
(a child comes before its descendants, which come before the next child),
tombstoned nodes included; `here` is the pointer of the owner of the list. -/
def Children.preorder : Children → Path → List (Path × Node)
  | Children.nil, _ => []
  | Children.cons first second kids rest, here =>
    (here ++ [first], second) :: (kids.preorder (here ++ [first]) ++ rest.preorder here)

/-- In the words of the claim on `iterate_to_vec`: the nodes of a trie, each
with its pointer, in depth-first pre-order following child-list order,
tombstoned nodes included. -/
def PathTrie.preorder (t : PathTrie) (here : Path) : List (Path × Node) :=
  (here, t.node) :: t.children_.preorder here

/-- A trie with a tombstoned node: the root is live; its only child, for the
symbol `0`, is tombstoned and has one live child, for the symbol `1`. -/
def trie_with_tombstone : PathTrie :=
  ⟨(init_root none).node,
    Children.cons 0 { node_with NEG_NUM_FLT_INF 0 with exists_ := false }
      (Children.cons 1 (node_with LogProb.zero 1) Children.nil Children.nil) Children.nil⟩

/-- A trie at the end of a frame, before the roll: the root has gathered the
probability `0.2`, its children for the symbols `0` and `1` the probabilities
`0.5` and `0.3`; all three nodes are live. -/
def trie_three_live : PathTrie :=
  ⟨{ (init_root none).node with log_prob_b_cur := log (1/5) },
    Children.cons 0 { node_with NEG_NUM_FLT_INF 0 with log_prob_nb_cur := log (1/2) } Children.nil
      (Children.cons 1 { node_with NEG_NUM_FLT_INF 1 with log_prob_nb_cur := log (3/10) }
        Children.nil Children.nil)⟩

/-- In the words of the claim on the pruning step: no tombstoned node of the
trie is a leaf, that is, every node whose `exists_` is false has at least one
child. -/
def NoTombstonedLeaf (t : PathTrie) : Prop :=
  ∀ q x, t.at? q = some x → x.node.exists_ = false → x.children_.size ≠ 0

/-- The `std::string` with the given bytes: one character per byte, the
character whose code is the value of the byte. -/
def std_string (bytes : List Nat) : String := String.mk (bytes.map Char.ofNat)

/-- The string holds bytes: every character has a code below 256. -/
def is_byte_string (s : String) : Prop := ∀ ch ∈ s.data, ch.toNat < 256

instance (s : String) : Decidable (is_byte_string s) := by
  unfold is_byte_string
  infer_instance

/-- In the words of the amended claim on the lexicon: every node of the trie
carries the dictionary `lexicon_ab` and its matcher, and every pointer into the
trie consists of the symbol `0` (the token `a`) only. -/
def OnlyA (t : PathTrie) : Prop :=
  ∀ q x, t.at? q = some x →
    (∀ c ∈ q, c = 0) ∧ x.node.has_dictionary_ = true ∧ x.node.dictionary_ = some lexicon_ab
      ∧ x.node.matcher_ = some lexicon_ab

/-! ## Theorems -/

/-! ### Rounding keeps a logarithm finite -/

theorem log2_width_spec : ∀ (bound k n : Nat), n < 2 ^ 2 ^ (k + bound) →
    n < 2 ^ 2 ^ log2_width bound k n := by
  intro bound
  induction bound with
  | zero => intro k n h; simpa [log2_width] using h
  | succ b ih =>
    intro k n h
    unfold log2_width
    by_cases hc : n < 2 ^ 2 ^ k
    · rw [if_pos hc]; exact hc
    · rw [if_neg hc]
      apply ih
      have e : k + 1 + b = k + (b + 1) := by omega
      rw [e]; exact h

theorem log2_search_spec : ∀ (k n acc : Nat), 1 ≤ n → n < 2 ^ 2 ^ k →
    ∃ r, log2_search k n acc = acc + r ∧ 2 ^ r ≤ n ∧ n < 2 ^ (r + 1) := by
  intro k
  induction k with
  | zero =>
    intro n acc h1 h2
    refine ⟨0, by simp [log2_search], ?_, ?_⟩
    · simpa using h1
    · simpa using h2
  | succ k ih =>
    intro n acc h1 h2
    have hP : 0 < 2 ^ 2 ^ k := by positivity
    have hPP : 2 ^ 2 ^ (k + 1) = 2 ^ 2 ^ k * 2 ^ 2 ^ k := by
      rw [pow_succ, pow_mul, pow_two]
    rw [hPP] at h2
    unfold log2_search
    by_cases hc : 2 ^ 2 ^ k ≤ n
    · rw [if_pos hc]
      obtain ⟨r, e, lo, hi⟩ := ih (n / 2 ^ 2 ^ k) (acc + 2 ^ k) (Nat.div_pos hc hP)
        (Nat.div_lt_of_lt_mul h2)
      refine ⟨2 ^ k + r, by rw [e]; ring, ?_, ?_⟩
      · rw [pow_add]
        calc 2 ^ 2 ^ k * 2 ^ r ≤ 2 ^ 2 ^ k * (n / 2 ^ 2 ^ k) := Nat.mul_le_mul_left _ lo
          _ ≤ n := Nat.mul_div_le n _
      · have e2 : 2 ^ (2 ^ k + r + 1) = 2 ^ 2 ^ k * 2 ^ (r + 1) := by
          rw [add_assoc, pow_add]
        rw [e2]
        calc n < 2 ^ 2 ^ k * (n / 2 ^ 2 ^ k + 1) := Nat.lt_mul_div_succ n hP
          _ ≤ 2 ^ 2 ^ k * 2 ^ (r + 1) := Nat.mul_le_mul_left _ hi
    · rw [if_neg hc]
      exact ih n acc h1 (not_le.1 hc)

theorem log2_spec (n : Nat) (h : 1 ≤ n) : 2 ^ log2 n ≤ n ∧ n < 2 ^ (log2 n + 1) := by
  have hw : n < 2 ^ 2 ^ log2_width n 7 n := by
    apply log2_width_spec
    calc n < 2 ^ n := Nat.lt_two_pow n
      _ ≤ 2 ^ 2 ^ (7 + n) := by
        apply Nat.pow_le_pow_right (by norm_num)
        exact le_trans (le_of_lt (Nat.lt_two_pow n))
          (Nat.pow_le_pow_right (by norm_num) (by omega))
  obtain ⟨r, e, lo, hi⟩ := log2_search_spec (log2_width n 7 n) n 0 h hw
  unfold log2
  rw [e, Nat.zero_add]
  exact ⟨lo, hi⟩

/-- The numerator and the denominator to which rounding at `2 ^ s` applies
have the quotient `x / 2 ^ s`. -/
theorem scaled_eq (x : ℚ) (hx : 0 < x) (s : Int) :
    ((x.num.natAbs * 2 ^ (-s).toNat : Nat) : ℚ) / ((x.den * 2 ^ s.toNat : Nat) : ℚ)
      = x / (2 : ℚ) ^ s := by
  have hnum : 0 < x.num := Rat.num_pos.2 hx
  have hN : ((x.num.natAbs : Nat) : ℚ) = (x.num : ℚ) := by
    have h1 : ((x.num.natAbs : Nat) : Int) = x.num := Int.natAbs_of_nonneg (le_of_lt hnum)
    have h2 : (((x.num.natAbs : Nat) : Int) : ℚ) = (x.num : ℚ) := by rw [h1]
    rw [← h2]
    exact (Int.cast_natCast _).symm
  have hxeq : (x.num.natAbs : ℚ) / (x.den : ℚ) = x := by
    rw [hN]
    exact Rat.num_div_den x
  have hD : (0 : ℚ) < (x.den : ℚ) := by exact_mod_cast x.den_pos
  push_cast
  generalize ((x.num.natAbs : Nat) : ℚ) = N at hxeq
  generalize ((x.den : Nat) : ℚ) = D at hxeq hD
  rw [← hxeq]
  by_cases h : 0 ≤ s
  · have e1 : (-s).toNat = 0 := by omega
    have e2 : s = ((s.toNat : Nat) : Int) := (Int.toNat_of_nonneg h).symm
    rw [e1]
    conv_rhs => rw [e2, zpow_natCast]
    rw [pow_zero, mul_one, div_div]
  · have h' : 0 ≤ -s := by omega
    have e1 : s.toNat = 0 := by omega
    have e2 : s = -(((-s).toNat : Nat) : Int) := by rw [Int.toNat_of_nonneg h']; ring
    rw [e1]
    conv_rhs => rw [e2, zpow_neg, zpow_natCast]
    rw [pow_zero, mul_one, div_inv_eq_mul]
    ring

theorem scaled_pos (x : ℚ) (s : Int) : 0 < x.den * 2 ^ s.toNat :=
  Nat.mul_pos x.den_pos (by positivity)

/-- The binary exponent of a positive rational brackets it. -/
theorem binade_spec (x : ℚ) (hx : 0 < x) :
    (2 : ℚ) ^ binade x ≤ x ∧ x < (2 : ℚ) ^ (binade x + 1) := by
  have hnum : 0 < x.num := Rat.num_pos.2 hx
  have hden : 0 < x.den := x.den_pos
  have hn1 : 1 ≤ x.num.natAbs := by omega
  obtain ⟨a1, a2⟩ := log2_spec x.num.natAbs hn1
  obtain ⟨b1, b2⟩ := log2_spec x.den hden
  have hcond : ∀ s : Int, (x.num.natAbs * 2 ^ (-s).toNat < x.den * 2 ^ s.toNat) ↔
      x < (2 : ℚ) ^ s := by
    intro s
    have hq := scaled_eq x hx s
    have hp : (0 : ℚ) < ((x.den * 2 ^ s.toNat : Nat) : ℚ) := by exact_mod_cast scaled_pos x s
    have h2 : (0 : ℚ) < (2 : ℚ) ^ s := by positivity
    rw [← Nat.cast_lt (α := ℚ), ← div_lt_one hp, hq, div_lt_one h2]
  generalize ha : log2 x.num.natAbs = a at a1 a2
  generalize hb : log2 x.den = b at b1 b2
  have hN : ((x.num.natAbs : Nat) : ℚ) = (x.num : ℚ) := by
    have h1 : ((x.num.natAbs : Nat) : Int) = x.num := Int.natAbs_of_nonneg (le_of_lt hnum)
    have h2 : (((x.num.natAbs : Nat) : Int) : ℚ) = (x.num : ℚ) := by rw [h1]
    rw [← h2]
    exact (Int.cast_natCast _).symm
  have hxeq : (x.num.natAbs : ℚ) / (x.den : ℚ) = x := by
    rw [hN]
    exact Rat.num_div_den x
  have a1' : (2 : ℚ) ^ a ≤ ((x.num.natAbs : Nat) : ℚ) := by exact_mod_cast a1
  have a2' : ((x.num.natAbs : Nat) : ℚ) < (2 : ℚ) ^ (a + 1) := by exact_mod_cast a2
  have b1' : (2 : ℚ) ^ b ≤ ((x.den : Nat) : ℚ) := by exact_mod_cast b1
  have b2' : ((x.den : Nat) : ℚ) < (2 : ℚ) ^ (b + 1) := by exact_mod_cast b2
  generalize ((x.num.natAbs : Nat) : ℚ) = N at hxeq a1' a2'
  generalize ((x.den : Nat) : ℚ) = D at hxeq b1' b2'
  have hdq : (0 : ℚ) < D := lt_of_lt_of_le (by positivity) b1'
  have hNq : (0 : ℚ) < N := lt_of_lt_of_le (by positivity) a1'
  have lo : (2 : ℚ) ^ (((a : Int) - (b : Int)) - 1) ≤ x := by
    rw [← hxeq, zpow_sub₀ (by norm_num), zpow_sub₀ (by norm_num), zpow_natCast, zpow_natCast,
      zpow_one, div_div, div_le_div_iff₀ (by positivity) hdq]
    have h2 : D ≤ (2 : ℚ) ^ b * 2 := by
      rw [← pow_succ]; exact le_of_lt b2'
    exact mul_le_mul a1' h2 (le_of_lt hdq) (le_of_lt hNq)
  have hi : x < (2 : ℚ) ^ (((a : Int) - (b : Int)) + 1) := by
    rw [← hxeq, zpow_add₀ (by norm_num), zpow_sub₀ (by norm_num), zpow_natCast, zpow_natCast,
      zpow_one, div_mul_eq_mul_div, div_lt_div_iff₀ hdq (by positivity)]
    have h2 : N < (2 : ℚ) ^ a * 2 := by
      rw [← pow_succ]; exact a2'
    have h3 : N * (2 : ℚ) ^ b < (2 : ℚ) ^ a * 2 * (2 : ℚ) ^ b :=
      mul_lt_mul_of_pos_right h2 (by positivity)
    have h4 : (2 : ℚ) ^ a * 2 * (2 : ℚ) ^ b ≤ (2 : ℚ) ^ a * 2 * D :=
      mul_le_mul_of_nonneg_left b1' (by positivity)
    exact lt_of_lt_of_le h3 h4
  unfold binade
  simp only [ha, hb, hcond]
  split_ifs with h
  · refine ⟨lo, ?_⟩
    simpa using h
  · exact ⟨not_lt.1 h, hi⟩

theorem round_half_even_ge (n d : Nat) : n / d ≤ round_half_even n d := by
  unfold round_half_even
  split_ifs <;> omega

/-- A positive number that is at least `2 ^ s` does not round to zero at
`2 ^ s`. -/
theorem round_at_pos (s : Int) (x : ℚ) (hx : 0 < x) (hs : (2 : ℚ) ^ s ≤ x) :
    0 < round_at s x := by
  have hnum : 0 < x.num := Rat.num_pos.2 hx
  have hd := scaled_pos x s
  have hq := scaled_eq x hx s
  have h1 : x.den * 2 ^ s.toNat ≤ x.num.natAbs * 2 ^ (-s).toNat := by
    have hp : (0 : ℚ) < ((x.den * 2 ^ s.toNat : Nat) : ℚ) := by exact_mod_cast hd
    have h2 : (0 : ℚ) < (2 : ℚ) ^ s := by positivity
    rw [← Nat.cast_le (α := ℚ), ← one_le_div hp, hq, one_le_div h2]
    exact hs
  have h3 := round_half_even_ge (x.num.natAbs * 2 ^ (-s).toNat) (x.den * 2 ^ s.toNat)
  have h4 : 1 ≤ x.num.natAbs * 2 ^ (-s).toNat / (x.den * 2 ^ s.toNat) :=
    (Nat.one_le_div_iff hd).2 h1
  have h5 : 0 < round_half_even (x.num.natAbs * 2 ^ (-s).toNat) (x.den * 2 ^ s.toNat)
      * 2 ^ s.toNat := Nat.mul_pos (by omega) (by positivity)
  unfold round_at
  rw [Int.sign_eq_one_of_pos hnum, one_mul, Rat.mkRat_eq_div]
  apply div_pos
  · exact_mod_cast h5
  · positivity

/-- A positive number whose last place is above the least exponent of the
format does not round to zero. -/
theorem round_to_pos (prec : Nat) (emin : Int) (x : ℚ) (hx : 0 < x) (hp : 1 ≤ prec)
    (he : emin ≤ binade x - ((prec : Int) - 1)) : 0 < round_to prec emin x := by
  unfold round_to
  rw [if_neg (ne_of_gt hx), max_eq_left he]
  apply round_at_pos _ _ hx
  refine le_trans ?_ (binade_spec x hx).1
  apply zpow_le_zpow_right₀ (by norm_num)
  omega

theorem NUM_FLT_MIN_eq : NUM_FLT_MIN = (2 : ℚ) ^ (-126 : Int) := by
  unfold NUM_FLT_MIN
  norm_num [zpow_neg]

theorem binade_ge_of_le (x : ℚ) (e : Int) (hx : (2 : ℚ) ^ e ≤ x) : e ≤ binade x := by
  have hx0 : 0 < x := lt_of_lt_of_le (by positivity) hx
  have h := (binade_spec x hx0).2
  have h2 : (2 : ℚ) ^ e < (2 : ℚ) ^ (binade x + 1) := lt_of_le_of_lt hx h
  have := (zpow_lt_zpow_iff_right₀ (by norm_num : (1 : ℚ) < 2)).1 h2
  omega

/-- The `double` sum `p + NUM_FLT_MIN` of a non-negative `p` is positive. -/
theorem to_double_floor_pos (p : ℚ) (hp : 0 ≤ p) : 0 < to_double (p + NUM_FLT_MIN) := by
  have h1 : (2 : ℚ) ^ (-126 : Int) ≤ p + NUM_FLT_MIN := by
    rw [NUM_FLT_MIN_eq]
    linarith
  have h2 := binade_ge_of_le _ _ h1
  unfold to_double
  apply round_to_pos 53 (-1074) _ (lt_of_lt_of_le (by positivity) h1) (by norm_num)
  push_cast
  omega

theorem exp_series_pos (r : Nat) : ∀ (n j : Nat), 0 < exp_series r n j := by
  intro n
  induction n with
  | zero => intro j; unfold exp_series FX; positivity
  | succ n ih =>
    intro j
    unfold exp_series
    have h0 : 0 < FX := by unfold FX; positivity
    exact Nat.lt_of_lt_of_le h0 (Nat.le_add_right _ _)

theorem exponential_pos (x : ℚ) : 0 < exponential x := by
  unfold exponential exp_reduced
  rw [Rat.mkRat_eq_div]
  have h0 : 0 < FX := by unfold FX; positivity
  apply div_pos
  · have := Nat.mul_pos (exp_series_pos
      (x.num * (FX : Int) / (x.den : Int)
        - x.num * (FX : Int) / ((x.den : Int) * (LN2 : Int)) * (LN2 : Int)).toNat 40 1)
      (by positivity : 0 < 2 ^ (x.num * (FX : Int) / ((x.den : Int) * (LN2 : Int))).toNat)
    exact_mod_cast this
  · have := Nat.mul_pos h0
      (by positivity : 0 < 2 ^ (-(x.num * (FX : Int) / ((x.den : Int) * (LN2 : Int)))).toNat)
    exact_mod_cast this

/-- The constant `LN2` is the value of the series. -/
theorem LN2_eq : LN2 = two_artanh 1 3 := by decide

/-- Narrowing keeps a finite log-probability finite. -/
theorem LogProb.narrow_pos (a : LogProb) (h : 0 < a.exp) : 0 < a.narrow.exp := by
  unfold LogProb.narrow
  rw [if_neg (not_le.2 h)]
  exact exponential_pos _

theorem LogProb.narrow_nonneg (a : LogProb) (h : 0 ≤ a.exp) : 0 ≤ a.narrow.exp := by
  unfold LogProb.narrow
  split_ifs
  · exact h
  · exact le_of_lt (exponential_pos _)

/-- The log-probability stored for a non-negative probability is finite. -/
theorem stored_log_prob_pos (p : ℚ) (hp : 0 ≤ p) : 0 < (stored_log_prob p).exp :=
  LogProb.narrow_pos _ (to_double_floor_pos p hp)

/-- The rounding functions on sample values, as a C program prints them: the
`double` nearest to `0.1`, the sum `0.1 + 0.1 + 0.1` in `double` arithmetic,
`log 2` and `exp 1` in `double`, the `float` of `log(p + NUM_FLT_MIN)` for
`p = 0.1`, `0.5`, `0.9`, `0` and `1`, a negative number, and ties at the last
place of a normal and of a subnormal `float`. -/
theorem rounding_samples :
    to_double (1/10) = 3602879701896397 / 2 ^ 55
      ∧ to_double (to_double (to_double (1/10) + to_double (1/10)) + to_double (1/10))
          = 5404319552844596 / 2 ^ 54
      ∧ to_double (ln 2) = 6243314768165359 / 2 ^ 53
      ∧ to_double (exponential 1) = 6121026514868073 / 2 ^ 51
      ∧ to_float (to_double (ln (to_double (1/10 + NUM_FLT_MIN)))) = -4828871 / 2 ^ 21
      ∧ to_float (to_double (ln (to_double (1/2 + NUM_FLT_MIN)))) = -1453635 / 2 ^ 21
      ∧ to_float (to_double (ln (to_double (9/10 + NUM_FLT_MIN)))) = -14141249 / 2 ^ 27
      ∧ to_float (to_double (ln (to_double (0 + NUM_FLT_MIN)))) = -715461 / 2 ^ 13
      ∧ to_float (to_double (ln (to_double (1 + NUM_FLT_MIN)))) = 0
      ∧ to_double (-1/3) = -6004799503160661 / 2 ^ 54
      ∧ to_float (2 ^ 30 + 2 ^ 6 + 1) = 2 ^ 30 + 2 ^ 7
      ∧ to_float (3 / 2 ^ 150) = 1 / 2 ^ 148
      ∧ to_float (5 / 2 ^ 150) = 1 / 2 ^ 148 := by
  decide!

theorem length_std_sort {α : Type} (comp : α → α → Bool) (l : List α) :
    (std_sort comp l).length = l.length :=
  List.length_insertionSort _ l

theorem cutoff_loop_le (cutoff_prob : ℚ) (cutoff_top_n : Nat) (l : List (Nat × ℚ)) :
    ∀ (cum : ℚ) (len : Nat), len < cutoff_top_n ∨ l = [] →
      len ≤ cutoff_top_n → cutoff_loop cutoff_prob cutoff_top_n l cum len ≤ cutoff_top_n := by
  induction l with
  | nil => intro cum len _ h; simpa [cutoff_loop] using h
  | cons x rest ih =>
    intro cum len h hle
    have hlt : len < cutoff_top_n := by
      rcases h with h | h
      · exact h
      · cases h
    unfold cutoff_loop
    split_ifs with hc
    · omega
    · have h1 : ¬ (len + 1 ≥ cutoff_top_n) := fun h => hc (Or.inr h)
      exact ih _ _ (Or.inl (by omega)) (by omega)

/-- Sibling path of C1: when `cutoff_prob < 1` the cap is applied, at most
`cutoff_top_n` pairs are returned. -/
theorem get_pruned_log_probs_length_le_of_lt_one (prob_step : List ℚ) (cutoff_prob : ℚ)
    (cutoff_top_n : Nat) (hp : cutoff_prob < 1) (hn : 1 ≤ cutoff_top_n) :
    (get_pruned_log_probs prob_step cutoff_prob cutoff_top_n).length ≤ cutoff_top_n := by
  simp only [get_pruned_log_probs, pruned_prob_idx, hp, true_or, if_true, List.length_map,
    List.length_take]
  have := cutoff_loop_le cutoff_prob cutoff_top_n
    (std_sort pair_comp_second_rev prob_step.enum) 0 0 (Or.inl (by omega)) (by omega)
  omega

/-- C1 (failing input): with `cutoff_prob = 1.0` and `cutoff_top_n = 1` the
four-symbol frame `[0.4, 0.3, 0.2, 0.1]` is sorted but not truncated:
`get_pruned_log_probs` returns four pairs, more than `cutoff_top_n`. -/
theorem get_pruned_log_probs_top_n_not_applied :
    (get_pruned_log_probs [4/10, 3/10, 2/10, 1/10] 1 1).length = 4
      ∧ (get_pruned_log_probs [4/10, 3/10, 2/10, 1/10] 1 1).map Prod.fst = [0, 1, 2, 3] := by
  decide!

/-! ### Rendering (C4) -/

theorem render_loop_snoc (vocabulary : List String) (output : List Int) (ind : Int) :
    ∀ (i : Nat) (acc : String),
      render_loop vocabulary (output ++ [ind]) i acc =
        match render_loop vocabulary output i acc with
        | Except.error e => Except.error e
        | Except.ok s => render_token vocabulary (decide (i + output.length = 0)) s ind := by
  induction output with
  | nil =>
    intro i acc
    simp only [List.nil_append, render_loop, render_token, List.length_nil, Nat.add_zero]
    by_cases h1 : ind < 0 ∨ vocabulary.length ≤ ind.toNat
    · simp [h1]
    · by_cases h2 : (vocabulary.getD ind.toNat "").data.take 1 = ['#']
      · by_cases h3 : (vocabulary.getD ind.toNat "").data.length < 2
        · simp [h1, h2, h3]
        · simp [h1, h2, h3]
      · by_cases h4 : i = 0
        · simp [h1, h2, h4]
        · simp [h1, h2, h4]
  | cons x rest ih =>
    intro i acc
    have hlen : ∀ j : Nat,
        decide (j + 1 + rest.length = 0) = decide (j + (rest.length + 1) = 0) := by
      intro j; congr 1; simp
    show render_loop vocabulary (x :: (rest ++ [ind])) i acc = _
    rw [render_loop, render_loop]
    simp only [List.length_cons]
    split_ifs <;> first | rfl | (rw [ih, hlen])

theorem render_snoc (vocabulary : List String) (output : List Int) (ind : Int) :
    render vocabulary (output ++ [ind]) =
        match render vocabulary output with
        | Except.error e => Except.error e
        | Except.ok s => render_token vocabulary (decide (output = [])) s ind := by
  unfold render
  rw [render_loop_snoc]
  have : decide (0 + output.length = 0) = decide (output = []) := by
    cases output <;> simp
  rw [this]

/-- C4 (counterexample): with the vocabulary `["hel","#lo","ne","#twork"," "]`
the symbol sequence `[0,1,2,3]` renders as `"helo nework"`, not as
`"hello network"`: two characters are stripped from a token that begins with
`#`, not one. -/
theorem render_hash_strips_two_chars :
    render ["hel", "#lo", "ne", "#twork", " "] [0, 1, 2, 3] = Except.ok "helo nework"
      ∧ render ["hel", "#lo", "ne", "#twork", " "] [0, 1, 2, 3] ≠ Except.ok "hello network" :=
  ⟨rfl, fun h => absurd (Except.ok.inj h) (by decide)⟩

/-! ### Lexicon constraint (C7) -/

theorem lexicon_ab_eq :
    lexicon_ab = ⟨[[⟨1, 1, 1⟩], [⟨2, 2, 2⟩], []], 0, [2]⟩ := by decide

/-- C7 (counterexample): with the dictionary accepting only `ab` and `word_end`
as the one-shot decoder computes it, it is not the case that the prefix `"a"`
rejects the symbol `a` and accepts the symbol `b`. -/
theorem lexicon_ab_not_as_claimed :
    ¬ (prefix_a.bind (fun p => p.get_path_trie 0 (word_end ["a", "b"] 0)) = none
        ∧ (prefix_a.bind (fun p => p.get_path_trie 1 (word_end ["a", "b"] 1))).isSome = true) := by
  decide!

/-! ### Time offset carried by `reset` (C10) -/

/-- C10 (counterexample): two `decode` calls of one frame each process two
frames, yet `reset(true, _)` advances `prev_time_offset` by one. -/
theorem reset_keep_offset_two_chunks :
    (((decoder_a.decode [[6/10, 4/10]]).1.decode [[6/10, 4/10]]).1.reset true false).prev_time_offset
      ≠ ((decoder_a.decode [[6/10, 4/10]]).1.decode [[6/10, 4/10]]).1.prev_time_offset
          + (([[6/10, 4/10]] : List (List ℚ)).length + ([[6/10, 4/10]] : List (List ℚ)).length)
    ∧ (((decoder_a.decode [[6/10, 4/10]]).1.decode
          [[6/10, 4/10]]).1.reset true false).prev_time_offset
      = ((decoder_a.decode [[6/10, 4/10]]).1.decode [[6/10, 4/10]]).1.prev_time_offset + 1
    ∧ transcripts (decoder_a.decode [[6/10, 4/10]]).2 = some ["a", ""]
    ∧ transcripts ((decoder_a.decode [[6/10, 4/10]]).1.decode [[6/10, 4/10]]).2
        = some ["a", ""] := by
  decide!

theorem decode_last_decoded_timestep (d : BeamDecoder) (probs_seq : List (List ℚ))
    (h : (d.decode probs_seq).2.toOption.isSome = true) :
    (d.decode probs_seq).1.last_decoded_timestep = probs_seq.length
      ∧ (d.decode probs_seq).1.prev_time_offset = d.prev_time_offset
      ∧ (d.decode probs_seq).1.time_offset = d.time_offset := by
  unfold BeamDecoder.decode at h ⊢
  by_cases h1 : shape_ok probs_seq d.vocabulary.length = false
  · rw [if_pos h1] at h; simp [Except.toOption] at h
  · rw [if_neg h1] at h ⊢
    generalize d.loop probs_seq = tl at h ⊢
    cases tl with
    | error e => simp [Except.toOption] at h
    | ok st =>
      obtain ⟨root, prefixes⟩ := st
      simp only at h ⊢
      generalize get_beam_search_result root _ d.vocabulary d.beam_size = g at h ⊢
      cases g with
      | error e => simp [Except.toOption] at h
      | ok r => simp

/-- C10 (amended): after a `decode` call that returns, `reset(true, _)` adds to
`prev_time_offset` the number of frames of that call (the last one), and
`time_offset`; `reset(false, _)` sets `prev_time_offset` to `0`. -/
theorem reset_prev_time_offset (d : BeamDecoder) (probs_seq : List (List ℚ))
    (keep_words : Bool) (h : (d.decode probs_seq).2.toOption.isSome = true) :
    ((d.decode probs_seq).1.reset true keep_words).prev_time_offset
        = d.prev_time_offset + (probs_seq.length + d.time_offset)
      ∧ (d.reset false keep_words).prev_time_offset = 0 := by
  obtain ⟨h1, h2, h3⟩ := decode_last_decoded_timestep d probs_seq h
  refine ⟨?_, rfl⟩
  simp [BeamDecoder.reset, h1, h2, h3]

theorem reset_prev_time_offset_witness :
    (decoder_a.decode [[6/10, 4/10]]).2.toOption.isSome = true
      ∧ (((decoder_a.decode [[6/10, 4/10]]).1.reset true false).prev_time_offset
        = decoder_a.prev_time_offset
          + (([[6/10, 4/10]] : List (List ℚ)).length + decoder_a.time_offset)
      ∧ (decoder_a.reset false false).prev_time_offset = 0) :=
  ⟨by decide!, reset_prev_time_offset decoder_a [[6/10, 4/10]] false (by decide!)⟩

/-! ### Basic facts on child lists -/

theorem Children.find?_update_self (cs : Children) (c : Int) (f : PathTrie → PathTrie) :
    (cs.update c f).find? c = (cs.find? c).map f := by
  induction cs with
  | nil => rfl
  | cons first second kids rest _ ih =>
    by_cases h : first = c
    · simp [Children.update, Children.find?, h]
    · simp [Children.update, Children.find?, h, ih]

theorem Children.find?_update_ne (cs : Children) (c c' : Int) (f : PathTrie → PathTrie)
    (h : c' ≠ c) : (cs.update c f).find? c' = cs.find? c' := by
  induction cs with
  | nil => rfl
  | cons first second kids rest _ ih =>
    by_cases h1 : first = c <;> by_cases h2 : first = c' <;>
      simp_all [Children.update, Children.find?]

theorem Children.find?_push_back_self (cs : Children) (c : Int) (t : PathTrie)
    (h : cs.find? c = none) : (cs.push_back c t).find? c = some t := by
  induction cs with
  | nil => simp [Children.push_back, Children.find?]
  | cons first second kids rest _ ih =>
    by_cases h1 : first = c
    · simp [Children.find?, h1] at h
    · simp only [Children.find?, h1, if_false] at h
      simp [Children.push_back, Children.find?, h1, ih h]

theorem Children.find?_push_back_ne (cs : Children) (c c' : Int) (t : PathTrie)
    (h : c' ≠ c) : (cs.push_back c t).find? c' = cs.find? c' := by
  induction cs with
  | nil => simp [Children.push_back, Children.find?, Ne.symm h]
  | cons first second kids rest _ ih =>
    by_cases h1 : first = c'
    · simp [Children.push_back, Children.find?, h1]
    · simp [Children.push_back, Children.find?, h1, ih]

/-- After a successful `get_path_trie(new_char, reset)` the object has a child
labelled `new_char`. -/
theorem PathTrie.get_path_trie_find? (this t : PathTrie) (new_char : Int) (reset : Bool)
    (h : this.get_path_trie new_char reset = some t) :
    (t.children_.find? new_char).isSome = true := by
  unfold PathTrie.get_path_trie at h
  cases hc : this.children_.find? new_char with
  | some child =>
    simp only [hc] at h
    by_cases he : child.node.exists_ = false
    · rw [if_pos he] at h
      cases h
      simp [Children.find?_update_self, hc]
    · rw [if_neg he] at h
      cases h
      simp [hc]
  | none =>
    simp only [hc] at h
    by_cases hd : this.node.has_dictionary_ = true
    · rw [if_pos hd] at h
      cases hdict : this.node.dictionary_ with
      | none => simp [hdict] at h
      | some dictionary =>
        cases hm : this.node.matcher_ with
        | none => simp [hdict, hm] at h
        | some matcher =>
          simp only [hdict, hm] at h
          cases hf : matcher.Find
              (if reset = true then dictionary.Start else this.node.dictionary_state_)
              (new_char + 1) with
          | none => simp [hf] at h
          | some arc =>
            simp only [hf] at h
            cases h
            simp [Children.find?_push_back_self _ _ _ hc]
    · rw [if_neg hd] at h
      cases h
      simp [Children.find?_push_back_self _ _ _ hc]

theorem PathTrie.get_path_trie_isSome_congr (t1 t2 : PathTrie) (new_char : Int) (reset : Bool)
    (hc : t1.children_ = t2.children_) (h1 : t1.node.has_dictionary_ = t2.node.has_dictionary_)
    (h2 : t1.node.dictionary_ = t2.node.dictionary_) (h3 : t1.node.matcher_ = t2.node.matcher_)
    (h4 : t1.node.dictionary_state_ = t2.node.dictionary_state_) :
    (t1.get_path_trie new_char reset).isSome = (t2.get_path_trie new_char reset).isSome := by
  unfold PathTrie.get_path_trie
  rw [hc, h1, h2, h3, h4]
  cases t2.children_.find? new_char with
  | some child => by_cases h : child.node.exists_ = false <;> simp [h]
  | none =>
    by_cases h : t2.node.has_dictionary_ = true
    · simp only [h, if_true]
      cases t2.node.dictionary_ with
      | none => rfl
      | some dictionary =>
        cases t2.node.matcher_ with
        | none => rfl
        | some matcher =>
          simp only
          cases matcher.Find (if reset = true then dictionary.Start else t2.node.dictionary_state_)
            (new_char + 1) <;> rfl
    · simp [h]

/-! ### Offsets in the streaming decoder (C9) -/

/-- C9 (amended): whenever the streaming loop body visits the expansion of a
prefix by a non-blank symbol `c` at the frame index `time_step` and
`get_path_trie` returns a node, the offset of that node, new or not, becomes
`prev_time_offset + time_offset + time_step`. -/
theorem body_writes_offset (d : BeamDecoder) (time_step c : Nat) (log_prob_c : LogProb)
    (p : Path) (pre : PathTrie) (hc : c ≠ d.blank_id)
    (h : (pre.get_path_trie c d.reset_default).isSome = true) :
    ((d.body time_step (c, log_prob_c) p pre).children_.find? c).map (fun t => t.node.offset)
      = some (d.prev_time_offset + d.time_offset + time_step) := by
  unfold BeamDecoder.body expand
  simp only [hc, if_false]
  have h1 : ((after_repeat c log_prob_c pre).get_path_trie c d.reset_default).isSome = true := by
    rw [← h]
    apply PathTrie.get_path_trie_isSome_congr <;> (unfold after_repeat; split_ifs <;> rfl)
  cases h2 : (after_repeat c log_prob_c pre).get_path_trie c d.reset_default with
  | none => rw [h2] at h1; cases h1
  | some pre2 =>
    have h3 := PathTrie.get_path_trie_find? _ pre2 c d.reset_default h2
    simp only [Children.find?_update_self]
    cases h4 : pre2.children_.find? (c : Int) with
    | none => rw [h4] at h3; cases h3
    | some child => simp [write_new]

/-- C9 (counterexample): with beam size 2 the node of the prefix `a` is created
at frame 0 with offset 0; at frame 1 the root is expanded by `a` again and the
offset of the node becomes 1. -/
theorem offset_overwritten :
    ((decoder_a.decode [[6/10, 4/10]]).1.root.at? [0]).map (fun t => t.node.offset) = some 0
      ∧ ((decoder_a.decode [[6/10, 4/10], [6/10, 4/10]]).1.root.at? [0]).map
          (fun t => t.node.offset) = some 1 := by
  decide!

theorem body_writes_offset_witness :
    (0 : Nat) ≠ decoder_a.blank_id
      ∧ (((decoder_a.decode [[6/10, 4/10]]).1.root.get_path_trie ((0 : Nat) : Int)
          decoder_a.reset_default).isSome = true)
      ∧ ((decoder_a.body 1 (0, log (6/10 + NUM_FLT_MIN)) []
            (decoder_a.decode [[6/10, 4/10]]).1.root).children_.find? ((0 : Nat) : Int)).map
          (fun t => t.node.offset)
        = some (decoder_a.prev_time_offset + decoder_a.time_offset + 1) :=
  ⟨by decide, by decide!,
    body_writes_offset decoder_a 1 0 (log (6/10 + NUM_FLT_MIN)) []
      (decoder_a.decode [[6/10, 4/10]]).1.root (by decide) (by decide!)⟩

/-! ### Pointers: dereferencing and writing -/

theorem PathTrie.at?_nil (t : PathTrie) : t.at? [] = some t := rfl

theorem PathTrie.at?_cons (t : PathTrie) (c : Int) (p : Path) :
    t.at? (c :: p) = (t.children_.find? c).bind (fun child => child.at? p) := by
  rw [PathTrie.at?]
  cases t.children_.find? c <;> rfl

theorem PathTrie.update_nil (t : PathTrie) (f : PathTrie → PathTrie) : t.update [] f = f t := rfl

theorem PathTrie.update_cons (t : PathTrie) (c : Int) (p : Path) (f : PathTrie → PathTrie) :
    t.update (c :: p) f
      = { t with children_ := t.children_.update c (fun child => child.update p f) } := rfl

theorem PathTrie.at?_append (t : PathTrie) (p q : Path) :
    t.at? (p ++ q) = (t.at? p).bind (fun x => x.at? q) := by
  induction p generalizing t with
  | nil => rfl
  | cons c p ih =>
    rw [List.cons_append, PathTrie.at?_cons, PathTrie.at?_cons]
    cases t.children_.find? c with
    | none => rfl
    | some child => exact ih child

/-- Reading at or below the place of a write. -/
theorem PathTrie.at?_update_append (t : PathTrie) (p r : Path) (f : PathTrie → PathTrie) :
    (t.update p f).at? (p ++ r) = (t.at? p).bind (fun x => (f x).at? r) := by
  induction p generalizing t with
  | nil => rfl
  | cons c p ih =>
    rw [List.cons_append, PathTrie.at?_cons, PathTrie.at?_cons, PathTrie.update_cons]
    simp only [Children.find?_update_self]
    cases t.children_.find? c with
    | none => rfl
    | some child => exact ih child

theorem PathTrie.at?_update_self (t : PathTrie) (p : Path) (f : PathTrie → PathTrie) :
    (t.update p f).at? p = (t.at? p).map f := by
  have h := PathTrie.at?_update_append t p [] f
  rw [List.append_nil] at h
  rw [h]
  cases t.at? p <;> rfl

/-- Reading strictly above the place of a write: the data members are the
same. -/
theorem PathTrie.at?_update_above (t : PathTrie) (q : Path) (c : Int) (r : Path)
    (f : PathTrie → PathTrie) :
    (t.update (q ++ c :: r) f).at? q = (t.at? q).map (fun x => x.update (c :: r) f) := by
  induction q generalizing t with
  | nil => rfl
  | cons d q ih =>
    rw [List.cons_append, PathTrie.at?_cons, PathTrie.at?_cons, PathTrie.update_cons]
    simp only [Children.find?_update_self]
    cases t.children_.find? d with
    | none => rfl
    | some child => exact ih child

/-- Reading away from the place of a write. -/
theorem PathTrie.at?_update_off (t : PathTrie) (p q : Path) (f : PathTrie → PathTrie)
    (h1 : ¬ p <+: q) (h2 : ¬ q <+: p) : (t.update p f).at? q = t.at? q := by
  induction p generalizing t q with
  | nil => exact absurd List.nil_prefix h1
  | cons c p ih =>
    cases q with
    | nil => exact absurd List.nil_prefix h2
    | cons d q =>
      rw [PathTrie.at?_cons, PathTrie.at?_cons, PathTrie.update_cons]
      by_cases hcd : d = c
      · subst hcd
        simp only [Children.find?_update_self]
        cases t.children_.find? d with
        | none => rfl
        | some child =>
          have h1' : ¬ p <+: q := fun h => h1 ((List.prefix_cons_inj d).2 h)
          have h2' : ¬ q <+: p := fun h => h2 ((List.prefix_cons_inj d).2 h)
          exact ih child q h1' h2'
      · simp only [Children.find?_update_ne _ _ _ _ hcd]

theorem PathTrie.update_node_of_ne_nil (t : PathTrie) (c : Int) (r : Path)
    (f : PathTrie → PathTrie) : (t.update (c :: r) f).node = t.node := rfl

/-- The three ways a pointer can lie with respect to another. -/
theorem Path.trichotomy (p q : Path) :
    (∃ r, q = p ++ r) ∨ (∃ c r, p = q ++ c :: r) ∨ (¬ p <+: q ∧ ¬ q <+: p) := by
  by_cases h1 : p <+: q
  · exact Or.inl (by obtain ⟨r, hr⟩ := h1; exact ⟨r, hr.symm⟩)
  · by_cases h2 : q <+: p
    · obtain ⟨r, hr⟩ := h2
      cases r with
      | nil => exact absurd (by rw [← hr, List.append_nil]) h1
      | cons c r => exact Or.inr (Or.inl ⟨c, r, hr.symm⟩)
    · exact Or.inr (Or.inr ⟨h1, h2⟩)

/-- A write that keeps the liveness of every node below it keeps the liveness
of every node of the trie. -/
theorem PathTrie.isLive_update_mono (t : PathTrie) (p q : Path) (f : PathTrie → PathTrie)
    (hf : ∀ x r, x.isLive r = true → (f x).isLive r = true) (h : t.isLive q = true) :
    (t.update p f).isLive q = true := by
  rcases Path.trichotomy p q with ⟨r, rfl⟩ | ⟨c, r, rfl⟩ | ⟨h1, h2⟩
  · unfold PathTrie.isLive at h ⊢
    rw [PathTrie.at?_update_append]
    rw [PathTrie.at?_append] at h
    cases hp : t.at? p with
    | none => rw [hp] at h; simp at h
    | some x =>
      rw [hp] at h
      have := hf x r
      unfold PathTrie.isLive at this
      exact this h
  · unfold PathTrie.isLive at h ⊢
    rw [PathTrie.at?_update_above]
    cases hq : t.at? q with
    | none => rw [hq] at h; simp at h
    | some x => rw [hq] at h; exact h
  · unfold PathTrie.isLive at h ⊢
    rw [PathTrie.at?_update_off _ _ _ _ h1 h2]
    exact h

/-! ### Well-formed child lists -/

theorem Children.find?_erase_ne (cs : Children) (c c' : Int) (h : c' ≠ c) :
    (cs.erase c).find? c' = cs.find? c' := by
  induction cs with
  | nil => rfl
  | cons first second kids rest _ ih =>
    by_cases h1 : first = c <;> by_cases h2 : first = c' <;>
      simp_all [Children.erase, Children.find?]

theorem Children.find?_erase_self (V : Nat) (cs : Children) (c : Int) (h : cs.WF V) :
    (cs.erase c).find? c = none := by
  induction cs with
  | nil => rfl
  | cons first second kids rest _ ih =>
    obtain ⟨_, _, _, h4, _, h6⟩ := h
    by_cases h1 : first = c
    · subst h1
      simpa [Children.erase] using h4
    · simp [Children.erase, Children.find?, h1, ih h6]

theorem Children.WF_find? (V : Nat) (cs : Children) (c : Int) (x : PathTrie) (h : cs.WF V)
    (hx : cs.find? c = some x) :
    x.node.character = c ∧ 0 ≤ c ∧ c < (V : Int) ∧ x.children_.WF V := by
  induction cs with
  | nil => cases hx
  | cons first second kids rest _ ih =>
    obtain ⟨h1, h2, h3, _, h5, h6⟩ := h
    by_cases hc : first = c
    · subst hc
      simp only [Children.find?, if_true] at hx
      cases hx
      exact ⟨h1, h2, h3, h5⟩
    · simp only [Children.find?, hc, if_false] at hx
      exact ih h6 hx

theorem Children.WF_update_child (V : Nat) (cs : Children) (c : Int) (f : PathTrie → PathTrie)
    (h : cs.WF V)
    (hf : ∀ x, cs.find? c = some x →
      (f x).node.character = x.node.character ∧ (f x).children_.WF V) :
    (cs.update c f).WF V := by
  induction cs with
  | nil => exact h
  | cons first second kids rest _ ih =>
    obtain ⟨h1, h2, h3, h4, h5, h6⟩ := h
    by_cases hc : first = c
    · subst hc
      have := hf ⟨second, kids⟩ (by simp [Children.find?])
      simp only [Children.update, if_true]
      exact ⟨this.1.trans h1, h2, h3, h4, this.2, h6⟩
    · simp only [Children.update, hc, if_false]
      refine ⟨h1, h2, h3, ?_, h5, ih h6 ?_⟩
      · rw [Children.find?_update_ne _ _ _ _ hc, h4]
      · intro x hx
        exact hf x (by simpa [Children.find?, hc] using hx)

theorem Children.WF_push_back (V : Nat) (cs : Children) (c : Int) (t : PathTrie)
    (h : cs.WF V) (hnone : cs.find? c = none) (hchar : t.node.character = c) (h0 : 0 ≤ c)
    (hV : c < (V : Int)) (ht : t.children_.WF V) : (cs.push_back c t).WF V := by
  induction cs with
  | nil => exact ⟨hchar, h0, hV, rfl, ht, trivial⟩
  | cons first second kids rest _ ih =>
    obtain ⟨h1, h2, h3, h4, h5, h6⟩ := h
    have hc : first ≠ c := by
      intro hc
      simp [Children.find?, hc] at hnone
    have hnone' : rest.find? c = none := by simpa [Children.find?, hc] using hnone
    refine ⟨h1, h2, h3, ?_, h5, ih h6 hnone'⟩
    rw [Children.find?_push_back_ne _ _ _ _ hc, h4]

theorem Children.WF_erase (V : Nat) (cs : Children) (c : Int) (h : cs.WF V) :
    (cs.erase c).WF V := by
  induction cs with
  | nil => exact h
  | cons first second kids rest _ ih =>
    obtain ⟨h1, h2, h3, h4, h5, h6⟩ := h
    by_cases hc : first = c
    · simpa [Children.erase, hc] using h6
    · simp only [Children.erase, hc, if_false]
      refine ⟨h1, h2, h3, ?_, h5, ih h6⟩
      rw [Children.find?_erase_ne _ _ _ hc, h4]

/-! ### Well-formed tries under writes -/

theorem PathTrie.WF_at? (V : Nat) (t x : PathTrie) (p : Path) (h : t.children_.WF V)
    (hx : t.at? p = some x) : x.children_.WF V := by
  induction p generalizing t with
  | nil => cases hx; exact h
  | cons c p ih =>
    rw [PathTrie.at?_cons] at hx
    cases hc : t.children_.find? c with
    | none => rw [hc] at hx; cases hx
    | some child =>
      rw [hc] at hx
      exact ih child (Children.WF_find? V _ _ _ h hc).2.2.2 hx

theorem PathTrie.WF_update (V : Nat) (t : PathTrie) (p : Path) (f : PathTrie → PathTrie)
    (h : t.children_.WF V)
    (hf : ∀ x, x.children_.WF V →
      (f x).node.character = x.node.character ∧ (f x).children_.WF V) :
    (t.update p f).node.character = t.node.character ∧ (t.update p f).children_.WF V := by
  induction p generalizing t with
  | nil => exact hf t h
  | cons c p ih =>
    refine ⟨rfl, ?_⟩
    rw [PathTrie.update_cons]
    apply Children.WF_update_child V _ _ _ h
    intro x hx
    exact ih x (Children.WF_find? V _ _ _ h hx).2.2.2

/-! ### `get_path_trie` and the loop body keep a trie well formed -/

theorem PathTrie.get_path_trie_spec (V : Nat) (this t : PathTrie) (new_char : Int)
    (reset : Bool) (h : this.get_path_trie new_char reset = some t)
    (hwf : this.children_.WF V) (h0 : 0 ≤ new_char) (hV : new_char < (V : Int)) :
    t.node = this.node ∧ t.children_.WF V
      ∧ (∀ r, this.isLive r = true → t.isLive r = true)
      ∧ (∀ c, c ≠ new_char → t.children_.find? c = this.children_.find? c) := by
  unfold PathTrie.get_path_trie at h
  cases hc : this.children_.find? new_char with
  | some child =>
    simp only [hc] at h
    by_cases he : child.node.exists_ = false
    · rw [if_pos he] at h
      cases h
      refine ⟨rfl, ?_, ?_, ?_⟩
      · apply Children.WF_update_child V _ _ _ hwf
        intro x hx
        rw [hc] at hx
        cases hx
        exact ⟨rfl, (Children.WF_find? V _ _ _ hwf hc).2.2.2⟩
      · intro r hr
        cases r with
        | nil => exact hr
        | cons d r =>
          unfold PathTrie.isLive at hr ⊢
          rw [PathTrie.at?_cons] at hr ⊢
          by_cases hd : d = new_char
          · subst hd
            simp only [Children.find?_update_self, hc, Option.map_some', Option.some_bind] at hr ⊢
            cases r with
            | nil => rfl
            | cons e r => exact hr
          · simp only [Children.find?_update_ne _ _ _ _ hd]
            exact hr
      · intro c hcne
        exact Children.find?_update_ne _ _ _ _ hcne
    · rw [if_neg he] at h
      cases h
      exact ⟨rfl, hwf, fun _ hr => hr, fun _ _ => rfl⟩
  | none =>
    simp only [hc] at h
    have key : ∀ new_path : PathTrie, new_path.node.character = new_char →
        new_path.children_ = Children.nil →
        t = { this with children_ := this.children_.push_back new_char new_path } →
        t.node = this.node ∧ t.children_.WF V
          ∧ (∀ r, this.isLive r = true → t.isLive r = true)
          ∧ (∀ c, c ≠ new_char → t.children_.find? c = this.children_.find? c) := by
      intro new_path hch hnil ht
      subst ht
      refine ⟨rfl, ?_, ?_, ?_⟩
      · exact Children.WF_push_back V _ _ _ hwf hc hch h0 hV (by rw [hnil]; trivial)
      · intro r hr
        cases r with
        | nil => exact hr
        | cons d r =>
          unfold PathTrie.isLive at hr ⊢
          rw [PathTrie.at?_cons] at hr ⊢
          by_cases hd : d = new_char
          · subst hd
            rw [hc] at hr
            simp at hr
          · simp only [Children.find?_push_back_ne _ _ _ _ hd]
            exact hr
      · intro c hcne
        exact Children.find?_push_back_ne _ _ _ _ hcne
    by_cases hd : this.node.has_dictionary_ = true
    · rw [if_pos hd] at h
      cases hdict : this.node.dictionary_ with
      | none => simp [hdict] at h
      | some dictionary =>
        cases hm : this.node.matcher_ with
        | none => simp [hdict, hm] at h
        | some matcher =>
          simp only [hdict, hm] at h
          cases hf : matcher.Find
              (if reset = true then dictionary.Start else this.node.dictionary_state_)
              (new_char + 1) with
          | none => simp [hf] at h
          | some arc =>
            simp only [hf] at h
            exact key _ rfl rfl (Option.some.inj h).symm
    · rw [if_neg hd] at h
      exact key _ rfl rfl (Option.some.inj h).symm

theorem PathTrie.isLive_nil (t : PathTrie) : t.isLive [] = t.node.exists_ := rfl

theorem PathTrie.isLive_cons (t : PathTrie) (c : Int) (r : Path) :
    t.isLive (c :: r) = match t.children_.find? c with
      | some child => child.isLive r
      | none => false := by
  unfold PathTrie.isLive
  rw [PathTrie.at?_cons]
  cases t.children_.find? c <;> rfl

/-- A write to the data members of the child labelled `c` that keeps
`exists_` true keeps every live node live. -/
theorem PathTrie.isLive_update_child (t : PathTrie) (c : Int) (g : PathTrie → PathTrie)
    (hg : ∀ x r, x.isLive r = true → (g x).isLive r = true) (r : Path)
    (h : t.isLive r = true) :
    ({ t with children_ := t.children_.update c g } : PathTrie).isLive r = true := by
  cases r with
  | nil => exact h
  | cons d r =>
    rw [PathTrie.isLive_cons] at h ⊢
    by_cases hd : d = c
    · subst hd
      simp only [Children.find?_update_self]
      cases hc : t.children_.find? d with
      | none => rw [hc] at h; cases h
      | some child =>
        rw [hc] at h
        exact hg child r h
    · simp only [Children.find?_update_ne _ _ _ _ hd]
      exact h

theorem expand_of_blank (blank_id c : Nat) (log_prob_c : LogProb) (reset : Bool)
    (lm : Node → LogProb → LogProb) (offset : Option Nat) (pre : PathTrie)
    (h : c = blank_id) :
    expand blank_id c log_prob_c reset lm offset pre
      = { pre with node := { pre.node with
          log_prob_b_cur :=
            log_sum_exp pre.node.log_prob_b_cur (log_prob_c + pre.node.score) } } := by
  unfold expand
  rw [if_pos h]

theorem expand_of_ne (blank_id c : Nat) (log_prob_c : LogProb) (reset : Bool)
    (lm : Node → LogProb → LogProb) (offset : Option Nat) (pre : PathTrie)
    (h : c ≠ blank_id) :
    expand blank_id c log_prob_c reset lm offset pre
      = match (after_repeat c log_prob_c pre).get_path_trie c reset with
        | none => after_repeat c log_prob_c pre
        | some pre2 =>
          { pre2 with children_ := (pre2.children_.update c
              (write_new offset (lm pre.node (new_log_p c log_prob_c pre.node)))) } := by
  unfold expand
  rw [if_neg h]

theorem after_repeat_children (c : Nat) (log_prob_c : LogProb) (pre : PathTrie) :
    (after_repeat c log_prob_c pre).children_ = pre.children_ := by
  unfold after_repeat; split_ifs <;> rfl

theorem after_repeat_character (c : Nat) (log_prob_c : LogProb) (pre : PathTrie) :
    (after_repeat c log_prob_c pre).node.character = pre.node.character := by
  unfold after_repeat; split_ifs <;> rfl

theorem after_repeat_exists (c : Nat) (log_prob_c : LogProb) (pre : PathTrie) :
    (after_repeat c log_prob_c pre).node.exists_ = pre.node.exists_ := by
  unfold after_repeat; split_ifs <;> rfl

/-- The loop body keeps the trie below the prefix well formed, keeps the
`character` and `exists_` of the prefix, and keeps every live node live. -/
theorem expand_spec (V : Nat) (blank_id c : Nat) (log_prob_c : LogProb) (reset : Bool)
    (lm : Node → LogProb → LogProb) (offset : Option Nat) (pre : PathTrie)
    (hwf : pre.children_.WF V) (hc : c = blank_id ∨ (c : Int) < (V : Int)) :
    (expand blank_id c log_prob_c reset lm offset pre).node.character = pre.node.character
      ∧ (expand blank_id c log_prob_c reset lm offset pre).node.exists_ = pre.node.exists_
      ∧ (expand blank_id c log_prob_c reset lm offset pre).children_.WF V
      ∧ ∀ r, pre.isLive r = true →
          (expand blank_id c log_prob_c reset lm offset pre).isLive r = true := by
  by_cases hb : c = blank_id
  · rw [expand_of_blank _ _ _ _ _ _ _ hb]
    exact ⟨rfl, rfl, hwf, fun r hr => by cases r <;> exact hr⟩
  · rw [expand_of_ne _ _ _ _ _ _ _ hb]
    have hV : (c : Int) < (V : Int) := by
      rcases hc with h | h
      · exact absurd h hb
      · exact h
    have e1 := after_repeat_children c log_prob_c pre
    have e2 := after_repeat_character c log_prob_c pre
    have e3 := after_repeat_exists c log_prob_c pre
    have e4 : ∀ r, pre.isLive r = true → (after_repeat c log_prob_c pre).isLive r = true := by
      intro r hr
      cases r with
      | nil => rw [PathTrie.isLive_nil] at hr ⊢; rw [e3]; exact hr
      | cons d r => rw [PathTrie.isLive_cons] at hr ⊢; rw [e1]; exact hr
    cases h2 : (after_repeat c log_prob_c pre).get_path_trie (c : Int) reset with
    | none => exact ⟨e2, e3, by rw [e1]; exact hwf, e4⟩
    | some pre2 =>
      obtain ⟨s1, s2, s3, _⟩ := PathTrie.get_path_trie_spec V _ pre2 c reset h2
        (by rw [e1]; exact hwf) (Int.natCast_nonneg c) hV
      refine ⟨by simp only [s1, e2], by simp only [s1, e3], ?_, ?_⟩
      · apply Children.WF_update_child V _ _ _ s2
        intro x hx
        exact ⟨rfl, (Children.WF_find? V _ _ _ s2 hx).2.2.2⟩
      · intro r hr
        apply PathTrie.isLive_update_child pre2 c _ _ r (s3 r (e4 r hr))
        intro x r' hr'
        cases r' with
        | nil => exact hr'
        | cons d r' => exact hr'

theorem update_StateOK (V : Nat) (root : PathTrie) (p : Path) (f : PathTrie → PathTrie)
    (h : StateOK V root)
    (hf : ∀ x, x.children_.WF V →
      (f x).node.character = x.node.character ∧ (f x).children_.WF V
        ∧ ∀ r, x.isLive r = true → (f x).isLive r = true) :
    StateOK V (root.update p f) := by
  obtain ⟨⟨h1, h2⟩, q, hq⟩ := h
  have := PathTrie.WF_update V root p f h2 (fun x hx => ⟨(hf x hx).1, (hf x hx).2.1⟩)
  refine ⟨⟨this.1.trans h1, this.2⟩, q, ?_⟩
  -- liveness: the write is applied to a well-formed subtree
  rcases Path.trichotomy p q with ⟨r, rfl⟩ | ⟨c, r, rfl⟩ | ⟨h1', h2'⟩
  · unfold PathTrie.isLive at hq ⊢
    rw [PathTrie.at?_update_append]
    rw [PathTrie.at?_append] at hq
    cases hp : root.at? p with
    | none => rw [hp] at hq; simp at hq
    | some x =>
      rw [hp] at hq
      have hx := PathTrie.WF_at? V root x p h2 hp
      have := (hf x hx).2.2 r
      unfold PathTrie.isLive at this
      exact this hq
  · unfold PathTrie.isLive at hq ⊢
    rw [PathTrie.at?_update_above]
    cases hq' : root.at? q with
    | none => rw [hq'] at hq; simp at hq
    | some x => rw [hq'] at hq; exact hq
  · unfold PathTrie.isLive at hq ⊢
    rw [PathTrie.at?_update_off _ _ _ _ h1' h2']
    exact hq

theorem expand_prefixes_StateOK (V : Nat) (stop : Node → Bool)
    (body : Path → PathTrie → PathTrie)
    (hbody : ∀ p x, x.children_.WF V →
      (body p x).node.character = x.node.character ∧ (body p x).children_.WF V
        ∧ ∀ r, x.isLive r = true → (body p x).isLive r = true)
    (beam : List Path) (root : PathTrie) (h : StateOK V root) :
    StateOK V (expand_prefixes stop body beam root) := by
  induction beam generalizing root with
  | nil => exact h
  | cons p rest ih =>
    unfold expand_prefixes
    split_ifs
    · exact h
    · exact ih _ (update_StateOK V root p _ h (hbody p))

theorem expand_symbols_StateOK (V : Nat) (stop : Nat × LogProb → Node → Bool)
    (body : Nat × LogProb → Path → PathTrie → PathTrie) (symbols : List (Nat × LogProb))
    (hbody : ∀ s ∈ symbols, ∀ p x, x.children_.WF V →
      (body s p x).node.character = x.node.character ∧ (body s p x).children_.WF V
        ∧ ∀ r, x.isLive r = true → (body s p x).isLive r = true)
    (beam : List Path) (root : PathTrie) (h : StateOK V root) :
    StateOK V (expand_symbols stop body beam symbols root) := by
  induction symbols generalizing root with
  | nil => exact h
  | cons s rest ih =>
    unfold expand_symbols
    apply ih (fun s' hs' => hbody s' (List.mem_cons_of_mem _ hs'))
    exact expand_prefixes_StateOK V _ _ (hbody s (List.mem_cons_self _ _)) beam root h

/-! ### `iterate_to_vec`: the roll and the list of live prefixes -/

theorem Children.iterate_children_eq (cs : Children) (here : Path) (output : List Path) :
    cs.iterate_to_vec here output = (cs.rolled, output ++ cs.live_paths here) := by
  induction cs generalizing here output with
  | nil => simp [Children.iterate_to_vec, Children.rolled, Children.live_paths]
  | cons first second kids rest ih1 ih2 =>
    simp only [Children.iterate_to_vec, Children.rolled, Children.live_paths, ih1, ih2]
    by_cases h : second.exists_ = true <;> simp [h, List.append_assoc]

theorem PathTrie.iterate_to_vec_eq (t : PathTrie) (here : Path) (output : List Path) :
    t.iterate_to_vec here output = (t.rolled, output ++ t.live_paths here) := by
  simp only [PathTrie.iterate_to_vec, PathTrie.rolled, PathTrie.live_paths,
    Children.iterate_children_eq]
  by_cases h : t.node.exists_ = true <;> simp [h, List.append_assoc]

theorem Node.roll_character (n : Node) : n.roll.character = n.character := rfl

theorem Node.roll_exists (n : Node) : n.roll.exists_ = n.exists_ := rfl

theorem Node.roll_offset (n : Node) : n.roll.offset = n.offset := rfl

theorem Children.find?_rolled (cs : Children) (c : Int) :
    cs.rolled.find? c = (cs.find? c).map PathTrie.rolled := by
  induction cs with
  | nil => rfl
  | cons first second kids rest _ ih =>
    by_cases h : first = c
    · simp [Children.rolled, Children.find?, h, PathTrie.rolled]
    · simp [Children.rolled, Children.find?, h, ih]

theorem PathTrie.rolled_children (t : PathTrie) : t.rolled.children_ = t.children_.rolled := rfl

theorem PathTrie.rolled_exists (t : PathTrie) : t.rolled.node.exists_ = t.node.exists_ := by
  unfold PathTrie.rolled
  by_cases h : t.node.exists_ = true <;> simp [h, Node.roll_exists]

theorem PathTrie.rolled_character (t : PathTrie) :
    t.rolled.node.character = t.node.character := by
  unfold PathTrie.rolled
  by_cases h : t.node.exists_ = true <;> simp [h, Node.roll_character]

theorem PathTrie.rolled_offset (t : PathTrie) : t.rolled.node.offset = t.node.offset := by
  unfold PathTrie.rolled
  by_cases h : t.node.exists_ = true <;> simp [h, Node.roll_offset]

theorem PathTrie.at?_rolled (t : PathTrie) (p : Path) :
    t.rolled.at? p = (t.at? p).map PathTrie.rolled := by
  induction p generalizing t with
  | nil => rfl
  | cons c p ih =>
    rw [PathTrie.at?_cons, PathTrie.at?_cons, PathTrie.rolled_children,
      Children.find?_rolled]
    cases t.children_.find? c with
    | none => rfl
    | some child => exact ih child

theorem PathTrie.isLive_rolled (t : PathTrie) (p : Path) : t.rolled.isLive p = t.isLive p := by
  unfold PathTrie.isLive
  rw [PathTrie.at?_rolled]
  cases t.at? p with
  | none => rfl
  | some x => exact PathTrie.rolled_exists x

theorem Children.WF_rolled_children (V : Nat) (cs : Children) (h : cs.WF V) : cs.rolled.WF V := by
  induction cs with
  | nil => exact h
  | cons first second kids rest ih1 ih2 =>
    obtain ⟨h1, h2, h3, h4, h5, h6⟩ := h
    refine ⟨?_, h2, h3, ?_, ih1 h5, ih2 h6⟩
    · by_cases h : second.exists_ = true <;> simp [h, Node.roll_character, h1]
    · rw [Children.find?_rolled, h4]; rfl

theorem PathTrie.WF_rolled (V : Nat) (t : PathTrie) (h : t.WF V) : t.rolled.WF V :=
  ⟨(PathTrie.rolled_character t).trans h.1, Children.WF_rolled_children V _ h.2⟩

theorem Children.length_live_paths_children (cs : Children) (here : Path) :
    (cs.live_paths here).length = cs.liveCount := by
  induction cs generalizing here with
  | nil => rfl
  | cons first second kids rest ih1 ih2 =>
    simp only [Children.live_paths, Children.liveCount, List.length_append, ih1, ih2]
    by_cases h : second.exists_ = true <;> simp [h]

theorem PathTrie.length_live_paths (t : PathTrie) (here : Path) :
    (t.live_paths here).length = t.liveCount := by
  simp only [PathTrie.live_paths, PathTrie.liveCount, List.length_append,
    Children.length_live_paths_children]
  by_cases h : t.node.exists_ = true <;> simp [h]

/-- The live prefixes of a child list are the pointers `here ++ c :: r` such
that the child labelled `c` has a live node at `r`. -/
theorem Children.mem_live_paths_children (V : Nat) (cs : Children) (h : cs.WF V) (here q : Path) :
    q ∈ cs.live_paths here ↔
      ∃ c r child, q = here ++ c :: r ∧ cs.find? c = some child ∧ child.isLive r = true := by
  induction cs generalizing here q with
  | nil => simp [Children.live_paths, Children.find?]
  | cons first second kids rest ih1 ih2 =>
    obtain ⟨_, _, _, h4, h5, h6⟩ := h
    simp only [Children.live_paths, List.mem_append, ih1 h5, ih2 h6]
    constructor
    · rintro ((hA | ⟨c, r, child, rfl, hf, hl⟩) | ⟨c, r, child, rfl, hf, hl⟩)
      · by_cases he : second.exists_ = true
        · simp only [he, if_true, List.mem_singleton] at hA
          exact ⟨first, [], ⟨second, kids⟩, by simpa using hA, by simp [Children.find?], he⟩
        · simp [he] at hA
      · refine ⟨first, c :: r, ⟨second, kids⟩, by simp, by simp [Children.find?], ?_⟩
        rw [PathTrie.isLive_cons]
        simp only [hf]
        exact hl
      · have hne : first ≠ c := by
          intro hc
          rw [← hc, h4] at hf
          cases hf
        exact ⟨c, r, child, rfl, by simp [Children.find?, hne, hf], hl⟩
    · rintro ⟨c, r, child, rfl, hf, hl⟩
      by_cases hc : first = c
      · subst hc
        simp only [Children.find?, if_true] at hf
        cases hf
        cases r with
        | nil =>
          left; left
          rw [PathTrie.isLive_nil] at hl
          have hl' : second.exists_ = true := hl
          simp [hl']
        | cons d r =>
          left; right
          rw [PathTrie.isLive_cons] at hl
          cases hk : kids.find? d with
          | none => simp [hk] at hl
          | some child =>
            simp only [hk] at hl
            exact ⟨d, r, child, by simp, hk, hl⟩
      · right
        simp only [Children.find?, hc, if_false] at hf
        exact ⟨c, r, child, rfl, hf, hl⟩

/-- The list of live prefixes of a well-formed trie holds exactly the pointers
of its live nodes. -/
theorem PathTrie.mem_live_paths (V : Nat) (t : PathTrie) (h : t.children_.WF V)
    (here q : Path) :
    q ∈ t.live_paths here ↔ ∃ r, q = here ++ r ∧ t.isLive r = true := by
  simp only [PathTrie.live_paths, List.mem_append, Children.mem_live_paths_children V _ h]
  constructor
  · rintro (hA | ⟨c, r, child, rfl, hf, hl⟩)
    · by_cases he : t.node.exists_ = true
      · simp only [he, if_true, List.mem_singleton] at hA
        exact ⟨[], by simpa using hA, he⟩
      · simp [he] at hA
    · refine ⟨c :: r, rfl, ?_⟩
      rw [PathTrie.isLive_cons]
      simp only [hf]
      exact hl
  · rintro ⟨r, rfl, hl⟩
    cases r with
    | nil =>
      left
      rw [PathTrie.isLive_nil] at hl
      simp [hl]
    | cons c r =>
      right
      rw [PathTrie.isLive_cons] at hl
      cases hk : t.children_.find? c with
      | none => simp [hk] at hl
      | some child =>
        simp only [hk] at hl
        exact ⟨c, r, child, rfl, hk, hl⟩

theorem Children.nodup_live_paths_children (V : Nat) (cs : Children) (h : cs.WF V) (here : Path) :
    (cs.live_paths here).Nodup := by
  induction cs generalizing here with
  | nil => exact List.nodup_nil
  | cons first second kids rest ih1 ih2 =>
    have hwf := h
    obtain ⟨_, _, _, h4, h5, h6⟩ := h
    simp only [Children.live_paths]
    rw [List.nodup_append, List.nodup_append]
    refine ⟨⟨?_, ih1 h5 _, ?_⟩, ih2 h6 _, ?_⟩
    · by_cases he : second.exists_ = true <;> simp [he]
    · intro q hA hB
      rw [Children.mem_live_paths_children V _ h5] at hB
      obtain ⟨c, r, child, hq, _, _⟩ := hB
      by_cases he : second.exists_ = true
      · simp only [he, if_true, List.mem_singleton] at hA
        rw [hA, List.append_assoc] at hq
        have := List.append_cancel_left hq
        simp at this
      · simp [he] at hA
    · intro q hAB hC
      rw [Children.mem_live_paths_children V _ h6] at hC
      obtain ⟨c, r, child, hq, hf, _⟩ := hC
      have hne : first ≠ c := by
        intro hc
        rw [← hc, h4] at hf
        cases hf
      rw [List.mem_append] at hAB
      rcases hAB with hA | hB
      · by_cases he : second.exists_ = true
        · simp only [he, if_true, List.mem_singleton] at hA
          rw [hA] at hq
          have := List.append_cancel_left hq
          simp at this
          exact hne this.1
        · simp [he] at hA
      · rw [Children.mem_live_paths_children V _ h5] at hB
        obtain ⟨c', r', child', hq', _, _⟩ := hB
        rw [hq', List.append_assoc] at hq
        have := List.append_cancel_left hq
        simp at this
        exact hne this.1

theorem PathTrie.nodup_live_paths (V : Nat) (t : PathTrie) (h : t.children_.WF V)
    (here : Path) : (t.live_paths here).Nodup := by
  simp only [PathTrie.live_paths]
  rw [List.nodup_append]
  refine ⟨?_, Children.nodup_live_paths_children V _ h _, ?_⟩
  · by_cases he : t.node.exists_ = true <;> simp [he]
  · intro q hA hB
    rw [Children.mem_live_paths_children V _ h] at hB
    obtain ⟨c, r, child, hq, _, _⟩ := hB
    by_cases he : t.node.exists_ = true
    · simp only [he, if_true, List.mem_singleton] at hA
      rw [hA] at hq
      have := congrArg List.length hq
      simp at this
    · simp [he] at hA

/-! ### Data members read through pointers -/

theorem PathTrie.isLive_eq_node? (t : PathTrie) (p : Path) :
    t.isLive p = match t.node? p with
      | some n => n.exists_
      | none => false := by
  unfold PathTrie.isLive PathTrie.node?
  cases t.at? p <;> rfl

theorem PathTrie.get_eq_node? (t : PathTrie) (p : Path) :
    t.get p = (t.node? p).getD PathTrie.new.node := by
  unfold PathTrie.get PathTrie.node?
  cases t.at? p <;> rfl

theorem PathTrie.node?_of_isLive (t : PathTrie) (p : Path) (h : t.isLive p = true) :
    ∃ n, t.node? p = some n ∧ n.exists_ = true := by
  rw [PathTrie.isLive_eq_node?] at h
  cases hn : t.node? p with
  | none => rw [hn] at h; cases h
  | some n => rw [hn] at h; exact ⟨n, rfl, h⟩

/-- A write that leaves the child list of its target alone changes the data
members at the target only. -/
theorem PathTrie.node?_update_node (t : PathTrie) (p q : Path) (f : PathTrie → PathTrie)
    (hf : ∀ x, (f x).children_ = x.children_) :
    (t.update p f).node? q
      = if q = p then (t.at? p).map (fun x => (f x).node) else t.node? q := by
  unfold PathTrie.node?
  rcases Path.trichotomy p q with ⟨r, rfl⟩ | ⟨c, r, rfl⟩ | ⟨h1, h2⟩
  · rw [PathTrie.at?_update_append, PathTrie.at?_append]
    cases r with
    | nil =>
      simp only [List.append_nil, if_true]
      cases t.at? p <;> rfl
    | cons c r =>
      have hne : p ++ c :: r ≠ p := by
        intro h
        have := congrArg List.length h
        simp at this
      rw [if_neg hne]
      cases t.at? p with
      | none => rfl
      | some x =>
        simp only [Option.some_bind]
        rw [PathTrie.at?_cons, PathTrie.at?_cons, hf]
  · have hne : q ≠ q ++ c :: r := by
      intro h
      have := congrArg List.length h
      simp at this
    rw [if_neg hne, PathTrie.at?_update_above]
    cases t.at? q <;> rfl
  · have hne : q ≠ p := by
      intro h
      exact h1 (h ▸ List.prefix_refl _)
    rw [if_neg hne, PathTrie.at?_update_off _ _ _ _ h1 h2]

theorem PathTrie.at?_update_node_self (t : PathTrie) (p : Path) (f : PathTrie → PathTrie) :
    ((t.update p f).at? p).map (fun x => x.children_)
      = (t.at? p).map (fun x => (f x).children_) := by
  rw [PathTrie.at?_update_self]
  cases t.at? p <;> rfl

theorem Children.size_eq_zero (cs : Children) (h : cs.size = 0) : cs = Children.nil := by
  cases cs with
  | nil => rfl
  | cons _ _ _ _ => simp [Children.size] at h

theorem Children.size_pos_of_find? (cs : Children) (c : Int) (x : PathTrie)
    (h : cs.find? c = some x) : cs.size ≠ 0 := by
  cases cs with
  | nil => cases h
  | cons _ _ _ _ => simp [Children.size]

/-- Erasing the childless child labelled `c` of the node at `parent`: the node
at `parent ++ [c]` is gone, every other node keeps its data members. -/
theorem PathTrie.node?_update_erase (V : Nat) (t : PathTrie) (parent : Path) (c : Int)
    (x : PathTrie) (hwf : t.children_.WF V) (hx : t.at? (parent ++ [c]) = some x)
    (hnil : x.children_ = Children.nil) (q : Path) :
    (t.update parent (fun y => { y with children_ := y.children_.erase c })).node? q
      = if q = parent ++ [c] then none else t.node? q := by
  unfold PathTrie.node?
  rcases Path.trichotomy parent q with ⟨r, rfl⟩ | ⟨d, r, rfl⟩ | ⟨h1, h2⟩
  · rw [PathTrie.at?_update_append, PathTrie.at?_append]
    rw [PathTrie.at?_append] at hx
    cases hp : t.at? parent with
    | none => rw [hp] at hx; cases hx
    | some y =>
      rw [hp] at hx
      simp only [Option.some_bind] at hx ⊢
      have hy := PathTrie.WF_at? V t y parent hwf hp
      cases r with
      | nil =>
        have hne : parent ++ [] ≠ parent ++ [c] := by
          intro h
          have := congrArg List.length h
          simp at this
        rw [if_neg hne]
        rfl
      | cons d r =>
        rw [PathTrie.at?_cons] at hx ⊢
        rw [PathTrie.at?_cons]
        by_cases hd : d = c
        · subst hd
          simp only [Children.find?_erase_self V _ _ hy, Option.none_bind, Option.map_none']
          cases hf : y.children_.find? d with
          | none => rw [hf] at hx; cases hx
          | some z =>
            rw [hf] at hx
            simp only [Option.some_bind, PathTrie.at?_nil] at hx
            cases hx
            cases r with
            | nil => simp
            | cons e r =>
              have hne : parent ++ d :: e :: r ≠ parent ++ [d] := by
                intro h
                have := congrArg List.length h
                simp at this
              rw [if_neg hne]
              simp only [Option.some_bind]
              rw [PathTrie.at?_cons, hnil]
              rfl
        · have hne : parent ++ d :: r ≠ parent ++ [c] := by
            intro h
            have := List.append_cancel_left h
            simp at this
            exact hd this.1
          rw [if_neg hne]
          simp only [Children.find?_erase_ne _ _ _ hd]
  · have hne : q ≠ q ++ d :: r ++ [c] := by
      intro h
      have := congrArg List.length h
      simp at this
    rw [if_neg hne, PathTrie.at?_update_above]
    cases t.at? q <;> rfl
  · have hne : q ≠ parent ++ [c] := by
      intro h
      exact h1 (h ▸ List.prefix_append _ _)
    rw [if_neg hne, PathTrie.at?_update_off _ _ _ _ h1 h2]

/-! ### `remove` -/

theorem PathTrie.Shrinks.shrinks_refl (t : PathTrie) : t.Shrinks t := by
  intro q
  cases h : t.node? q with
  | none => exact Or.inl rfl
  | some n => exact Or.inr ⟨n, rfl, Or.inl rfl⟩

theorem PathTrie.Shrinks.shrinks_trans (t1 t2 t3 : PathTrie) (h12 : t1.Shrinks t2)
    (h23 : t2.Shrinks t3) : t1.Shrinks t3 := by
  intro q
  rcases h23 q with h | ⟨n2, hn2, h⟩
  · exact Or.inl h
  · rcases h12 q with h' | ⟨n1, hn1, h'⟩
    · rw [h'] at hn2; cases hn2
    · right
      refine ⟨n1, hn1, ?_⟩
      rw [hn2] at h'
      rcases h' with h' | h'
      · cases h'
        exact h
      · cases h'
        rcases h with h | h
        · exact Or.inr h
        · exact Or.inr h

/-- A live node of the smaller trie has the data members it has in the larger
one. -/
theorem PathTrie.Shrinks.node?_eq_of_isLive (t t' : PathTrie) (h : t.Shrinks t') (q : Path)
    (hq : t'.isLive q = true) : t'.node? q = t.node? q := by
  obtain ⟨n', hn', he⟩ := PathTrie.node?_of_isLive t' q hq
  rcases h q with h | ⟨n, hn, h | h⟩
  · rw [h] at hn'; cases hn'
  · rw [h, hn]
  · rw [h] at hn'
    cases hn'
    cases he

theorem PathTrie.Shrinks_of_node? (t t' : PathTrie) (p : Path)
    (h : ∀ q, t'.node? q = if q = p then (t.node? p).map (fun n => { n with exists_ := false })
      else t.node? q) : t.Shrinks t' := by
  intro q
  rw [h q]
  by_cases hq : q = p
  · subst hq
    rw [if_pos rfl]
    cases hn : t.node? q with
    | none => exact Or.inl rfl
    | some n => exact Or.inr ⟨n, rfl, Or.inr rfl⟩
  · rw [if_neg hq]
    cases hn : t.node? q with
    | none => exact Or.inl rfl
    | some n => exact Or.inr ⟨n, rfl, Or.inl rfl⟩

theorem PathTrie.Shrinks_of_node?_none (t t' : PathTrie) (p : Path)
    (h : ∀ q, t'.node? q = if q = p then none else t.node? q) : t.Shrinks t' := by
  intro q
  rw [h q]
  by_cases hq : q = p
  · rw [if_pos hq]; exact Or.inl rfl
  · rw [if_neg hq]
    cases hn : t.node? q with
    | none => exact Or.inl rfl
    | some n => exact Or.inr ⟨n, rfl, Or.inl rfl⟩

theorem band_ne_of_eq (b : Bool) (q p : Path) (h : q = p) : (b && decide (q ≠ p)) = false := by
  simp [h]

theorem band_ne_of_ne (b : Bool) (q p : Path) (h : q ≠ p) : (b && decide (q ≠ p)) = b := by
  simp [h]

theorem node?_update_tombstone (t : PathTrie) (p q : Path) :
    (t.update p tombstone).node? q
      = if q = p then (t.node? p).map (fun n => { n with exists_ := false }) else t.node? q := by
  rw [PathTrie.node?_update_node t p q tombstone (fun _ => rfl)]
  by_cases hq : q = p
  · rw [if_pos hq, if_pos hq]
    unfold PathTrie.node?
    cases t.at? p <;> rfl
  · rw [if_neg hq, if_neg hq]

theorem isLive_update_tombstone (t : PathTrie) (p q : Path) :
    (t.update p tombstone).isLive q = (t.isLive q && decide (q ≠ p)) := by
  rw [PathTrie.isLive_eq_node?, PathTrie.isLive_eq_node?, node?_update_tombstone]
  by_cases hq : q = p
  · rw [if_pos hq, band_ne_of_eq _ _ _ hq]
    cases t.node? p <;> rfl
  · rw [if_neg hq, band_ne_of_ne _ _ _ hq]

theorem PathTrie.remove_rev_spec (V : Nat) :
    ∀ (rp : List Int) (root : PathTrie), root.children_.WF V →
      (root.at? rp.reverse).isSome = true →
      (∃ q, root.isLive q = true ∧ q ≠ rp.reverse) →
      ∃ root', PathTrie.remove_rev rp root = Except.ok root' ∧ root'.children_.WF V
        ∧ root'.node.character = root.node.character
        ∧ (∀ q, root'.isLive q = (root.isLive q && decide (q ≠ rp.reverse)))
        ∧ root.Shrinks root' := by
  intro rp
  induction rp with
  | nil =>
    intro root hwf _ ⟨q0, hq0, hne⟩
    have hsize : root.children_.size ≠ 0 := by
      cases q0 with
      | nil => exact absurd rfl hne
      | cons c r =>
        rw [PathTrie.isLive_cons] at hq0
        cases hf : root.children_.find? c with
        | none => rw [hf] at hq0; cases hq0
        | some x => exact Children.size_pos_of_find? _ _ _ hf
    refine ⟨root.update [] tombstone, ?_, hwf, rfl, ?_, ?_⟩
    · simp only [PathTrie.remove_rev, hsize, if_false]
      rfl
    · intro q
      exact isLive_update_tombstone root [] q
    · exact PathTrie.Shrinks_of_node? _ _ [] (node?_update_tombstone root [])
  | cons c rparent ih =>
    intro root hwf hvalid ⟨q0, hq0, hne⟩
    have hp : (c :: rparent).reverse = rparent.reverse ++ [c] := by simp
    cases hthis : root.at? (c :: rparent).reverse with
    | none => rw [hthis] at hvalid; cases hvalid
    | some this =>
      have hwf1 : (root.update (c :: rparent).reverse tombstone).children_.WF V
          ∧ (root.update (c :: rparent).reverse tombstone).node.character
              = root.node.character := by
        have := PathTrie.WF_update V root (c :: rparent).reverse tombstone hwf
          (fun x hx => ⟨rfl, hx⟩)
        exact ⟨this.2, this.1⟩
      by_cases hsize : this.children_.size = 0
      · -- childless: unlink from the parent
        have hnil := Children.size_eq_zero _ hsize
        -- the parent
        have hpar : ∃ par, root.at? rparent.reverse = some par
            ∧ par.children_.find? c = some this := by
          rw [hp, PathTrie.at?_append] at hthis
          cases hpar : root.at? rparent.reverse with
          | none => rw [hpar] at hthis; cases hthis
          | some par =>
            rw [hpar] at hthis
            simp only [Option.some_bind, PathTrie.at?_cons] at hthis
            cases hf : par.children_.find? c with
            | none => rw [hf] at hthis; cases hthis
            | some z =>
              rw [hf] at hthis
              simp only [Option.some_bind, PathTrie.at?_nil] at hthis
              cases hthis
              exact ⟨par, rfl, hf⟩
        obtain ⟨par, hpar, hfind⟩ := hpar
        have hchar : this.node.character = c :=
          (Children.WF_find? V _ _ _ (PathTrie.WF_at? V root par _ hwf hpar) hfind).1
        have hthis1 : (root.update (c :: rparent).reverse tombstone).at?
            (rparent.reverse ++ [c]) = some (tombstone this) := by
          rw [← hp, PathTrie.at?_update_self, hthis]; rfl
        have hn2 := PathTrie.node?_update_erase V _ rparent.reverse c (tombstone this)
          hwf1.1 hthis1 hnil
        have hwf2 := PathTrie.WF_update V (root.update (c :: rparent).reverse tombstone)
          rparent.reverse (fun y => { y with children_ := y.children_.erase c }) hwf1.1
          (fun x hx => ⟨rfl, Children.WF_erase V _ _ hx⟩)
        generalize hroot2 : (root.update (c :: rparent).reverse tombstone).update
          rparent.reverse (fun y => { y with children_ := y.children_.erase c }) = root2
          at hn2 hwf2
        have hnode2 : ∀ q, root2.node? q
            = if q = (c :: rparent).reverse then none else root.node? q := by
          intro q
          rw [hn2 q, ← hp, node?_update_tombstone]
          by_cases hq : q = (c :: rparent).reverse
          · simp only [if_pos hq]
          · simp only [if_neg hq]
        have hlive2 : ∀ q, root2.isLive q
            = (root.isLive q && decide (q ≠ (c :: rparent).reverse)) := by
          intro q
          rw [PathTrie.isLive_eq_node?, PathTrie.isLive_eq_node?, hnode2]
          by_cases hq : q = (c :: rparent).reverse
          · rw [if_pos hq, band_ne_of_eq _ _ _ hq]
          · rw [if_neg hq, band_ne_of_ne _ _ _ hq]
        have hshr2 : root.Shrinks root2 := PathTrie.Shrinks_of_node?_none _ _ _ hnode2
        have hpar2 : ∃ par2, root2.at? rparent.reverse = some par2 := by
          rw [← hroot2, PathTrie.at?_update_self]
          have := PathTrie.at?_update_above root rparent.reverse c [] tombstone
          rw [← hp] at this
          rw [this, hpar]
          exact ⟨_, rfl⟩
        obtain ⟨par2, hpar2⟩ := hpar2
        have hrem : PathTrie.remove_rev (c :: rparent) root
            = if par2.children_.size = 0 ∧ par2.node.exists_ = false then
                PathTrie.remove_rev rparent root2
              else Except.ok root2 := by
          rw [PathTrie.remove_rev]
          simp only [hthis, hsize, if_true, hchar]
          have e : (root.update (c :: rparent).reverse
              (fun t => { t with node := { t.node with exists_ := false } })).update
              rparent.reverse (fun parent => { parent with children_ := parent.children_.erase c })
              = root2 := hroot2
          rw [e, hpar2]
        rw [hrem]
        by_cases hcas : par2.children_.size = 0 ∧ par2.node.exists_ = false
        · rw [if_pos hcas]
          have hparlive : root2.isLive rparent.reverse = false := by
            unfold PathTrie.isLive
            rw [hpar2]
            exact hcas.2
          have hq02 : root2.isLive q0 = true := by
            rw [hlive2, hq0, band_ne_of_ne _ _ _ hne]
          obtain ⟨root', h1, h2, h3, h4, h5⟩ := ih root2 hwf2.2 (by rw [hpar2]; rfl)
            ⟨q0, hq02, fun h => by rw [h, hparlive] at hq02; cases hq02⟩
          refine ⟨root', h1, h2, ?_, ?_, PathTrie.Shrinks.shrinks_trans _ _ _ hshr2 h5⟩
          · rw [h3, hwf2.1, hwf1.2]
          · intro q
            rw [h4, hlive2]
            by_cases hq : q = rparent.reverse
            · subst hq
              rw [hlive2] at hparlive
              rw [hparlive]
              rfl
            · rw [band_ne_of_ne _ _ _ hq]
        · rw [if_neg hcas]
          exact ⟨root2, rfl, hwf2.2, by rw [hwf2.1, hwf1.2], hlive2, hshr2⟩
      · refine ⟨root.update (c :: rparent).reverse tombstone, ?_, hwf1.1, hwf1.2, ?_, ?_⟩
        · rw [PathTrie.remove_rev]
          simp only [hthis, hsize, if_false]
          rfl
        · intro q
          exact isLive_update_tombstone root _ q
        · exact PathTrie.Shrinks_of_node? _ _ _ (node?_update_tombstone root _)

/-! ### The pruning loop -/

theorem remove_all_spec (V : Nat) :
    ∀ (l : List Path) (root : PathTrie), root.children_.WF V → l.Nodup →
      (∀ p ∈ l, root.isLive p = true) → (∃ q, root.isLive q = true ∧ q ∉ l) →
      ∃ root', remove_all l root = Except.ok root' ∧ root'.children_.WF V
        ∧ root'.node.character = root.node.character
        ∧ (∀ q, root'.isLive q = (root.isLive q && decide (q ∉ l)))
        ∧ root.Shrinks root' := by
  intro l
  induction l with
  | nil =>
    intro root hwf _ _ _
    exact ⟨root, rfl, hwf, rfl, fun q => by simp, PathTrie.Shrinks.shrinks_refl root⟩
  | cons p rest ih =>
    intro root hwf hnd hlive ⟨q0, hq0, hq0l⟩
    have hp_live := hlive p (List.mem_cons_self _ _)
    have hvalid : (root.at? p.reverse.reverse).isSome = true := by
      rw [List.reverse_reverse]
      unfold PathTrie.isLive at hp_live
      cases h : root.at? p with
      | none => rw [h] at hp_live; cases hp_live
      | some x => rfl
    have hq0p : q0 ≠ p := fun h => hq0l (h ▸ List.mem_cons_self _ _)
    obtain ⟨root1, h1, h2, h3, h4, h5⟩ := PathTrie.remove_rev_spec V p.reverse root hwf hvalid
      ⟨q0, hq0, by rw [List.reverse_reverse]; exact hq0p⟩
    rw [List.reverse_reverse] at h4
    have hnd' := List.nodup_cons.1 hnd
    obtain ⟨root', g1, g2, g3, g4, g5⟩ := ih root1 h2 hnd'.2
      (fun p' hp' => by
        rw [h4, hlive p' (List.mem_cons_of_mem _ hp')]
        have : p' ≠ p := fun h => hnd'.1 (h ▸ hp')
        simp [this])
      ⟨q0, by rw [h4, hq0]; simp [hq0p], fun h => hq0l (List.mem_cons_of_mem _ h)⟩
    refine ⟨root', ?_, g2, g3.trans h3, ?_, PathTrie.Shrinks.shrinks_trans _ _ _ h5 g5⟩
    · unfold remove_all PathTrie.remove
      rw [h1]
      exact g1
    · intro q
      rw [g4, h4]
      by_cases hq : q = p
      · simp [hq]
      · simp [hq]

/-! ### Sorting -/

theorem perm_std_sort {α : Type} (comp : α → α → Bool) (l : List α) :
    (std_sort comp l).Perm l :=
  List.perm_insertionSort _ l

theorem perm_std_nth_element {α : Type} (comp : α → α → Bool) (n : Nat) (l : List α) :
    (std_nth_element comp n l).Perm l := by
  unfold std_nth_element
  split_ifs
  · exact List.Perm.refl l
  · exact perm_std_sort comp l

theorem length_std_nth_element {α : Type} (comp : α → α → Bool) (n : Nat) (l : List α) :
    (std_nth_element comp n l).length = l.length :=
  (perm_std_nth_element comp n l).length_eq

theorem take_sort_first {α : Type} (comp : α → α → Bool) (K : Nat) (l : List α) :
    (sort_first comp (min l.length K) l).take K = std_sort comp (l.take K) := by
  unfold sort_first
  by_cases h : l.length ≤ K
  · rw [min_eq_left h, List.take_of_length_le (le_refl _), List.drop_of_length_le (le_refl _),
      List.append_nil, List.take_of_length_le h, List.take_of_length_le]
    rw [length_std_sort]; exact h
  · have h' : K ≤ l.length := by omega
    rw [min_eq_right h', List.take_append_of_le_length, List.take_of_length_le]
    · rw [length_std_sort, List.length_take]; omega
    · rw [length_std_sort, List.length_take]; omega

theorem length_sort_first {α : Type} (comp : α → α → Bool) (n : Nat) (l : List α) :
    (sort_first comp n l).length = l.length := by
  unfold sort_first
  rw [List.length_append, length_std_sort, List.length_take, List.length_drop]
  omega

/-- The invariant of the beam does not depend on the order of the beam. -/
theorem BeamInv_of_perm (V K : Nat) (root : PathTrie) (l l' : List Path)
    (h : BeamInv V K (root, l)) (hp : (l'.take K).Perm (l.take K)) : BeamInv V K (root, l') := by
  obtain ⟨h1, h2, h3, h4⟩ := h
  refine ⟨h1, hp.nodup_iff.2 h2, fun q => ?_, ?_⟩
  · rw [← h3 q]; exact hp.mem_iff
  · intro h
    apply h4
    have := hp.length_eq
    rw [h] at this
    exact List.eq_nil_of_length_eq_zero this.symm

theorem BeamInv.stateOK (V K : Nat) (st : PathTrie × List Path) (h : BeamInv V K st) :
    StateOK V st.1 := by
  obtain ⟨h1, _, h3, h4⟩ := h
  refine ⟨h1, ?_⟩
  cases hl : st.2.take K with
  | nil => exact absurd hl h4
  | cons q _ => exact ⟨q, (h3 q).1 (by rw [hl]; exact List.mem_cons_self _ _)⟩

/-- The roll-and-prune block turns a well-formed trie with a live node into a
state that satisfies the invariant of the beam. -/
theorem roll_and_prune_spec (V K : Nat) (root : PathTrie) (hK : 1 ≤ K) (h : StateOK V root) :
    ∃ st, roll_and_prune K root = Except.ok st ∧ BeamInv V K st
      ∧ root.rolled.Shrinks st.1
      ∧ st.2.Perm (root.live_paths []) := by
  obtain ⟨hwf, q0, hq0⟩ := h
  have hwfr := PathTrie.WF_rolled V root hwf
  have hnd := PathTrie.nodup_live_paths V root hwf.2 []
  have hmem : ∀ q, q ∈ root.live_paths [] ↔ root.rolled.isLive q = true := by
    intro q
    rw [PathTrie.mem_live_paths V root hwf.2, PathTrie.isLive_rolled]
    simp
  unfold roll_and_prune
  simp only [PathTrie.iterate_to_vec_eq, List.nil_append]
  by_cases hn : (root.live_paths []).length ≥ K
  · rw [if_pos hn]
    generalize hpre : std_nth_element (prefix_compare_at root.rolled) K (root.live_paths [])
      = prefixes
    have hperm : prefixes.Perm (root.live_paths []) := by
      rw [← hpre]; exact perm_std_nth_element _ _ _
    have hnd' : prefixes.Nodup := hperm.nodup_iff.2 hnd
    have hsplit : (prefixes.take K ++ prefixes.drop K).Nodup := by
      rw [List.take_append_drop]; exact hnd'
    rw [List.nodup_append] at hsplit
    have hlen : prefixes.length ≥ K := by rw [hperm.length_eq]; exact hn
    have hne : prefixes.take K ≠ [] := by
      intro h
      have := congrArg List.length h
      rw [List.length_take, List.length_nil] at this
      omega
    obtain ⟨q1, hq1⟩ := List.exists_mem_of_ne_nil _ hne
    obtain ⟨root', g1, g2, g3, g4, g5⟩ := remove_all_spec V (prefixes.drop K) root.rolled
      hwfr.2 hsplit.2.1
      (fun p hp => (hmem p).1 (hperm.mem_iff.1 (List.mem_of_mem_drop hp)))
      ⟨q1, (hmem q1).1 (hperm.mem_iff.1 (List.mem_of_mem_take hq1)),
        fun h => hsplit.2.2 hq1 h⟩
    rw [g1]
    refine ⟨(root', prefixes), rfl, ⟨⟨g3.trans hwfr.1, g2⟩, hsplit.1, ?_, hne⟩, g5, hperm⟩
    intro q
    rw [g4]
    constructor
    · intro hq
      rw [(hmem q).1 (hperm.mem_iff.1 (List.mem_of_mem_take hq))]
      simp only [Bool.true_and, decide_eq_true_eq]
      exact fun h => hsplit.2.2 hq h
    · intro hq
      simp only [Bool.and_eq_true, decide_eq_true_eq] at hq
      have : q ∈ prefixes.take K ++ prefixes.drop K := by
        rw [List.take_append_drop]
        exact hperm.mem_iff.2 ((hmem q).2 hq.1)
      rcases List.mem_append.1 this with h | h
      · exact h
      · exact absurd h hq.2
  · rw [if_neg hn]
    have htake : (root.live_paths []).take K = root.live_paths [] :=
      List.take_of_length_le (by omega)
    refine ⟨(root.rolled, root.live_paths []), rfl, ⟨hwfr, ?_, ?_, ?_⟩,
      PathTrie.Shrinks.shrinks_refl _, List.Perm.refl _⟩
    · show ((root.live_paths []).take K).Nodup
      rw [htake]; exact hnd
    · intro q
      show q ∈ (root.live_paths []).take K ↔ _
      rw [htake]; exact hmem q
    · show (root.live_paths []).take K ≠ []
      rw [htake]
      intro h
      have := (hmem q0).2 (by rw [PathTrie.isLive_rolled]; exact hq0)
      rw [h] at this
      cases this

/-! ### The loop over time keeps the invariant of the beam -/

theorem pruned_prob_idx_index_lt (prob_step : List ℚ) (cutoff_prob : ℚ) (cutoff_top_n : Nat) :
    ∀ x ∈ (pruned_prob_idx prob_step cutoff_prob cutoff_top_n).1, x.1 < prob_step.length := by
  intro x hx
  unfold pruned_prob_idx at hx
  simp only at hx
  split_ifs at hx
  · exact List.fst_lt_of_mem_enum ((perm_std_sort _ _).mem_iff.1 (List.mem_of_mem_take hx))
  · exact List.fst_lt_of_mem_enum ((perm_std_sort _ _).mem_iff.1 (List.mem_of_mem_take hx))
  · exact List.fst_lt_of_mem_enum hx

theorem get_pruned_log_probs_index_lt (prob_step : List ℚ) (cutoff_prob : ℚ)
    (cutoff_top_n : Nat) :
    ∀ x ∈ get_pruned_log_probs prob_step cutoff_prob cutoff_top_n, x.1 < prob_step.length := by
  intro x hx
  unfold get_pruned_log_probs at hx
  simp only [List.mem_map] at hx
  obtain ⟨p, hp, rfl⟩ := hx
  exact pruned_prob_idx_index_lt prob_step cutoff_prob cutoff_top_n p (List.mem_of_mem_take hp)

theorem frame_step_inv (V K blank_id : Nat) (cutoff_prob : ℚ) (cutoff_top_n : Nat)
    (ext_scorer : Option Scorer) (body : Nat × LogProb → Path → PathTrie → PathTrie)
    (prob : List ℚ) (st : PathTrie × List Path) (hK : 1 ≤ K) (h : BeamInv V K st)
    (hscorer : ext_scorer = none ∨ blank_id < prob.length)
    (hbody : ∀ s ∈ get_pruned_log_probs prob cutoff_prob cutoff_top_n, ∀ p x,
      x.children_.WF V →
        (body s p x).node.character = x.node.character ∧ (body s p x).children_.WF V
          ∧ ∀ r, x.isLive r = true → (body s p x).isLive r = true) :
    ∃ st', frame_step K blank_id cutoff_prob cutoff_top_n ext_scorer body prob st
        = Except.ok st' ∧ BeamInv V K st' := by
  have hok := BeamInv.stateOK V K st h
  have key : ∀ (stop : Nat × LogProb → Node → Bool) (beam : List Path),
      ∃ st', roll_and_prune K (expand_symbols stop body beam
        (get_pruned_log_probs prob cutoff_prob cutoff_top_n) st.1) = Except.ok st'
        ∧ BeamInv V K st' := by
    intro stop beam
    obtain ⟨st', h1, h2, _⟩ := roll_and_prune_spec V K _ hK
      (expand_symbols_StateOK V stop body _ hbody beam st.1 hok)
    exact ⟨st', h1, h2⟩
  unfold frame_step
  cases ext_scorer with
  | none =>
    simp only [pre_sort]
    exact key _ _
  | some scorer =>
    have hlen : min st.2.length K ≠ 0 := by
      obtain ⟨_, _, _, h4⟩ := h
      intro h0
      apply h4
      apply List.eq_nil_of_length_eq_zero
      rw [List.length_take]
      rw [min_comm]
      exact h0
    have hb : ¬ prob.length ≤ blank_id := by
      rcases hscorer with h' | h'
      · cases h'
      · omega
    simp only [pre_sort, hlen, hb, or_self, if_false]
    exact key _ _

theorem time_loop_inv (V K : Nat)
    (step : Nat → List ℚ → PathTrie × List Path → Except DecodeError (PathTrie × List Path))
    (frames : List (List ℚ))
    (hstep : ∀ t, ∀ prob ∈ frames, ∀ st, BeamInv V K st →
      ∃ st', step t prob st = Except.ok st' ∧ BeamInv V K st') :
    ∀ (t : Nat) (st : PathTrie × List Path), BeamInv V K st →
      ∃ st', time_loop step frames t st = Except.ok st' ∧ BeamInv V K st' := by
  induction frames with
  | nil => intro t st h; exact ⟨st, rfl, h⟩
  | cons prob rest ih =>
    intro t st h
    obtain ⟨st1, h1, h2⟩ := hstep t prob (List.mem_cons_self _ _) st h
    obtain ⟨st', g1, g2⟩ := ih (fun t' prob' hp st'' => hstep t' prob' (List.mem_cons_of_mem _ hp) st'')
      (t + 1) st1 h2
    refine ⟨st', ?_, g2⟩
    unfold time_loop
    rw [h1]
    exact g1

theorem shape_ok_mem (probs_seq : List (List ℚ)) (width : Nat)
    (h : shape_ok probs_seq width = true) : ∀ prob ∈ probs_seq, prob.length = width := by
  intro prob hp
  unfold shape_ok at h
  rw [List.all_eq_true] at h
  simpa using h prob hp

theorem init_root_WF (V : Nat) (ext_scorer : Option Scorer) : (init_root ext_scorer).WF V := by
  unfold init_root
  cases ext_scorer with
  | none => exact ⟨rfl, trivial⟩
  | some scorer =>
    by_cases h : scorer.is_character_based = false
    · simp only [h, if_true]; exact ⟨rfl, trivial⟩
    · simp only [h, if_false]; exact ⟨rfl, trivial⟩

theorem init_root_isLive (ext_scorer : Option Scorer) :
    (init_root ext_scorer).isLive [] = true := by
  unfold init_root
  cases ext_scorer with
  | none => rfl
  | some scorer =>
    by_cases h : scorer.is_character_based = false
    · simp only [h, if_true]; rfl
    · simp only [h, if_false]; rfl

theorem init_root_children (ext_scorer : Option Scorer) :
    (init_root ext_scorer).children_ = Children.nil := by
  unfold init_root
  cases ext_scorer with
  | none => rfl
  | some scorer =>
    by_cases h : scorer.is_character_based = false
    · simp only [h, if_true]; rfl
    · simp only [h, if_false]; rfl

/-- The state both decoders start from satisfies the invariant of the beam. -/
theorem init_BeamInv (V K : Nat) (hK : 1 ≤ K) (ext_scorer : Option Scorer) :
    BeamInv V K (init_root ext_scorer, [[]]) := by
  have htake : ([[]] : List Path).take K = [[]] := by
    cases K with
    | zero => omega
    | succ k => simp
  refine ⟨init_root_WF V ext_scorer, ?_, ?_, ?_⟩
  · show (([[]] : List Path).take K).Nodup
    rw [htake]; simp
  · intro q
    show q ∈ ([[]] : List Path).take K ↔ _
    rw [htake]
    cases q with
    | nil => simp [init_root_isLive]
    | cons c r =>
      simp only [List.mem_singleton, PathTrie.isLive_cons, init_root_children, Children.find?]
      simp
  · show ([[]] : List Path).take K ≠ []
    rw [htake]; simp

/-! ### Walking from a node to the root, rendering -/

theorem PathTrie.chain_spec (V : Nat) (t : PathTrie) (p : Path) (hwf : t.children_.WF V)
    (hp : (t.at? p).isSome = true) :
    ∃ ns, t.chain p = t.node :: ns ∧ ns.map (fun n => n.character) = p
      ∧ ∀ c ∈ p, 0 ≤ c ∧ c < (V : Int) := by
  induction p generalizing t with
  | nil => exact ⟨[], rfl, rfl, fun c hc => by cases hc⟩
  | cons c p ih =>
    rw [PathTrie.at?_cons] at hp
    cases hf : t.children_.find? c with
    | none => rw [hf] at hp; cases hp
    | some child =>
      rw [hf] at hp
      obtain ⟨g1, g2, g3, g4⟩ := Children.WF_find? V _ _ _ hwf hf
      obtain ⟨ns, h1, h2, h3⟩ := ih child g4 hp
      refine ⟨child.node :: ns, ?_, ?_, ?_⟩
      · rw [PathTrie.chain, hf]
        simp only [h1]
      · simp [g1, h2]
      · intro d hd
        rcases List.mem_cons.1 hd with rfl | hd
        · exact ⟨g2, g3⟩
        · exact h3 d hd

theorem get_path_vec2_up_output (ns : List Node) (rn : Node) (hrn : rn.character = ROOT_)
    (hns : ∀ n ∈ ns, n.character ≠ ROOT_) :
    ∀ (output : List Int) (timestamps : Option (List Nat)),
      (get_path_vec2_up (ns ++ [rn]) output timestamps).1
        = (output ++ ns.map (fun n => n.character)).reverse := by
  induction ns with
  | nil =>
    intro output timestamps
    simp [get_path_vec2_up, hrn]
  | cons n ns ih =>
    intro output timestamps
    have hn := hns n (List.mem_cons_self _ _)
    rw [List.cons_append, get_path_vec2_up, if_neg hn,
      ih (fun m hm => hns m (List.mem_cons_of_mem _ hm))]
    simp

/-- In a well-formed trie `get_path_vec2` collects the symbols of the pointer
it is called through. -/
theorem PathTrie.get_path_vec2_output (V : Nat) (root : PathTrie) (p : Path)
    (hwf : root.WF V) (hp : (root.at? p).isSome = true) (timestamps : Option (List Nat)) :
    (root.get_path_vec2 p timestamps).1 = p := by
  obtain ⟨ns, h1, h2, h3⟩ := PathTrie.chain_spec V root p hwf.2 hp
  unfold PathTrie.get_path_vec2
  rw [h1, List.reverse_cons]
  rw [get_path_vec2_up_output ns.reverse root.node hwf.1]
  · simp [h2]
  · intro n hn
    have hc : n.character ∈ p := by
      rw [← h2]
      exact List.mem_map_of_mem _ (List.mem_reverse.1 hn)
    have := (h3 _ hc).1
    intro h
    rw [h] at this
    unfold ROOT_ at this
    omega

theorem render_loop_ok (vocabulary : List String) (htok : TokensOK vocabulary)
    (output : List Int) (hout : ∀ c ∈ output, 0 ≤ c ∧ c < (vocabulary.length : Int)) :
    ∀ (i : Nat) (acc : String), ∃ s, render_loop vocabulary output i acc = Except.ok s := by
  induction output with
  | nil => intro i acc; exact ⟨acc, rfl⟩
  | cons c rest ih =>
    intro i acc
    have hc := hout c (List.mem_cons_self _ _)
    have hrest := ih (fun d hd => hout d (List.mem_cons_of_mem _ hd))
    have h1 : ¬ (c < 0 ∨ vocabulary.length ≤ c.toNat) := by
      intro h
      rcases h with h | h
      · omega
      · have : (c.toNat : Int) = c := Int.toNat_of_nonneg hc.1
        omega
    rw [render_loop, if_neg h1]
    by_cases h2 : (vocabulary.getD c.toNat "").data.take 1 = ['#']
    · rw [if_pos h2]
      have hmem : vocabulary.getD c.toNat "" ∈ vocabulary := by
        have hlt : c.toNat < vocabulary.length := by
          have : (c.toNat : Int) = c := Int.toNat_of_nonneg hc.1
          omega
        rw [List.getD_eq_getElem _ _ hlt]
        exact List.getElem_mem _
      have h3 : ¬ (vocabulary.getD c.toNat "").data.length < 2 := by
        have := htok _ hmem h2
        omega
      rw [if_neg h3]
      exact hrest _ _
    · rw [if_neg h2]
      exact hrest _ _

theorem output_loop_ok (V : Nat) (root : PathTrie) (vocabulary : List String)
    (hV : V = vocabulary.length) (htok : TokensOK vocabulary) (hwf : root.WF V) :
    ∀ (l : List Path), (∀ p ∈ l, (root.at? p).isSome = true) →
      ∃ out, output_loop root vocabulary l = Except.ok out
        ∧ out.map Prod.fst = l.map (fun p => (root.get p).score)
        ∧ out.map Prod.snd = l.map (fun p => (render vocabulary p).toOption.getD "") := by
  intro l
  induction l with
  | nil => intro _; exact ⟨[], rfl, rfl, rfl⟩
  | cons p rest ih =>
    intro hl
    have hp := hl p (List.mem_cons_self _ _)
    obtain ⟨out, h1, h2, h3⟩ := ih (fun q hq => hl q (List.mem_cons_of_mem _ hq))
    obtain ⟨ns, _, _, hsym⟩ := PathTrie.chain_spec V root p hwf.2 hp
    obtain ⟨s, hs⟩ := render_loop_ok vocabulary htok p (by rw [← hV]; exact hsym) 0 ""
    have hr : render vocabulary p = Except.ok s := hs
    refine ⟨((root.get p).score, s) :: out, ?_, ?_, ?_⟩
    · rw [output_loop, PathTrie.get_path_vec2_output V root p hwf hp, hr]
      simp only [h1]
    · simp [h2]
    · simp [h3, hr, Except.toOption]

/-! ### The order of `prefix_compare` -/

theorem prefix_compare_iff (x y : Node) :
    prefix_compare x y = true ↔
      y.score < x.score ∨ (x.score = y.score ∧ x.character < y.character) := by
  unfold prefix_compare
  by_cases h1 : x.score = y.score
  · by_cases h2 : x.character = y.character
    · simp [h1, h2]
    · simp [h1, h2]
  · simp [h1]

theorem prefix_compare_false_iff (x y : Node) :
    prefix_compare x y = false ↔
      x.score < y.score ∨ (x.score = y.score ∧ y.character ≤ x.character) := by
  rw [← Bool.not_eq_true, prefix_compare_iff]
  constructor
  · intro h
    rcases lt_trichotomy x.score y.score with h1 | h1 | h1
    · exact Or.inl h1
    · right
      refine ⟨h1, ?_⟩
      by_contra h2
      exact h (Or.inr ⟨h1, not_le.1 h2⟩)
    · exact absurd (Or.inl h1) h
  · rintro (h1 | ⟨h1, h2⟩) (h3 | ⟨h3, h4⟩)
    · exact lt_asymm h1 h3
    · rw [h3] at h1; exact lt_irrefl _ h1
    · rw [h1] at h3; exact lt_irrefl _ h3
    · exact absurd h4 (not_lt.2 h2)

theorem prefix_compare_total (x y : Node) :
    prefix_compare y x = false ∨ prefix_compare x y = false := by
  rw [prefix_compare_false_iff, prefix_compare_false_iff]
  rcases lt_trichotomy x.score y.score with h1 | h1 | h1
  · exact Or.inr (Or.inl h1)
  · rcases le_total x.character y.character with h2 | h2
    · exact Or.inl (Or.inr ⟨h1.symm, h2⟩)
    · exact Or.inr (Or.inr ⟨h1, h2⟩)
  · exact Or.inl (Or.inl h1)

theorem prefix_compare_trans (x y z : Node) (h1 : prefix_compare y x = false)
    (h2 : prefix_compare z y = false) : prefix_compare z x = false := by
  rw [prefix_compare_false_iff] at h1 h2 ⊢
  rcases h1 with h1 | ⟨h1, h1'⟩ <;> rcases h2 with h2 | ⟨h2, h2'⟩
  · exact Or.inl (lt_trans h2 h1)
  · exact Or.inl (h2 ▸ h1)
  · exact Or.inl (h1 ▸ h2)
  · exact Or.inr ⟨h2.trans h1, le_trans h1' h2'⟩

theorem sorted_std_sort_prefix_compare (root : PathTrie) (l : List Path) :
    (std_sort (prefix_compare_at root) l).Pairwise
      (fun x y => prefix_compare_at root y x = false) := by
  haveI : IsTotal Path (fun x y => prefix_compare_at root y x = false) :=
    ⟨fun x y => prefix_compare_total (root.get x) (root.get y)⟩
  haveI : IsTrans Path (fun x y => prefix_compare_at root y x = false) :=
    ⟨fun x y z h1 h2 => prefix_compare_trans (root.get x) (root.get y) (root.get z) h1 h2⟩
  exact List.sorted_insertionSort _ l

/-- The scores of the prefixes sorted by `prefix_compare` do not increase. -/
theorem scores_std_sort (root : PathTrie) (l : List Path) :
    ((std_sort (prefix_compare_at root) l).map (fun p => (root.get p).score)).Pairwise
      (fun a b => b ≤ a) := by
  rw [List.pairwise_map]
  apply (sorted_std_sort_prefix_compare root l).imp
  intro x y h
  have := (prefix_compare_false_iff _ _).1 h
  rcases this with h1 | ⟨h1, _⟩
  · exact le_of_lt h1
  · exact le_of_eq h1

/-! ### Writes to the scores after the last frame -/

theorem node?_update_keep (t : PathTrie) (p q : Path) (f : PathTrie → PathTrie)
    (hf : ∀ x, (f x).children_ = x.children_) :
    ((t.update p f).node? q).isSome = (t.node? q).isSome := by
  rw [PathTrie.node?_update_node t p q f hf]
  by_cases hq : q = p
  · rw [if_pos hq, hq]
    unfold PathTrie.node?
    cases t.at? p <;> rfl
  · rw [if_neg hq]

theorem isLive_update_keep (t : PathTrie) (p q : Path) (f : PathTrie → PathTrie)
    (hf : ∀ x, (f x).children_ = x.children_)
    (he : ∀ x, (f x).node.exists_ = x.node.exists_) :
    (t.update p f).isLive q = t.isLive q := by
  rw [PathTrie.isLive_eq_node?, PathTrie.isLive_eq_node?,
    PathTrie.node?_update_node t p q f hf]
  by_cases hq : q = p
  · rw [if_pos hq, hq]
    unfold PathTrie.node?
    cases t.at? p with
    | none => rfl
    | some x => exact he x
  · rw [if_neg hq]

theorem SameShape.sameShape_refl (V : Nat) (t : PathTrie) : SameShape V t t :=
  ⟨id, fun _ => rfl, fun _ => rfl⟩

theorem SameShape.sameShape_trans (V : Nat) (t1 t2 t3 : PathTrie) (h12 : SameShape V t1 t2)
    (h23 : SameShape V t2 t3) : SameShape V t1 t3 :=
  ⟨fun h => h23.1 (h12.1 h), fun q => (h23.2.1 q).trans (h12.2.1 q),
    fun q => (h23.2.2 q).trans (h12.2.2 q)⟩

theorem SameShape_update (V : Nat) (t : PathTrie) (p : Path) (f : PathTrie → PathTrie)
    (hf : ∀ x, (f x).children_ = x.children_)
    (he : ∀ x, (f x).node.exists_ = x.node.exists_)
    (hc : ∀ x, (f x).node.character = x.node.character) :
    SameShape V t (t.update p f) := by
  refine ⟨fun h => ?_, fun q => isLive_update_keep t p q f hf he,
    fun q => node?_update_keep t p q f hf⟩
  have := PathTrie.WF_update V t p f h.2 (fun x hx => ⟨hc x, by rw [hf]; exact hx⟩)
  exact ⟨this.1.trans h.1, this.2⟩

theorem final_scores_SameShape (V : Nat) (scorer : Scorer) (l : List Path) (root : PathTrie) :
    SameShape V root (final_scores scorer l root) := by
  induction l generalizing root with
  | nil => exact SameShape.sameShape_refl V root
  | cons p rest ih =>
    unfold final_scores
    split_ifs
    · refine SameShape.sameShape_trans V _ _ _ ?_ (ih _)
      exact SameShape_update V root p _ (fun _ => rfl) (fun _ => rfl) (fun _ => rfl)
    · exact ih _

theorem approx_scores_SameShape (V : Nat) (vocabulary : List String)
    (ext_scorer : Option Scorer) (l : List Path) (root : PathTrie) :
    SameShape V root (approx_scores vocabulary ext_scorer l root) := by
  induction l generalizing root with
  | nil => exact SameShape.sameShape_refl V root
  | cons p rest ih =>
    unfold approx_scores
    refine SameShape.sameShape_trans V _ _ _ ?_ (ih _)
    exact SameShape_update V root p _ (fun _ => rfl) (fun _ => rfl) (fun _ => rfl)

/-! ### The result of a decoding call -/

theorem at?_isSome_of_isLive (t : PathTrie) (p : Path) (h : t.isLive p = true) :
    (t.at? p).isSome = true := by
  unfold PathTrie.isLive at h
  cases hx : t.at? p with
  | none => rw [hx] at h; cases h
  | some x => rfl

theorem at?_isSome_eq_node? (t : PathTrie) (p : Path) :
    (t.at? p).isSome = (t.node? p).isSome := by
  unfold PathTrie.node?
  cases t.at? p <;> rfl

/-- The number of live prefixes is the length of any list without repetition
of the pointers of the live nodes. -/
theorem liveCount_eq_length (V : Nat) (t : PathTrie) (hwf : t.children_.WF V) (l : List Path)
    (hnd : l.Nodup) (hmem : ∀ q, q ∈ l ↔ t.isLive q = true) : t.liveCount = l.length := by
  rw [← PathTrie.length_live_paths t []]
  apply List.Perm.length_eq
  rw [List.perm_ext_iff_of_nodup (PathTrie.nodup_live_paths V t hwf []) hnd]
  intro q
  rw [hmem q, PathTrie.mem_live_paths V t hwf]
  simp

theorem get_beam_search_result_ok (V K : Nat) (root : PathTrie) (prefixes : List Path)
    (vocabulary : List String) (hV : V = vocabulary.length) (htok : TokensOK vocabulary)
    (hwf : root.WF V) (hvalid : ∀ p ∈ prefixes.take K, (root.at? p).isSome = true)
    (hne : prefixes.take K ≠ []) :
    ∃ r, get_beam_search_result root prefixes vocabulary K = Except.ok r
      ∧ r.1.length = (prefixes.take K).length
      ∧ (r.1.map Prod.fst).Pairwise (fun a b => b ≤ a)
      ∧ r.1.map Prod.fst = (std_sort (prefix_compare_at root) (prefixes.take K)).map
          (fun p => (root.get p).score)
      ∧ r.1.map Prod.snd = (std_sort (prefix_compare_at root) (prefixes.take K)).map
          (fun p => (render vocabulary p).toOption.getD "") := by
  have hperm := perm_std_sort (prefix_compare_at root) (prefixes.take K)
  obtain ⟨out, h1, h2, h3⟩ := output_loop_ok V root vocabulary hV htok hwf
    (std_sort (prefix_compare_at root) (prefixes.take K))
    (fun p hp => hvalid p (hperm.mem_iff.1 hp))
  have hlen : out.length = (prefixes.take K).length := by
    have := congrArg List.length h2
    rw [List.length_map, List.length_map, length_std_sort] at this
    exact this
  unfold get_beam_search_result
  simp only [h1]
  cases out with
  | nil =>
    exfalso
    apply hne
    apply List.eq_nil_of_length_eq_zero
    rw [← hlen]; rfl
  | cons best rest =>
    refine ⟨_, rfl, hlen, ?_, h2, h3⟩
    show (List.map Prod.fst (best :: rest)).Pairwise _
    rw [h2]
    exact scores_std_sort root _

/-- From the invariant of the beam to the result of `ctc_beam_search_decoder`:
the final scoring, the last sort and `get_beam_search_result`. -/
theorem one_shot_result (V K : Nat) (root : PathTrie) (prefixes : List Path)
    (vocabulary : List String) (ext_scorer : Option Scorer) (hV : V = vocabulary.length)
    (htok : TokensOK vocabulary) (h : BeamInv V K (root, prefixes)) :
    ∃ r, one_shot_finish vocabulary K ext_scorer (root, prefixes) = Except.ok r
      ∧ r.length = min K root.liveCount ∧ 1 ≤ r.length ∧ r.length ≤ K
      ∧ (r.map Prod.fst).Pairwise (fun a b => b ≤ a) := by
  obtain ⟨hwf, hnd, hmem, hne⟩ := h
  unfold one_shot_finish
  simp only
  generalize hroot1 : (match ext_scorer with
      | some scorer =>
        if scorer.is_character_based = false then
          final_scores scorer (prefixes.take K) root
        else root
      | none => root) = root1
  have hs1 : SameShape V root root1 := by
    rw [← hroot1]
    cases ext_scorer with
    | none => exact SameShape.sameShape_refl V root
    | some scorer =>
      simp only
      split_ifs
      · exact final_scores_SameShape V scorer _ root
      · exact SameShape.sameShape_refl V root
  generalize hpre1 : sort_first (prefix_compare_at root1) (min prefixes.length K) prefixes
    = prefixes1
  have htake : prefixes1.take K = std_sort (prefix_compare_at root1) (prefixes.take K) := by
    rw [← hpre1]; exact take_sort_first _ _ _
  have hperm : (prefixes1.take K).Perm (prefixes.take K) := by
    rw [htake]; exact perm_std_sort _ _
  generalize hroot2 : approx_scores vocabulary ext_scorer (prefixes1.take K) root1 = root2
  have hs2 : SameShape V root root2 := by
    rw [← hroot2]
    exact SameShape.sameShape_trans V _ _ _ hs1 (approx_scores_SameShape V vocabulary ext_scorer _ root1)
  have hvalid : ∀ p ∈ prefixes1.take K, (root2.at? p).isSome = true := by
    intro p hp
    have hl : root.isLive p = true := (hmem p).1 (hperm.mem_iff.1 hp)
    rw [at?_isSome_eq_node?, hs2.2.2 p, ← at?_isSome_eq_node?]
    exact at?_isSome_of_isLive root p hl
  have hne1 : prefixes1.take K ≠ [] := by
    intro h0
    apply hne
    have := hperm.length_eq
    rw [h0] at this
    exact List.eq_nil_of_length_eq_zero this.symm
  obtain ⟨r, g1, g2, g3, _⟩ := get_beam_search_result_ok V K root2 prefixes1 vocabulary hV htok
    (hs2.1 hwf) hvalid hne1
  have hcount : root.liveCount = (prefixes.take K).length :=
    liveCount_eq_length V root hwf.2 _ hnd hmem
  have hlen : r.1.length = (prefixes.take K).length := by rw [g2, hperm.length_eq]
  have hle : (prefixes.take K).length ≤ K := by
    rw [List.length_take]; exact min_le_left _ _
  have hpos : 1 ≤ (prefixes.take K).length := by
    cases hl : prefixes.take K with
    | nil => exact absurd hl hne
    | cons _ _ => simp
  rw [g1]
  refine ⟨r.1, rfl, ?_, ?_, ?_, g3⟩
  · rw [hlen, hcount]; omega
  · rw [hlen]; exact hpos
  · rw [hlen]; exact hle

/-! ### Both decoders keep the invariant of the beam -/

theorem body_one_shot_spec (ext_scorer : Option Scorer) (vocabulary : List String)
    (s : Nat × LogProb) (hs : s.1 < vocabulary.length + 1) (p : Path) (x : PathTrie)
    (hx : x.children_.WF vocabulary.length) :
    (body_one_shot ext_scorer vocabulary s p x).node.character = x.node.character
      ∧ (body_one_shot ext_scorer vocabulary s p x).children_.WF vocabulary.length
      ∧ ∀ r, x.isLive r = true → (body_one_shot ext_scorer vocabulary s p x).isLive r = true := by
  have := expand_spec vocabulary.length vocabulary.length s.1 s.2 (word_end vocabulary s.1)
    (lm_one_shot ext_scorer vocabulary s.1 p) none x hx
    (by
      by_cases h : s.1 = vocabulary.length
      · exact Or.inl h
      · right
        have : s.1 < vocabulary.length := by omega
        exact_mod_cast this)
  exact ⟨this.1, this.2.2.1, this.2.2.2⟩

theorem one_shot_loop_inv (probs_seq : List (List ℚ)) (vocabulary : List String)
    (K : Nat) (cutoff_prob : ℚ) (cutoff_top_n : Nat) (ext_scorer : Option Scorer)
    (hshape : shape_ok probs_seq (vocabulary.length + 1) = true) (hK : 1 ≤ K) :
    ∃ st, one_shot_loop probs_seq vocabulary K cutoff_prob cutoff_top_n ext_scorer
        = Except.ok st ∧ BeamInv vocabulary.length K st := by
  unfold one_shot_loop
  apply time_loop_inv vocabulary.length K _ probs_seq _ 0 _
    (init_BeamInv vocabulary.length K hK ext_scorer)
  intro t prob hprob st hst
  have hw := shape_ok_mem probs_seq _ hshape prob hprob
  apply frame_step_inv vocabulary.length K vocabulary.length cutoff_prob cutoff_top_n
    ext_scorer _ prob st hK hst (Or.inr (by omega))
  intro s hs p x hx
  have := get_pruned_log_probs_index_lt prob cutoff_prob cutoff_top_n s hs
  exact body_one_shot_spec ext_scorer vocabulary s (by omega) p x hx

theorem BeamDecoder.body_spec (d : BeamDecoder) (time_step : Nat)
    (s : Nat × LogProb) (hs : s.1 < d.vocabulary.length) (p : Path) (x : PathTrie)
    (hx : x.children_.WF d.vocabulary.length) :
    (d.body time_step s p x).node.character = x.node.character
      ∧ (d.body time_step s p x).children_.WF d.vocabulary.length
      ∧ ∀ r, x.isLive r = true → (d.body time_step s p x).isLive r = true := by
  have := expand_spec d.vocabulary.length d.blank_id s.1 s.2 d.reset_default
    (BeamDecoder.lm_streaming d s.1 p) (some (d.prev_time_offset + d.time_offset + time_step))
    x hx (Or.inr (by exact_mod_cast hs))
  exact ⟨this.1, this.2.2.1, this.2.2.2⟩

theorem BeamDecoder.loop_inv (d : BeamDecoder) (probs_seq : List (List ℚ))
    (hshape : shape_ok probs_seq d.vocabulary.length = true) (hK : 1 ≤ d.beam_size)
    (hinv : d.Inv) :
    ∃ st, d.loop probs_seq = Except.ok st ∧ BeamInv d.vocabulary.length d.beam_size st := by
  unfold BeamDecoder.loop
  apply time_loop_inv d.vocabulary.length d.beam_size _ probs_seq _ 0 _ hinv.1
  intro t prob hprob st hst
  have hw := shape_ok_mem probs_seq _ hshape prob hprob
  apply frame_step_inv d.vocabulary.length d.beam_size d.blank_id d.cutoff_prob d.cutoff_top_n
    d.ext_scorer _ prob st hK hst
  · rcases hinv.2 with h | h
    · exact Or.inl h
    · exact Or.inr (by omega)
  · intro s hs p x hx
    have := get_pruned_log_probs_index_lt prob d.cutoff_prob d.cutoff_top_n s hs
    exact BeamDecoder.body_spec d t s (by omega) p x hx

theorem BeamDecoder.decode_eq (d : BeamDecoder) (probs_seq : List (List ℚ)) :
    d.decode probs_seq =
      if shape_ok probs_seq d.vocabulary.length = false then
        (d, Except.error DecodeError.check_failed)
      else
        match d.loop probs_seq with
        | Except.error e => (d, Except.error e)
        | Except.ok (root, prefixes) =>
          match get_beam_search_result root
              (sort_first (prefix_compare_at root) (min prefixes.length d.beam_size) prefixes)
              d.vocabulary d.beam_size with
          | Except.error e =>
            ({ d with root := root,
                      prefixes := sort_first (prefix_compare_at root)
                        (min prefixes.length d.beam_size) prefixes,
                      last_decoded_timestep := probs_seq.length }, Except.error e)
          | Except.ok r =>
            ({ d with root := root,
                      prefixes := sort_first (prefix_compare_at root)
                        (min prefixes.length d.beam_size) prefixes,
                      last_decoded_timestep := probs_seq.length,
                      wordlist := r.2 }, Except.ok r.1) := by
  unfold BeamDecoder.decode BeamDecoder.loop
  rfl

/-- What `decode` does to a decoder that satisfies the invariant. -/
theorem BeamDecoder.decode_spec (d : BeamDecoder) (probs_seq : List (List ℚ))
    (hK : 1 ≤ d.beam_size) (hinv : d.Inv) :
    (d.decode probs_seq).1.Inv
      ∧ (d.decode probs_seq).1.beam_size = d.beam_size
      ∧ (d.decode probs_seq).1.vocabulary = d.vocabulary
      ∧ (d.decode probs_seq).1.ext_scorer = d.ext_scorer
      ∧ (shape_ok probs_seq d.vocabulary.length = true → TokensOK d.vocabulary →
          ∃ r, (d.decode probs_seq).2 = Except.ok r
            ∧ r.length = min d.beam_size (d.decode probs_seq).1.root.liveCount
            ∧ 1 ≤ r.length ∧ r.length ≤ d.beam_size
            ∧ (r.map Prod.fst).Pairwise (fun a b => b ≤ a)) := by
  rw [BeamDecoder.decode_eq]
  by_cases hshape : shape_ok probs_seq d.vocabulary.length = false
  · rw [if_pos hshape]
    exact ⟨hinv, rfl, rfl, rfl, fun h => by rw [hshape] at h; cases h⟩
  · rw [if_neg hshape]
    have hshape' : shape_ok probs_seq d.vocabulary.length = true := by
      cases h : shape_ok probs_seq d.vocabulary.length
      · exact absurd h hshape
      · rfl
    obtain ⟨⟨root, prefixes⟩, h1, h2⟩ := BeamDecoder.loop_inv d probs_seq hshape' hK hinv
    rw [h1]
    simp only
    have hperm : ((sort_first (prefix_compare_at root) (min prefixes.length d.beam_size)
        prefixes).take d.beam_size).Perm (prefixes.take d.beam_size) := by
      rw [take_sort_first]; exact perm_std_sort _ _
    have hinv' := BeamInv_of_perm d.vocabulary.length d.beam_size root prefixes _ h2 hperm
    cases hg : get_beam_search_result root
        (sort_first (prefix_compare_at root) (min prefixes.length d.beam_size) prefixes)
        d.vocabulary d.beam_size with
    | error e =>
      refine ⟨⟨hinv', hinv.2⟩, rfl, rfl, rfl, ?_⟩
      intro _ htok
      exfalso
      obtain ⟨hwf, hnd, hmem, hne⟩ := hinv'
      obtain ⟨r, g1, _⟩ := get_beam_search_result_ok d.vocabulary.length d.beam_size root _
        d.vocabulary rfl htok hwf
        (fun p hp => at?_isSome_of_isLive root p ((hmem p).1 hp)) hne
      rw [g1] at hg
      cases hg
    | ok r =>
      refine ⟨⟨hinv', hinv.2⟩, rfl, rfl, rfl, ?_⟩
      intro _ htok
      obtain ⟨hwf, hnd, hmem, hne⟩ := hinv'
      obtain ⟨r', g1, g2, g3, _⟩ := get_beam_search_result_ok d.vocabulary.length d.beam_size
        root _ d.vocabulary rfl htok hwf
        (fun p hp => at?_isSome_of_isLive root p ((hmem p).1 hp)) hne
      rw [g1] at hg
      injection hg with hg
      subst hg
      generalize sort_first (prefix_compare_at root) (min prefixes.length d.beam_size)
        prefixes = prefixes1 at hnd hmem hne g2
      have hcount : root.liveCount = (prefixes1.take d.beam_size).length :=
        liveCount_eq_length d.vocabulary.length root hwf.2 _ hnd hmem
      have g2' : r'.1.length = (prefixes1.take d.beam_size).length := g2
      have hle : (prefixes1.take d.beam_size).length ≤ d.beam_size := by
        rw [List.length_take]; exact min_le_left _ _
      have hpos : 1 ≤ (prefixes1.take d.beam_size).length := by
        cases hl : prefixes1.take d.beam_size with
        | nil => exact absurd hl hne
        | cons _ _ => simp
      refine ⟨r'.1, rfl, ?_, ?_, ?_, g3⟩
      · show r'.1.length = min d.beam_size root.liveCount
        rw [g2', hcount]; omega
      · rw [g2']; exact hpos
      · rw [g2']; exact hle

theorem BeamDecoder.reachable_inv (d : BeamDecoder) (hr : d.Reachable) :
    1 ≤ d.beam_size → (d.ext_scorer = none ∨ d.vocabulary ≠ []) → d.Inv := by
  induction hr with
  | new vocabulary beam_size cutoff_prob cutoff_top_n ext_scorer reset_default =>
    intro hK hs
    refine ⟨init_BeamInv vocabulary.length beam_size hK ext_scorer, ?_⟩
    rcases hs with h | h
    · exact Or.inl h
    · right
      show (vocabulary.length + 2 ^ 64 - 1) % 2 ^ 64 < vocabulary.length
      have hpos : 0 < vocabulary.length := List.length_pos.2 h
      have e : vocabulary.length + 2 ^ 64 - 1 = (vocabulary.length - 1) + 2 ^ 64 := by omega
      rw [e, Nat.add_mod_right]
      exact lt_of_le_of_lt (Nat.mod_le _ _) (by omega)
  | decode d probs_seq _ ih =>
    intro hK hs
    have hK' : 1 ≤ d.beam_size := by
      rw [BeamDecoder.decode_eq] at hK
      split_ifs at hK
      · exact hK
      · split at hK
        · exact hK
        · split at hK <;> exact hK
    have hs' : d.ext_scorer = none ∨ d.vocabulary ≠ [] := by
      rw [BeamDecoder.decode_eq] at hs
      split_ifs at hs
      · exact hs
      · split at hs
        · exact hs
        · split at hs <;> exact hs
    exact (BeamDecoder.decode_spec d probs_seq hK' (ih hK' hs')).1
  | reset d keep_offset keep_words _ ih =>
    intro hK hs
    have hinv := ih hK hs
    exact ⟨init_BeamInv d.vocabulary.length d.beam_size hK d.ext_scorer, hinv.2⟩

/-! ### Number and order of the returned pairs (C5) -/

theorem ctc_beam_search_decoder_spec (probs_seq : List (List ℚ)) (vocabulary : List String)
    (K : Nat) (cutoff_prob : ℚ) (cutoff_top_n : Nat) (ext_scorer : Option Scorer)
    (hshape : shape_ok probs_seq (vocabulary.length + 1) = true) (hK : 1 ≤ K)
    (htok : TokensOK vocabulary) :
    ∃ st r, one_shot_loop probs_seq vocabulary K cutoff_prob cutoff_top_n ext_scorer
        = Except.ok st
      ∧ ctc_beam_search_decoder probs_seq vocabulary K cutoff_prob cutoff_top_n ext_scorer
        = Except.ok r
      ∧ r.length = min K st.1.liveCount ∧ 1 ≤ r.length ∧ r.length ≤ K
      ∧ (r.map Prod.fst).Pairwise (fun a b => b ≤ a) := by
  obtain ⟨⟨root, prefixes⟩, h1, h2⟩ := one_shot_loop_inv probs_seq vocabulary K cutoff_prob
    cutoff_top_n ext_scorer hshape hK
  obtain ⟨r, g1, g4, g5, g6, g7⟩ := one_shot_result vocabulary.length K
    root prefixes vocabulary ext_scorer rfl htok h2
  refine ⟨(root, prefixes), r, h1, ?_, g4, g5, g6, g7⟩
  unfold ctc_beam_search_decoder
  have hs : ¬ shape_ok probs_seq (vocabulary.length + 1) = false := by rw [hshape]; simp
  rw [if_neg hs, h1]
  exact g1

/-- C5 (counterexample): with the vocabulary `["#"]`, the well-shaped frame
`[0.9, 0.1]` and beam size 1, `ctc_beam_search_decoder` returns no pair: the
rendering of the best prefix calls `substr(2)` on the one-character token and
throws. -/
theorem one_char_hash_token_throws :
    shape_ok [[9/10, 1/10]] (["#"].length + 1) = true
      ∧ ctc_beam_search_decoder [[9/10, 1/10]] ["#"] 1 1 40 none
        = Except.error DecodeError.out_of_range := by
  decide!

/-- C5 (amended): for every well-shaped frame sequence (the empty one
included), every vocabulary in which each token that begins with `#` has at
least two characters, and every beam size `K ≥ 1`, `ctc_beam_search_decoder`
returns exactly `min(K, L)` pairs, where `L` is the number of live prefixes of
the trie after the last frame; so does `BeamDecoder::decode` in every state
reached from the constructor by `decode` and `reset` calls (with a scorer, for a
non-empty vocabulary).  The number of pairs is between 1 and `K` and the scores
are listed in non-increasing order. -/
theorem decoders_return_live_prefixes :
    (∀ (probs_seq : List (List ℚ)) (vocabulary : List String) (K : Nat) (cutoff_prob : ℚ)
        (cutoff_top_n : Nat) (ext_scorer : Option Scorer),
        shape_ok probs_seq (vocabulary.length + 1) = true → 1 ≤ K → TokensOK vocabulary →
        ∃ st r, one_shot_loop probs_seq vocabulary K cutoff_prob cutoff_top_n ext_scorer
            = Except.ok st
          ∧ ctc_beam_search_decoder probs_seq vocabulary K cutoff_prob cutoff_top_n ext_scorer
            = Except.ok r
          ∧ r.length = min K st.1.liveCount ∧ 1 ≤ r.length ∧ r.length ≤ K
          ∧ (r.map Prod.fst).Pairwise (fun a b => b ≤ a))
    ∧ (∀ (d : BeamDecoder) (probs_seq : List (List ℚ)),
        d.Reachable → shape_ok probs_seq d.vocabulary.length = true → 1 ≤ d.beam_size →
        (d.ext_scorer = none ∨ d.vocabulary ≠ []) → TokensOK d.vocabulary →
        ∃ r, (d.decode probs_seq).2 = Except.ok r
          ∧ r.length = min d.beam_size (d.decode probs_seq).1.root.liveCount
          ∧ 1 ≤ r.length ∧ r.length ≤ d.beam_size
          ∧ (r.map Prod.fst).Pairwise (fun a b => b ≤ a)) :=
  ⟨fun probs_seq vocabulary K cutoff_prob cutoff_top_n ext_scorer hshape hK htok =>
      ctc_beam_search_decoder_spec probs_seq vocabulary K cutoff_prob cutoff_top_n ext_scorer
        hshape hK htok,
    fun d probs_seq hr hshape hK hs htok =>
      (BeamDecoder.decode_spec d probs_seq hK (BeamDecoder.reachable_inv d hr hK hs)).2.2.2.2
        hshape htok⟩

theorem decoders_return_live_prefixes_witness :
    (shape_ok [[6/10, 0, 0, 4/10], [6/10, 0, 0, 4/10]] (["a", "b", " "].length + 1) = true
      ∧ 1 ≤ 2 ∧ TokensOK ["a", "b", " "]
      ∧ ∃ st r, one_shot_loop [[6/10, 0, 0, 4/10], [6/10, 0, 0, 4/10]] ["a", "b", " "] 2 1 40 none
            = Except.ok st
          ∧ ctc_beam_search_decoder [[6/10, 0, 0, 4/10], [6/10, 0, 0, 4/10]] ["a", "b", " "]
              2 1 40 none = Except.ok r
          ∧ r.length = min 2 st.1.liveCount ∧ 1 ≤ r.length ∧ r.length ≤ 2
          ∧ (r.map Prod.fst).Pairwise (fun a b => b ≤ a))
    ∧ (decoder_a.Reachable ∧ shape_ok [[6/10, 4/10]] decoder_a.vocabulary.length = true
      ∧ 1 ≤ decoder_a.beam_size ∧ (decoder_a.ext_scorer = none ∨ decoder_a.vocabulary ≠ [])
      ∧ TokensOK decoder_a.vocabulary
      ∧ ∃ r, (decoder_a.decode [[6/10, 4/10]]).2 = Except.ok r
          ∧ r.length = min decoder_a.beam_size (decoder_a.decode [[6/10, 4/10]]).1.root.liveCount
          ∧ 1 ≤ r.length ∧ r.length ≤ decoder_a.beam_size
          ∧ (r.map Prod.fst).Pairwise (fun a b => b ≤ a)) :=
  ⟨⟨by decide!, by decide, by decide,
      decoders_return_live_prefixes.1 [[6/10, 0, 0, 4/10], [6/10, 0, 0, 4/10]] ["a", "b", " "]
        2 1 40 none (by decide!) (by decide) (by decide)⟩,
    ⟨BeamDecoder.Reachable.new _ _ _ _ _ _, by decide!, by decide, Or.inl rfl, by decide,
      decoders_return_live_prefixes.2 decoder_a [[6/10, 4/10]]
        (BeamDecoder.Reachable.new _ _ _ _ _ _) (by decide!) (by decide) (Or.inl rfl)
        (by decide)⟩⟩

/-! ### A beam larger than the number of prefixes -/

theorem roll_and_prune_large (K0 K : Nat) (hK : K0 ≤ K) (root : PathTrie)
    (st1 : PathTrie × List Path) (h : roll_and_prune K0 root = Except.ok st1)
    (hlen : st1.2.length < K0) : roll_and_prune K root = Except.ok st1 := by
  unfold roll_and_prune at h ⊢
  simp only [PathTrie.iterate_to_vec_eq, List.nil_append] at h ⊢
  by_cases hn : (root.live_paths []).length ≥ K0
  · exfalso
    rw [if_pos hn] at h
    cases hr : remove_all (List.drop K0 (std_nth_element (prefix_compare_at root.rolled) K0
        (root.live_paths []))) root.rolled with
    | error e => rw [hr] at h; cases h
    | ok root1 =>
      rw [hr] at h
      simp only at h
      injection h with h
      rw [← h] at hlen
      simp only [length_std_nth_element] at hlen
      omega
  · rw [if_neg hn] at h
    rw [if_neg (by omega)]
    exact h

theorem frame_step_large (K0 K : Nat) (hK : K0 ≤ K) (blank_id : Nat) (cutoff_prob : ℚ)
    (cutoff_top_n : Nat) (body : Nat × LogProb → Path → PathTrie → PathTrie) (prob : List ℚ)
    (st st1 : PathTrie × List Path) (hst : st.2.length ≤ K0)
    (h : frame_step K0 blank_id cutoff_prob cutoff_top_n none body prob st = Except.ok st1)
    (hlen : st1.2.length < K0) :
    frame_step K blank_id cutoff_prob cutoff_top_n none body prob st = Except.ok st1 := by
  unfold frame_step at h ⊢
  simp only [pre_sort] at h ⊢
  rw [List.take_of_length_le hst] at h
  rw [List.take_of_length_le (le_trans hst hK)]
  exact roll_and_prune_large K0 K hK _ st1 h hlen

theorem time_loop_large (K0 K : Nat) (hK : K0 ≤ K) (blank_id : Nat) (cutoff_prob : ℚ)
    (cutoff_top_n : Nat) (body : Nat → Nat × LogProb → Path → PathTrie → PathTrie)
    (frames : List (List ℚ)) :
    ∀ (t : Nat) (st : PathTrie × List Path), st.2.length ≤ K0 →
      beam_never_full
        (fun t prob st => frame_step K0 blank_id cutoff_prob cutoff_top_n none (body t) prob st)
        K0 frames t st = true →
      time_loop
        (fun t prob st => frame_step K blank_id cutoff_prob cutoff_top_n none (body t) prob st)
        frames t st
      = time_loop
        (fun t prob st => frame_step K0 blank_id cutoff_prob cutoff_top_n none (body t) prob st)
        frames t st := by
  induction frames with
  | nil => intro t st _ _; rfl
  | cons prob rest ih =>
    intro t st hst hb
    unfold beam_never_full at hb
    unfold time_loop
    cases h1 : frame_step K0 blank_id cutoff_prob cutoff_top_n none (body t) prob st with
    | error e => simp only [h1] at hb; cases hb
    | ok st1 =>
      simp only [h1, Bool.and_eq_true, decide_eq_true_eq] at hb
      simp only [frame_step_large K0 K hK blank_id cutoff_prob cutoff_top_n (body t) prob st st1
        hst h1 hb.1]
      exact ih (t + 1) st1 (le_of_lt hb.1) hb.2

theorem time_loop_length_lt
    (step : Nat → List ℚ → PathTrie × List Path → Except DecodeError (PathTrie × List Path))
    (K0 : Nat) (frames : List (List ℚ)) :
    ∀ (t : Nat) (st st' : PathTrie × List Path), st.2.length < K0 →
      beam_never_full step K0 frames t st = true →
      time_loop step frames t st = Except.ok st' → st'.2.length < K0 := by
  induction frames with
  | nil =>
    intro t st st' hst _ h
    unfold time_loop at h
    injection h with h
    rw [← h]; exact hst
  | cons prob rest ih =>
    intro t st st' hst hb h
    unfold beam_never_full at hb
    unfold time_loop at h
    cases h1 : step t prob st with
    | error e => simp only [h1] at hb; cases hb
    | ok st1 =>
      simp only [h1, Bool.and_eq_true, decide_eq_true_eq] at hb
      simp only [h1] at h
      exact ih (t + 1) st1 st' hb.1 hb.2 h

theorem one_shot_finish_large (K0 K : Nat) (hK : K0 ≤ K) (vocabulary : List String)
    (st : PathTrie × List Path) (hst : st.2.length ≤ K0) :
    one_shot_finish vocabulary K none st = one_shot_finish vocabulary K0 none st := by
  unfold one_shot_finish get_beam_search_result
  simp only
  have e1 : min st.2.length K = min st.2.length K0 := by
    rw [min_eq_left (le_trans hst hK), min_eq_left hst]
  have e2 : ∀ l : List Path, l.length = st.2.length → l.take K = l.take K0 := by
    intro l hl
    rw [List.take_of_length_le (by omega), List.take_of_length_le (by omega)]
  rw [e1, e2 _ (length_sort_first _ _ _)]

/-- With no scorer, a beam size above the number of prefixes met in the run
gives the result of any other such beam size. -/
theorem ctc_beam_search_decoder_large (K0 K : Nat) (hK : K0 ≤ K) (h0 : 1 < K0)
    (probs_seq : List (List ℚ)) (vocabulary : List String) (cutoff_prob : ℚ)
    (cutoff_top_n : Nat)
    (hb : beam_never_full
      (fun _ prob st => frame_step K0 vocabulary.length cutoff_prob cutoff_top_n none
        (body_one_shot none vocabulary) prob st)
      K0 probs_seq 0 (init_root none, [[]]) = true) :
    ctc_beam_search_decoder probs_seq vocabulary K cutoff_prob cutoff_top_n none
      = ctc_beam_search_decoder probs_seq vocabulary K0 cutoff_prob cutoff_top_n none := by
  unfold ctc_beam_search_decoder one_shot_loop
  split_ifs
  · rfl
  · rw [time_loop_large K0 K hK vocabulary.length cutoff_prob cutoff_top_n
      (fun _ => body_one_shot none vocabulary) probs_seq 0 (init_root none, [[]])
      (by show ([[]] : List Path).length ≤ K0; simp; omega) hb]
    cases h1 : time_loop
        (fun _ prob st => frame_step K0 vocabulary.length cutoff_prob cutoff_top_n none
          (body_one_shot none vocabulary) prob st)
        probs_seq 0 (init_root none, [[]]) with
    | error e => rfl
    | ok st =>
      have := time_loop_length_lt _ K0 probs_seq 0 _ st
        (by show ([[]] : List Path).length < K0; simp; omega) hb h1
      exact one_shot_finish_large K0 K hK vocabulary st (le_of_lt this)

/-! ### Writes that commute -/

theorem PathTrie.get_path_trie_eq (this : PathTrie) (new_char : Int) (reset : Bool) :
    this.get_path_trie new_char reset =
      match this.children_.find? new_char with
      | some child =>
        some ⟨this.node, if child.node.exists_ = false
          then this.children_.update new_char PathTrie.revive else this.children_⟩
      | none =>
        (new_child? this.node new_char reset).map
          (fun t => ⟨this.node, this.children_.push_back new_char t⟩) := by
  unfold PathTrie.get_path_trie new_child?
  cases this.children_.find? new_char with
  | some child => by_cases h : child.node.exists_ = false <;> simp [h]
  | none =>
    by_cases h : this.node.has_dictionary_ = true
    · simp only [h, if_true]
      cases this.node.dictionary_ with
      | none => rfl
      | some dictionary =>
        cases this.node.matcher_ with
        | none => rfl
        | some matcher =>
          simp only
          cases matcher.Find
            (if reset = true then dictionary.Start else this.node.dictionary_state_)
            (new_char + 1) <;> rfl
    · simp [h]

theorem log_sum_exp_right_comm (a u v : LogProb) :
    log_sum_exp (log_sum_exp a u) v = log_sum_exp (log_sum_exp a v) u := by
  unfold log_sum_exp LogProb.ofExp LogProb.exp
  exact @add_right_comm ℚ _ a u v

theorem PathTrie.get_path_trie_isLive (this t : PathTrie) (new_char : Int) (reset : Bool)
    (h : this.get_path_trie new_char reset = some t) (r : Path) (hr : this.isLive r = true) :
    t.isLive r = true := by
  rw [PathTrie.get_path_trie_eq] at h
  cases hc : this.children_.find? new_char with
  | some child =>
    rw [hc] at h
    simp only [Option.some.injEq] at h
    subst h
    by_cases he : child.node.exists_ = false
    · rw [if_pos he]
      apply PathTrie.isLive_update_child this new_char _ _ r hr
      intro x r' hr'
      cases r' with
      | nil => rfl
      | cons d r' => exact hr'
    · rw [if_neg he]
      exact hr
  | none =>
    rw [hc] at h
    cases hn : new_child? this.node new_char reset with
    | none => rw [hn] at h; cases h
    | some nw =>
      rw [hn] at h
      simp only [Option.map_some', Option.some.injEq] at h
      subst h
      cases r with
      | nil => exact hr
      | cons d r =>
        rw [PathTrie.isLive_cons] at hr ⊢
        by_cases hd : d = new_char
        · subst hd
          rw [hc] at hr
          cases hr
        · simp only
          rw [Children.find?_push_back_ne _ _ _ _ hd]
          exact hr

/-- The loop body keeps every live node live. -/
theorem expand_isLive (blank_id c : Nat) (log_prob_c : LogProb) (reset : Bool)
    (lm : Node → LogProb → LogProb) (offset : Option Nat) (pre : PathTrie) (r : Path)
    (hr : pre.isLive r = true) :
    (expand blank_id c log_prob_c reset lm offset pre).isLive r = true := by
  by_cases hb : c = blank_id
  · rw [expand_of_blank _ _ _ _ _ _ _ hb]
    cases r <;> exact hr
  · rw [expand_of_ne _ _ _ _ _ _ _ hb]
    have e4 : (after_repeat c log_prob_c pre).isLive r = true := by
      cases r with
      | nil =>
        rw [PathTrie.isLive_nil] at hr ⊢
        rw [after_repeat_exists]; exact hr
      | cons d r =>
        rw [PathTrie.isLive_cons] at hr ⊢
        rw [after_repeat_children]; exact hr
    cases h2 : (after_repeat c log_prob_c pre).get_path_trie (c : Int) reset with
    | none => exact e4
    | some pre2 =>
      apply PathTrie.isLive_update_child pre2 c _ _ r
        (PathTrie.get_path_trie_isLive _ _ _ _ h2 r e4)
      intro x r' hr'
      cases r' with
      | nil => exact hr'
      | cons d r' => exact hr'

theorem expand_prefixes_isLive (blank_id c : Nat) (log_prob_c : LogProb) (reset : Bool)
    (lm : Node → LogProb → LogProb) (offset : Option Nat) (stop : Node → Bool) (l : List Path) :
    ∀ (root : PathTrie) (q : Path), root.isLive q = true →
      (expand_prefixes stop
        (fun _ => expand blank_id c log_prob_c reset lm offset) l root).isLive q = true := by
  induction l with
  | nil => intro root q hq; exact hq
  | cons p rest ih =>
    intro root q hq
    unfold expand_prefixes
    split_ifs
    · exact hq
    · exact ih _ q (PathTrie.isLive_update_mono root p q _
        (fun y r hr => expand_isLive _ _ _ _ _ _ y r hr) hq)

theorem Children.find?_no_offsets (cs : Children) (c : Int) :
    cs.no_offsets.find? c = (cs.find? c).map PathTrie.no_offsets := by
  induction cs with
  | nil => rfl
  | cons first second kids rest _ ih =>
    by_cases h : first = c
    · simp only [Children.no_offsets, Children.find?, if_pos h]
      rfl
    · simp only [Children.no_offsets, Children.find?, if_neg h, ih]

theorem PathTrie.at?_no_offsets (t : PathTrie) (p : Path) :
    t.no_offsets.at? p = (t.at? p).map PathTrie.no_offsets := by
  induction p generalizing t with
  | nil => rfl
  | cons c p ih =>
    rw [PathTrie.at?_cons, PathTrie.at?_cons]
    have e : t.no_offsets.children_ = t.children_.no_offsets := rfl
    rw [e, Children.find?_no_offsets]
    cases t.children_.find? c with
    | none => rfl
    | some child => exact ih child

theorem PathTrie.isLive_no_offsets (t : PathTrie) (p : Path) :
    t.no_offsets.isLive p = t.isLive p := by
  unfold PathTrie.isLive
  rw [PathTrie.at?_no_offsets]
  cases t.at? p with
  | none => rfl
  | some x => rfl

theorem time_loop_append
    (step : Nat → List ℚ → PathTrie × List Path → Except DecodeError (PathTrie × List Path))
    (A B : List (List ℚ)) :
    ∀ (t : Nat) (st : PathTrie × List Path),
      time_loop step (A ++ B) t st =
        match time_loop step A t st with
        | Except.error e => Except.error e
        | Except.ok st1 => time_loop step B (t + A.length) st1 := by
  induction A with
  | nil => intro t st; rfl
  | cons prob rest ih =>
    intro t st
    simp only [List.cons_append, time_loop, List.length_cons]
    cases step t prob st with
    | error e => rfl
    | ok st1 =>
      have e : t + (rest.length + 1) = t + 1 + rest.length := by omega
      rw [e]
      exact ih (t + 1) st1

theorem expand_node (blank_id c : Nat) (log_prob_c : LogProb) (reset : Bool)
    (lm : Node → LogProb → LogProb) (offset : Option Nat) (pre : PathTrie) :
    (expand blank_id c log_prob_c reset lm offset pre).node
      = self_node blank_id c log_prob_c pre.node := by
  unfold self_node
  by_cases hb : c = blank_id
  · rw [expand_of_blank _ _ _ _ _ _ _ hb, if_pos hb]
  · rw [expand_of_ne _ _ _ _ _ _ _ hb, if_neg hb, PathTrie.get_path_trie_eq]
    have e : (after_repeat c log_prob_c pre).node
        = if (c : Int) = pre.node.character then
            { pre.node with log_prob_nb_cur :=
                (log_sum_exp pre.node.log_prob_nb_cur
                  (log_prob_c + pre.node.log_prob_nb_prev)) }
          else pre.node := by
      unfold after_repeat
      split_ifs <;> rfl
    cases (after_repeat c log_prob_c pre).children_.find? c with
    | some child => exact e
    | none =>
      cases new_child? (after_repeat c log_prob_c pre).node c reset with
      | none => exact e
      | some t => exact e

theorem new_child?_of_no_dictionary (n : Node) (c : Int) (reset : Bool)
    (h : n.has_dictionary_ = false) :
    new_child? n c reset = some ⟨{ PathTrie.new.node with character := c }, Children.nil⟩ := by
  unfold new_child?
  rw [h]
  rfl

/-- The child list after the loop body for a symbol other than the blank, on
an object without dictionary. -/
theorem expand_children (blank_id c : Nat) (log_prob_c : LogProb) (reset : Bool)
    (lm : Node → LogProb → LogProb) (offset : Option Nat) (pre : PathTrie)
    (hb : c ≠ blank_id) (hd : pre.node.has_dictionary_ = false) :
    (expand blank_id c log_prob_c reset lm offset pre).children_
      = (match pre.children_.find? c with
          | some child =>
            if child.node.exists_ = false then pre.children_.update c PathTrie.revive
            else pre.children_
          | none =>
            pre.children_.push_back c ⟨{ PathTrie.new.node with character := c }, Children.nil⟩
        ).update c (write_new offset (lm pre.node (new_log_p c log_prob_c pre.node))) := by
  rw [expand_of_ne _ _ _ _ _ _ _ hb, PathTrie.get_path_trie_eq, after_repeat_children]
  have hd' : (after_repeat c log_prob_c pre).node.has_dictionary_ = false := by
    unfold after_repeat
    split_ifs
    · exact hd
    · exact hd
  rw [new_child?_of_no_dictionary _ _ _ hd']
  cases pre.children_.find? c with
  | some child => rfl
  | none => rfl

theorem PathTrie.node?_nil (t : PathTrie) : t.node? [] = some t.node := rfl

theorem PathTrie.node?_cons (t : PathTrie) (c : Int) (r : Path) :
    t.node? (c :: r) = (t.children_.find? c).bind (fun child => child.node? r) := by
  unfold PathTrie.node?
  rw [PathTrie.at?_cons]
  cases t.children_.find? c <;> rfl

theorem PathTrie.node?_append (t : PathTrie) (p r : Path) :
    t.node? (p ++ r) = (t.at? p).bind (fun x => x.node? r) := by
  unfold PathTrie.node?
  rw [PathTrie.at?_append]
  cases t.at? p <;> rfl

/-- The data members in the object the loop body was applied to. -/
theorem node?_expand (blank_id c : Nat) (log_prob_c : LogProb) (reset : Bool)
    (lm : LogProb → LogProb) (offset : Option Nat) (x : PathTrie)
    (hd : x.node.has_dictionary_ = false) (r : Path) :
    (expand blank_id c log_prob_c reset (fun _ => lm) offset x).node? r
      = op_node blank_id offset (c, log_prob_c) [] r (lm (new_log_p c log_prob_c x.node))
          (x.node? r) := by
  cases r with
  | nil =>
    rw [PathTrie.node?_nil, PathTrie.node?_nil, expand_node]
    unfold op_node
    rw [if_pos rfl]
    rfl
  | cons d r =>
    unfold op_node
    rw [if_neg (by simp)]
    by_cases hb : c = blank_id
    · rw [if_neg (fun h => h.1 hb)]
      rw [PathTrie.node?_cons, PathTrie.node?_cons, expand_of_blank _ _ _ _ _ _ _ hb]
    · rw [PathTrie.node?_cons, PathTrie.node?_cons, expand_children _ _ _ _ _ _ _ hb hd]
      by_cases hdc : d = (c : Int)
      · subst hdc
        rw [Children.find?_update_self]
        cases hf : x.children_.find? (c : Int) with
        | some child =>
          simp only
          by_cases he : child.node.exists_ = false
          · rw [if_pos he, Children.find?_update_self, hf]
            cases r with
            | nil =>
              rw [if_pos ⟨hb, rfl⟩]
              simp only [Option.map_some', Option.some_bind, PathTrie.node?_nil, write_node,
                child_node, he, if_true]
              rfl
            | cons e r =>
              rw [if_neg (by simp)]
              rfl
          · rw [if_neg he, hf]
            cases r with
            | nil =>
              rw [if_pos ⟨hb, rfl⟩]
              simp only [Option.map_some', Option.some_bind, PathTrie.node?_nil, write_node,
                child_node, he, if_false]
              rfl
            | cons e r =>
              rw [if_neg (by simp)]
              rfl
        | none =>
          simp only
          rw [Children.find?_push_back_self _ _ _ hf]
          cases r with
          | nil =>
            rw [if_pos ⟨hb, rfl⟩]
            rfl
          | cons e r =>
            rw [if_neg (by simp)]
            rfl
      · have hne : ¬ (c ≠ blank_id ∧ d :: r = [] ++ [(c : Int)]) := by
          rintro ⟨_, h⟩
          simp only [List.nil_append, List.cons.injEq] at h
          exact hdc h.1
        rw [if_neg hne, Children.find?_update_ne _ _ _ _ hdc]
        cases hf : x.children_.find? (c : Int) with
        | some child =>
          simp only
          by_cases he : child.node.exists_ = false
          · rw [if_pos he, Children.find?_update_ne _ _ _ _ hdc]
          · rw [if_neg he]
        | none =>
          simp only
          rw [Children.find?_push_back_ne _ _ _ _ hdc]

/-- The data members of every node after the loop body has been applied
through the pointer `p`. -/
theorem node?_update_expand (blank_id c : Nat) (log_prob_c : LogProb) (reset : Bool)
    (lm : LogProb → LogProb) (offset : Option Nat) (t : PathTrie) (p q : Path) (x : PathTrie)
    (hx : t.at? p = some x) (hd : x.node.has_dictionary_ = false) :
    (t.update p (expand blank_id c log_prob_c reset (fun _ => lm) offset)).node? q
      = op_node blank_id offset (c, log_prob_c) p q (lm (new_log_p c log_prob_c x.node))
          (t.node? q) := by
  rcases Path.trichotomy p q with ⟨r, rfl⟩ | ⟨d, r, rfl⟩ | ⟨h1, h2⟩
  · have e0 : t.node? (p ++ r) = x.node? r := by
      rw [PathTrie.node?_append, hx]; rfl
    rw [e0]
    have e : (t.update p (expand blank_id c log_prob_c reset (fun _ => lm) offset)).node? (p ++ r)
        = (expand blank_id c log_prob_c reset (fun _ => lm) offset x).node? r := by
      unfold PathTrie.node?
      rw [PathTrie.at?_update_append, hx]
      rfl
    rw [e, node?_expand _ _ _ _ _ _ _ hd]
    unfold op_node
    simp only [List.nil_append, List.append_right_eq_self, List.append_cancel_left_eq]
  · have e : (t.update (q ++ d :: r)
        (expand blank_id c log_prob_c reset (fun _ => lm) offset)).node? q = t.node? q := by
      unfold PathTrie.node?
      rw [PathTrie.at?_update_above]
      cases t.at? q <;> rfl
    rw [e]
    unfold op_node
    have n1 : q ≠ q ++ d :: r := by
      intro h
      have := congrArg List.length h
      simp at this
    have n2 : q ≠ q ++ d :: r ++ [(c : Int)] := by
      intro h
      have := congrArg List.length h
      simp at this
    rw [if_neg n1, if_neg (fun h => n2 h.2)]
  · have e : (t.update p (expand blank_id c log_prob_c reset (fun _ => lm) offset)).node? q
        = t.node? q := by
      unfold PathTrie.node?
      rw [PathTrie.at?_update_off _ _ _ _ h1 h2]
    rw [e]
    unfold op_node
    have n1 : q ≠ p := fun h => h1 (by rw [h])
    have n2 : q ≠ p ++ [(c : Int)] := fun h => h1 (by rw [h]; exact List.prefix_append _ _)
    rw [if_neg n1, if_neg (fun h => n2 h.2)]

theorem new_log_p_congr (c : Nat) (log_prob_c : LogProb) (n n' : Node)
    (h1 : n'.character = n.character) (h2 : n'.log_prob_b_prev = n.log_prob_b_prev)
    (h3 : n'.score = n.score) : new_log_p c log_prob_c n' = new_log_p c log_prob_c n := by
  unfold new_log_p
  rw [h1, h2, h3]

theorem self_node_keeps (blank_id c : Nat) (log_prob_c : LogProb) (n : Node) :
    (self_node blank_id c log_prob_c n).character = n.character
      ∧ (self_node blank_id c log_prob_c n).log_prob_b_prev = n.log_prob_b_prev
      ∧ (self_node blank_id c log_prob_c n).log_prob_nb_prev = n.log_prob_nb_prev
      ∧ (self_node blank_id c log_prob_c n).score = n.score
      ∧ (self_node blank_id c log_prob_c n).exists_ = n.exists_
      ∧ (self_node blank_id c log_prob_c n).has_dictionary_ = n.has_dictionary_ := by
  unfold self_node
  split_ifs <;> exact ⟨rfl, rfl, rfl, rfl, rfl, rfl⟩

theorem child_node_of_live (c : Int) (n : Node) (h : n.exists_ = true) :
    child_node c (some n) = n := by
  unfold child_node
  simp only [h, Bool.true_eq_false, if_false]

theorem child_node_no_dictionary (c : Int) (o : Option Node)
    (h : ∀ n, o = some n → n.has_dictionary_ = false) :
    (child_node c o).has_dictionary_ = false := by
  unfold child_node
  cases o with
  | none => rfl
  | some n =>
    simp only
    split_ifs
    · exact h n rfl
    · exact h n rfl

/-- What one application of the loop body keeps of a live node: the data
members the next applications read. -/
theorem op_node_keeps (blank_id : Nat) (offset : Option Nat) (x : Nat × LogProb) (p q : Path)
    (v : LogProb) (n : Node) (hn : n.exists_ = true) :
    ∃ n', op_node blank_id offset x p q v (some n) = some n'
      ∧ n'.character = n.character ∧ n'.log_prob_b_prev = n.log_prob_b_prev
      ∧ n'.log_prob_nb_prev = n.log_prob_nb_prev ∧ n'.score = n.score
      ∧ n'.exists_ = true := by
  unfold op_node
  split_ifs
  · obtain ⟨h1, h2, h3, h4, h5, _⟩ := self_node_keeps blank_id x.1 x.2 n
    exact ⟨_, rfl, h1, h2, h3, h4, h5.trans hn⟩
  · rw [child_node_of_live _ n hn]
    exact ⟨_, rfl, rfl, rfl, rfl, rfl, hn⟩
  · exact ⟨n, rfl, rfl, rfl, rfl, rfl, hn⟩

theorem op_node_no_dictionary (blank_id : Nat) (offset : Option Nat) (x : Nat × LogProb)
    (p q : Path) (v : LogProb) (o : Option Node)
    (h : ∀ n, o = some n → n.has_dictionary_ = false) :
    ∀ n, op_node blank_id offset x p q v o = some n → n.has_dictionary_ = false := by
  intro n hn
  unfold op_node at hn
  split_ifs at hn
  · cases o with
    | none => cases hn
    | some m =>
      simp only [Option.map_some', Option.some.injEq] at hn
      rw [← hn, (self_node_keeps blank_id x.1 x.2 m).2.2.2.2.2]
      exact h m rfl
  · simp only [Option.some.injEq] at hn
    rw [← hn]
    exact child_node_no_dictionary _ o h
  · exact h n hn

theorem PathTrie.at?_of_isLive (t : PathTrie) (p : Path) (h : t.isLive p = true) :
    ∃ x, t.at? p = some x ∧ x.node.exists_ = true := by
  unfold PathTrie.isLive at h
  cases hx : t.at? p with
  | none => rw [hx] at h; cases h
  | some x => rw [hx] at h; exact ⟨x, rfl, h⟩

theorem NoDict_update_expand (blank_id c : Nat) (log_prob_c : LogProb) (reset : Bool)
    (lm : LogProb → LogProb) (offset : Option Nat) (t : PathTrie) (p : Path)
    (hp : t.isLive p = true) (hd : NoDict t) :
    NoDict (t.update p (expand blank_id c log_prob_c reset (fun _ => lm) offset)) := by
  obtain ⟨x, hx, _⟩ := PathTrie.at?_of_isLive t p hp
  have hdx : x.node.has_dictionary_ = false :=
    hd p x.node (by unfold PathTrie.node?; rw [hx]; rfl)
  intro q n hn
  rw [node?_update_expand _ _ _ _ _ _ t p q x hx hdx] at hn
  exact op_node_no_dictionary _ _ _ _ _ _ _ (fun m hm => hd q m hm) n hn

/-- One application of the loop body keeps, in every live node, the data
members `new_log_p` reads. -/
theorem get_update_expand (blank_id c : Nat) (log_prob_c : LogProb) (reset : Bool)
    (lm : LogProb → LogProb) (offset : Option Nat) (t : PathTrie) (p q : Path)
    (hp : t.isLive p = true) (hd : NoDict t) (hq : t.isLive q = true) :
    ((t.update p (expand blank_id c log_prob_c reset (fun _ => lm) offset)).get q).character
        = (t.get q).character
      ∧ ((t.update p (expand blank_id c log_prob_c reset (fun _ => lm) offset)).get
          q).log_prob_b_prev = (t.get q).log_prob_b_prev
      ∧ ((t.update p (expand blank_id c log_prob_c reset (fun _ => lm) offset)).get
          q).log_prob_nb_prev = (t.get q).log_prob_nb_prev
      ∧ ((t.update p (expand blank_id c log_prob_c reset (fun _ => lm) offset)).get q).score
        = (t.get q).score := by
  obtain ⟨x, hx, _⟩ := PathTrie.at?_of_isLive t p hp
  have hdx : x.node.has_dictionary_ = false :=
    hd p x.node (by unfold PathTrie.node?; rw [hx]; rfl)
  obtain ⟨n, hn, hne⟩ := PathTrie.node?_of_isLive t q hq
  obtain ⟨n', h0, h1, h2, h3, h4, _⟩ := op_node_keeps blank_id offset (c, log_prob_c) p q
    (lm (new_log_p c log_prob_c x.node)) n hne
  rw [PathTrie.get_eq_node?, PathTrie.get_eq_node?,
    node?_update_expand _ _ _ _ _ _ t p q x hx hdx, hn, h0]
  exact ⟨h1, h2, h3, h4⟩

theorem expand_prefixes_cons (stop : Node → Bool) (body : Path → PathTrie → PathTrie)
    (p : Path) (rest : List Path) (root : PathTrie) (h : stop (root.get p) = false) :
    expand_prefixes stop body (p :: rest) root
      = expand_prefixes stop body rest (root.update p (body p)) := by
  rw [expand_prefixes, h]
  rfl

/-- The data members of every node after the loop over the beam for one
symbol (without a scorer, on a trie without dictionary). -/
theorem node?_expand_prefixes (blank_id c : Nat) (log_prob_c : LogProb) (reset : Bool)
    (lm : LogProb → LogProb) (offset : Option Nat) (g : Path → LogProb) (beam : List Path) :
    ∀ t : PathTrie, (∀ p ∈ beam, t.isLive p = true) → NoDict t →
      (∀ p ∈ beam, lm (new_log_p c log_prob_c (t.get p)) = g p) →
      ∀ q, (expand_prefixes (fun _ => false)
          (fun _ => expand blank_id c log_prob_c reset (fun _ => lm) offset) beam t).node? q
        = beam.foldl (fun o p => op_node blank_id offset (c, log_prob_c) p q (g p) o)
            (t.node? q) := by
  induction beam with
  | nil => intro t _ _ _ q; rfl
  | cons p rest ih =>
    intro t hl hd hg q
    have hp := hl p (List.mem_cons_self _ _)
    obtain ⟨x, hx, _⟩ := PathTrie.at?_of_isLive t p hp
    have hdx : x.node.has_dictionary_ = false :=
      hd p x.node (by unfold PathTrie.node?; rw [hx]; rfl)
    have hxn : x.node = t.get p := by
      unfold PathTrie.get; rw [hx]
    rw [expand_prefixes_cons _ _ _ _ _ rfl, List.foldl_cons]
    rw [ih (t.update p (expand blank_id c log_prob_c reset (fun _ => lm) offset))
      (fun p' hp' => PathTrie.isLive_update_mono t p p' _
        (fun y r hr => expand_isLive _ _ _ _ _ _ y r hr) (hl p' (List.mem_cons_of_mem _ hp')))
      (NoDict_update_expand _ _ _ _ _ _ t p hp hd)
      (fun p' hp' => by
        obtain ⟨h1, h2, _, h4⟩ := get_update_expand blank_id c log_prob_c reset lm offset t p p'
          hp hd (hl p' (List.mem_cons_of_mem _ hp'))
        rw [new_log_p_congr c log_prob_c _ _ h1 h2 h4]
        exact hg p' (List.mem_cons_of_mem _ hp')) q]
    rw [node?_update_expand _ _ _ _ _ _ t p q x hx hdx, hxn, hg p (List.mem_cons_self _ _)]

theorem expand_prefixes_NoDict (blank_id c : Nat) (log_prob_c : LogProb) (reset : Bool)
    (lm : LogProb → LogProb) (offset : Option Nat) (beam : List Path) :
    ∀ t : PathTrie, (∀ p ∈ beam, t.isLive p = true) → NoDict t →
      NoDict (expand_prefixes (fun _ => false)
        (fun _ => expand blank_id c log_prob_c reset (fun _ => lm) offset) beam t) := by
  induction beam with
  | nil => intro t _ hd; exact hd
  | cons p rest ih =>
    intro t hl hd
    rw [expand_prefixes_cons _ _ _ _ _ rfl]
    exact ih _
      (fun p' hp' => PathTrie.isLive_update_mono t p p' _
        (fun y r hr => expand_isLive _ _ _ _ _ _ y r hr) (hl p' (List.mem_cons_of_mem _ hp')))
      (NoDict_update_expand _ _ _ _ _ _ t p (hl p (List.mem_cons_self _ _)) hd)

theorem get_expand_prefixes (blank_id c : Nat) (log_prob_c : LogProb) (reset : Bool)
    (lm : LogProb → LogProb) (offset : Option Nat) (beam : List Path) :
    ∀ t : PathTrie, (∀ p ∈ beam, t.isLive p = true) → NoDict t →
      ∀ q, t.isLive q = true → ∀ (c' : Nat) (lp' : LogProb),
        new_log_p c' lp' ((expand_prefixes (fun _ => false)
          (fun _ => expand blank_id c log_prob_c reset (fun _ => lm) offset) beam t).get q)
          = new_log_p c' lp' (t.get q) := by
  induction beam with
  | nil => intro t _ _ q _ c' lp'; rfl
  | cons p rest ih =>
    intro t hl hd q hq c' lp'
    rw [expand_prefixes_cons _ _ _ _ _ rfl]
    have hmono : ∀ p', t.isLive p' = true →
        (t.update p (expand blank_id c log_prob_c reset (fun _ => lm) offset)).isLive p'
          = true :=
      fun p' hp' => PathTrie.isLive_update_mono t p p' _
        (fun y r hr => expand_isLive _ _ _ _ _ _ y r hr) hp'
    rw [ih _ (fun p' hp' => hmono p' (hl p' (List.mem_cons_of_mem _ hp')))
      (NoDict_update_expand _ _ _ _ _ _ t p (hl p (List.mem_cons_self _ _)) hd) q (hmono q hq)]
    obtain ⟨h1, h2, _, h4⟩ := get_update_expand blank_id c log_prob_c reset lm offset t p q
      (hl p (List.mem_cons_self _ _)) hd hq
    exact new_log_p_congr c' lp' _ _ h1 h2 h4

/-- The data members of every node after the loops of one frame over the
symbols and the beam (without a scorer, on a trie without dictionary): each
application of the loop body acts on the node it is applied to and on the child
it extends. -/
theorem node?_expand_symbols (blank_id : Nat) (reset : Nat × LogProb → Bool)
    (lm : LogProb → LogProb) (offset : Option Nat) (G : Nat × LogProb → Path → LogProb)
    (beam : List Path) (symbols : List (Nat × LogProb)) :
    ∀ t : PathTrie, (∀ p ∈ beam, t.isLive p = true) → NoDict t →
      (∀ x ∈ symbols, ∀ p ∈ beam, lm (new_log_p x.1 x.2 (t.get p)) = G x p) →
      ∀ q, (expand_symbols (fun _ _ => false)
          (fun x _ => expand blank_id x.1 x.2 (reset x) (fun _ => lm) offset) beam symbols
          t).node? q
        = symbols.foldl (fun o x =>
            beam.foldl (fun o p => op_node blank_id offset x p q (G x p) o) o) (t.node? q) := by
  induction symbols with
  | nil => intro t _ _ _ q; rfl
  | cons x rest ih =>
    intro t hl hd hG q
    rw [expand_symbols, List.foldl_cons]
    rw [ih _ (fun p hp => expand_prefixes_isLive _ _ _ _ _ _ _ beam t p (hl p hp))
      (expand_prefixes_NoDict _ _ _ _ _ _ beam t hl hd)
      (fun y hy p hp => by
        rw [get_expand_prefixes blank_id x.1 x.2 (reset x) lm offset beam t hl hd p (hl p hp)]
        exact hG y (List.mem_cons_of_mem _ hy) p hp) q]
    rw [node?_expand_prefixes blank_id x.1 x.2 (reset x) lm offset (G x) beam t hl hd
      (fun p hp => hG x (List.mem_cons_self _ _) p hp) q]

theorem self_node_write_node (blank_id c : Nat) (log_prob_c : LogProb) (offset : Option Nat)
    (v : LogProb) (n : Node) :
    self_node blank_id c log_prob_c (write_node offset v n)
      = write_node offset v (self_node blank_id c log_prob_c n) := by
  unfold self_node
  by_cases hb : c = blank_id
  · rw [if_pos hb, if_pos hb]
    rfl
  · rw [if_neg hb, if_neg hb]
    by_cases hc : (c : Int) = n.character
    · have hc' : (c : Int) = (write_node offset v n).character := hc
      rw [if_pos hc, if_pos hc']
      unfold write_node write_new
      simp only [Node.mk.injEq, and_true, true_and]
      exact log_sum_exp_right_comm _ _ _
    · have hc' : ¬ (c : Int) = (write_node offset v n).character := hc
      rw [if_neg hc, if_neg hc']

theorem dropLast_append_singleton_ne (q : Path) (c : Int) : q ≠ q ++ [c] := by
  intro h
  have := congrArg List.length h
  simp at this

/-- The loop over a beam without repetition, seen from one node. -/
theorem foldl_op_node (blank_id : Nat) (offset : Option Nat) (x : Nat × LogProb) (q : Path)
    (g : Path → LogProb) (beam : List Path) (hnd : beam.Nodup) :
    ∀ o : Option Node, (q ∈ beam → ∃ n, o = some n ∧ n.exists_ = true) →
      beam.foldl (fun o p => op_node blank_id offset x p q (g p) o) o
        = pass_node blank_id offset x beam q (g q.dropLast) o := by
  induction beam with
  | nil =>
    intro o _
    unfold pass_node
    simp
  | cons p rest ih =>
    intro o ho
    rw [List.nodup_cons] at hnd
    rw [List.foldl_cons]
    by_cases hqp : q = p
    · -- the loop body is applied to the node itself
      subst hqp
      have e1 : op_node blank_id offset x q q (g q) o = o.map (self_node blank_id x.1 x.2) := by
        unfold op_node; rw [if_pos rfl]
      rw [e1, ih hnd.2 _ (fun h => absurd h hnd.1)]
      have hP : (x.1 ≠ blank_id ∧ q = q.dropLast ++ [(x.1 : Int)] ∧ q.dropLast ∈ q :: rest)
          ↔ (x.1 ≠ blank_id ∧ q = q.dropLast ++ [(x.1 : Int)] ∧ q.dropLast ∈ rest) := by
        constructor
        · rintro ⟨h1, h2, h3⟩
          refine ⟨h1, h2, ?_⟩
          rcases List.mem_cons.1 h3 with h | h
          · exfalso
            rw [h] at h2
            exact dropLast_append_singleton_ne q _ h2
          · exact h
        · rintro ⟨h1, h2, h3⟩
          exact ⟨h1, h2, List.mem_cons_of_mem _ h3⟩
      unfold pass_node
      simp only [hP, List.mem_cons_self, hnd.1, if_true, if_false]
    · by_cases hpar : x.1 ≠ blank_id ∧ q = p ++ [(x.1 : Int)]
      · -- the loop body is applied to the parent
        have hdl : q.dropLast = p := by rw [hpar.2, List.dropLast_concat]
        have e1 : op_node blank_id offset x p q (g p) o
            = some (write_node offset (g p) (child_node x.1 o)) := by
          unfold op_node; rw [if_neg hqp, if_pos hpar]
        have hm : q ∈ p :: rest ↔ q ∈ rest := by
          rw [List.mem_cons]
          exact ⟨fun h => h.resolve_left hqp, Or.inr⟩
        rw [e1, ih hnd.2 _ (fun h => by
          obtain ⟨n, hn, hne⟩ := ho (hm.2 h)
          rw [hn, child_node_of_live _ n hne]
          exact ⟨_, rfl, hne⟩)]
        unfold pass_node
        rw [hdl]
        have hP1 : ¬ (x.1 ≠ blank_id ∧ q = p ++ [(x.1 : Int)] ∧ p ∈ rest) :=
          fun h => hnd.1 h.2.2
        have hP2 : x.1 ≠ blank_id ∧ q = p ++ [(x.1 : Int)] ∧ p ∈ p :: rest :=
          ⟨hpar.1, hpar.2, List.mem_cons_self _ _⟩
        rw [if_neg hP1, if_pos hP2]
        by_cases hq : q ∈ rest
        · obtain ⟨n, hn, hne⟩ := ho (hm.2 hq)
          rw [if_pos hq, if_pos (hm.2 hq), hn]
          simp only [Option.map_some']
          rw [child_node_of_live _ n hne, self_node_write_node,
            child_node_of_live _ _ ((self_node_keeps _ _ _ n).2.2.2.2.1.trans hne)]
        · rw [if_neg hq, if_neg (fun h => hq (hm.1 h))]
      · -- the loop body is applied elsewhere
        have e1 : op_node blank_id offset x p q (g p) o = o := by
          unfold op_node; rw [if_neg hqp, if_neg hpar]
        have hm : q ∈ p :: rest ↔ q ∈ rest := by
          rw [List.mem_cons]
          exact ⟨fun h => h.resolve_left hqp, Or.inr⟩
        rw [e1, ih hnd.2 _ (fun h => ho (hm.2 h))]
        have hP : (x.1 ≠ blank_id ∧ q = q.dropLast ++ [(x.1 : Int)] ∧ q.dropLast ∈ p :: rest)
            ↔ (x.1 ≠ blank_id ∧ q = q.dropLast ++ [(x.1 : Int)] ∧ q.dropLast ∈ rest) := by
          constructor
          · rintro ⟨h1, h2, h3⟩
            refine ⟨h1, h2, ?_⟩
            rcases List.mem_cons.1 h3 with h | h
            · exfalso
              rw [h] at h2
              exact hpar ⟨h1, h2⟩
            · exact h
          · rintro ⟨h1, h2, h3⟩
            exact ⟨h1, h2, List.mem_cons_of_mem _ h3⟩
        unfold pass_node
        simp only [hP, hm]

/-- The data members of every node after the loops of one frame, pass by
pass. -/
theorem node?_expand_symbols_pass (blank_id : Nat) (reset : Nat × LogProb → Bool)
    (lm : LogProb → LogProb) (offset : Option Nat) (G : Nat × LogProb → Path → LogProb)
    (beam : List Path) (hnd : beam.Nodup) (symbols : List (Nat × LogProb)) (t : PathTrie)
    (hl : ∀ p ∈ beam, t.isLive p = true) (hd : NoDict t)
    (hG : ∀ x ∈ symbols, ∀ p ∈ beam, lm (new_log_p x.1 x.2 (t.get p)) = G x p) (q : Path) :
    (expand_symbols (fun _ _ => false)
        (fun x _ => expand blank_id x.1 x.2 (reset x) (fun _ => lm) offset) beam symbols
        t).node? q
      = symbols.foldl (fun o x => pass_node blank_id offset x beam q (G x q.dropLast) o)
          (t.node? q) := by
  rw [node?_expand_symbols blank_id reset lm offset G beam symbols t hl hd hG q]
  have key : ∀ o : Option Node, (q ∈ beam → ∃ n, o = some n ∧ n.exists_ = true) →
      symbols.foldl (fun o x =>
          beam.foldl (fun o p => op_node blank_id offset x p q (G x p) o) o) o
        = symbols.foldl (fun o x => pass_node blank_id offset x beam q (G x q.dropLast) o)
          o := by
    clear hG
    induction symbols with
    | nil => intro o _; rfl
    | cons x rest ih =>
      intro o ho
      rw [List.foldl_cons, List.foldl_cons, foldl_op_node blank_id offset x q (G x) beam hnd o ho]
      apply ih
      intro hq
      obtain ⟨n, hn, hne⟩ := ho hq
      rw [hn]
      unfold pass_node
      split_ifs
      · rw [Option.map_some',
          child_node_of_live _ _ ((self_node_keeps _ _ _ n).2.2.2.2.1.trans hne)]
        exact ⟨_, rfl, (self_node_keeps _ _ _ n).2.2.2.2.1.trans hne⟩
      · exact ⟨_, rfl, (self_node_keeps _ _ _ n).2.2.2.2.1.trans hne⟩
  apply key
  intro hq
  exact PathTrie.node?_of_isLive t q (hl q hq)

/-! ### The order of the symbols of a frame does not matter -/

theorem self_node_comm (blank_id c c' : Nat) (lp lp' : LogProb) (n : Node) (h : c ≠ c') :
    self_node blank_id c lp (self_node blank_id c' lp' n)
      = self_node blank_id c' lp' (self_node blank_id c lp n) := by
  have k := self_node_keeps blank_id c lp n
  have k' := self_node_keeps blank_id c' lp' n
  by_cases hb : c = blank_id
  · have hb' : c' ≠ blank_id := fun h' => h (hb.trans h'.symm)
    unfold self_node
    simp only [if_pos hb, if_neg hb']
    split_ifs <;> rfl
  · by_cases hb' : c' = blank_id
    · unfold self_node
      simp only [if_pos hb', if_neg hb]
      split_ifs <;> rfl
    · unfold self_node
      simp only [if_neg hb', if_neg hb]
      by_cases hc : (c : Int) = n.character
      · have hc' : ¬ (c' : Int) = n.character := by
          intro h'
          apply h
          have := hc.trans h'.symm
          exact_mod_cast this
        simp only [if_pos hc, if_neg hc']
      · by_cases hc' : (c' : Int) = n.character
        · simp only [if_neg hc, if_pos hc']
        · simp only [if_neg hc, if_neg hc']

/-- A pass of the loops over the beam keeps a live node of the beam live. -/
theorem pass_node_live (blank_id : Nat) (offset : Option Nat) (x : Nat × LogProb)
    (beam : List Path) (q : Path) (v : LogProb) (o : Option Node)
    (ho : q ∈ beam → ∃ n, o = some n ∧ n.exists_ = true) :
    q ∈ beam → ∃ n, pass_node blank_id offset x beam q v o = some n ∧ n.exists_ = true := by
  intro hq
  obtain ⟨n, hn, hne⟩ := ho hq
  rw [hn]
  unfold pass_node
  split_ifs
  · rw [Option.map_some',
      child_node_of_live _ _ ((self_node_keeps _ _ _ n).2.2.2.2.1.trans hne)]
    exact ⟨_, rfl, (self_node_keeps _ _ _ n).2.2.2.2.1.trans hne⟩
  · exact ⟨_, rfl, (self_node_keeps _ _ _ n).2.2.2.2.1.trans hne⟩

/-- The passes for two different symbols commute. -/
theorem pass_node_comm (blank_id : Nat) (offset : Option Nat) (x y : Nat × LogProb)
    (hxy : x.1 ≠ y.1) (beam : List Path) (q : Path) (v w : LogProb) (o : Option Node)
    (ho : q ∈ beam → ∃ n, o = some n ∧ n.exists_ = true) :
    pass_node blank_id offset x beam q v (pass_node blank_id offset y beam q w o)
      = pass_node blank_id offset y beam q w (pass_node blank_id offset x beam q v o) := by
  have hnot : ¬ ((x.1 ≠ blank_id ∧ q = q.dropLast ++ [(x.1 : Int)] ∧ q.dropLast ∈ beam)
      ∧ (y.1 ≠ blank_id ∧ q = q.dropLast ++ [(y.1 : Int)] ∧ q.dropLast ∈ beam)) := by
    rintro ⟨⟨_, h1, _⟩, ⟨_, h2, _⟩⟩
    have := List.append_cancel_left (h1.symm.trans h2)
    simp only [List.cons.injEq, and_true] at this
    exact hxy (by exact_mod_cast this)
  have hlive : ∀ (k : Nat) (lp : LogProb) (m : Node), m.exists_ = true →
      (self_node blank_id k lp m).exists_ = true :=
    fun k lp m hm => (self_node_keeps _ _ _ m).2.2.2.2.1.trans hm
  by_cases hq : q ∈ beam
  · obtain ⟨n, hn, hne⟩ := ho hq
    subst hn
    by_cases px : x.1 ≠ blank_id ∧ q = q.dropLast ++ [(x.1 : Int)] ∧ q.dropLast ∈ beam
    · have py : ¬ (y.1 ≠ blank_id ∧ q = q.dropLast ++ [(y.1 : Int)] ∧ q.dropLast ∈ beam) :=
        fun h => hnot ⟨px, h⟩
      unfold pass_node
      simp only [if_pos px, if_neg py, if_pos hq, Option.map_some']
      rw [child_node_of_live _ _ (hlive _ _ _ (hlive _ _ _ hne)),
        child_node_of_live _ _ (hlive _ _ _ hne), self_node_write_node,
        self_node_comm blank_id x.1 y.1 _ _ n hxy]
    · by_cases py : y.1 ≠ blank_id ∧ q = q.dropLast ++ [(y.1 : Int)] ∧ q.dropLast ∈ beam
      · unfold pass_node
        simp only [if_pos py, if_neg px, if_pos hq, Option.map_some']
        rw [child_node_of_live _ _ (hlive _ _ _ (hlive _ _ _ hne)),
          child_node_of_live _ _ (hlive _ _ _ hne), self_node_write_node,
          self_node_comm blank_id x.1 y.1 _ _ n hxy]
      · unfold pass_node
        simp only [if_neg py, if_neg px, if_pos hq, Option.map_some']
        rw [self_node_comm blank_id x.1 y.1 _ _ n hxy]
  · by_cases px : x.1 ≠ blank_id ∧ q = q.dropLast ++ [(x.1 : Int)] ∧ q.dropLast ∈ beam
    · have py : ¬ (y.1 ≠ blank_id ∧ q = q.dropLast ++ [(y.1 : Int)] ∧ q.dropLast ∈ beam) :=
        fun h => hnot ⟨px, h⟩
      unfold pass_node
      simp only [if_pos px, if_neg py, if_neg hq]
    · by_cases py : y.1 ≠ blank_id ∧ q = q.dropLast ++ [(y.1 : Int)] ∧ q.dropLast ∈ beam
      · unfold pass_node
        simp only [if_pos py, if_neg px, if_neg hq]
      · unfold pass_node
        simp only [if_neg py, if_neg px, if_neg hq]

/-- The passes of a frame, seen from one node, do not depend on the order of
the symbols. -/
theorem foldl_pass_node_perm (blank_id : Nat) (offset : Option Nat) (beam : List Path)
    (q : Path) (g : Nat × LogProb → LogProb) (X X' : List (Nat × LogProb)) (h : X.Perm X') :
    (X.map Prod.fst).Nodup →
    ∀ o : Option Node, (q ∈ beam → ∃ n, o = some n ∧ n.exists_ = true) →
      X.foldl (fun o x => pass_node blank_id offset x beam q (g x) o) o
        = X'.foldl (fun o x => pass_node blank_id offset x beam q (g x) o) o := by
  induction h with
  | nil => intro _ o _; rfl
  | cons x _ ih =>
    intro hnd o ho
    rw [List.map_cons, List.nodup_cons] at hnd
    rw [List.foldl_cons, List.foldl_cons]
    exact ih hnd.2 _ (pass_node_live blank_id offset x beam q _ o ho)
  | swap x y l =>
    intro hnd o ho
    rw [List.foldl_cons, List.foldl_cons, List.foldl_cons, List.foldl_cons]
    have hxy : x.1 ≠ y.1 := by
      simp only [List.map_cons, List.nodup_cons, List.mem_cons, not_or] at hnd
      exact fun h => hnd.1.1 h.symm
    rw [pass_node_comm blank_id offset x y hxy beam q _ _ o ho]
  | trans h1 _ ih1 ih2 =>
    intro hnd o ho
    rw [ih1 hnd o ho]
    exact ih2 ((h1.map Prod.fst).nodup_iff.1 hnd) o ho

/-! ### One frame over three symbols and the blank -/

theorem pass_node_off (blank_id : Nat) (offset : Option Nat) (x : Nat × LogProb)
    (beam : List Path) (q : Path) (v : LogProb) (o : Option Node) (hq : q ∉ beam)
    (hp : ¬ (x.1 ≠ blank_id ∧ q = q.dropLast ++ [(x.1 : Int)] ∧ q.dropLast ∈ beam)) :
    pass_node blank_id offset x beam q v o = o := by
  unfold pass_node
  rw [if_neg hp, if_neg hq]

theorem pass_node_self (blank_id : Nat) (offset : Option Nat) (x : Nat × LogProb)
    (beam : List Path) (q : Path) (v : LogProb) (o : Option Node) (hq : q ∈ beam)
    (hp : ¬ (x.1 ≠ blank_id ∧ q = q.dropLast ++ [(x.1 : Int)] ∧ q.dropLast ∈ beam)) :
    pass_node blank_id offset x beam q v o = o.map (self_node blank_id x.1 x.2) := by
  unfold pass_node
  rw [if_neg hp, if_pos hq]

theorem pass_node_child (blank_id : Nat) (offset : Option Nat) (x : Nat × LogProb)
    (beam : List Path) (p : Path) (v : LogProb) (o : Option Node) (hb : x.1 ≠ blank_id)
    (hp : p ∈ beam) (hq : p ++ [(x.1 : Int)] ∉ beam) :
    pass_node blank_id offset x beam (p ++ [(x.1 : Int)]) v o
      = some (write_node offset v (child_node x.1 o)) := by
  unfold pass_node
  rw [List.dropLast_concat, if_pos ⟨hb, rfl, hp⟩, if_neg hq]

theorem pass_node_both (blank_id : Nat) (offset : Option Nat) (x : Nat × LogProb)
    (beam : List Path) (p : Path) (v : LogProb) (n : Node) (hb : x.1 ≠ blank_id)
    (hp : p ∈ beam) (hq : p ++ [(x.1 : Int)] ∈ beam) (hn : n.exists_ = true) :
    pass_node blank_id offset x beam (p ++ [(x.1 : Int)]) v (some n)
      = some (write_node offset v (self_node blank_id x.1 x.2 n)) := by
  unfold pass_node
  rw [List.dropLast_concat, if_pos ⟨hb, rfl, hp⟩, if_pos hq, Option.map_some',
    child_node_of_live _ _ ((self_node_keeps _ _ _ n).2.2.2.2.1.trans hn)]

theorem concat_ne_of_ne (p : Path) (c d : Int) (h : d ≠ c) :
    ¬ (p ++ [c] = (p ++ [c]).dropLast ++ [d]) := by
  rw [List.dropLast_concat]
  intro h'
  have := List.append_cancel_left h'
  simp only [List.cons.injEq, and_true] at this
  exact h this.symm

/-- A node outside the beam whose parent is not in the beam either is left
alone by the frame. -/
theorem frame_node_off (A B S Z : LogProb) (beam : List Path) (q : Path)
    (G : Nat × LogProb → Path → LogProb) (o : Option Node) (hq : q ∉ beam)
    (hp : ∀ c : Nat, c < 3 → ¬ (q = q.dropLast ++ [(c : Int)] ∧ q.dropLast ∈ beam)) :
    [(0, A), (1, B), (2, S), (3, Z)].foldl
        (fun o x => pass_node 3 none x beam q (G x q.dropLast) o) o = o := by
  simp only [List.foldl_cons, List.foldl_nil]
  rw [pass_node_off _ _ (3, Z) _ _ _ _ hq (fun h => h.1 rfl),
    pass_node_off _ _ (2, S) _ _ _ _ hq (fun h => hp 2 (by decide) h.2),
    pass_node_off _ _ (1, B) _ _ _ _ hq (fun h => hp 1 (by decide) h.2),
    pass_node_off _ _ (0, A) _ _ _ _ hq (fun h => hp 0 (by decide) h.2)]

/-- A node of the beam whose parent is not in the beam receives the writes of
its own loop bodies. -/
theorem frame_node_self (A B S Z : LogProb) (beam : List Path) (q : Path)
    (G : Nat × LogProb → Path → LogProb) (n : Node) (hq : q ∈ beam)
    (hp : ∀ c : Nat, c < 3 → ¬ (q = q.dropLast ++ [(c : Int)] ∧ q.dropLast ∈ beam)) :
    [(0, A), (1, B), (2, S), (3, Z)].foldl
        (fun o x => pass_node 3 none x beam q (G x q.dropLast) o) (some n)
      = some (self_node 3 3 Z (self_node 3 2 S (self_node 3 1 B (self_node 3 0 A n)))) := by
  simp only [List.foldl_cons, List.foldl_nil]
  rw [pass_node_self _ _ (3, Z) _ _ _ _ hq (fun h => h.1 rfl),
    pass_node_self _ _ (2, S) _ _ _ _ hq (fun h => hp 2 (by decide) h.2),
    pass_node_self _ _ (1, B) _ _ _ _ hq (fun h => hp 1 (by decide) h.2),
    pass_node_self _ _ (0, A) _ _ _ _ hq (fun h => hp 0 (by decide) h.2)]
  rfl

/-- A node outside the beam whose parent is in the beam is made (anew) by its
parent's loop body for the node's symbol. -/
theorem frame_node_child (A B S Z : LogProb) (beam : List Path) (p : Path) (c : Nat)
    (hc : c < 3) (G : Nat × LogProb → Path → LogProb) (o : Option Node)
    (hp : p ∈ beam) (hq : p ++ [(c : Int)] ∉ beam) :
    [(0, A), (1, B), (2, S), (3, Z)].foldl
        (fun o x => pass_node 3 none x beam (p ++ [(c : Int)])
          (G x (p ++ [(c : Int)]).dropLast) o) o
      = some (write_node none (G (c, symbol_log_prob A B S c) p) (child_node c o)) := by
  simp only [List.foldl_cons, List.foldl_nil, List.dropLast_concat]
  have hoff : ∀ (x : Nat × LogProb) (o' : Option Node), (x.1 : Int) ≠ (c : Int) →
      pass_node 3 none x beam (p ++ [(c : Int)]) (G x p) o' = o' := by
    intro x o' hx
    apply pass_node_off _ _ _ _ _ _ _ hq
    rintro ⟨_, h, _⟩
    exact concat_ne_of_ne p _ _ hx h
  interval_cases c
  · rw [pass_node_child 3 none (0, A) beam p _ _ (by simp) hp hq,
      hoff (1, B) _ (by simp), hoff (2, S) _ (by simp), hoff (3, Z) _ (by simp)]
    rfl
  · rw [hoff (0, A) _ (by simp),
      pass_node_child 3 none (1, B) beam p _ _ (by simp) hp hq,
      hoff (2, S) _ (by simp), hoff (3, Z) _ (by simp)]
    rfl
  · rw [hoff (0, A) _ (by simp), hoff (1, B) _ (by simp),
      pass_node_child 3 none (2, S) beam p _ _ (by simp) hp hq,
      hoff (3, Z) _ (by simp)]
    rfl

/-- A node of the beam whose parent is in the beam too receives the writes of
its own loop bodies and the write of its parent's loop body for the node's
symbol. -/
theorem frame_node_both (A B S Z : LogProb) (beam : List Path) (p : Path) (c : Nat)
    (hc : c < 3) (G : Nat × LogProb → Path → LogProb) (n : Node) (hn : n.exists_ = true)
    (hp : p ∈ beam) (hq : p ++ [(c : Int)] ∈ beam) :
    [(0, A), (1, B), (2, S), (3, Z)].foldl
        (fun o x => pass_node 3 none x beam (p ++ [(c : Int)])
          (G x (p ++ [(c : Int)]).dropLast) o) (some n)
      = some (write_node none (G (c, symbol_log_prob A B S c) p)
          (self_node 3 3 Z (self_node 3 2 S (self_node 3 1 B (self_node 3 0 A n))))) := by
  simp only [List.foldl_cons, List.foldl_nil, List.dropLast_concat]
  have hself : ∀ (x : Nat × LogProb) (m : Node), x.1 = 3 ∨ (x.1 : Int) ≠ (c : Int) →
      pass_node 3 none x beam (p ++ [(c : Int)]) (G x p) (some m)
        = some (self_node 3 x.1 x.2 m) := by
    intro x m hx
    rw [pass_node_self _ _ _ _ _ _ _ hq]
    · rfl
    · rintro ⟨h1, h, _⟩
      rcases hx with hx | hx
      · exact h1 hx
      · exact concat_ne_of_ne p _ _ hx h
  have hlive : ∀ (k : Nat) (lp : LogProb) (m : Node), m.exists_ = true →
      (self_node 3 k lp m).exists_ = true :=
    fun k lp m hm => (self_node_keeps _ _ _ m).2.2.2.2.1.trans hm
  interval_cases c
  · rw [pass_node_both 3 none (0, A) beam p _ n (by simp) hp hq hn,
      hself (1, B) _ (Or.inr (by simp)), hself (2, S) _ (Or.inr (by simp)),
      hself (3, Z) _ (Or.inl rfl)]
    simp only [self_node_write_node]
    rfl
  · rw [hself (0, A) _ (Or.inr (by simp)),
      pass_node_both 3 none (1, B) beam p _ _ (by simp) hp hq (hlive _ _ _ hn),
      hself (2, S) _ (Or.inr (by simp)), hself (3, Z) _ (Or.inl rfl)]
    simp only [self_node_write_node]
    rfl
  · rw [hself (0, A) _ (Or.inr (by simp)), hself (1, B) _ (Or.inr (by simp)),
      pass_node_both 3 none (2, S) beam p _ _ (by simp) hp hq (hlive _ _ _ (hlive _ _ _ hn)),
      hself (3, Z) _ (Or.inl rfl)]
    simp only [self_node_write_node]
    rfl

/-- The data members after the four loop bodies of a frame applied to a node. -/
theorem self_nodes_keeps (A B S Z : LogProb) (n : Node) :
    (self_node 3 3 Z (self_node 3 2 S (self_node 3 1 B (self_node 3 0 A n)))).character
        = n.character
      ∧ (self_node 3 3 Z (self_node 3 2 S (self_node 3 1 B (self_node 3 0 A n)))).exists_
        = n.exists_
      ∧ (self_node 3 3 Z (self_node 3 2 S (self_node 3 1 B
          (self_node 3 0 A n)))).has_dictionary_ = n.has_dictionary_
      ∧ (self_node 3 3 Z (self_node 3 2 S (self_node 3 1 B
          (self_node 3 0 A n)))).log_prob_b_cur = log_sum_exp n.log_prob_b_cur (Z + n.score) := by
  have k0 := self_node_keeps 3 0 A n
  have k1 := self_node_keeps 3 1 B (self_node 3 0 A n)
  have k2 := self_node_keeps 3 2 S (self_node 3 1 B (self_node 3 0 A n))
  have k3 := self_node_keeps 3 3 Z (self_node 3 2 S (self_node 3 1 B (self_node 3 0 A n)))
  refine ⟨by rw [k3.1, k2.1, k1.1, k0.1], by rw [k3.2.2.2.2.1, k2.2.2.2.2.1, k1.2.2.2.2.1,
    k0.2.2.2.2.1], by rw [k3.2.2.2.2.2, k2.2.2.2.2.2, k1.2.2.2.2.2, k0.2.2.2.2.2], ?_⟩
  have b0 : ∀ (k : Nat) (lp : LogProb) (m : Node), k ≠ 3 →
      (self_node 3 k lp m).log_prob_b_cur = m.log_prob_b_cur := by
    intro k lp m hk
    unfold self_node
    rw [if_neg hk]
    split_ifs <;> rfl
  have b3 : ∀ (lp : LogProb) (m : Node),
      (self_node 3 3 lp m).log_prob_b_cur = log_sum_exp m.log_prob_b_cur (lp + m.score) := by
    intro lp m
    unfold self_node
    rw [if_pos rfl]
  rw [b3, b0 2 _ _ (by decide), b0 1 _ _ (by decide), b0 0 _ _ (by decide), k2.2.2.2.1,
    k1.2.2.2.1, k0.2.2.2.1]

theorem self_node_nb_cur (k : Nat) (lp : LogProb) (m : Node) :
    (self_node 3 k lp m).log_prob_nb_cur
      = if k ≠ 3 ∧ (k : Int) = m.character then
          log_sum_exp m.log_prob_nb_cur (lp + m.log_prob_nb_prev)
        else m.log_prob_nb_cur := by
  unfold self_node
  by_cases hk : k = 3
  · rw [if_pos hk, if_neg (fun h => h.1 hk)]
  · rw [if_neg hk]
    by_cases hc : (k : Int) = m.character
    · rw [if_pos hc, if_pos ⟨hk, hc⟩]
    · rw [if_neg hc, if_neg (fun h => hc h.2)]

/-- A node labelled with one of the three symbols collects its repeat. -/
theorem self_nodes_nb_cur (A B S Z : LogProb) (n : Node) (c : Nat) (hc : c < 3)
    (hn : n.character = (c : Int)) :
    (self_node 3 3 Z (self_node 3 2 S (self_node 3 1 B
        (self_node 3 0 A n)))).log_prob_nb_cur
      = log_sum_exp n.log_prob_nb_cur (symbol_log_prob A B S c + n.log_prob_nb_prev) := by
  have k0 := self_node_keeps 3 0 A n
  have k1 := self_node_keeps 3 1 B (self_node 3 0 A n)
  have k2 := self_node_keeps 3 2 S (self_node 3 1 B (self_node 3 0 A n))
  simp only [self_node_nb_cur, k2.1, k1.1, k0.1, k2.2.2.1, k1.2.2.1, k0.2.2.1, hn]
  interval_cases c <;> simp [symbol_log_prob]

/-- The root collects no repeat. -/
theorem self_nodes_nb_cur_root (A B S Z : LogProb) (n : Node) (hn : n.character = -1) :
    (self_node 3 3 Z (self_node 3 2 S (self_node 3 1 B
        (self_node 3 0 A n)))).log_prob_nb_cur = n.log_prob_nb_cur := by
  have k0 := self_node_keeps 3 0 A n
  have k1 := self_node_keeps 3 1 B (self_node 3 0 A n)
  have k2 := self_node_keeps 3 2 S (self_node 3 1 B (self_node 3 0 A n))
  simp [self_node_nb_cur, k2.1, k1.1, k0.1, hn]

/-! ### Two frames over `["a", "b", " "]` (C2) -/

theorem exp_log_sum_exp (a b : LogProb) : (log_sum_exp a b).exp = a.exp + b.exp := rfl

theorem exp_add (a b : LogProb) : (a + b).exp = a.exp * b.exp := rfl

theorem exp_NEG_NUM_FLT_INF : NEG_NUM_FLT_INF.exp = 0 := rfl

theorem exp_log (p : ℚ) : (log p).exp = p := rfl

theorem exp_new_log_p (c : Nat) (log_prob_c : LogProb) (n : Node)
    (hb : 0 ≤ n.log_prob_b_prev.exp) :
    (new_log_p c log_prob_c n).exp
      = log_prob_c.exp * (if (c : Int) = n.character then n.log_prob_b_prev.exp
          else n.score.exp) := by
  unfold new_log_p
  by_cases hc : (c : Int) = n.character
  · rw [if_pos hc]
    by_cases hp : n.log_prob_b_prev > NEG_NUM_FLT_INF
    · rw [if_pos ⟨hc, hp⟩]
      rfl
    · rw [if_neg (fun h => hp h.2), if_neg (fun h => h hc)]
      have h0 : n.log_prob_b_prev.exp = 0 := le_antisymm (not_lt.1 hp) hb
      rw [h0, mul_zero]
      rfl
  · rw [if_neg (fun h => hc h.1), if_pos hc, if_neg hc]
    rfl

theorem node?_rolled (t : PathTrie) (q : Path) :
    t.rolled.node? q = (t.node? q).map (fun n => if n.exists_ then n.roll else n) := by
  unfold PathTrie.node?
  rw [PathTrie.at?_rolled]
  cases t.at? q with
  | none => rfl
  | some x => rfl

theorem Rolled_roll (n : Node) (hn : n.exists_ = true) :
    Rolled n.roll n.character n.log_prob_b_cur.exp n.log_prob_nb_cur.exp :=
  ⟨rfl, hn, rfl, rfl, rfl, rfl, rfl⟩

theorem body_one_shot_none (vocabulary : List String) :
    body_one_shot none vocabulary
      = fun x _ => expand vocabulary.length x.1 x.2 (word_end vocabulary x.1)
          (fun _ => fun l => l) none := rfl

theorem node?_expand_frame (t : PathTrie) (beam : List Path) (X : List (Nat × LogProb))
    (A B S Z : LogProb) (hX : X.Perm [(0, A), (1, B), (2, S), (3, Z)])
    (hnd : beam.Nodup) (hl : ∀ p ∈ beam, t.isLive p = true) (hd : NoDict t) (q : Path) :
    (expand_frame t beam X).node? q
      = [(0, A), (1, B), (2, S), (3, Z)].foldl
          (fun o x => pass_node 3 none x beam q (new_log_p x.1 x.2 (t.get q.dropLast)) o)
          (t.node? q) := by
  unfold expand_frame
  rw [body_one_shot_none]
  have hfst : (X.map Prod.fst).Nodup := by
    rw [(hX.map Prod.fst).nodup_iff]
    simp
  exact (node?_expand_symbols_pass 3 (fun x => word_end ["a", "b", " "] x.1) (fun l => l) none
    (fun x p => new_log_p x.1 x.2 (t.get p)) beam hnd X t hl hd (fun _ _ _ _ => rfl) q).trans
    (foldl_pass_node_perm 3 none beam q (fun x => new_log_p x.1 x.2 (t.get q.dropLast))
      X _ hX hfst (t.node? q) (fun hq => PathTrie.node?_of_isLive t q (hl q hq)))

theorem NoDict_expand_symbols (blank_id : Nat) (reset : Nat × LogProb → Bool)
    (lm : LogProb → LogProb) (offset : Option Nat) (beam : List Path)
    (symbols : List (Nat × LogProb)) :
    ∀ t : PathTrie, (∀ p ∈ beam, t.isLive p = true) → NoDict t →
      NoDict (expand_symbols (fun _ _ => false)
        (fun x _ => expand blank_id x.1 x.2 (reset x) (fun _ => lm) offset) beam symbols t) := by
  induction symbols with
  | nil => intro t _ hd; exact hd
  | cons x rest ih =>
    intro t hl hd
    rw [expand_symbols]
    exact ih _ (fun p hp => expand_prefixes_isLive _ _ _ _ _ _ _ beam t p (hl p hp))
      (expand_prefixes_NoDict _ _ _ _ _ _ beam t hl hd)

theorem NoDict_expand_frame (t : PathTrie) (beam : List Path) (X : List (Nat × LogProb))
    (hl : ∀ p ∈ beam, t.isLive p = true) (hd : NoDict t) :
    NoDict (expand_frame t beam X) := by
  unfold expand_frame
  rw [body_one_shot_none]
  exact NoDict_expand_symbols 3 (fun x => word_end ["a", "b", " "] x.1) (fun l => l) none
    beam _ t hl hd

theorem NoDict_rolled (t : PathTrie) (hd : NoDict t) : NoDict t.rolled := by
  intro q n hn
  rw [node?_rolled] at hn
  cases hq : t.node? q with
  | none => rw [hq] at hn; cases hn
  | some m =>
    rw [hq] at hn
    simp only [Option.map_some', Option.some.injEq] at hn
    rw [← hn]
    split_ifs
    · exact hd q m hq
    · exact hd q m hq

theorem NoDict_of_Shrinks (t t' : PathTrie) (h : t.Shrinks t') (hd : NoDict t) : NoDict t' := by
  intro q n hn
  rcases h q with h0 | ⟨m, hm, h1 | h1⟩
  · rw [h0] at hn; cases hn
  · rw [h1] at hn
    injection hn with hn
    rw [← hn]
    exact hd q m hm
  · rw [h1] at hn
    injection hn with hn
    rw [← hn]
    exact hd q m hm

theorem Rolled_congr (n : Node) (ch ch' : Int) (b nb b' nb' : ℚ) (h : Rolled n ch b nb)
    (hc : ch = ch') (hb : b = b') (hnb : nb = nb') : Rolled n ch' b' nb' := by
  subst hc hb hnb
  exact h

theorem rolled_node?_of_live (t : PathTrie) (q : Path) (m : Node) (h : t.node? q = some m)
    (hm : m.exists_ = true) :
    t.rolled.node? q = some m.roll
      ∧ Rolled m.roll m.character m.log_prob_b_cur.exp m.log_prob_nb_cur.exp := by
  rw [node?_rolled, h]
  simp only [Option.map_some', hm, if_true]
  exact ⟨trivial, Rolled_roll m hm⟩

/-- After a frame: a node outside the beam whose parent is not in the beam
either is as live as before. -/
theorem frame_off (t : PathTrie) (beam : List Path) (X : List (Nat × LogProb))
    (A B S Z : LogProb) (hX : X.Perm [(0, A), (1, B), (2, S), (3, Z)]) (hnd : beam.Nodup)
    (hl : ∀ p ∈ beam, t.isLive p = true) (hd : NoDict t) (q : Path) (hq : q ∉ beam)
    (hp : ∀ c : Nat, c < 3 → ¬ (q = q.dropLast ++ [(c : Int)] ∧ q.dropLast ∈ beam)) :
    (expand_frame t beam X).rolled.isLive q = t.isLive q := by
  rw [PathTrie.isLive_rolled, PathTrie.isLive_eq_node?, PathTrie.isLive_eq_node?,
    node?_expand_frame t beam X A B S Z hX hnd hl hd q, frame_node_off A B S Z beam q
      (fun x p => new_log_p x.1 x.2 (t.get p)) _ hq hp]

/-- After a frame: the root, when it is in the beam. -/
theorem frame_root (t : PathTrie) (beam : List Path) (X : List (Nat × LogProb))
    (A B S Z : LogProb) (hX : X.Perm [(0, A), (1, B), (2, S), (3, Z)]) (hnd : beam.Nodup)
    (hl : ∀ p ∈ beam, t.isLive p = true) (hd : NoDict t) (hq : [] ∈ beam) (n : Node)
    (hn : t.node? [] = some n) (b nb : ℚ) (hr : Rolled n (-1) b nb) :
    ∃ n', (expand_frame t beam X).rolled.node? [] = some n'
      ∧ Rolled n' (-1) (Z.exp * (b + nb)) 0 := by
  obtain ⟨h1, h2, h3, h4, h5, h6, h7⟩ := hr
  have hp : ∀ c : Nat, c < 3 →
      ¬ (([] : Path) = ([] : Path).dropLast ++ [(c : Int)] ∧ ([] : Path).dropLast ∈ beam) := by
    intro c _ h
    simp at h
  have e := node?_expand_frame t beam X A B S Z hX hnd hl hd []
  rw [hn, frame_node_self A B S Z beam []
    (fun x p => new_log_p x.1 x.2 (t.get p)) n hq hp] at e
  obtain ⟨k1, k2, _, k4⟩ := self_nodes_keeps A B S Z n
  obtain ⟨g1, g2⟩ := rolled_node?_of_live _ [] _ e (k2.trans h2)
  refine ⟨_, g1, Rolled_congr _ _ _ _ _ _ _ g2 (k1.trans h1) ?_ ?_⟩
  · rw [k4, exp_log_sum_exp, exp_add, h6, h5, exp_NEG_NUM_FLT_INF, zero_add]
  · rw [self_nodes_nb_cur_root A B S Z n h1, h7, exp_NEG_NUM_FLT_INF]

/-- After a frame: a node of the beam, labelled with one of the three symbols,
whose parent is not in the beam. -/
theorem frame_self (t : PathTrie) (beam : List Path) (X : List (Nat × LogProb))
    (A B S Z : LogProb) (hX : X.Perm [(0, A), (1, B), (2, S), (3, Z)]) (hnd : beam.Nodup)
    (hl : ∀ p ∈ beam, t.isLive p = true) (hd : NoDict t) (q : Path) (hq : q ∈ beam)
    (hp : ∀ c : Nat, c < 3 → ¬ (q = q.dropLast ++ [(c : Int)] ∧ q.dropLast ∈ beam))
    (n : Node) (hn : t.node? q = some n) (c : Nat) (hc : c < 3) (b nb : ℚ)
    (hr : Rolled n (c : Int) b nb) :
    ∃ n', (expand_frame t beam X).rolled.node? q = some n'
      ∧ Rolled n' (c : Int) (Z.exp * (b + nb)) ((symbol_log_prob A B S c).exp * nb) := by
  obtain ⟨h1, h2, h3, h4, h5, h6, h7⟩ := hr
  have e := node?_expand_frame t beam X A B S Z hX hnd hl hd q
  rw [hn, frame_node_self A B S Z beam q
    (fun x p => new_log_p x.1 x.2 (t.get p)) n hq hp] at e
  obtain ⟨k1, k2, _, k4⟩ := self_nodes_keeps A B S Z n
  obtain ⟨g1, g2⟩ := rolled_node?_of_live _ q _ e (k2.trans h2)
  refine ⟨_, g1, Rolled_congr _ _ _ _ _ _ _ g2 (k1.trans h1) ?_ ?_⟩
  · rw [k4, exp_log_sum_exp, exp_add, h6, h5, exp_NEG_NUM_FLT_INF, zero_add]
  · rw [self_nodes_nb_cur A B S Z n c hc h1, exp_log_sum_exp, exp_add, h7, h4,
      exp_NEG_NUM_FLT_INF, zero_add]

/-- After a frame: a node of the beam whose parent is in the beam too. -/
theorem frame_both (t : PathTrie) (beam : List Path) (X : List (Nat × LogProb))
    (A B S Z : LogProb) (hX : X.Perm [(0, A), (1, B), (2, S), (3, Z)]) (hnd : beam.Nodup)
    (hl : ∀ p ∈ beam, t.isLive p = true) (hd : NoDict t) (p : Path) (c : Nat) (hc : c < 3)
    (hp : p ∈ beam) (hq : p ++ [(c : Int)] ∈ beam)
    (n : Node) (hn : t.node? (p ++ [(c : Int)]) = some n) (b nb : ℚ)
    (hr : Rolled n (c : Int) b nb)
    (np : Node) (hnp : t.node? p = some np) (chp : Int) (bp nbp : ℚ)
    (hrp : Rolled np chp bp nbp) (hbp : 0 ≤ bp) :
    ∃ n', (expand_frame t beam X).rolled.node? (p ++ [(c : Int)]) = some n'
      ∧ Rolled n' (c : Int) (Z.exp * (b + nb))
          ((symbol_log_prob A B S c).exp * nb
            + (symbol_log_prob A B S c).exp * (if (c : Int) = chp then bp else bp + nbp)) := by
  obtain ⟨h1, h2, h3, h4, h5, h6, h7⟩ := hr
  obtain ⟨p1, p2, p3, p4, p5, p6, p7⟩ := hrp
  have e := node?_expand_frame t beam X A B S Z hX hnd hl hd (p ++ [(c : Int)])
  rw [hn, frame_node_both A B S Z beam p c hc
    (fun x p => new_log_p x.1 x.2 (t.get p)) n h2 hp hq] at e
  obtain ⟨k1, k2, _, k4⟩ := self_nodes_keeps A B S Z n
  have hget : t.get p = np := by rw [PathTrie.get_eq_node?, hnp]; rfl
  obtain ⟨g1, g2⟩ := rolled_node?_of_live _ _ _ e (k2.trans h2)
  refine ⟨_, g1, Rolled_congr _ _ _ _ _ _ _ g2 (k1.trans h1) ?_ ?_⟩
  · show (self_node 3 3 Z (self_node 3 2 S (self_node 3 1 B
        (self_node 3 0 A n)))).log_prob_b_cur.exp = _
    rw [k4, exp_log_sum_exp, exp_add, h6, h5, exp_NEG_NUM_FLT_INF, zero_add]
  · show (log_sum_exp (self_node 3 3 Z (self_node 3 2 S (self_node 3 1 B
        (self_node 3 0 A n)))).log_prob_nb_cur
        (new_log_p c (symbol_log_prob A B S c) (t.get p))).exp = _
    rw [exp_log_sum_exp, self_nodes_nb_cur A B S Z n c hc h1, exp_log_sum_exp, exp_add, h7,
      h4, exp_NEG_NUM_FLT_INF, zero_add, hget, exp_new_log_p _ _ _ (by rw [p3]; exact hbp),
      p1, p3, p5]

theorem child_node_fresh (c : Int) (o : Option Node)
    (ho : ∀ n, o = some n → n.exists_ = false) :
    (child_node c o).exists_ = true
      ∧ (child_node c o).log_prob_b_cur = NEG_NUM_FLT_INF
      ∧ (child_node c o).log_prob_nb_cur = NEG_NUM_FLT_INF := by
  unfold child_node
  cases o with
  | none => exact ⟨rfl, rfl, rfl⟩
  | some n =>
    simp only [ho n rfl, if_true]
    exact ⟨rfl, rfl, rfl⟩

/-- After a frame: a node outside the beam whose parent is in the beam. -/
theorem frame_child (t : PathTrie) (beam : List Path) (X : List (Nat × LogProb))
    (A B S Z : LogProb) (hX : X.Perm [(0, A), (1, B), (2, S), (3, Z)]) (hnd : beam.Nodup)
    (hl : ∀ p ∈ beam, t.isLive p = true) (hd : NoDict t) (p : Path) (c : Nat) (hc : c < 3)
    (hp : p ∈ beam) (hq : p ++ [(c : Int)] ∉ beam)
    (hdead : t.isLive (p ++ [(c : Int)]) = false)
    (np : Node) (hnp : t.node? p = some np) (chp : Int) (bp nbp : ℚ)
    (hrp : Rolled np chp bp nbp) (hbp : 0 ≤ bp) :
    ∃ n', (expand_frame t beam X).rolled.node? (p ++ [(c : Int)]) = some n'
      ∧ Rolled n' (child_node c (t.node? (p ++ [(c : Int)]))).character 0
          ((symbol_log_prob A B S c).exp * (if (c : Int) = chp then bp else bp + nbp)) := by
  obtain ⟨p1, p2, p3, p4, p5, p6, p7⟩ := hrp
  have e := node?_expand_frame t beam X A B S Z hX hnd hl hd (p ++ [(c : Int)])
  rw [frame_node_child A B S Z beam p c hc
    (fun x p => new_log_p x.1 x.2 (t.get p)) _ hp hq] at e
  have hget : t.get p = np := by rw [PathTrie.get_eq_node?, hnp]; rfl
  have ho : ∀ n, t.node? (p ++ [(c : Int)]) = some n → n.exists_ = false := by
    intro n hn
    rw [PathTrie.isLive_eq_node?, hn] at hdead
    exact hdead
  obtain ⟨f1, f2, f3⟩ := child_node_fresh c _ ho
  obtain ⟨g1, g2⟩ := rolled_node?_of_live _ _ _ e f1
  refine ⟨_, g1, Rolled_congr _ _ _ _ _ _ _ g2 rfl ?_ ?_⟩
  · show (child_node c (t.node? (p ++ [(c : Int)]))).log_prob_b_cur.exp = 0
    rw [f2, exp_NEG_NUM_FLT_INF]
  · show (log_sum_exp (child_node c (t.node? (p ++ [(c : Int)]))).log_prob_nb_cur
        (new_log_p c (symbol_log_prob A B S c) (t.get p))).exp = _
    rw [exp_log_sum_exp, f3, exp_NEG_NUM_FLT_INF, zero_add, hget,
      exp_new_log_p _ _ _ (by rw [p3]; exact hbp), p1, p3, p5]

/-! ### A prefix that beats every other one comes first -/

theorem head?_std_sort {α : Type} (comp : α → α → Bool) (m : α) (hirr : comp m m = false)
    (l : List α) :
    m ∈ l → (∀ q ∈ l, q ≠ m → comp m q = true ∧ comp q m = false) →
      (std_sort comp l).head? = some m := by
  unfold std_sort
  induction l with
  | nil => intro h; cases h
  | cons a l ih =>
    intro hm hmax
    rw [List.insertionSort]
    by_cases hml : m ∈ l
    · have h1 := ih hml (fun q hq hne => hmax q (List.mem_cons_of_mem _ hq) hne)
      cases hs : List.insertionSort (fun x y => comp y x = false) l with
      | nil => rw [hs] at h1; cases h1
      | cons b rest =>
        rw [hs] at h1
        simp only [List.head?_cons, Option.some.injEq] at h1
        subst h1
        rw [List.orderedInsert]
        by_cases ha : a = b
        · subst ha
          rw [if_pos hirr]
          rfl
        · rw [if_neg (by rw [(hmax a (List.mem_cons_self _ _) ha).1]; simp)]
          rfl
    · have ha : a = m := by
        rcases List.mem_cons.1 hm with h | h
        · exact h.symm
        · exact absurd h hml
      subst ha
      cases hs : List.insertionSort (fun x y => comp y x = false) l with
      | nil => rfl
      | cons b rest =>
        have hb : b ∈ l := by
          have : b ∈ List.insertionSort (fun x y => comp y x = false) l := by
            rw [hs]; exact List.mem_cons_self _ _
          exact (List.perm_insertionSort _ l).mem_iff.1 this
        have hne : b ≠ a := fun h => hml (h ▸ hb)
        rw [List.orderedInsert, if_pos (hmax b (List.mem_cons_of_mem _ hb) hne).2]
        rfl

theorem prefix_compare_irrefl (x : Node) : prefix_compare x x = false := by
  unfold prefix_compare
  simp

theorem prefix_compare_asymm (x y : Node) (h : prefix_compare x y = true) :
    prefix_compare y x = false := by
  rw [prefix_compare_iff] at h
  rw [prefix_compare_false_iff]
  rcases h with h | ⟨h1, h2⟩
  · exact Or.inl h
  · exact Or.inr ⟨h1.symm, le_of_lt h2⟩

theorem roll_and_prune_prefixes (K : Nat) (root : PathTrie) (st : PathTrie × List Path)
    (h : roll_and_prune K root = Except.ok st) :
    st.2 = if (root.live_paths []).length ≥ K then
        std_nth_element (prefix_compare_at root.rolled) K (root.live_paths [])
      else root.live_paths [] := by
  unfold roll_and_prune at h
  simp only [PathTrie.iterate_to_vec_eq, List.nil_append] at h
  split_ifs at h with hlen
  · rw [if_pos hlen]
    cases hr : remove_all (List.drop K (std_nth_element (prefix_compare_at root.rolled) K
        (root.live_paths []))) root.rolled with
    | error e => rw [hr] at h; cases h
    | ok root1 =>
      rw [hr] at h
      simp only at h
      injection h with h
      rw [← h]
  · rw [if_neg hlen]
    injection h with h
    rw [← h]

/-- The roll-and-prune block keeps a prefix that beats every other live one in
the beam. -/
theorem roll_and_prune_keeps_max (V K : Nat) (root : PathTrie) (hK : 1 ≤ K)
    (h : StateOK V root) (m : Path) (hm : root.rolled.isLive m = true)
    (hmax : ∀ q, root.rolled.isLive q = true → q ≠ m →
      prefix_compare (root.rolled.get m) (root.rolled.get q) = true) :
    ∃ st, roll_and_prune K root = Except.ok st ∧ BeamInv V K st
      ∧ root.rolled.Shrinks st.1 ∧ m ∈ st.2.take K := by
  obtain ⟨st, h1, h2, h3, h4⟩ := roll_and_prune_spec V K root hK h
  refine ⟨st, h1, h2, h3, ?_⟩
  have hmem : ∀ q, q ∈ root.live_paths [] ↔ root.rolled.isLive q = true := by
    intro q
    rw [PathTrie.mem_live_paths V root h.1.2, PathTrie.isLive_rolled]
    simp
  have hml : m ∈ root.live_paths [] := (hmem m).2 hm
  rw [roll_and_prune_prefixes K root st h1]
  by_cases hlen : (root.live_paths []).length ≥ K
  · rw [if_pos hlen]
    unfold std_nth_element
    by_cases hle : (root.live_paths []).length ≤ K
    · rw [if_pos hle, List.take_of_length_le hle]
      exact hml
    · rw [if_neg hle]
      have hh := head?_std_sort (prefix_compare_at root.rolled) m
        (prefix_compare_irrefl _) (root.live_paths []) hml
        (fun q hq hne => ⟨hmax q ((hmem q).1 hq) hne,
          prefix_compare_asymm _ _ (hmax q ((hmem q).1 hq) hne)⟩)
      cases hs : std_sort (prefix_compare_at root.rolled) (root.live_paths []) with
      | nil => rw [hs] at hh; cases hh
      | cons b rest =>
        rw [hs] at hh
        simp only [List.head?_cons, Option.some.injEq] at hh
        subst hh
        cases K with
        | zero => omega
        | succ k => simp
  · rw [if_neg hlen, List.take_of_length_le (by omega)]
    exact hml

theorem approx_scores_get (vocabulary : List String) (l : List Path) :
    ∀ (root : PathTrie) (q : Path),
      ((approx_scores vocabulary none l root).get q).score = (root.get q).score
        ∧ ((approx_scores vocabulary none l root).get q).character
          = (root.get q).character := by
  induction l with
  | nil => intro root q; exact ⟨rfl, rfl⟩
  | cons p rest ih =>
    intro root q
    unfold approx_scores
    obtain ⟨h1, h2⟩ := ih (root.update p (fun t => { t with node := { t.node with
        approx_ctc := t.node.score } })) q
    have e := PathTrie.node?_update_node root p q (fun t => { t with node := { t.node with
        approx_ctc := t.node.score } }) (fun _ => rfl)
    rw [h1, h2, PathTrie.get_eq_node?, PathTrie.get_eq_node?, e]
    by_cases hq : q = p
    · subst hq
      rw [if_pos rfl]
      unfold PathTrie.node?
      cases root.at? q with
      | none => exact ⟨rfl, rfl⟩
      | some x => exact ⟨rfl, rfl⟩
    · rw [if_neg hq]
      exact ⟨rfl, rfl⟩

/-- The part of `ctc_beam_search_decoder` after the loop over time, without a
scorer: the transcript of a prefix of the beam that beats every other one is
returned first. -/
theorem one_shot_finish_head (V K : Nat) (root : PathTrie) (prefixes : List Path)
    (vocabulary : List String) (hV : V = vocabulary.length) (htok : TokensOK vocabulary)
    (h : BeamInv V K (root, prefixes)) (m : Path) (hm : m ∈ prefixes.take K)
    (hmax : ∀ q ∈ prefixes.take K, q ≠ m →
      prefix_compare (root.get m) (root.get q) = true) :
    ∃ r, one_shot_finish vocabulary K none (root, prefixes) = Except.ok r
      ∧ (r.map Prod.snd).head? = some ((render vocabulary m).toOption.getD "") := by
  obtain ⟨hwf, hnd, hmem, hne⟩ := h
  unfold one_shot_finish
  simp only
  generalize hpre1 : sort_first (prefix_compare_at root) (min prefixes.length K) prefixes
    = prefixes1
  have htake : prefixes1.take K = std_sort (prefix_compare_at root) (prefixes.take K) := by
    rw [← hpre1]; exact take_sort_first _ _ _
  have hperm : (prefixes1.take K).Perm (prefixes.take K) := by
    rw [htake]; exact perm_std_sort _ _
  generalize hroot2 : approx_scores vocabulary none (prefixes1.take K) root = root2
  have hs2 : SameShape V root root2 := by
    rw [← hroot2]
    exact approx_scores_SameShape V vocabulary none _ root
  have hvalid : ∀ p ∈ prefixes1.take K, (root2.at? p).isSome = true := by
    intro p hp
    have hl : root.isLive p = true := (hmem p).1 (hperm.mem_iff.1 hp)
    rw [at?_isSome_eq_node?, hs2.2.2 p, ← at?_isSome_eq_node?]
    exact at?_isSome_of_isLive root p hl
  have hne1 : prefixes1.take K ≠ [] := by
    intro h0
    apply hne
    have := hperm.length_eq
    rw [h0] at this
    exact List.eq_nil_of_length_eq_zero this.symm
  obtain ⟨r, g1, _, _, _, g5⟩ := get_beam_search_result_ok V K root2 prefixes1 vocabulary hV
    htok (hs2.1 hwf) hvalid hne1
  rw [g1]
  refine ⟨r.1, rfl, ?_⟩
  rw [g5]
  have hcmp : prefix_compare_at root2 = prefix_compare_at root := by
    funext x y
    unfold prefix_compare_at prefix_compare
    rw [← hroot2, (approx_scores_get vocabulary _ root x).1,
      (approx_scores_get vocabulary _ root x).2, (approx_scores_get vocabulary _ root y).1,
      (approx_scores_get vocabulary _ root y).2]
  have hh := head?_std_sort (prefix_compare_at root2) m (by
      unfold prefix_compare_at; exact prefix_compare_irrefl _) (prefixes1.take K)
    (hperm.mem_iff.2 hm)
    (fun q hq hne' => by
      rw [hcmp]
      exact ⟨hmax q (hperm.mem_iff.1 hq) hne',
        prefix_compare_asymm _ _ (hmax q (hperm.mem_iff.1 hq) hne')⟩)
  cases hs : std_sort (prefix_compare_at root2) (prefixes1.take K) with
  | nil => rw [hs] at hh; cases hh
  | cons b rest =>
    rw [hs] at hh
    simp only [List.head?_cons, Option.some.injEq] at hh
    subst hh
    rfl

/-- With `cutoff_prob ≥ 1` nothing is pruned: the symbols of a frame are all
four, sorted by probability when `cutoff_top_n` is below four and in the order of
their indices otherwise. -/
theorem get_pruned_log_probs_perm (a b s z : ℚ) (cutoff_prob : ℚ) (cutoff_top_n : Nat)
    (hcp : 1 ≤ cutoff_prob) :
    (get_pruned_log_probs [a, b, s, z] cutoff_prob cutoff_top_n).Perm
      [(0, stored_log_prob a), (1, stored_log_prob b), (2, stored_log_prob s),
        (3, stored_log_prob z)] := by
  unfold get_pruned_log_probs pruned_prob_idx
  have hcp' : ¬ cutoff_prob < 1 := not_lt.2 hcp
  by_cases h : cutoff_top_n < [a, b, s, z].length
  · have hl : (std_sort pair_comp_second_rev [a, b, s, z].enum).length = 4 := by
      unfold std_sort
      rw [List.length_insertionSort]
      rfl
    simp only [if_pos (Or.inr h), if_neg hcp']
    rw [List.take_of_length_le (by rw [List.length_take, hl]; simp),
      List.take_of_length_le (by rw [hl]; simp)]
    exact (List.perm_insertionSort _ _).map _
  · have h' : ¬ (cutoff_prob < 1 ∨ cutoff_top_n < [a, b, s, z].length) := by
      rintro (h1 | h1)
      · exact hcp' h1
      · exact h h1
    simp only [if_neg h']
    exact List.Perm.refl _

theorem frame_step_frame (K : Nat) (cutoff_prob : ℚ) (cutoff_top_n : Nat) (prob : List ℚ)
    (st : PathTrie × List Path) :
    frame_step K (["a", "b", " "] : List String).length cutoff_prob cutoff_top_n none
        (body_one_shot none ["a", "b", " "]) prob st
      = roll_and_prune K (expand_frame st.1 (st.2.take K)
          (get_pruned_log_probs prob cutoff_prob cutoff_top_n)) := by
  unfold frame_step
  simp only [pre_sort, Bool.false_and]
  rfl

theorem StateOK_expand_frame (t : PathTrie) (beam : List Path) (X : List (Nat × LogProb))
    (A B S Z : LogProb) (hX : X.Perm [(0, A), (1, B), (2, S), (3, Z)])
    (h : StateOK 3 t) : StateOK 3 (expand_frame t beam X) := by
  unfold expand_frame
  apply expand_symbols_StateOK 3 _ _ _ _ beam t h
  intro s hs p x hx
  have hs' : s.1 < (["a", "b", " "] : List String).length + 1 := by
    rw [hX.mem_iff] at hs
    simp only [List.mem_cons, List.mem_singleton, List.not_mem_nil, or_false] at hs
    rcases hs with rfl | rfl | rfl | rfl <;> simp
  exact body_one_shot_spec none ["a", "b", " "] s hs' p x hx

theorem parent_cases (q : Path) (beam : List Path) :
    (∃ c : Nat, c < 3 ∧ q = q.dropLast ++ [(c : Int)] ∧ q.dropLast ∈ beam)
      ∨ (∀ c : Nat, c < 3 → ¬ (q = q.dropLast ++ [(c : Int)] ∧ q.dropLast ∈ beam)) := by
  by_cases h : ∃ c : Nat, c < 3 ∧ q = q.dropLast ++ [(c : Int)] ∧ q.dropLast ∈ beam
  · exact Or.inl h
  · right
    intro c hc hq
    exact h ⟨c, hc, hq⟩

theorem symbol_log_prob_bounds (A B S : LogProb) (hB : 0 < B.exp) (hS : 0 < S.exp)
    (hBA : B.exp < A.exp) (hSA : S.exp < A.exp) (c : Nat) (hc : c < 3) :
    0 < (symbol_log_prob A B S c).exp ∧ (symbol_log_prob A B S c).exp ≤ A.exp
      ∧ (c ≠ 0 → (symbol_log_prob A B S c).exp < A.exp) := by
  unfold symbol_log_prob
  interval_cases c
  · simp only [if_true]
    exact ⟨lt_trans hB hBA, le_refl _, fun h => absurd rfl h⟩
  · simp only [one_ne_zero, if_false, if_true]
    exact ⟨hB, le_of_lt hBA, fun _ => hBA⟩
  · simp only [OfNat.ofNat_ne_zero, OfNat.ofNat_ne_one, if_false]
    exact ⟨hS, le_of_lt hSA, fun _ => hSA⟩

theorem prefix_compare_of_score_lt (x y : Node) (h : y.score.exp < x.score.exp) :
    prefix_compare x y = true :=
  (prefix_compare_iff x y).2 (Or.inl h)

theorem init_root_node? (q : Path) :
    (init_root none).node? q = if q = [] then some (init_root none).node else none := by
  cases q with
  | nil => rfl
  | cons c r => rfl

theorem NoDict_init_root : NoDict (init_root none) := by
  intro q n hn
  rw [init_root_node?] at hn
  split_ifs at hn
  injection hn with hn
  rw [← hn]
  rfl

theorem Rolled_init_root : Rolled (init_root none).node (-1) 1 0 :=
  ⟨rfl, rfl, rfl, rfl, by rw [add_zero]; rfl, rfl, rfl⟩

/-- The live nodes after the first frame: the root, with the probability of
the blank, and one child for each symbol, with the probability of the symbol. -/
theorem first_frame_nodes (X : List (Nat × LogProb)) (A B S Z : LogProb)
    (hX : X.Perm [(0, A), (1, B), (2, S), (3, Z)]) (q : Path)
    (hq : (expand_frame (init_root none) [[]] X).rolled.isLive q = true) :
    (q = [] ∧ ∃ n, (expand_frame (init_root none) [[]] X).rolled.node? [] = some n
        ∧ Rolled n (-1) Z.exp 0)
    ∨ (∃ c : Nat, c < 3 ∧ q = [(c : Int)]
        ∧ ∃ n, (expand_frame (init_root none) [[]] X).rolled.node? q = some n
          ∧ Rolled n (c : Int) 0 (symbol_log_prob A B S c).exp) := by
  have hnd : ([[]] : List Path).Nodup := by simp
  have hl : ∀ p ∈ ([[]] : List Path), (init_root none).isLive p = true := by
    intro p hp
    rw [List.mem_singleton.1 hp]
    rfl
  by_cases hq0 : q = []
  · left
    refine ⟨hq0, ?_⟩
    obtain ⟨n', h1, h2⟩ := frame_root (init_root none) [[]] X A B S Z hX hnd hl NoDict_init_root
      (List.mem_singleton.2 rfl) _ rfl 1 0 Rolled_init_root
    exact ⟨n', h1, Rolled_congr _ _ _ _ _ _ _ h2 rfl (by rw [add_zero, mul_one]) rfl⟩
  · right
    have hqb : q ∉ ([[]] : List Path) := fun h => hq0 (List.mem_singleton.1 h)
    rcases parent_cases q [[]] with ⟨c, hc, hqc, hdl⟩ | hoff
    · have hdl' : q.dropLast = [] := List.mem_singleton.1 hdl
      rw [hdl', List.nil_append] at hqc
      subst hqc
      refine ⟨c, hc, rfl, ?_⟩
      obtain ⟨n', h1, h2⟩ := frame_child (init_root none) [[]] X A B S Z hX hnd hl NoDict_init_root
        [] c hc (List.mem_singleton.2 rfl) hqb rfl _ rfl (-1) 1 0 Rolled_init_root
        (by norm_num)
      refine ⟨n', h1, Rolled_congr _ _ _ _ _ _ _ h2 rfl rfl ?_⟩
      have hne : ¬ ((c : Int) = -1) := by omega
      rw [if_neg hne, add_zero, mul_one]
    · exfalso
      rw [frame_off (init_root none) [[]] X A B S Z hX hnd hl NoDict_init_root q hqb hoff] at hq
      rw [PathTrie.isLive_eq_node?, init_root_node?, if_neg hq0] at hq
      cases hq

/-- A frame in which a prefix ends above every other live prefix: the state
after the roll-and-prune block. -/
theorem roll_and_prune_max (K : Nat) (hK : 1 ≤ K) (E : PathTrie) (hok : StateOK 3 E)
    (m : Path) (sm : ℚ)
    (hm : ∃ n, E.rolled.node? m = some n ∧ n.exists_ = true ∧ n.score.exp = sm)
    (ho : ∀ q, E.rolled.isLive q = true → q ≠ m →
      ∃ n, E.rolled.node? q = some n ∧ n.score.exp < sm) :
    ∃ st, roll_and_prune K E = Except.ok st ∧ BeamInv 3 K st
      ∧ E.rolled.Shrinks st.1 ∧ m ∈ st.2.take K
      ∧ (∀ q ∈ st.2.take K, st.1.node? q = E.rolled.node? q ∧ E.rolled.isLive q = true)
      ∧ (∀ q ∈ st.2.take K, q ≠ m → prefix_compare (st.1.get m) (st.1.get q) = true) := by
  obtain ⟨nm, hm1, hm2, hm3⟩ := hm
  have hml : E.rolled.isLive m = true := by
    rw [PathTrie.isLive_eq_node?, hm1]; exact hm2
  have hmax : ∀ q, E.rolled.isLive q = true → q ≠ m →
      prefix_compare (E.rolled.get m) (E.rolled.get q) = true := by
    intro q hq hne
    obtain ⟨n, hn1, hn2⟩ := ho q hq hne
    apply prefix_compare_of_score_lt
    rw [PathTrie.get_eq_node?, PathTrie.get_eq_node?, hm1, hn1]
    exact lt_of_lt_of_eq hn2 hm3.symm
  obtain ⟨st, h1, h2, h3, h4⟩ := roll_and_prune_keeps_max 3 K E hK hok m hml hmax
  have hsame : ∀ q ∈ st.2.take K,
      st.1.node? q = E.rolled.node? q ∧ E.rolled.isLive q = true := by
    intro q hq
    have hl : st.1.isLive q = true := (h2.2.2.1 q).1 hq
    have e := PathTrie.Shrinks.node?_eq_of_isLive _ _ h3 q hl
    refine ⟨e, ?_⟩
    rw [PathTrie.isLive_eq_node?, ← e, ← PathTrie.isLive_eq_node?]
    exact hl
  refine ⟨st, h1, h2, h3, h4, hsame, ?_⟩
  intro q hq hne
  have := hmax q (hsame q hq).2 hne
  rw [PathTrie.get_eq_node?, PathTrie.get_eq_node?, (hsame q hq).1, (hsame m h4).1,
    ← PathTrie.get_eq_node?, ← PathTrie.get_eq_node?]
  exact this

/-- The second frame: when the symbol `a` is strictly the most probable one in
both frames, the prefix `a` ends above every other live prefix, whatever the
first pruning kept. -/
theorem second_frame_max (t : PathTrie) (beam : List Path) (X2 : List (Nat × LogProb))
    (A1 B1 S1 Z1 A2 B2 S2 Z2 : LogProb) (hX2 : X2.Perm [(0, A2), (1, B2), (2, S2), (3, Z2)])
    (hnd : beam.Nodup) (hlive : ∀ q, q ∈ beam ↔ t.isLive q = true) (hd : NoDict t)
    (h0 : [0] ∈ beam)
    (hdata : ∀ q ∈ beam,
      (q = [] ∧ ∃ n, t.node? [] = some n ∧ Rolled n (-1) Z1.exp 0)
      ∨ (∃ c : Nat, c < 3 ∧ q = [(c : Int)]
          ∧ ∃ n, t.node? q = some n ∧ Rolled n (c : Int) 0 (symbol_log_prob A1 B1 S1 c).exp))
    (hB1 : 0 < B1.exp) (hS1 : 0 < S1.exp) (hZ1 : 0 < Z1.exp)
    (hBA1 : B1.exp < A1.exp) (hSA1 : S1.exp < A1.exp) (hZA1 : Z1.exp < A1.exp)
    (hB2 : 0 < B2.exp) (hS2 : 0 < S2.exp) (hZ2 : 0 < Z2.exp)
    (hBA2 : B2.exp < A2.exp) (hSA2 : S2.exp < A2.exp) :
    ∃ sm, (∃ n, (expand_frame t beam X2).rolled.node? [0] = some n
        ∧ n.exists_ = true ∧ n.score.exp = sm)
      ∧ ∀ q, (expand_frame t beam X2).rolled.isLive q = true → q ≠ [0] →
          ∃ n, (expand_frame t beam X2).rolled.node? q = some n
            ∧ n.score.exp < sm := by
  have hl : ∀ p ∈ beam, t.isLive p = true := fun p hp => (hlive p).1 hp
  have hA1 : 0 < A1.exp := lt_trans hB1 hBA1
  have hA2 : 0 < A2.exp := lt_trans hB2 hBA2
  have sym1 := symbol_log_prob_bounds A1 B1 S1 hB1 hS1 hBA1 hSA1
  have sym2 := symbol_log_prob_bounds A2 B2 S2 hB2 hS2 hBA2 hSA2
  -- the data members of the prefix `a` before the frame
  obtain ⟨n0, hn0, hr0⟩ : ∃ n, t.node? [0] = some n ∧ Rolled n 0 0 A1.exp := by
    rcases hdata [0] h0 with ⟨h, _⟩ | ⟨c, hc, hq, n, hn, hr⟩
    · cases h
    · have hc0 : c = 0 := by
        simp only [List.cons.injEq, and_true] at hq
        omega
      subst hc0
      exact ⟨n, hn, hr⟩
  -- the data members of a node of the beam at depth one
  have hdepth1 : ∀ c : Nat, c < 3 → [(c : Int)] ∈ beam →
      ∃ n, t.node? [(c : Int)] = some n
        ∧ Rolled n (c : Int) 0 (symbol_log_prob A1 B1 S1 c).exp := by
    intro c hc hq
    rcases hdata _ hq with ⟨h, _⟩ | ⟨c', hc', hq', n, hn, hr⟩
    · cases h
    · have hcc : c' = c := by
        simp only [List.cons.injEq, and_true] at hq'
        omega
      subst hcc
      exact ⟨n, hn, hr⟩
  have hdead : ∀ q, q ∉ beam → t.isLive q = false := by
    intro q hq
    cases h : t.isLive q
    · rfl
    · exact absurd ((hlive q).2 h) hq
  -- the children of a node of the beam at depth one
  have hgrand : ∀ (sm : ℚ), A2.exp * A1.exp < sm → ∀ (c0 c : Nat), c0 < 3 → c < 3 →
      [(c0 : Int)] ∈ beam → [(c0 : Int)] ++ [(c : Int)] ∉ beam →
      ∃ n, (expand_frame t beam X2).rolled.node? ([(c0 : Int)] ++ [(c : Int)]) = some n
        ∧ n.score.exp < sm := by
    intro sm hsm c0 c hc0 hc hp hq
    obtain ⟨np, hnp, hrp⟩ := hdepth1 c0 hc0 hp
    obtain ⟨n', h1, h2⟩ := frame_child t beam X2 A2 B2 S2 Z2 hX2 hnd hl hd [(c0 : Int)] c hc hp hq
      (hdead _ hq) np hnp _ _ _ hrp (le_refl _)
    refine ⟨n', h1, ?_⟩
    rw [h2.2.2.2.2.1]
    have b1 := sym1 c0 hc0
    have b2 := sym2 c hc
    by_cases hcc : (c : Int) = (c0 : Int)
    · rw [if_pos hcc]
      nlinarith [mul_pos hA2 hA1]
    · rw [if_neg hcc]
      nlinarith [mul_pos hA2 hA1, mul_le_mul b2.2.1 b1.2.1 (le_of_lt b1.1) (le_of_lt hA2)]
  by_cases hr : ([] : Path) ∈ beam
  · -- the root is in the beam
    obtain ⟨nr, hnr, hrr⟩ : ∃ n, t.node? [] = some n ∧ Rolled n (-1) Z1.exp 0 := by
      rcases hdata [] hr with ⟨_, h⟩ | ⟨c, _, hq, _⟩
      · exact h
      · cases hq
    have hboth : ∀ c : Nat, c < 3 → [(c : Int)] ∈ beam →
        ∃ n, (expand_frame t beam X2).rolled.node? [(c : Int)] = some n
          ∧ n.exists_ = true
          ∧ n.score.exp = Z2.exp * (symbol_log_prob A1 B1 S1 c).exp
              + ((symbol_log_prob A2 B2 S2 c).exp * (symbol_log_prob A1 B1 S1 c).exp
                + (symbol_log_prob A2 B2 S2 c).exp * Z1.exp) := by
      intro c hc hq
      obtain ⟨n, hn, hrn⟩ := hdepth1 c hc hq
      obtain ⟨n', h1, h2⟩ := frame_both t beam X2 A2 B2 S2 Z2 hX2 hnd hl hd [] c hc hr hq n hn _ _ hrn
        nr hnr _ _ _ hrr (le_of_lt hZ1)
      refine ⟨n', h1, h2.2.1, ?_⟩
      rw [h2.2.2.2.2.1, if_neg (by omega), zero_add, add_zero]
    obtain ⟨m0, hm0, hm0e, hm0s⟩ := hboth 0 (by decide) h0
    refine ⟨_, ⟨m0, hm0, hm0e, hm0s⟩, ?_⟩
    have hs0 : symbol_log_prob A1 B1 S1 0 = A1 := rfl
    have hs0' : symbol_log_prob A2 B2 S2 0 = A2 := rfl
    rw [hs0, hs0']
    intro q hq hne
    by_cases hqb : q ∈ beam
    · rcases hdata q hqb with ⟨hq0, _⟩ | ⟨c, hc, hqc, _⟩
      · subst hq0
        obtain ⟨n', h1, h2⟩ := frame_root t beam X2 A2 B2 S2 Z2 hX2 hnd hl hd hr nr hnr _ _ hrr
        refine ⟨n', h1, ?_⟩
        rw [h2.2.2.2.2.1]
        nlinarith [mul_pos hZ2 (sub_pos.2 hZA1), mul_pos hA2 hA1, mul_pos hA2 hZ1]
      · subst hqc
        have hc0 : c ≠ 0 := by
          intro h
          apply hne
          rw [h]
          rfl
        obtain ⟨n', h1, _, h3⟩ := hboth c hc hqb
        refine ⟨n', h1, ?_⟩
        rw [h3]
        have b1 := sym1 c hc
        have b2 := sym2 c hc
        nlinarith [mul_pos hZ2 (sub_pos.2 (b1.2.2 hc0)),
          mul_pos hA2 (sub_pos.2 (b1.2.2 hc0)), mul_pos (sub_pos.2 (b2.2.2 hc0)) b1.1,
          mul_pos (sub_pos.2 (b2.2.2 hc0)) hZ1]
    · rcases parent_cases q beam with ⟨c, hc, hqc, hdl⟩ | hoff
      · rcases hdata _ hdl with ⟨hp0, _⟩ | ⟨c0, hc0, hpc, _⟩
        · -- a child of the root outside the beam
          rw [hp0] at hqc hdl
          have hc0 : c ≠ 0 := by
            intro h
            apply hqb
            rw [hqc, h]
            exact h0
          rw [hqc] at hqb ⊢
          obtain ⟨n', h1, h2⟩ := frame_child t beam X2 A2 B2 S2 Z2 hX2 hnd hl hd [] c hc hr hqb
            (hdead _ hqb) nr hnr _ _ _ hrr (le_of_lt hZ1)
          refine ⟨n', h1, ?_⟩
          rw [h2.2.2.2.2.1, if_neg (by omega)]
          have b2 := sym2 c hc
          nlinarith [mul_pos hZ2 hA1, mul_pos hA2 hA1, mul_pos (sub_pos.2 (b2.2.2 hc0)) hZ1]
        · rw [hpc] at hqc hdl
          rw [hqc] at hqb ⊢
          apply hgrand _ _ c0 c hc0 hc hdl hqb
          nlinarith [mul_pos hZ2 hA1, mul_pos hA2 hZ1]
      · exfalso
        rw [frame_off t beam X2 A2 B2 S2 Z2 hX2 hnd hl hd q hqb hoff, hdead q hqb] at hq
        cases hq
  · -- the root is not in the beam
    have hnop : ∀ c' : Nat, ∀ c : Nat, c < 3 →
        ¬ ([(c' : Int)] = [(c' : Int)].dropLast ++ [(c : Int)]
          ∧ [(c' : Int)].dropLast ∈ beam) := by
      intro c' c _ h
      exact hr h.2
    have hself : ∀ c : Nat, c < 3 → [(c : Int)] ∈ beam →
        ∃ n, (expand_frame t beam X2).rolled.node? [(c : Int)] = some n
          ∧ n.exists_ = true
          ∧ n.score.exp = Z2.exp * (symbol_log_prob A1 B1 S1 c).exp
              + (symbol_log_prob A2 B2 S2 c).exp * (symbol_log_prob A1 B1 S1 c).exp := by
      intro c hc hq
      obtain ⟨n, hn, hrn⟩ := hdepth1 c hc hq
      obtain ⟨n', h1, h2⟩ := frame_self t beam X2 A2 B2 S2 Z2 hX2 hnd hl hd [(c : Int)] hq (hnop c)
        n hn c hc _ _ hrn
      refine ⟨n', h1, h2.2.1, ?_⟩
      rw [h2.2.2.2.2.1, zero_add]
    obtain ⟨m0, hm0, hm0e, hm0s⟩ := hself 0 (by decide) h0
    refine ⟨_, ⟨m0, hm0, hm0e, hm0s⟩, ?_⟩
    have hs0 : symbol_log_prob A1 B1 S1 0 = A1 := rfl
    have hs0' : symbol_log_prob A2 B2 S2 0 = A2 := rfl
    rw [hs0, hs0']
    intro q hq hne
    by_cases hqb : q ∈ beam
    · rcases hdata q hqb with ⟨hq0, _⟩ | ⟨c, hc, hqc, _⟩
      · rw [hq0] at hqb
        exact absurd hqb hr
      · subst hqc
        have hc0 : c ≠ 0 := by
          intro h
          apply hne
          rw [h]
          rfl
        obtain ⟨n', h1, _, h3⟩ := hself c hc hqb
        refine ⟨n', h1, ?_⟩
        rw [h3]
        have b1 := sym1 c hc
        have b2 := sym2 c hc
        nlinarith [mul_pos hZ2 (sub_pos.2 (b1.2.2 hc0)),
          mul_pos hA2 (sub_pos.2 (b1.2.2 hc0)), mul_pos (sub_pos.2 (b2.2.2 hc0)) b1.1]
    · rcases parent_cases q beam with ⟨c, hc, hqc, hdl⟩ | hoff
      · rcases hdata _ hdl with ⟨hp0, _⟩ | ⟨c0, hc0, hpc, _⟩
        · rw [hp0] at hdl
          exact absurd hdl hr
        · rw [hpc] at hqc hdl
          rw [hqc] at hqb ⊢
          apply hgrand _ _ c0 c hc0 hc hdl hqb
          nlinarith [mul_pos hZ2 hA1]
      · exfalso
        rw [frame_off t beam X2 A2 B2 S2 Z2 hX2 hnd hl hd q hqb hoff, hdead q hqb] at hq
        cases hq

theorem NUM_FLT_MIN_pos : 0 < NUM_FLT_MIN := by
  unfold NUM_FLT_MIN
  positivity

/-- Two frames in which the symbol `a` is strictly the most probable one: the
trie and `prefixes` after the loop over time keep the prefix `a` in the beam,
above every other prefix of the beam. -/
theorem two_frames_loop (K : Nat) (hK : 1 ≤ K) (X1 X2 : List (Nat × LogProb))
    (A1 B1 S1 Z1 A2 B2 S2 Z2 : LogProb)
    (hX1 : X1.Perm [(0, A1), (1, B1), (2, S1), (3, Z1)])
    (hX2 : X2.Perm [(0, A2), (1, B2), (2, S2), (3, Z2)])
    (hB1 : 0 < B1.exp) (hS1 : 0 < S1.exp) (hZ1 : 0 < Z1.exp)
    (hBA1 : B1.exp < A1.exp) (hSA1 : S1.exp < A1.exp) (hZA1 : Z1.exp < A1.exp)
    (hB2 : 0 < B2.exp) (hS2 : 0 < S2.exp) (hZ2 : 0 < Z2.exp)
    (hBA2 : B2.exp < A2.exp) (hSA2 : S2.exp < A2.exp) :
    ∃ st1 st2, roll_and_prune K (expand_frame (init_root none) [[]] X1) = Except.ok st1
      ∧ roll_and_prune K (expand_frame st1.1 (st1.2.take K) X2) = Except.ok st2
      ∧ BeamInv 3 K st2 ∧ [0] ∈ st2.2.take K
      ∧ ∀ q ∈ st2.2.take K, q ≠ [0] → prefix_compare (st2.1.get [0]) (st2.1.get q) = true := by
  have hnd : ([[]] : List Path).Nodup := by simp
  have hl : ∀ p ∈ ([[]] : List Path), (init_root none).isLive p = true := by
    intro p hp
    rw [List.mem_singleton.1 hp]
    rfl
  have sym1 := symbol_log_prob_bounds A1 B1 S1 hB1 hS1 hBA1 hSA1
  have hok0 : StateOK 3 (init_root none) := BeamInv.stateOK 3 K _ (init_BeamInv 3 K hK none)
  -- the first frame
  have hlive0 : (expand_frame (init_root none) [[]] X1).rolled.isLive [0] = true := by
    obtain ⟨n', h1, h2⟩ := frame_child (init_root none) [[]] X1 A1 B1 S1 Z1 hX1 hnd hl NoDict_init_root
      [] 0 (by decide) (List.mem_singleton.2 rfl) (by simp) rfl _ rfl (-1) 1 0 Rolled_init_root
      (by norm_num)
    rw [PathTrie.isLive_eq_node?]
    have h1' : (expand_frame (init_root none) [[]] X1).rolled.node? [0] = some n' := h1
    rw [h1']
    exact h2.2.1
  obtain ⟨st1, e1, inv1, shr1, m1, same1, _⟩ := roll_and_prune_max K hK
    (expand_frame (init_root none) [[]] X1) (StateOK_expand_frame _ _ X1 A1 B1 S1 Z1 hX1 hok0)
    [0] A1.exp
    (by
      rcases first_frame_nodes X1 A1 B1 S1 Z1 hX1 [0] hlive0 with ⟨h, _⟩ | ⟨c, hc, hq, n, hn, hr⟩
      · cases h
      · have hc0 : c = 0 := by
          simp only [List.cons.injEq, and_true] at hq
          omega
        subst hc0
        refine ⟨n, hn, hr.2.1, ?_⟩
        rw [hr.2.2.2.2.1, zero_add]
        rfl)
    (by
      intro q hq hne
      rcases first_frame_nodes X1 A1 B1 S1 Z1 hX1 q hq with ⟨h, n, hn, hr⟩ | ⟨c, hc, hqc, n, hn, hr⟩
      · subst h
        refine ⟨n, hn, ?_⟩
        rw [hr.2.2.2.2.1, add_zero]
        exact hZA1
      · refine ⟨n, hn, ?_⟩
        rw [hr.2.2.2.2.1, zero_add]
        apply (sym1 c hc).2.2
        intro h
        apply hne
        rw [hqc, h]
        rfl)
  have hd1 : NoDict st1.1 :=
    NoDict_of_Shrinks _ _ shr1 (NoDict_rolled _ (NoDict_expand_frame _ _ _ hl
      NoDict_init_root))
  have hdata : ∀ q ∈ st1.2.take K,
      (q = [] ∧ ∃ n, st1.1.node? [] = some n ∧ Rolled n (-1) Z1.exp 0)
      ∨ (∃ c : Nat, c < 3 ∧ q = [(c : Int)]
          ∧ ∃ n, st1.1.node? q = some n
            ∧ Rolled n (c : Int) 0 (symbol_log_prob A1 B1 S1 c).exp) := by
    intro q hq
    obtain ⟨hsame, hlq⟩ := same1 q hq
    rcases first_frame_nodes X1 A1 B1 S1 Z1 hX1 q hlq with ⟨h, n, hn, hr⟩ | ⟨c, hc, hqc, n, hn, hr⟩
    · left
      subst h
      exact ⟨rfl, n, hsame.trans hn, hr⟩
    · right
      exact ⟨c, hc, hqc, n, hsame.trans hn, hr⟩
  -- the second frame
  obtain ⟨sm, hm, ho⟩ := second_frame_max st1.1 (st1.2.take K) X2 A1 B1 S1 Z1 A2 B2 S2 Z2
    hX2     inv1.2.1 inv1.2.2.1 hd1 m1 hdata hB1 hS1 hZ1 hBA1 hSA1 hZA1 hB2 hS2 hZ2 hBA2 hSA2
  obtain ⟨st2, e2, inv2, _, m2, _, cmp2⟩ := roll_and_prune_max K hK
    (expand_frame st1.1 (st1.2.take K) X2)
    (StateOK_expand_frame _ _ X2 A2 B2 S2 Z2 hX2 (BeamInv.stateOK 3 K st1 inv1)) [0] sm hm ho
  exact ⟨st1, st2, e1, e2, inv2, m2, cmp2⟩

/-- Two frames over `["a", "b", " "]` in which the `float` stored for the
symbol `a` is clearly above the `float` stored for every other symbol: with no
symbol pruning and no scorer, the best transcript is `"a"` for every beam
size. -/
theorem top1_of_clearly_above (K : Nat) (cutoff_prob : ℚ) (cutoff_top_n : Nat)
    (a1 b1 s1 z1 a2 b2 s2 z2 : ℚ) (hK : 1 ≤ K) (hcp : 1 ≤ cutoff_prob)
    (h1 : 0 ≤ b1 ∧ 0 ≤ s1 ∧ 0 ≤ z1
      ∧ clearly_above a1 b1 ∧ clearly_above a1 s1 ∧ clearly_above a1 z1)
    (h2 : 0 ≤ b2 ∧ 0 ≤ s2 ∧ 0 ≤ z2
      ∧ clearly_above a2 b2 ∧ clearly_above a2 s2 ∧ clearly_above a2 z2) :
    top1 (ctc_beam_search_decoder [[a1, b1, s1, z1], [a2, b2, s2, z2]] ["a", "b", " "] K
      cutoff_prob cutoff_top_n none) = some "a" := by
  obtain ⟨g1, g2, g3, g4, g5, g6⟩ := h1
  obtain ⟨k1, k2, k3, k4, k5, k6⟩ := h2
  have above : ∀ a x : ℚ, 0 ≤ x → clearly_above a x →
      0 < (stored_log_prob x).exp ∧ (stored_log_prob x).exp < (stored_log_prob a).exp := by
    intro a x hx h
    have hpos := stored_log_prob_pos x hx
    unfold clearly_above at h
    exact ⟨hpos, by linarith⟩
  obtain ⟨st1, st2, e1, e2, inv2, m2, cmp2⟩ := two_frames_loop K hK
    (get_pruned_log_probs [a1, b1, s1, z1] cutoff_prob cutoff_top_n)
    (get_pruned_log_probs [a2, b2, s2, z2] cutoff_prob cutoff_top_n)
    (stored_log_prob a1) (stored_log_prob b1) (stored_log_prob s1) (stored_log_prob z1)
    (stored_log_prob a2) (stored_log_prob b2) (stored_log_prob s2) (stored_log_prob z2)
    (get_pruned_log_probs_perm a1 b1 s1 z1 cutoff_prob cutoff_top_n hcp)
    (get_pruned_log_probs_perm a2 b2 s2 z2 cutoff_prob cutoff_top_n hcp)
    (above a1 b1 g1 g4).1 (above a1 s1 g2 g5).1 (above a1 z1 g3 g6).1
    (above a1 b1 g1 g4).2 (above a1 s1 g2 g5).2 (above a1 z1 g3 g6).2
    (above a2 b2 k1 k4).1 (above a2 s2 k2 k5).1 (above a2 z2 k3 k6).1
    (above a2 b2 k1 k4).2 (above a2 s2 k2 k5).2
  obtain ⟨r, hr, hhead⟩ := one_shot_finish_head 3 K st2.1 st2.2 ["a", "b", " "] rfl
    (by decide) inv2 [0] m2 cmp2
  have htake : ([[]] : List Path).take K = [[]] := by
    cases K with
    | zero => omega
    | succ k => simp
  have hloop : one_shot_loop [[a1, b1, s1, z1], [a2, b2, s2, z2]] ["a", "b", " "] K
      cutoff_prob cutoff_top_n none = Except.ok st2 := by
    unfold one_shot_loop
    rw [time_loop, frame_step_frame K cutoff_prob cutoff_top_n]
    simp only [htake, e1]
    rw [time_loop, frame_step_frame K cutoff_prob cutoff_top_n]
    simp only [e2]
    rfl
  unfold ctc_beam_search_decoder
  rw [if_neg (by
    show ¬ (shape_ok [[a1, b1, s1, z1], [a2, b2, s2, z2]] 4 = false)
    simp [shape_ok]), hloop]
  simp only
  rw [hr]
  unfold top1 transcripts
  simp only [Option.some_bind]
  rw [hhead]
  rfl

/-- C2 (counterexample): over `["a", "b", " "]` with beam size 1 and no symbol
pruning, on two frames `[0.4000000001, 0.1, 0.1, 0.4]`.  The symbol `a` has
strictly the highest probability in both frames, but `log(p + NUM_FLT_MIN)` of
`0.4000000001` and of `0.4` are narrowed to the same `float`,
`-1921601 / 2^21 = -0.91629076...`: after the first frame the empty prefix and
the prefix `a` have the same score, the empty prefix comes first on its
character `-1`, the beam of size 1 drops `a`, and the best transcript returned
is the empty string. -/
theorem repeat_collapse_float_tie :
    (1/10 : ℚ) < 4000000001/10000000000 ∧ (4/10 : ℚ) < 4000000001/10000000000
      ∧ to_float (to_double (ln (to_double (4000000001/10000000000 + NUM_FLT_MIN))))
          = -1921601/2097152
      ∧ to_float (to_double (ln (to_double (4/10 + NUM_FLT_MIN)))) = -1921601/2097152
      ∧ stored_log_prob (4000000001/10000000000) = stored_log_prob (4/10)
      ∧ top1 (ctc_beam_search_decoder
            [[4000000001/10000000000, 1/10, 1/10, 4/10],
              [4000000001/10000000000, 1/10, 1/10, 4/10]]
            ["a", "b", " "] 1 1 40 none) = some "" := by
  decide!

/-- C2 (amended): for the one-shot decoder `ctc_beam_search_decoder` without
scorer, over the vocabulary `["a", "b", " "]` (blank at index 3), with no symbol
pruning (`cutoff_prob ≥ 1`; `cutoff_top_n` is then free, since it only makes the
code sort the symbols of a frame) and any beam size `K ≥ 1`: for every input of
two frames of non-negative numbers in which the `float` stored for the symbol
`a` is above the `float` stored for every other symbol by `log 1.001` at least,
in both frames, the best returned transcript is the single token `"a"`. -/
theorem repeat_collapse (K : Nat) (cutoff_prob : ℚ) (cutoff_top_n : Nat)
    (a1 b1 s1 z1 a2 b2 s2 z2 : ℚ) (hK : 1 ≤ K) (hcp : 1 ≤ cutoff_prob)
    (h1 : 0 ≤ b1 ∧ 0 ≤ s1 ∧ 0 ≤ z1
      ∧ clearly_above a1 b1 ∧ clearly_above a1 s1 ∧ clearly_above a1 z1)
    (h2 : 0 ≤ b2 ∧ 0 ≤ s2 ∧ 0 ≤ z2
      ∧ clearly_above a2 b2 ∧ clearly_above a2 s2 ∧ clearly_above a2 z2) :
    top1 (ctc_beam_search_decoder [[a1, b1, s1, z1], [a2, b2, s2, z2]] ["a", "b", " "] K
      cutoff_prob cutoff_top_n none) = some "a" :=
  top1_of_clearly_above K cutoff_prob cutoff_top_n a1 b1 s1 z1 a2 b2 s2 z2 hK hcp h1 h2

theorem repeat_collapse_witness :
    1 ≤ 1 ∧ (1 : ℚ) ≤ 1
    ∧ ((0 : ℚ) ≤ 0 ∧ (0 : ℚ) ≤ 0 ∧ (0 : ℚ) ≤ 4/10
        ∧ clearly_above (6/10) 0 ∧ clearly_above (6/10) 0 ∧ clearly_above (6/10) (4/10))
    ∧ top1 (ctc_beam_search_decoder [[6/10, 0, 0, 4/10], [6/10, 0, 0, 4/10]] ["a", "b", " "] 1
        1 40 none) = some "a" :=
  ⟨by decide, by norm_num, by decide!,
    repeat_collapse 1 1 40 (6/10) 0 0 (4/10) (6/10) 0 0 (4/10) (by decide) (by norm_num)
      (by decide!) (by decide!)⟩

/-! ### A blank frame between two repeats (C3, C6) -/

theorem leads_spec (V : Nat) (E : PathTrie) (m : Path) (hok : StateOK V E)
    (h : leads E m = true) :
    ∃ sm, (∃ n, E.rolled.node? m = some n ∧ n.exists_ = true ∧ n.score.exp = sm)
      ∧ ∀ q, E.rolled.isLive q = true → q ≠ m →
          ∃ n, E.rolled.node? q = some n ∧ n.score.exp < sm := by
  unfold leads at h
  cases hnm : E.rolled.node? m with
  | none => rw [hnm] at h; cases h
  | some n =>
    rw [hnm] at h
    simp only [Bool.and_eq_true, List.all_eq_true, Bool.or_eq_true, decide_eq_true_eq] at h
    obtain ⟨hex, hall⟩ := h
    refine ⟨n.score.exp, ⟨n, rfl, hex, rfl⟩, ?_⟩
    intro q hq hne
    have hql : q ∈ E.live_paths [] := by
      rw [PathTrie.mem_live_paths V E hok.1.2]
      refine ⟨q, rfl, ?_⟩
      rw [← PathTrie.isLive_rolled]; exact hq
    rcases hall q hql with h1 | h1
    · exact absurd h1 hne
    · cases hnq : E.rolled.node? q with
      | none => rw [hnq] at h1; cases h1
      | some n' =>
        rw [hnq] at h1
        exact ⟨n', rfl, by simpa using h1⟩

section
set_option maxHeartbeats 4000000

theorem top1_a_blank_a (K : Nat) (hK : 1 ≤ K) :
    top1 (ctc_beam_search_decoder [[8/10, 0, 0, 2/10], [0, 0, 0, 1], [8/10, 0, 0, 2/10]]
      ["a", "b", " "] K 1 40 none) = some "a a" := by
  by_cases h : K < 14
  · interval_cases K <;> decide!
  · have hK14 : 14 ≤ K := by omega
    have hb : beam_never_full
        (fun _ prob st => frame_step 14 (["a", "b", " "] : List String).length 1 40 none
          (body_one_shot none ["a", "b", " "]) prob st)
        14 [[8/10, 0, 0, 2/10], [0, 0, 0, 1]] 0 (init_root none, [[]]) = true := by decide!
    have hc : leads_after
        (time_loop
          (fun _ prob st => frame_step 14 (["a", "b", " "] : List String).length 1 40 none
            (body_one_shot none ["a", "b", " "]) prob st)
          [[8/10, 0, 0, 2/10], [0, 0, 0, 1]] 0 (init_root none, [[]]))
        14 (get_pruned_log_probs [8/10, 0, 0, 2/10] 1 40) [0, 0] = true := by decide!
    have e12 : time_loop
          (fun _ prob st => frame_step K (["a", "b", " "] : List String).length 1 40 none
            (body_one_shot none ["a", "b", " "]) prob st)
          [[8/10, 0, 0, 2/10], [0, 0, 0, 1]] 0 (init_root none, [[]])
        = time_loop
          (fun _ prob st => frame_step 14 (["a", "b", " "] : List String).length 1 40 none
            (body_one_shot none ["a", "b", " "]) prob st)
          [[8/10, 0, 0, 2/10], [0, 0, 0, 1]] 0 (init_root none, [[]]) :=
      time_loop_large 14 K hK14 (["a", "b", " "] : List String).length 1 40
        (fun _ => body_one_shot none ["a", "b", " "]) [[8/10, 0, 0, 2/10], [0, 0, 0, 1]] 0
        (init_root none, [[]]) (by show ([[]] : List Path).length ≤ 14; simp) hb
    obtain ⟨st2, hst2, inv2⟩ := one_shot_loop_inv [[8/10, 0, 0, 2/10], [0, 0, 0, 1]]
      ["a", "b", " "] K 1 40 none (by decide) hK
    unfold one_shot_loop at hst2
    rw [e12] at hst2
    rw [hst2] at hc
    simp only [leads_after, Bool.and_eq_true, decide_eq_true_eq] at hc
    obtain ⟨hlen, hlead⟩ := hc
    have hX := get_pruned_log_probs_perm (8/10) 0 0 (2/10) 1 40 (le_refl 1)
    have hokE := StateOK_expand_frame st2.1 st2.2 (get_pruned_log_probs [8/10, 0, 0, 2/10] 1 40)
      _ _ _ _ hX (BeamInv.stateOK 3 K st2 inv2)
    obtain ⟨sm, hm, ho⟩ := leads_spec 3 _ [0, 0] hokE hlead
    obtain ⟨st3, e3, inv3, _, m3, _, cmp3⟩ := roll_and_prune_max K hK _ hokE [0, 0] sm hm ho
    obtain ⟨r, hr, hhead⟩ := one_shot_finish_head 3 K st3.1 st3.2 ["a", "b", " "] rfl
      (by decide) inv3 [0, 0] m3 cmp3
    have hloop : one_shot_loop [[8/10, 0, 0, 2/10], [0, 0, 0, 1], [8/10, 0, 0, 2/10]]
        ["a", "b", " "] K 1 40 none = Except.ok st3 := by
      unfold one_shot_loop
      rw [show ([[8/10, 0, 0, 2/10], [0, 0, 0, 1], [8/10, 0, 0, 2/10]] : List (List ℚ))
        = [[8/10, 0, 0, 2/10], [0, 0, 0, 1]] ++ [[8/10, 0, 0, 2/10]] from rfl,
        time_loop_append, e12, hst2]
      simp only
      rw [time_loop, frame_step_frame K 1 40, List.take_of_length_le (by omega), e3]
      rfl
    unfold ctc_beam_search_decoder
    rw [if_neg (by decide), hloop]
    simp only
    rw [hr]
    unfold top1 transcripts
    simp only [Option.some_bind]
    rw [hhead]
    rfl

theorem top1_a_a (K : Nat) (hK : 1 ≤ K) :
    top1 (ctc_beam_search_decoder [[8/10, 0, 0, 2/10], [8/10, 0, 0, 2/10]]
      ["a", "b", " "] K 1 40 none) = some "a" :=
  top1_of_clearly_above K 1 40 (8/10) 0 0 (2/10) (8/10) 0 0 (2/10) hK (le_refl 1)
    (by decide!) (by decide!)

end

/-- C3 (counterexample): on the frames `a, blank, a` the best transcript is
not the string `"aa"`. -/
theorem repeat_preservation_not_aa :
    top1 (ctc_beam_search_decoder [[8/10, 0, 0, 2/10], [0, 0, 0, 1], [8/10, 0, 0, 2/10]]
      ["a", "b", " "] 1 1 40 none) ≠ some "aa" := by
  decide!

/-- C3 (amended): on the frames `a, blank, a`, for every beam size `K ≥ 1`
(no symbol pruning, no scorer), the best transcript is `"a a"`: the two `a`
tokens, separated by the space the rendering puts between tokens. -/
theorem repeat_preservation (K : Nat) (hK : 1 ≤ K) :
    top1 (ctc_beam_search_decoder [[8/10, 0, 0, 2/10], [0, 0, 0, 1], [8/10, 0, 0, 2/10]]
      ["a", "b", " "] K 1 40 none) = some "a a" :=
  top1_a_blank_a K hK

theorem repeat_preservation_witness :
    1 ≤ 3 ∧ top1 (ctc_beam_search_decoder
      [[8/10, 0, 0, 2/10], [0, 0, 0, 1], [8/10, 0, 0, 2/10]] ["a", "b", " "] 3 1 40 none)
      = some "a a" :=
  ⟨by decide, repeat_preservation 3 (by decide)⟩

/-- C6 (counterexample): with beam size 1, the frames `a, a` return the
set of transcripts `{"a"}`, and with a blank-only frame inserted between them
the set `{"a a"}`. -/
theorem blank_invariance_fails :
    (transcripts (ctc_beam_search_decoder [[8/10, 0, 0, 2/10], [8/10, 0, 0, 2/10]]
        ["a", "b", " "] 1 1 40 none)).map List.toFinset = some {"a"}
    ∧ (transcripts (ctc_beam_search_decoder
        [[8/10, 0, 0, 2/10], [0, 0, 0, 1], [8/10, 0, 0, 2/10]]
        ["a", "b", " "] 1 1 40 none)).map List.toFinset = some {"a a"}
    ∧ ({"a"} : Finset String) ≠ {"a a"} := by
  decide!

/-- C6 (amended): a blank-only frame between two frames separates a repeated
symbol, so it can change the transcripts: for every beam size `K ≥ 1` the
best transcript of the frames `a, a` is `"a"`, and with a blank-only frame
inserted between them it is `"a a"`. -/
theorem blank_frame_separates_repeats (K : Nat) (hK : 1 ≤ K) :
    top1 (ctc_beam_search_decoder [[8/10, 0, 0, 2/10], [8/10, 0, 0, 2/10]]
      ["a", "b", " "] K 1 40 none) = some "a"
    ∧ top1 (ctc_beam_search_decoder
      [[8/10, 0, 0, 2/10], [0, 0, 0, 1], [8/10, 0, 0, 2/10]]
      ["a", "b", " "] K 1 40 none) = some "a a" :=
  ⟨top1_a_a K hK, top1_a_blank_a K hK⟩

theorem blank_frame_separates_repeats_witness :
    1 ≤ 2 ∧ (top1 (ctc_beam_search_decoder [[8/10, 0, 0, 2/10], [8/10, 0, 0, 2/10]]
      ["a", "b", " "] 2 1 40 none) = some "a"
    ∧ top1 (ctc_beam_search_decoder
      [[8/10, 0, 0, 2/10], [0, 0, 0, 1], [8/10, 0, 0, 2/10]]
      ["a", "b", " "] 2 1 40 none) = some "a a") :=
  ⟨by decide, blank_frame_separates_repeats 2 (by decide)⟩

/-! ### Word time stamps (C11) -/

/-- C11 (failing input): the streaming decoder over `["a", "_"]` (blank last,
beam size 2) decodes the single frame `[0.9, 0.1]`.  The best transcript is
`"a"`, one word; `get_path_vec2` collects one time stamp for it, `[0]`, and the
word-list loop of `get_beam_search_result` reads `timestamps[0]` and
`timestamps[1]`: the second read is past the end of the vector (`none`). -/
theorem word_timestamps_read_past_end :
    top1 (decoder_a.decode [[9/10, 1/10]]).2 = some "a"
      ∧ ((decoder_a.decode [[9/10, 1/10]]).1.root.get_path_vec2 [0] (some [])).2 = some [0]
      ∧ (decoder_a.decode [[9/10, 1/10]]).1.wordlist = [("a", some 0, none)] := by
  decide!

/-! ### Shape validation (C12) -/

theorem PathTrie.remove_rev_ne_check_failed :
    ∀ (l : List Int) (root : PathTrie),
      PathTrie.remove_rev l root ≠ Except.error DecodeError.check_failed := by
  intro l
  induction l with
  | nil =>
    intro root
    unfold PathTrie.remove_rev
    split_ifs <;> simp
  | cons c rparent ih =>
    intro root
    unfold PathTrie.remove_rev
    split
    · simp
    · simp only
      split_ifs
      · split
        · simp
        · split_ifs
          · exact ih _
          · simp
      · simp

theorem remove_all_ne_check_failed :
    ∀ (l : List Path) (root : PathTrie),
      remove_all l root ≠ Except.error DecodeError.check_failed := by
  intro l
  induction l with
  | nil => intro root; simp [remove_all]
  | cons p rest ih =>
    intro root
    unfold remove_all
    have h := PathTrie.remove_rev_ne_check_failed p.reverse root
    unfold PathTrie.remove
    split
    · exact ih _
    · rename_i e he
      intro h'
      injection h' with h'
      rw [h'] at he
      exact h he

theorem roll_and_prune_ne_check_failed (K : Nat) (root : PathTrie) :
    roll_and_prune K root ≠ Except.error DecodeError.check_failed := by
  unfold roll_and_prune
  simp only
  split_ifs
  · have h := remove_all_ne_check_failed
      ((std_nth_element (prefix_compare_at (root.iterate_to_vec [] []).1) K
        (root.iterate_to_vec [] []).2).drop K) (root.iterate_to_vec [] []).1
    split
    · simp
    · rename_i e he
      intro h'
      injection h' with h'
      rw [h'] at he
      exact h he
  · simp

theorem frame_step_ne_check_failed (K blank_id : Nat) (cutoff_prob : ℚ) (cutoff_top_n : Nat)
    (ext_scorer : Option Scorer) (body : Nat × LogProb → Path → PathTrie → PathTrie)
    (prob : List ℚ) (st : PathTrie × List Path) :
    frame_step K blank_id cutoff_prob cutoff_top_n ext_scorer body prob st
      ≠ Except.error DecodeError.check_failed := by
  unfold frame_step
  split
  · rename_i e he
    intro h'
    injection h' with h'
    rw [h'] at he
    unfold pre_sort at he
    split at he
    · cases he
    · simp only at he
      split_ifs at he
      cases he
  · exact roll_and_prune_ne_check_failed _ _

theorem time_loop_ne_check_failed
    (step : Nat → List ℚ → PathTrie × List Path → Except DecodeError (PathTrie × List Path))
    (hstep : ∀ t prob st, step t prob st ≠ Except.error DecodeError.check_failed) :
    ∀ (probs_seq : List (List ℚ)) (t : Nat) (st : PathTrie × List Path),
      time_loop step probs_seq t st ≠ Except.error DecodeError.check_failed := by
  intro probs_seq
  induction probs_seq with
  | nil => intro t st; simp [time_loop]
  | cons prob rest ih =>
    intro t st
    unfold time_loop
    split
    · rename_i e he
      intro h'
      injection h' with h'
      rw [h'] at he
      exact hstep _ _ _ he
    · exact ih _ _

theorem render_loop_ne_check_failed (vocabulary : List String) :
    ∀ (output : List Int) (i : Nat) (s : String),
      render_loop vocabulary output i s ≠ Except.error DecodeError.check_failed := by
  intro output
  induction output with
  | nil => intro i s; simp [render_loop]
  | cons ind rest ih =>
    intro i s
    unfold render_loop
    split_ifs <;> first | exact ih _ _ | simp

theorem output_loop_ne_check_failed (root : PathTrie) (vocabulary : List String) :
    ∀ l : List Path, output_loop root vocabulary l ≠ Except.error DecodeError.check_failed := by
  intro l
  induction l with
  | nil => simp [output_loop]
  | cons p rest ih =>
    unfold output_loop
    split
    · rename_i e he
      intro h'
      injection h' with h'
      rw [h'] at he
      exact render_loop_ne_check_failed vocabulary _ _ _ he
    · split
      · rename_i e he
        intro h'
        injection h' with h'
        rw [h'] at he
        exact ih he
      · simp

theorem get_beam_search_result_ne_check_failed (root : PathTrie) (prefixes : List Path)
    (vocabulary : List String) (K : Nat) :
    get_beam_search_result root prefixes vocabulary K
      ≠ Except.error DecodeError.check_failed := by
  unfold get_beam_search_result
  simp only
  split
  · rename_i e he
    intro h'
    injection h' with h'
    rw [h'] at he
    exact output_loop_ne_check_failed root vocabulary _ he
  · split <;> simp

theorem one_shot_finish_ne_check_failed (vocabulary : List String) (K : Nat)
    (ext_scorer : Option Scorer) (st : PathTrie × List Path) :
    one_shot_finish vocabulary K ext_scorer st ≠ Except.error DecodeError.check_failed := by
  unfold one_shot_finish
  simp only
  split
  · rename_i e he
    intro h'
    injection h' with h'
    rw [h'] at he
    exact get_beam_search_result_ne_check_failed _ _ _ _ he
  · simp

theorem shape_ok_eq_false_iff (probs_seq : List (List ℚ)) (width : Nat) :
    shape_ok probs_seq width = false ↔ ∃ prob ∈ probs_seq, prob.length ≠ width := by
  unfold shape_ok
  rw [← Bool.not_eq_true, List.all_eq_true]
  simp

/-- C12: `ctc_beam_search_decoder` ends with the error of the shape check
exactly when some frame of `probs_seq` has a width other than `|vocabulary| + 1`
(for every beam size), and `BeamDecoder::decode` exactly when some frame has a
width other than `|vocabulary|`; the check runs over all frames before the loop
over time, so that after it fails in `decode` the decoder (trie, beam, word list
and every other member) is as before the call. -/
theorem shape_validation (probs_seq : List (List ℚ)) (vocabulary : List String) (K : Nat)
    (cutoff_prob : ℚ) (cutoff_top_n : Nat) (ext_scorer : Option Scorer) (d : BeamDecoder) :
    (ctc_beam_search_decoder probs_seq vocabulary K cutoff_prob cutoff_top_n ext_scorer
        = Except.error DecodeError.check_failed
      ↔ ∃ prob ∈ probs_seq, prob.length ≠ vocabulary.length + 1)
    ∧ ((d.decode probs_seq).2 = Except.error DecodeError.check_failed
      ↔ ∃ prob ∈ probs_seq, prob.length ≠ d.vocabulary.length)
    ∧ ((d.decode probs_seq).2 = Except.error DecodeError.check_failed
      → (d.decode probs_seq).1 = d) := by
  have hdec : (d.decode probs_seq).2 = Except.error DecodeError.check_failed
      ↔ shape_ok probs_seq d.vocabulary.length = false := by
    unfold BeamDecoder.decode
    by_cases hs : shape_ok probs_seq d.vocabulary.length = false
    · rw [if_pos hs]
      exact ⟨fun _ => hs, fun _ => rfl⟩
    · rw [if_neg hs]
      refine ⟨fun h => absurd h ?_, fun h => absurd h hs⟩
      split
      · rename_i e he
        intro h'
        injection h' with h'
        rw [h'] at he
        exact time_loop_ne_check_failed _
          (fun t prob st => frame_step_ne_check_failed _ _ _ _ _ _ prob st) _ _ _ he
      · simp only
        split
        · rename_i e he
          intro h'
          injection h' with h'
          rw [h'] at he
          exact get_beam_search_result_ne_check_failed _ _ _ _ he
        · simp
  refine ⟨?_, ?_, ?_⟩
  · rw [← shape_ok_eq_false_iff]
    unfold ctc_beam_search_decoder
    by_cases hs : shape_ok probs_seq (vocabulary.length + 1) = false
    · rw [if_pos hs]
      exact ⟨fun _ => hs, fun _ => rfl⟩
    · rw [if_neg hs]
      refine ⟨fun h => absurd h ?_, fun h => absurd h hs⟩
      split
      · rename_i e he
        intro h'
        injection h' with h'
        rw [h'] at he
        exact time_loop_ne_check_failed _
          (fun t prob st => frame_step_ne_check_failed _ _ _ _ _ _ prob st) _ _ _ he
      · exact one_shot_finish_ne_check_failed _ _ _ _
  · rw [← shape_ok_eq_false_iff]
    exact hdec
  · intro h
    have hs := hdec.1 h
    unfold BeamDecoder.decode
    rw [if_pos hs]

/-! ### Beam size zero (C13) -/

theorem expand_symbols_nil (stop : Nat × LogProb → Node → Bool)
    (body : Nat × LogProb → Path → PathTrie → PathTrie) :
    ∀ (symbols : List (Nat × LogProb)) (root : PathTrie),
      expand_symbols stop body [] symbols root = root := by
  intro symbols
  induction symbols with
  | nil => intro root; rfl
  | cons x rest ih =>
    intro root
    rw [expand_symbols, expand_prefixes]
    exact ih root

theorem frame_step_zero (blank_id : Nat) (cutoff_prob : ℚ) (cutoff_top_n : Nat)
    (ext_scorer : Option Scorer) (body : Nat × LogProb → Path → PathTrie → PathTrie)
    (prob : List ℚ) :
    frame_step 0 blank_id cutoff_prob cutoff_top_n ext_scorer body prob
        (init_root ext_scorer, [[]])
      = Except.error DecodeError.undefined_behaviour := by
  unfold frame_step
  cases ext_scorer with
  | none =>
    simp only [pre_sort, List.take_zero, expand_symbols_nil]
    rfl
  | some scorer =>
    simp [pre_sort]

theorem time_loop_zero (blank_id : Nat) (cutoff_prob : ℚ) (cutoff_top_n : Nat)
    (ext_scorer : Option Scorer) (body : Nat → Nat × LogProb → Path → PathTrie → PathTrie)
    (probs_seq : List (List ℚ)) (hne : probs_seq ≠ []) :
    time_loop (fun t prob st =>
        frame_step 0 blank_id cutoff_prob cutoff_top_n ext_scorer (body t) prob st)
      probs_seq 0 (init_root ext_scorer, [[]])
      = Except.error DecodeError.undefined_behaviour := by
  cases probs_seq with
  | nil => exact absurd rfl hne
  | cons prob rest =>
    rw [time_loop]
    simp only [frame_step_zero]

theorem get_beam_search_result_zero (root : PathTrie) (prefixes : List Path)
    (vocabulary : List String) :
    get_beam_search_result root prefixes vocabulary 0
      = Except.error DecodeError.undefined_behaviour := by
  unfold get_beam_search_result
  simp only [List.take_zero]
  rfl

/-- C13 (counterexample): with `beam_size = 0` and the well-shaped frame
`[0.6, 0.4]`, `ctc_beam_search_decoder` over `["a"]` and the first `decode` call
of a `BeamDecoder` over `["a", "_"]` report no error of a check: the root is
passed to `remove()`, which dereferences its null parent. -/
theorem beam_size_zero_undefined :
    ctc_beam_search_decoder [[6/10, 4/10]] ["a"] 0 1 40 none
        = Except.error DecodeError.undefined_behaviour
    ∧ ((BeamDecoder.new ["a", "_"] 0 1 40 none true).decode [[6/10, 4/10]]).2
        = Except.error DecodeError.undefined_behaviour := by
  decide!

/-- C13 (amended): neither decoder checks `beam_size`; a beam size of at least
one is a precondition of both.  With `beam_size = 0` the only error reported at
the entry point is the one of the shape check, for an ill-shaped input; on every
well-shaped input `ctc_beam_search_decoder` and the first `decode` call of a
`BeamDecoder` have no defined result (the root is removed although it has no
parent, `prefixes[num_prefixes - 1]` is read at `num_prefixes = 0`, or
`output_vecs[0]` is read in an empty vector). -/
theorem beam_size_zero_not_rejected (probs_seq : List (List ℚ)) (vocabulary : List String)
    (cutoff_prob : ℚ) (cutoff_top_n : Nat) (ext_scorer : Option Scorer) (reset_default : Bool) :
    ctc_beam_search_decoder probs_seq vocabulary 0 cutoff_prob cutoff_top_n ext_scorer
        = (if shape_ok probs_seq (vocabulary.length + 1) = true
            then Except.error DecodeError.undefined_behaviour
            else Except.error DecodeError.check_failed)
    ∧ ((BeamDecoder.new vocabulary 0 cutoff_prob cutoff_top_n ext_scorer reset_default).decode
          probs_seq).2
        = (if shape_ok probs_seq vocabulary.length = true
            then Except.error DecodeError.undefined_behaviour
            else Except.error DecodeError.check_failed) := by
  constructor
  · unfold ctc_beam_search_decoder
    by_cases hs : shape_ok probs_seq (vocabulary.length + 1) = true
    · rw [if_neg (by rw [hs]; simp), if_pos hs]
      by_cases hne : probs_seq = []
      · subst hne
        unfold one_shot_loop
        simp only [time_loop, one_shot_finish, get_beam_search_result_zero]
      · unfold one_shot_loop
        rw [time_loop_zero vocabulary.length cutoff_prob cutoff_top_n ext_scorer
          (fun _ => body_one_shot ext_scorer vocabulary) probs_seq hne]
    · rw [if_neg hs, if_pos (by simpa using hs)]
  · unfold BeamDecoder.decode
    by_cases hs : shape_ok probs_seq vocabulary.length = true
    · have hs' : ¬ shape_ok probs_seq
          (BeamDecoder.new vocabulary 0 cutoff_prob cutoff_top_n ext_scorer
            reset_default).vocabulary.length = false := by
        show ¬ shape_ok probs_seq vocabulary.length = false
        rw [hs]; simp
      rw [if_neg hs', if_pos hs]
      by_cases hne : probs_seq = []
      · subst hne
        unfold BeamDecoder.loop
        simp only [time_loop]
        have e : (BeamDecoder.new vocabulary 0 cutoff_prob cutoff_top_n ext_scorer
            reset_default).beam_size = 0 := rfl
        rw [e, get_beam_search_result_zero]
      · unfold BeamDecoder.loop
        have e := time_loop_zero
          (BeamDecoder.new vocabulary 0 cutoff_prob cutoff_top_n ext_scorer reset_default).blank_id
          cutoff_prob cutoff_top_n ext_scorer
          (BeamDecoder.new vocabulary 0 cutoff_prob cutoff_top_n ext_scorer reset_default).body
          probs_seq hne
        have e' : time_loop (fun time_step prob st =>
            frame_step
              (BeamDecoder.new vocabulary 0 cutoff_prob cutoff_top_n ext_scorer
                reset_default).beam_size
              (BeamDecoder.new vocabulary 0 cutoff_prob cutoff_top_n ext_scorer
                reset_default).blank_id
              (BeamDecoder.new vocabulary 0 cutoff_prob cutoff_top_n ext_scorer
                reset_default).cutoff_prob
              (BeamDecoder.new vocabulary 0 cutoff_prob cutoff_top_n ext_scorer
                reset_default).cutoff_top_n
              (BeamDecoder.new vocabulary 0 cutoff_prob cutoff_top_n ext_scorer
                reset_default).ext_scorer
              ((BeamDecoder.new vocabulary 0 cutoff_prob cutoff_top_n ext_scorer
                reset_default).body time_step) prob st)
            probs_seq 0
            ((BeamDecoder.new vocabulary 0 cutoff_prob cutoff_top_n ext_scorer
                reset_default).root,
              (BeamDecoder.new vocabulary 0 cutoff_prob cutoff_top_n ext_scorer
                reset_default).prefixes)
            = Except.error DecodeError.undefined_behaviour := e
        rw [e']
    · have hs' : shape_ok probs_seq
          (BeamDecoder.new vocabulary 0 cutoff_prob cutoff_top_n ext_scorer
            reset_default).vocabulary.length = false := by
        show shape_ok probs_seq vocabulary.length = false
        simpa using hs
      rw [if_pos hs', if_neg hs]

/-! ### The batch driver (C14) -/

theorem enqueue_loop_eq (vocabulary : List String) (K : Nat) (cutoff_prob : ℚ)
    (cutoff_top_n : Nat) (ext_scorer : Option Scorer) :
    ∀ (probs_split : List (List (List ℚ)))
      (res : List (Except DecodeError (List (LogProb × String)))),
      enqueue_loop vocabulary K cutoff_prob cutoff_top_n ext_scorer probs_split res
        = res ++ probs_split.map (fun probs_seq =>
            ctc_beam_search_decoder probs_seq vocabulary K cutoff_prob cutoff_top_n ext_scorer) := by
  intro probs_split
  induction probs_split with
  | nil => intro res; simp [enqueue_loop]
  | cons p rest ih =>
    intro res
    rw [enqueue_loop, ih, List.map_cons, List.append_assoc]
    rfl

theorem get_loop_eq_ok {α : Type} :
    ∀ (futures : List (Except DecodeError α)) (acc rs : List α),
      get_loop futures acc = Except.ok rs
        ↔ ∃ tl, rs = acc ++ tl ∧ List.Forall₂ (fun f r => f = Except.ok r) futures tl := by
  intro futures
  induction futures with
  | nil =>
    intro acc rs
    simp only [get_loop, List.forall₂_nil_left_iff]
    constructor
    · intro h
      injection h with h
      exact ⟨[], by rw [List.append_nil, h], rfl⟩
    · rintro ⟨tl, h1, h2⟩
      rw [h1, h2, List.append_nil]
  | cons f rest ih =>
    intro acc rs
    cases f with
    | error e =>
      simp only [get_loop, List.forall₂_cons_left_iff]
      constructor
      · intro h; cases h
      · rintro ⟨tl, _, b, u, h, _⟩
        cases h
    | ok r =>
      simp only [get_loop, List.forall₂_cons_left_iff]
      rw [ih]
      constructor
      · rintro ⟨tl, h1, h2⟩
        exact ⟨r :: tl, by rw [h1, List.append_assoc]; rfl, r, tl, rfl, h2, rfl⟩
      · rintro ⟨tl, h1, b, u, hb, hu, htl⟩
        injection hb with hb
        subst hb htl
        exact ⟨u, by rw [h1, List.append_assoc]; rfl, hu⟩

/-- C14: with a worker count `W ≥ 1`, `ctc_beam_search_decoder_batch` returns
the list `rs` exactly when `rs` has one result per utterance and its `i`-th
element is what `ctc_beam_search_decoder` returns for the `i`-th utterance with
the same vocabulary, beam size, cut-offs and scorer (it rethrows when a call
throws); it does return when every utterance is well shaped, `K ≥ 1` and every
token beginning with `#` has two characters at least.  With `W = 0` it ends with
the error of the validation check for every input. -/
theorem batch_in_input_order (probs_split : List (List (List ℚ))) (vocabulary : List String)
    (K W : Nat) (cutoff_prob : ℚ) (cutoff_top_n : Nat) (ext_scorer : Option Scorer) :
    (1 ≤ W → ∀ rs : List (List (LogProb × String)),
      ctc_beam_search_decoder_batch probs_split vocabulary K W cutoff_prob cutoff_top_n
          ext_scorer = Except.ok rs
        ↔ rs.length = probs_split.length
          ∧ ∀ (i : Nat) (h1 : i < probs_split.length) (h2 : i < rs.length),
              ctc_beam_search_decoder (probs_split.get ⟨i, h1⟩) vocabulary K cutoff_prob
                cutoff_top_n ext_scorer = Except.ok (rs.get ⟨i, h2⟩))
    ∧ (1 ≤ W → 1 ≤ K → TokensOK vocabulary →
        (∀ probs_seq ∈ probs_split, shape_ok probs_seq (vocabulary.length + 1) = true) →
        ∃ rs, ctc_beam_search_decoder_batch probs_split vocabulary K W cutoff_prob cutoff_top_n
          ext_scorer = Except.ok rs)
    ∧ (W = 0 →
        ctc_beam_search_decoder_batch probs_split vocabulary K W cutoff_prob cutoff_top_n
          ext_scorer = Except.error DecodeError.check_failed) := by
  have key : 1 ≤ W → ∀ rs : List (List (LogProb × String)),
      ctc_beam_search_decoder_batch probs_split vocabulary K W cutoff_prob cutoff_top_n
          ext_scorer = Except.ok rs
        ↔ List.Forall₂ (fun probs_seq r => ctc_beam_search_decoder probs_seq vocabulary K
            cutoff_prob cutoff_top_n ext_scorer = Except.ok r) probs_split rs := by
    intro hW rs
    unfold ctc_beam_search_decoder_batch
    rw [if_neg (by omega), enqueue_loop_eq, List.nil_append, get_loop_eq_ok]
    simp only [List.nil_append, List.forall₂_map_left_iff]
    constructor
    · rintro ⟨tl, h1, h2⟩
      rw [h1]; exact h2
    · intro h
      exact ⟨rs, rfl, h⟩
  refine ⟨?_, ?_, ?_⟩
  · intro hW rs
    rw [key hW, List.forall₂_iff_get]
    constructor
    · rintro ⟨h1, h2⟩
      exact ⟨h1.symm, h2⟩
    · rintro ⟨h1, h2⟩
      exact ⟨h1.symm, h2⟩
  · intro hW hK htok hshape
    have hex : ∀ l : List (List (List ℚ)),
        (∀ probs_seq ∈ l, shape_ok probs_seq (vocabulary.length + 1) = true) →
        ∃ rs, List.Forall₂ (fun probs_seq r => ctc_beam_search_decoder probs_seq vocabulary K
            cutoff_prob cutoff_top_n ext_scorer = Except.ok r) l rs := by
      intro l
      induction l with
      | nil => intro _; exact ⟨[], List.Forall₂.nil⟩
      | cons p rest ih =>
        intro h
        obtain ⟨rs, hrs⟩ := ih (fun q hq => h q (List.mem_cons_of_mem _ hq))
        obtain ⟨_, r, _, hr, _⟩ := ctc_beam_search_decoder_spec p vocabulary K cutoff_prob
          cutoff_top_n ext_scorer (h p (List.mem_cons_self _ _)) hK htok
        exact ⟨r :: rs, List.Forall₂.cons hr hrs⟩
    obtain ⟨rs, hrs⟩ := hex probs_split hshape
    exact ⟨rs, (key hW rs).2 hrs⟩
  · intro hW
    unfold ctc_beam_search_decoder_batch
    rw [if_pos (by omega)]

theorem batch_in_input_order_witness :
    (1 ≤ 2
      ∧ (ctc_beam_search_decoder_batch [[[6/10, 0, 0, 4/10]], [[0, 7/10, 0, 3/10]]]
            ["a", "b", " "] 2 2 1 40 none
          = Except.ok [[(stored_log_prob (6/10), "a"), (stored_log_prob (4/10), "")],
              [(stored_log_prob (7/10), "b"), (stored_log_prob (3/10), "")]]
        ↔ [[(stored_log_prob (6/10), "a"), (stored_log_prob (4/10), "")],
              [(stored_log_prob (7/10), "b"), (stored_log_prob (3/10), "")]].length
            = [[[(6 : ℚ)/10, 0, 0, 4/10]], [[0, 7/10, 0, 3/10]]].length
          ∧ ∀ (i : Nat) (h1 : i < [[[(6 : ℚ)/10, 0, 0, 4/10]], [[0, 7/10, 0, 3/10]]].length)
              (h2 : i < [[(stored_log_prob (6/10), "a"), (stored_log_prob (4/10), "")],
                [(stored_log_prob (7/10), "b"), (stored_log_prob (3/10), "")]].length),
              ctc_beam_search_decoder
                  ([[[(6 : ℚ)/10, 0, 0, 4/10]], [[0, 7/10, 0, 3/10]]].get ⟨i, h1⟩)
                  ["a", "b", " "] 2 1 40 none
                = Except.ok
                    ([[(stored_log_prob (6/10), "a"), (stored_log_prob (4/10), "")],
                      [(stored_log_prob (7/10), "b"), (stored_log_prob (3/10), "")]].get
                      ⟨i, h2⟩)))
    ∧ (1 ≤ 2 ∧ 1 ≤ 2 ∧ TokensOK ["a", "b", " "]
      ∧ (∀ probs_seq ∈ [[[(6 : ℚ)/10, 0, 0, 4/10]], [[0, 7/10, 0, 3/10]]],
          shape_ok probs_seq (["a", "b", " "].length + 1) = true)
      ∧ ∃ rs, ctc_beam_search_decoder_batch [[[6/10, 0, 0, 4/10]], [[0, 7/10, 0, 3/10]]]
          ["a", "b", " "] 2 2 1 40 none = Except.ok rs)
    ∧ ((0 : Nat) = 0
      ∧ ctc_beam_search_decoder_batch [[[6/10, 0, 0, 4/10]], [[0, 7/10, 0, 3/10]]]
          ["a", "b", " "] 2 0 1 40 none = Except.error DecodeError.check_failed) :=
  ⟨⟨by decide,
      (batch_in_input_order [[[6/10, 0, 0, 4/10]], [[0, 7/10, 0, 3/10]]] ["a", "b", " "] 2 2 1 40
        none).1 (by decide) _⟩,
    ⟨by decide, by decide, by decide, by decide!,
      (batch_in_input_order [[[6/10, 0, 0, 4/10]], [[0, 7/10, 0, 3/10]]] ["a", "b", " "] 2 2 1 40
        none).2.1 (by decide) (by decide) (by decide) (by decide!)⟩,
    ⟨rfl, (batch_in_input_order [[[6/10, 0, 0, 4/10]], [[0, 7/10, 0, 3/10]]] ["a", "b", " "] 2 0
      1 40 none).2.2 rfl⟩⟩

/-! ### The order and the cut-off of `get_pruned_log_probs` (C15, C19) -/

theorem sorted_std_sort_pair_comp (l : List (Nat × ℚ)) :
    (std_sort pair_comp_second_rev l).Pairwise (fun a b => b.2 ≤ a.2) := by
  have h : (std_sort pair_comp_second_rev l).Pairwise
      (fun x y => pair_comp_second_rev y x = false) := by
    haveI : IsTotal (Nat × ℚ) (fun x y => pair_comp_second_rev y x = false) :=
      ⟨fun x y => by
        unfold pair_comp_second_rev
        simp only [decide_eq_false_iff_not, not_lt, gt_iff_lt]
        exact le_total y.2 x.2⟩
    haveI : IsTrans (Nat × ℚ) (fun x y => pair_comp_second_rev y x = false) :=
      ⟨fun x y z h1 h2 => by
        unfold pair_comp_second_rev at h1 h2 ⊢
        simp only [decide_eq_false_iff_not, not_lt, gt_iff_lt] at h1 h2 ⊢
        exact le_trans h2 h1⟩
    exact List.sorted_insertionSort _ l
  apply h.imp
  intro a b hab
  unfold pair_comp_second_rev at hab
  simpa using hab

theorem mem_std_sort_enum (prob : List ℚ) (x : Nat × ℚ)
    (hx : x ∈ std_sort pair_comp_second_rev prob.enum) :
    x.1 < prob.length ∧ prob.getD x.1 0 = x.2 := by
  have h := (perm_std_sort _ _).mem_iff.1 hx
  have h1 := List.fst_lt_of_mem_enum h
  refine ⟨h1, ?_⟩
  have h2 := List.mem_enum_iff_getElem?.1 h
  rw [List.getD_eq_getElem?_getD, h2]
  rfl

theorem nodup_fst_std_sort_enum (prob : List ℚ) :
    ((std_sort pair_comp_second_rev prob.enum).map Prod.fst).Nodup := by
  rw [((perm_std_sort pair_comp_second_rev prob.enum).map Prod.fst).nodup_iff]
  exact List.nodup_enum_map_fst prob

theorem snd_std_sort_enum (prob : List ℚ) :
    (std_sort pair_comp_second_rev prob.enum).map Prod.snd
      = prob.insertionSort (fun a b => b ≤ a) := by
  haveI : IsAntisymm ℚ (fun a b => b ≤ a) := ⟨fun a b h1 h2 => le_antisymm h2 h1⟩
  haveI : IsTotal ℚ (fun a b => b ≤ a) := ⟨fun a b => le_total b a⟩
  haveI : IsTrans ℚ (fun a b => b ≤ a) := ⟨fun a b c h1 h2 => le_trans h2 h1⟩
  apply @List.eq_of_perm_of_sorted ℚ (fun a b => b ≤ a)
  · have h1 := (perm_std_sort pair_comp_second_rev prob.enum).map Prod.snd
    rw [List.enum_map_snd] at h1
    exact h1.trans (List.perm_insertionSort _ prob).symm
  · show List.Pairwise _ _
    rw [List.pairwise_map]
    exact sorted_std_sort_pair_comp _
  · exact List.sorted_insertionSort _ prob

/-- C15 (counterexample): with `cutoff_prob = 1.0` and `cutoff_top_n = 40` the
frame `[0.1, 0.9]` is not sorted: the pairs come back in the order of the
symbol indices, the less probable symbol first. -/
theorem get_pruned_log_probs_not_sorted :
    get_pruned_log_probs [1/10, 9/10] 1 40
        = [(0, stored_log_prob (1/10)), (1, stored_log_prob (9/10))]
      ∧ ¬ (get_pruned_log_probs [1/10, 9/10] 1 40).Pairwise
          (fun a b => ([1/10, 9/10] : List ℚ).getD b.1 0 ≤ ([1/10, 9/10] : List ℚ).getD a.1 0) := by
  decide!

/-- C15 (amended): when the pruning block is entered (`cutoff_prob < 1` or
`cutoff_top_n` below the number of symbols) the pairs returned by
`get_pruned_log_probs` are listed in non-increasing order of the input
probability of their symbol; otherwise nothing is sorted and the pairs of all
symbols are returned in the order of the symbol indices. -/
theorem get_pruned_log_probs_order (prob_step : List ℚ) (cutoff_prob : ℚ) (cutoff_top_n : Nat) :
    (cutoff_prob < 1 ∨ cutoff_top_n < prob_step.length →
      (get_pruned_log_probs prob_step cutoff_prob cutoff_top_n).Pairwise
        (fun a b => prob_step.getD b.1 0 ≤ prob_step.getD a.1 0))
    ∧ (¬ (cutoff_prob < 1 ∨ cutoff_top_n < prob_step.length) →
      get_pruned_log_probs prob_step cutoff_prob cutoff_top_n
        = prob_step.enum.map (fun p => (p.1, (log (to_double (p.2 + NUM_FLT_MIN))).narrow))) := by
  constructor
  · intro h
    unfold get_pruned_log_probs pruned_prob_idx
    simp only [if_pos h]
    rw [List.pairwise_map]
    have hs : ((std_sort pair_comp_second_rev prob_step.enum).Pairwise
        (fun a b => prob_step.getD b.1 0 ≤ prob_step.getD a.1 0)) := by
      apply (sorted_std_sort_pair_comp prob_step.enum).imp_of_mem
      intro a b ha hb hab
      rw [(mem_std_sort_enum prob_step a ha).2, (mem_std_sort_enum prob_step b hb).2]
      exact hab
    exact ((hs.sublist (List.take_sublist _ _)).sublist (List.take_sublist _ _))
  · intro h
    unfold get_pruned_log_probs pruned_prob_idx
    simp only [if_neg h]
    rw [List.take_of_length_le (by rw [List.enum_length])]

theorem get_pruned_log_probs_order_witness :
    (((1 : ℚ) / 2 < 1 ∨ 40 < ([1/10, 9/10] : List ℚ).length)
      ∧ (get_pruned_log_probs [1/10, 9/10] (1/2) 40).Pairwise
        (fun a b => ([1/10, 9/10] : List ℚ).getD b.1 0 ≤ ([1/10, 9/10] : List ℚ).getD a.1 0))
    ∧ (¬ ((1 : ℚ) < 1 ∨ 40 < ([1/10, 9/10] : List ℚ).length)
      ∧ get_pruned_log_probs [1/10, 9/10] 1 40
        = ([1/10, 9/10] : List ℚ).enum.map (fun p => (p.1, (log (to_double (p.2 + NUM_FLT_MIN))).narrow))) :=
  ⟨⟨Or.inl (by norm_num), (get_pruned_log_probs_order [1/10, 9/10] (1/2) 40).1
      (Or.inl (by norm_num))⟩,
    ⟨by simp, (get_pruned_log_probs_order [1/10, 9/10] 1 40).2 (by simp)⟩⟩

theorem double_sum_cons (cum x : ℚ) (l : List ℚ) :
    double_sum cum (x :: l) = double_sum (to_double (cum + x)) l := rfl

/-- What the cumulative loop returns, started at `cum_prob` and `cutoff_len`
on a non-empty rest of the sorted list: the least number `k ≥ 1` of further
pairs for which the running `double` sum reaches `cutoff_prob` or the length
reaches `cutoff_top_n`, and the whole rest when there is none. -/
theorem cutoff_loop_spec (cutoff_prob : ℚ) (cutoff_top_n : Nat) :
    ∀ (l : List (Nat × ℚ)) (cum : ℚ) (len : Nat), l ≠ [] →
      ∃ k, cutoff_loop cutoff_prob cutoff_top_n l cum len = len + k
        ∧ 1 ≤ k ∧ k ≤ l.length
        ∧ (cutoff_prob ≤ double_sum cum ((l.take k).map Prod.snd) ∨ cutoff_top_n ≤ len + k
            ∨ k = l.length)
        ∧ ∀ m, 1 ≤ m → m < k →
            ¬ (cutoff_prob ≤ double_sum cum ((l.take m).map Prod.snd)
                ∨ cutoff_top_n ≤ len + m) := by
  intro l
  induction l with
  | nil => intro _ _ h; exact absurd rfl h
  | cons x rest ih =>
    intro cum len _
    unfold cutoff_loop
    by_cases hc : to_double (cum + x.2) ≥ cutoff_prob ∨ len + 1 ≥ cutoff_top_n
    · rw [if_pos hc]
      refine ⟨1, rfl, le_refl _, by simp, ?_, ?_⟩
      · rcases hc with hc | hc
        · left
          simpa [double_sum] using hc
        · exact Or.inr (Or.inl hc)
      · intro m h1 h2
        omega
    · rw [if_neg hc]
      by_cases hr : rest = []
      · subst hr
        refine ⟨1, by simp [cutoff_loop], le_refl _, by simp, Or.inr (Or.inr rfl), ?_⟩
        intro m h1 h2
        omega
      · obtain ⟨k, e, k1, k2, k3, k4⟩ := ih (to_double (cum + x.2)) (len + 1) hr
        refine ⟨k + 1, by rw [e]; omega, by omega, by simp; omega, ?_, ?_⟩
        · rcases k3 with k3 | k3 | k3
          · left
            simpa [List.take_succ_cons, double_sum_cons] using k3
          · right; left
            omega
          · right; right
            simp [k3]
        · intro m h1 h2
          rcases Nat.lt_or_ge 1 m with hm | hm
          · obtain ⟨j, rfl⟩ : ∃ j, m = j + 1 := ⟨m - 1, by omega⟩
            have := k4 j (by omega) (by omega)
            intro h
            apply this
            rcases h with h | h
            · left
              simpa [List.take_succ_cons, double_sum_cons] using h
            · right
              omega
          · have hm1 : m = 1 := by omega
            subst hm1
            intro h
            apply hc
            rcases h with h | h
            · left
              simpa [double_sum] using h
            · right
              exact h

theorem sum_of_largest_eq (prob_step : List ℚ) (m : Nat) :
    sum_of_largest prob_step m
      = (((std_sort pair_comp_second_rev prob_step.enum).take m).map Prod.snd).sum := by
  unfold sum_of_largest
  rw [← snd_std_sort_enum, List.map_take]

theorem double_sum_of_largest_eq (prob_step : List ℚ) (m : Nat) :
    double_sum_of_largest prob_step m
      = double_sum 0 (((std_sort pair_comp_second_rev prob_step.enum).take m).map Prod.snd) := by
  unfold double_sum_of_largest
  rw [← snd_std_sort_enum, List.map_take]

/-- The pairs `get_pruned_log_probs` returns when `cutoff_prob < 1`: the first
`cutoff_len` pairs of the sorted list, each with the narrowed logarithm of its
floored probability. -/
theorem get_pruned_log_probs_of_lt_one (prob_step : List ℚ) (cutoff_prob : ℚ)
    (cutoff_top_n : Nat) (hcp : cutoff_prob < 1) :
    get_pruned_log_probs prob_step cutoff_prob cutoff_top_n
      = ((std_sort pair_comp_second_rev prob_step.enum).take
          (cutoff_loop cutoff_prob cutoff_top_n
            (std_sort pair_comp_second_rev prob_step.enum) 0 0)).map
          (fun p => (p.1, (log (to_double (p.2 + NUM_FLT_MIN))).narrow)) := by
  unfold get_pruned_log_probs pruned_prob_idx
  simp only [if_pos (Or.inl hcp : cutoff_prob < 1 ∨ cutoff_top_n < prob_step.length), if_pos hcp,
    List.take_take, min_self]

/-- C19 (counterexample): ten symbols of probability `0.1` (the `double`
`3602879701896397 / 2^55`) with `cutoff_prob = 0.30000000000000004` (the
`double` `5404319552844596 / 2^54`, which is `0.1 + 0.2` in `double`
arithmetic) and `cutoff_top_n = 40`.  Three pairs are returned, although the
sum of the three largest probabilities is below `cutoff_prob` and `3` is below
`cutoff_top_n`: `cum_prob` is a `double`, and its third value is rounded up to
`cutoff_prob`. -/
theorem cumulative_cutoff_sum_is_rounded :
    to_double (3602879701896397 / 2 ^ 55) = 3602879701896397 / 2 ^ 55
      ∧ to_double (5404319552844596 / 2 ^ 54) = 5404319552844596 / 2 ^ 54
      ∧ (get_pruned_log_probs (List.replicate 10 (3602879701896397 / 2 ^ 55))
          (5404319552844596 / 2 ^ 54) 40).length = 3
      ∧ sum_of_largest (List.replicate 10 (3602879701896397 / 2 ^ 55)) 3
          < 5404319552844596 / 2 ^ 54
      ∧ ¬ (40 ≤ 3)
      ∧ double_sum_of_largest (List.replicate 10 (3602879701896397 / 2 ^ 55)) 3
          = 5404319552844596 / 2 ^ 54 := by
  decide!

/-- C19 (amended): for a non-empty vector of non-negative probabilities and
`cutoff_prob < 1`, the number `n` of pairs `get_pruned_log_probs` returns is the
least `n ≥ 1` for which the sum of the `n` largest probabilities, added up from
the largest down in `double` arithmetic, reaches `cutoff_prob` or `n` reaches
`cutoff_top_n`, and the number of symbols when there is no such `n` up to it; the
returned symbols have pairwise distinct indices, each is paired with
`log(p + NUM_FLT_MIN)` of its own input probability `p`, computed in `double`
and narrowed to `float`, and each has a probability at least that of every
symbol that is not returned. -/
theorem cumulative_cutoff (prob_step : List ℚ) (cutoff_prob : ℚ) (cutoff_top_n : Nat)
    (hne : prob_step ≠ []) (_hnonneg : ∀ p ∈ prob_step, 0 ≤ p) (hcp : cutoff_prob < 1) :
    1 ≤ (get_pruned_log_probs prob_step cutoff_prob cutoff_top_n).length
    ∧ (get_pruned_log_probs prob_step cutoff_prob cutoff_top_n).length ≤ prob_step.length
    ∧ (cutoff_prob ≤ double_sum_of_largest prob_step
          (get_pruned_log_probs prob_step cutoff_prob cutoff_top_n).length
        ∨ cutoff_top_n ≤ (get_pruned_log_probs prob_step cutoff_prob cutoff_top_n).length
        ∨ (get_pruned_log_probs prob_step cutoff_prob cutoff_top_n).length = prob_step.length)
    ∧ (∀ m, 1 ≤ m → m < (get_pruned_log_probs prob_step cutoff_prob cutoff_top_n).length →
        ¬ (cutoff_prob ≤ double_sum_of_largest prob_step m ∨ cutoff_top_n ≤ m))
    ∧ ((get_pruned_log_probs prob_step cutoff_prob cutoff_top_n).map Prod.fst).Nodup
    ∧ (∀ x ∈ get_pruned_log_probs prob_step cutoff_prob cutoff_top_n,
        x.1 < prob_step.length
          ∧ x.2 = (log (to_double (prob_step.getD x.1 0 + NUM_FLT_MIN))).narrow)
    ∧ (∀ x ∈ get_pruned_log_probs prob_step cutoff_prob cutoff_top_n,
        ∀ j, j < prob_step.length →
          j ∉ (get_pruned_log_probs prob_step cutoff_prob cutoff_top_n).map Prod.fst →
          prob_step.getD j 0 ≤ prob_step.getD x.1 0) := by
  have hS : std_sort pair_comp_second_rev prob_step.enum ≠ [] := by
    intro h
    have := length_std_sort pair_comp_second_rev prob_step.enum
    rw [h, List.enum_length] at this
    exact hne (List.length_eq_zero.1 this.symm)
  obtain ⟨k, e, k1, k2, k3, k4⟩ := cutoff_loop_spec cutoff_prob cutoff_top_n _ 0 0 hS
  rw [Nat.zero_add] at e
  rw [length_std_sort, List.enum_length] at k2
  have hlen : (get_pruned_log_probs prob_step cutoff_prob cutoff_top_n).length = k := by
    rw [get_pruned_log_probs_of_lt_one _ _ _ hcp, e, List.length_map, List.length_take,
      length_std_sort, List.enum_length]
    omega
  have hfst : (get_pruned_log_probs prob_step cutoff_prob cutoff_top_n).map Prod.fst
      = ((std_sort pair_comp_second_rev prob_step.enum).take k).map Prod.fst := by
    rw [get_pruned_log_probs_of_lt_one _ _ _ hcp, e, List.map_map]
    rfl
  rw [hlen]
  refine ⟨k1, k2, ?_, ?_, ?_, ?_, ?_⟩
  · rw [double_sum_of_largest_eq]
    rcases k3 with k3 | k3 | k3
    · left; exact k3
    · right; left; simpa using k3
    · right; right
      rw [k3, length_std_sort, List.enum_length]
  · intro m h1 h2
    rw [double_sum_of_largest_eq]
    simpa using k4 m h1 h2
  · rw [hfst, List.map_take]
    exact (nodup_fst_std_sort_enum prob_step).sublist (List.take_sublist _ _)
  · intro x hx
    rw [get_pruned_log_probs_of_lt_one _ _ _ hcp, List.mem_map] at hx
    obtain ⟨p, hp, rfl⟩ := hx
    obtain ⟨h1, h2⟩ := mem_std_sort_enum prob_step p (List.mem_of_mem_take hp)
    exact ⟨h1, by rw [h2]⟩
  · intro x hx j hj hjn
    rw [hfst] at hjn
    rw [get_pruned_log_probs_of_lt_one _ _ _ hcp, e, List.mem_map] at hx
    obtain ⟨p, hp, rfl⟩ := hx
    have hmem : (j, prob_step.getD j 0) ∈ std_sort pair_comp_second_rev prob_step.enum := by
      rw [(perm_std_sort _ _).mem_iff, List.mk_mem_enum_iff_getElem?, List.getD_eq_getElem?_getD,
        List.getElem?_eq_getElem hj]
      rfl
    rw [← List.take_append_drop k (std_sort pair_comp_second_rev prob_step.enum),
      List.mem_append] at hmem
    rcases hmem with hmem | hmem
    · exact absurd (List.mem_map_of_mem Prod.fst hmem) hjn
    · have hsorted := sorted_std_sort_pair_comp prob_step.enum
      rw [← List.take_append_drop k (std_sort pair_comp_second_rev prob_step.enum),
        List.pairwise_append] at hsorted
      have := hsorted.2.2 p hp _ hmem
      rw [(mem_std_sort_enum prob_step p (List.mem_of_mem_take hp)).2]
      exact this

theorem cumulative_cutoff_witness :
    ([1/2, 1/4, 1/8, 1/8] : List ℚ) ≠ [] ∧ (∀ p ∈ ([1/2, 1/4, 1/8, 1/8] : List ℚ), 0 ≤ p)
    ∧ (5/8 : ℚ) < 1
    ∧ (get_pruned_log_probs [1/2, 1/4, 1/8, 1/8] (5/8) 3).length = 2
    ∧ (∀ m, 1 ≤ m → m < (get_pruned_log_probs [1/2, 1/4, 1/8, 1/8] (5/8) 3).length →
        ¬ ((5/8 : ℚ) ≤ double_sum_of_largest [1/2, 1/4, 1/8, 1/8] m ∨ 3 ≤ m)) :=
  ⟨by simp, by decide!, by norm_num, by decide!,
    (cumulative_cutoff [1/2, 1/4, 1/8, 1/8] (5/8) 3 (by simp) (by decide!)
      (by norm_num)).2.2.2.1⟩

/-! ### `prefix_compare` is a strict weak ordering (C16) -/

/-- C16: `prefix_compare(x, y)` holds exactly when `x.score > y.score`, or the
scores are equal and `x.character < y.character`.  It is irreflexive,
asymmetric and transitive, incomparability (neither `x` before `y` nor `y`
before `x`) is transitive, and of two prefixes that differ in score or in
character exactly one comes before the other. -/
theorem prefix_compare_strict_weak_order (x y z : Node) :
    (prefix_compare x y = true
      ↔ y.score < x.score ∨ (x.score = y.score ∧ x.character < y.character))
    ∧ prefix_compare x x = false
    ∧ (prefix_compare x y = true → prefix_compare y x = false)
    ∧ (prefix_compare x y = true → prefix_compare y z = true → prefix_compare x z = true)
    ∧ (prefix_compare x y = false → prefix_compare y x = false →
        prefix_compare y z = false → prefix_compare z y = false →
        prefix_compare x z = false ∧ prefix_compare z x = false)
    ∧ (x.score ≠ y.score ∨ x.character ≠ y.character →
        (prefix_compare x y = true ∧ prefix_compare y x = false)
          ∨ (prefix_compare x y = false ∧ prefix_compare y x = true)) := by
  have hinc : ∀ a b : Node, prefix_compare a b = false → prefix_compare b a = false →
      a.score = b.score ∧ a.character = b.character := by
    intro a b h1 h2
    rw [prefix_compare_false_iff] at h1 h2
    rcases h1 with h1 | ⟨h1, h1'⟩ <;> rcases h2 with h2 | ⟨h2, h2'⟩
    · exact absurd h2 (lt_asymm h1)
    · rw [h2] at h1; exact absurd h1 (lt_irrefl _)
    · rw [h1] at h2; exact absurd h2 (lt_irrefl _)
    · exact ⟨h1, le_antisymm h2' h1'⟩
  refine ⟨prefix_compare_iff x y, prefix_compare_irrefl x, prefix_compare_asymm x y, ?_, ?_, ?_⟩
  · intro h1 h2
    rw [prefix_compare_iff] at h1 h2 ⊢
    rcases h1 with h1 | ⟨h1, h1'⟩ <;> rcases h2 with h2 | ⟨h2, h2'⟩
    · exact Or.inl (lt_trans h2 h1)
    · exact Or.inl (h2 ▸ h1)
    · exact Or.inl (h1 ▸ h2)
    · exact Or.inr ⟨h1.trans h2, lt_trans h1' h2'⟩
  · intro h1 h2 h3 h4
    obtain ⟨a1, a2⟩ := hinc x y h1 h2
    obtain ⟨b1, b2⟩ := hinc y z h3 h4
    constructor
    · rw [prefix_compare_false_iff]
      exact Or.inr ⟨a1.trans b1, le_of_eq (a2.trans b2).symm⟩
    · rw [prefix_compare_false_iff]
      exact Or.inr ⟨(a1.trans b1).symm, le_of_eq (a2.trans b2)⟩
  · intro h
    cases h1 : prefix_compare x y
    · cases h2 : prefix_compare y x
      · obtain ⟨a1, a2⟩ := hinc x y h1 h2
        rcases h with h | h
        · exact absurd a1 h
        · exact absurd a2 h
      · exact Or.inr ⟨rfl, rfl⟩
    · exact Or.inl ⟨rfl, prefix_compare_asymm x y h1⟩

theorem prefix_compare_strict_weak_order_witness :
    (prefix_compare (node_with (log (1/2)) 0) (node_with (log (1/4)) 1) = true
      ∧ prefix_compare (node_with (log (1/4)) 1) (node_with (log (1/4)) 2) = true
      ∧ prefix_compare (node_with (log (1/2)) 0) (node_with (log (1/4)) 2) = true
      ∧ prefix_compare (node_with (log (1/4)) 1) (node_with (log (1/2)) 0) = false)
    ∧ (prefix_compare (node_with (log (1/2)) 0) (node_with (log (1/2)) 0) = false
      ∧ prefix_compare (node_with (log (1/2)) 0) (node_with (log (1/2)) 0) = false)
    ∧ ((node_with (log (1/2)) 0).score ≠ (node_with (log (1/4)) 1).score
        ∨ (node_with (log (1/2)) 0).character ≠ (node_with (log (1/4)) 1).character)
    ∧ ((prefix_compare (node_with (log (1/2)) 0) (node_with (log (1/4)) 1) = true
          ∧ prefix_compare (node_with (log (1/4)) 1) (node_with (log (1/2)) 0) = false)
        ∨ (prefix_compare (node_with (log (1/2)) 0) (node_with (log (1/4)) 1) = false
          ∧ prefix_compare (node_with (log (1/4)) 1) (node_with (log (1/2)) 0) = true)) :=
  ⟨⟨by decide!, by decide!,
      (prefix_compare_strict_weak_order (node_with (log (1/2)) 0) (node_with (log (1/4)) 1)
        (node_with (log (1/4)) 2)).2.2.2.1 (by decide!) (by decide!),
      (prefix_compare_strict_weak_order (node_with (log (1/2)) 0) (node_with (log (1/4)) 1)
        (node_with (log (1/4)) 2)).2.2.1 (by decide!)⟩,
    (prefix_compare_strict_weak_order (node_with (log (1/2)) 0) (node_with (log (1/2)) 0)
      (node_with (log (1/2)) 0)).2.2.2.2.1 (by decide!) (by decide!) (by decide!) (by decide!),
    Or.inr (by decide),
    (prefix_compare_strict_weak_order (node_with (log (1/2)) 0) (node_with (log (1/4)) 1)
      (node_with (log (1/4)) 2)).2.2.2.2.2 (Or.inr (by decide))⟩

/-! ### The UTF-8 helpers (C18) -/

theorem get_utf8_str_len_foldl (str : List Nat) :
    ∀ n : Nat, str.foldl (fun str_len c => str_len + (if is_lead_byte c then 1 else 0)) n
      = n + str.countP is_lead_byte := by
  induction str with
  | nil => intro n; rfl
  | cons c rest ih =>
    intro n
    rw [List.foldl_cons, ih, List.countP_cons]
    by_cases h : is_lead_byte c = true
    · simp only [h, if_true]; omega
    · simp only [h]; simp

theorem get_utf8_str_len_eq (str : List Nat) : get_utf8_str_len str = str.countP is_lead_byte := by
  unfold get_utf8_str_len
  rw [get_utf8_str_len_foldl, Nat.zero_add]

/-- The loop of `split_utf8_str` entered with a non-empty `out_str`: one
substring is pushed for every byte that is not a continuation byte, and no byte
is lost. -/
theorem split_utf8_loop_spec :
    ∀ (str : List Nat) (result : List (List Nat)) (out_str : List Nat), out_str ≠ [] →
      (split_utf8_loop str (result, out_str)).1.length = result.length + str.countP is_lead_byte
      ∧ (split_utf8_loop str (result, out_str)).1.flatten ++ (split_utf8_loop str (result, out_str)).2
          = result.flatten ++ out_str ++ str := by
  intro str
  induction str with
  | nil => intro result out_str _; simp [split_utf8_loop]
  | cons c rest ih =>
    intro result out_str hne
    unfold split_utf8_loop
    by_cases h : is_lead_byte c = true
    · rw [if_pos ⟨h, hne⟩]
      obtain ⟨h1, h2⟩ := ih (result ++ [out_str]) [c] (by simp)
      rw [h1, h2, List.countP_cons_of_pos _ _ h]
      constructor
      · simp; omega
      · simp
    · rw [if_neg (fun h' => h h'.1)]
      obtain ⟨h1, h2⟩ := ih result (out_str ++ [c]) (by simp)
      rw [h1, h2, List.countP_cons_of_neg _ _ h]
      constructor
      · rfl
      · simp

/-- C18 (counterexample): for the empty string `get_utf8_str_len` is 0 and
`split_utf8_str` returns one (empty) substring; for the two bytes `0x80 0x61`
(a continuation byte, then `a`) `get_utf8_str_len` is 1 and `split_utf8_str`
returns two substrings. -/
theorem split_utf8_str_count_differs :
    (get_utf8_str_len [] = 0 ∧ split_utf8_str [] = [[]])
      ∧ (get_utf8_str_len [0x80, 0x61] = 1 ∧ split_utf8_str [0x80, 0x61] = [[0x80], [0x61]]) := by
  decide

/-- C18 (amended): for every byte string `s`, concatenating the substrings
`split_utf8_str(s)` returns gives back `s`; when `s` is not empty and does not
begin with a continuation byte their number is `get_utf8_str_len(s)`, one for
every byte that is not a continuation byte, and when `s` begins with a
continuation byte there is one substring more, the one of the leading
continuation bytes. -/
theorem split_utf8_str_spec (s : List Nat) :
    (split_utf8_str s).flatten = s
    ∧ (∀ c rest, s = c :: rest →
        (split_utf8_str s).length = get_utf8_str_len s + (if is_lead_byte c then 0 else 1)) := by
  cases s with
  | nil => exact ⟨rfl, fun c rest h => by cases h⟩
  | cons c rest =>
    have e : split_utf8_loop (c :: rest) ([], []) = split_utf8_loop rest ([], [c]) := by
      rw [split_utf8_loop]
      rw [if_neg (fun h => h.2 rfl)]
      rfl
    obtain ⟨h1, h2⟩ := split_utf8_loop_spec rest [] [c] (by simp)
    unfold split_utf8_str
    rw [e]
    constructor
    · rw [List.flatten_append, List.flatten_singleton, h2]
      rfl
    · intro c' rest' h
      injection h with hc hr
      subst hc hr
      rw [List.length_append, h1, get_utf8_str_len_eq, List.countP_cons]
      by_cases hl : is_lead_byte c = true
      · simp [hl]
      · simp [hl]

theorem split_utf8_str_spec_witness :
    ([0xe4, 0xb8, 0xad, 0x61] : List Nat) = 0xe4 :: [0xb8, 0xad, 0x61]
      ∧ (split_utf8_str [0xe4, 0xb8, 0xad, 0x61]).length
          = get_utf8_str_len [0xe4, 0xb8, 0xad, 0x61] + (if is_lead_byte 0xe4 then 0 else 1) :=
  ⟨rfl, (split_utf8_str_spec [0xe4, 0xb8, 0xad, 0x61]).2 0xe4 [0xb8, 0xad, 0x61] rfl⟩

/-! ### `get_path_trie` on a node without dictionary (C20) -/

theorem Children.toList_push_back (cs : Children) (c : Int) (t : PathTrie) :
    (cs.push_back c t).toList = cs.toList ++ [(c, t)] := by
  induction cs with
  | nil => rfl
  | cons first second kids rest _ ih =>
    rw [Children.push_back, Children.toList, ih]
    rfl

theorem Children.labels_update (cs : Children) (c : Int) (f : PathTrie → PathTrie) :
    (cs.update c f).toList.map Prod.fst = cs.toList.map Prod.fst := by
  induction cs with
  | nil => rfl
  | cons first second kids rest _ ih =>
    by_cases h : first = c
    · simp only [Children.update, if_pos h, Children.toList, List.map_cons]
    · simp only [Children.update, if_neg h, Children.toList, List.map_cons, ih]

theorem Children.others_update (cs : Children) (c : Int) (f : PathTrie → PathTrie) :
    (cs.update c f).toList.filter (fun x => decide (x.1 ≠ c))
      = cs.toList.filter (fun x => decide (x.1 ≠ c)) := by
  induction cs with
  | nil => rfl
  | cons first second kids rest _ ih =>
    by_cases h : first = c
    · simp [Children.update, h, Children.toList]
    · simp only [Children.update, if_neg h, Children.toList, List.filter_cons, ih]

theorem Children.find?_eq_none_iff (cs : Children) (c : Int) :
    cs.find? c = none ↔ c ∉ cs.toList.map Prod.fst := by
  induction cs with
  | nil => simp [Children.find?, Children.toList]
  | cons first second kids rest _ ih =>
    by_cases h : first = c
    · simp [Children.find?, Children.toList, h]
    · simp only [Children.find?, if_neg h, ih, Children.toList, List.map_cons, List.mem_cons,
        not_or]
      exact ⟨fun h' => ⟨fun e => h e.symm, h'⟩, fun h' => h'.2⟩

/-- C20: `get_path_trie(c, reset)` on a node without dictionary whose children
have pairwise different symbols.  The call returns a node (`t` is the object
after the call, the returned node its child labelled `c`).  Without a child
labelled `c`, a new node is put at the end of the child list: live, with
character `c`, no children and the four log-probability fields at minus
infinity.  A live child labelled `c` is returned and the object is unchanged.  A
tombstoned child labelled `c` is returned with `exists_` true and the four
fields at minus infinity, its other members and its children as they were.
Afterwards exactly one child is labelled `c`, the children still have pairwise
different symbols, the other children are the same in the same order, and a
second call returns the same node and changes nothing. -/
theorem get_path_trie_without_dictionary (this : PathTrie) (c : Int) (reset : Bool)
    (hd : this.node.has_dictionary_ = false)
    (hnd : (this.children_.toList.map Prod.fst).Nodup) :
    ∃ t, this.get_path_trie c reset = some t ∧ t.node = this.node
      ∧ (this.children_.find? c = none →
          t.children_.toList = this.children_.toList
            ++ [(c, ⟨{ PathTrie.new.node with character := c }, Children.nil⟩)]
          ∧ ∃ child, t.children_.find? c = some child
            ∧ child.node.character = c ∧ child.node.exists_ = true
            ∧ child.children_ = Children.nil
            ∧ child.node.log_prob_b_prev = NEG_NUM_FLT_INF
            ∧ child.node.log_prob_nb_prev = NEG_NUM_FLT_INF
            ∧ child.node.log_prob_b_cur = NEG_NUM_FLT_INF
            ∧ child.node.log_prob_nb_cur = NEG_NUM_FLT_INF)
      ∧ (∀ child, this.children_.find? c = some child → child.node.exists_ = true →
          t = this ∧ t.children_.find? c = some child)
      ∧ (∀ child, this.children_.find? c = some child → child.node.exists_ = false →
          t.children_.find? c = some
            { child with node := { child.node with exists_ := true,
                                                   log_prob_b_prev := NEG_NUM_FLT_INF,
                                                   log_prob_nb_prev := NEG_NUM_FLT_INF,
                                                   log_prob_b_cur := NEG_NUM_FLT_INF,
                                                   log_prob_nb_cur := NEG_NUM_FLT_INF } }
          ∧ t.children_.toList.map Prod.fst = this.children_.toList.map Prod.fst)
      ∧ (t.children_.toList.map Prod.fst).count c = 1
      ∧ (t.children_.toList.map Prod.fst).Nodup
      ∧ t.children_.toList.filter (fun x => decide (x.1 ≠ c))
          = this.children_.toList.filter (fun x => decide (x.1 ≠ c))
      ∧ (∃ child, t.children_.find? c = some child ∧ child.node.exists_ = true)
      ∧ t.get_path_trie c reset = some t := by
  rw [PathTrie.get_path_trie_eq]
  cases hc : this.children_.find? c with
  | none =>
    have hnotin := (Children.find?_eq_none_iff _ _).1 hc
    rw [new_child?_of_no_dictionary _ _ _ hd]
    refine ⟨_, rfl, rfl, ?_, ?_, ?_, ?_, ?_, ?_, ?_, ?_⟩
    · intro _
      refine ⟨Children.toList_push_back _ _ _, _, Children.find?_push_back_self _ _ _ hc,
        rfl, rfl, rfl, rfl, rfl, rfl, rfl⟩
    · intro child h; cases h
    · intro child h; cases h
    · show ((this.children_.push_back c _).toList.map Prod.fst).count c = 1
      rw [Children.toList_push_back, List.map_append, List.count_append,
        List.count_eq_zero_of_not_mem hnotin]
      simp
    · show ((this.children_.push_back c _).toList.map Prod.fst).Nodup
      rw [Children.toList_push_back, List.map_append]
      apply List.Nodup.append hnd (by simp)
      intro x hx hx'
      simp only [List.map_cons, List.map_nil, List.mem_singleton] at hx'
      rw [hx'] at hx
      exact hnotin hx
    · show (this.children_.push_back c _).toList.filter _ = _
      rw [Children.toList_push_back, List.filter_append]
      simp
    · exact ⟨_, Children.find?_push_back_self _ _ _ hc, rfl⟩
    · rw [PathTrie.get_path_trie_eq]
      show (match (this.children_.push_back c _).find? c with
        | some child => _
        | none => _) = _
      rw [Children.find?_push_back_self _ _ _ hc]
      rfl
  | some child =>
    have hin : c ∈ this.children_.toList.map Prod.fst := by
      by_contra h
      rw [(Children.find?_eq_none_iff _ _).2 h] at hc
      cases hc
    by_cases he : child.node.exists_ = false
    · simp only [if_pos he]
      refine ⟨_, rfl, rfl, ?_, ?_, ?_, ?_, ?_, ?_, ?_, ?_⟩
      · intro h; cases h
      · intro child' h h'
        cases h
        rw [he] at h'
        cases h'
      · intro child' h _
        cases h
        exact ⟨by rw [Children.find?_update_self, hc]; rfl, Children.labels_update _ _ _⟩
      · show ((this.children_.update c PathTrie.revive).toList.map Prod.fst).count c = 1
        rw [Children.labels_update]
        exact List.count_eq_one_of_mem hnd hin
      · show ((this.children_.update c PathTrie.revive).toList.map Prod.fst).Nodup
        rw [Children.labels_update]
        exact hnd
      · exact Children.others_update _ _ _
      · exact ⟨child.revive, by
          show (this.children_.update c PathTrie.revive).find? c = _
          rw [Children.find?_update_self, hc]; rfl, rfl⟩
      · rw [PathTrie.get_path_trie_eq]
        show (match (this.children_.update c PathTrie.revive).find? c with
          | some child => _
          | none => _) = _
        rw [Children.find?_update_self, hc]
        rfl
    · have he' : child.node.exists_ = true := by
        cases h : child.node.exists_
        · exact absurd h he
        · rfl
      simp only [if_neg he]
      refine ⟨_, rfl, rfl, ?_, ?_, ?_, ?_, ?_, ?_, ?_, ?_⟩
      · intro h; cases h
      · intro child' h _
        exact ⟨rfl, hc.trans h⟩
      · intro child' h h'
        cases h
        exact absurd h' he
      · exact List.count_eq_one_of_mem hnd hin
      · exact hnd
      · rfl
      · exact ⟨child, hc, he'⟩
      · rw [PathTrie.get_path_trie_eq]
        show (match this.children_.find? c with
          | some child => _
          | none => _) = _
        rw [hc]
        simp only [if_neg he]

theorem get_path_trie_without_dictionary_witness :
    (init_root none).node.has_dictionary_ = false
      ∧ ((init_root none).children_.toList.map Prod.fst).Nodup
      ∧ ∃ t, (init_root none).get_path_trie 0 true = some t ∧ t.node = (init_root none).node :=
  ⟨rfl, List.nodup_nil,
    (get_path_trie_without_dictionary (init_root none) 0 true rfl List.nodup_nil).imp
      (fun _ h => ⟨h.1, h.2.1⟩)⟩

/-! ### Beam size, `cutoff_top_n` and the best score (C17) -/

/-- C17 (counterexample): over the vocabulary `["a", "b"]` (blank at index 2),
without scorer; every probability below is positive and no two scores that are
compared are closer than 8 per cent of the larger one.  On the frames
`[[0.2,0.5,0.3],[0.4,0.1,0.5],[0.2,0.5,0.3],[0.1,0.5,0.4]]` with no symbol
pruning the best hypothesis for beam size 1 is `"b b"` with probability
`0.1125`, and for beam size 2 it is `"b a"` with probability `0.0909`.  On three
frames `[0.2,0.5,0.3]` with beam size 2 and `cutoff_prob = 0.9` the best
hypothesis is `"b"` with probability `0.41` for `cutoff_top_n = 2` and with
probability `0.365` for `cutoff_top_n = 3`. -/
theorem larger_beam_lowers_top1_score :
    top1 (ctc_beam_search_decoder [[1/5, 1/2, 3/10], [2/5, 1/10, 1/2], [1/5, 1/2, 3/10],
        [1/10, 1/2, 2/5]] ["a", "b"] 1 1 40 none) = some "b b"
    ∧ top1_prob_between (ctc_beam_search_decoder [[1/5, 1/2, 3/10], [2/5, 1/10, 1/2],
        [1/5, 1/2, 3/10], [1/10, 1/2, 2/5]] ["a", "b"] 1 1 40 none) (1124/10000) (1126/10000)
        = true
    ∧ top1 (ctc_beam_search_decoder [[1/5, 1/2, 3/10], [2/5, 1/10, 1/2], [1/5, 1/2, 3/10],
        [1/10, 1/2, 2/5]] ["a", "b"] 2 1 40 none) = some "b a"
    ∧ top1_prob_between (ctc_beam_search_decoder [[1/5, 1/2, 3/10], [2/5, 1/10, 1/2],
        [1/5, 1/2, 3/10], [1/10, 1/2, 2/5]] ["a", "b"] 2 1 40 none) (908/10000) (910/10000)
        = true
    ∧ top1_score_lt
        (ctc_beam_search_decoder [[1/5, 1/2, 3/10], [2/5, 1/10, 1/2], [1/5, 1/2, 3/10],
          [1/10, 1/2, 2/5]] ["a", "b"] 2 1 40 none)
        (ctc_beam_search_decoder [[1/5, 1/2, 3/10], [2/5, 1/10, 1/2], [1/5, 1/2, 3/10],
          [1/10, 1/2, 2/5]] ["a", "b"] 1 1 40 none) = true
    ∧ top1_prob_between (ctc_beam_search_decoder [[1/5, 1/2, 3/10], [1/5, 1/2, 3/10],
        [1/5, 1/2, 3/10]] ["a", "b"] 2 (9/10) 2 none) (409/1000) (411/1000) = true
    ∧ top1_prob_between (ctc_beam_search_decoder [[1/5, 1/2, 3/10], [1/5, 1/2, 3/10],
        [1/5, 1/2, 3/10]] ["a", "b"] 2 (9/10) 3 none) (364/1000) (366/1000) = true
    ∧ top1_score_lt
        (ctc_beam_search_decoder [[1/5, 1/2, 3/10], [1/5, 1/2, 3/10], [1/5, 1/2, 3/10]]
          ["a", "b"] 2 (9/10) 3 none)
        (ctc_beam_search_decoder [[1/5, 1/2, 3/10], [1/5, 1/2, 3/10], [1/5, 1/2, 3/10]]
          ["a", "b"] 2 (9/10) 2 none) = true := by
  decide!

/-! ### A run without pruning bounds every run (C17) -/

theorem write_node_fields (offset : Option Nat) (v : LogProb) (n : Node) :
    (write_node offset v n).log_prob_nb_cur.exp = n.log_prob_nb_cur.exp + v.exp
      ∧ (write_node offset v n).log_prob_b_cur = n.log_prob_b_cur
      ∧ (write_node offset v n).log_prob_b_prev = n.log_prob_b_prev
      ∧ (write_node offset v n).log_prob_nb_prev = n.log_prob_nb_prev
      ∧ (write_node offset v n).score = n.score
      ∧ (write_node offset v n).character = n.character
      ∧ (write_node offset v n).exists_ = n.exists_ :=
  ⟨rfl, rfl, rfl, rfl, rfl, rfl, rfl⟩

theorem self_node_b_cur (blank_id c : Nat) (lp : LogProb) (n : Node) :
    (self_node blank_id c lp n).log_prob_b_cur.exp
      = n.log_prob_b_cur.exp + (if c = blank_id then lp.exp * n.score.exp else 0) := by
  unfold self_node
  by_cases h : c = blank_id
  · rw [if_pos h, if_pos h]; rfl
  · rw [if_neg h, if_neg h, add_zero]
    split_ifs <;> rfl

theorem self_node_nb_cur_eq (blank_id c : Nat) (lp : LogProb) (n : Node) :
    (self_node blank_id c lp n).log_prob_nb_cur.exp
      = n.log_prob_nb_cur.exp
        + (if c ≠ blank_id ∧ (c : Int) = n.character then lp.exp * n.log_prob_nb_prev.exp
            else 0) := by
  unfold self_node
  by_cases h : c = blank_id
  · rw [if_pos h, if_neg (fun h' => h'.1 h), add_zero]
  · rw [if_neg h]
    by_cases h2 : (c : Int) = n.character
    · rw [if_pos h2, if_pos ⟨h, h2⟩]; rfl
    · rw [if_neg h2, if_neg (fun h' => h2 h'.2), add_zero]

theorem child_node_not_live (c : Int) (o : Option Node)
    (ho : ∀ n, o = some n → n.exists_ = false) :
    (child_node c o).exists_ = true
      ∧ (child_node c o).log_prob_b_cur = NEG_NUM_FLT_INF
      ∧ (child_node c o).log_prob_nb_cur = NEG_NUM_FLT_INF
      ∧ (child_node c o).log_prob_b_prev = NEG_NUM_FLT_INF
      ∧ (child_node c o).log_prob_nb_prev = NEG_NUM_FLT_INF := by
  unfold child_node
  cases o with
  | none => exact ⟨rfl, rfl, rfl, rfl, rfl⟩
  | some n =>
    simp only [ho n rfl, if_true]
    exact ⟨rfl, rfl, rfl, rfl, rfl⟩

theorem new_log_p_mono (c : Nat) (lp : LogProb) (n m : Node) (hlp : 0 ≤ lp.exp)
    (h : NodePrevLe n m) (hm : NodeNonneg m) :
    (new_log_p c lp n).exp ≤ (new_log_p c lp m).exp ∧ 0 ≤ (new_log_p c lp m).exp := by
  obtain ⟨hc, hb, _, hs⟩ := h
  obtain ⟨m1, _, m3, _, _⟩ := hm
  rw [exp_new_log_p c lp m m1]
  by_cases h1 : (c : Int) = m.character
  · rw [if_pos h1]
    refine ⟨?_, mul_nonneg hlp m1⟩
    unfold new_log_p
    by_cases h2 : n.log_prob_b_prev > NEG_NUM_FLT_INF
    · rw [if_pos ⟨h1.trans hc.symm, h2⟩]
      exact mul_le_mul_of_nonneg_left hb hlp
    · rw [if_neg (fun h' => h2 h'.2), if_neg (fun h' => h' (h1.trans hc.symm))]
      exact mul_nonneg hlp m1
  · rw [if_neg h1]
    refine ⟨?_, mul_nonneg hlp m3⟩
    unfold new_log_p
    have h1' : ¬ (c : Int) = n.character := fun h' => h1 (h'.trans hc)
    rw [if_neg (fun h' => h1' h'.1), if_pos h1']
    exact mul_le_mul_of_nonneg_left hs hlp

theorem new_log_p_nonneg (c : Nat) (lp : LogProb) (m : Node) (hlp : 0 ≤ lp.exp)
    (hm : NodeNonneg m) : 0 ≤ (new_log_p c lp m).exp := by
  rw [exp_new_log_p c lp m hm.1]
  split_ifs
  · exact mul_nonneg hlp hm.1
  · exact mul_nonneg hlp hm.2.2.1

/-- The writes of the loop body to the object itself only add probability. -/
theorem self_node_grows (blank_id c : Nat) (lp : LogProb) (m : Node) (hlp : 0 ≤ lp.exp)
    (hm : NodeNonneg m) :
    NodeNonneg (self_node blank_id c lp m) ∧ NodeCurLe m (self_node blank_id c lp m) := by
  obtain ⟨_, k2, k3, k4, _, _⟩ := self_node_keeps blank_id c lp m
  obtain ⟨m1, m2, m3, m4, m5⟩ := hm
  have hb : m.log_prob_b_cur.exp ≤ (self_node blank_id c lp m).log_prob_b_cur.exp := by
    rw [self_node_b_cur]
    split_ifs
    · linarith [mul_nonneg hlp m3]
    · linarith
  have hnb : m.log_prob_nb_cur.exp ≤ (self_node blank_id c lp m).log_prob_nb_cur.exp := by
    rw [self_node_nb_cur_eq]
    split_ifs
    · linarith [mul_nonneg hlp m2]
    · linarith
  exact ⟨⟨by rw [k2]; exact m1, by rw [k3]; exact m2, by rw [k4]; exact m3, le_trans m4 hb,
    le_trans m5 hnb⟩, hb, hnb⟩

/-- The same write of the loop body to two nodes keeps their comparison. -/
theorem self_node_mono (blank_id c : Nat) (lp : LogProb) (n m : Node) (hlp : 0 ≤ lp.exp)
    (hc : NodeCurLe n m) (hp : NodePrevLe n m) :
    NodeCurLe (self_node blank_id c lp n) (self_node blank_id c lp m)
      ∧ NodePrevLe (self_node blank_id c lp n) (self_node blank_id c lp m) := by
  obtain ⟨a1, a2, a3, a4, _, _⟩ := self_node_keeps blank_id c lp n
  obtain ⟨b1, b2, b3, b4, _, _⟩ := self_node_keeps blank_id c lp m
  obtain ⟨p1, p2, p3, p4⟩ := hp
  refine ⟨⟨?_, ?_⟩, ⟨by rw [a1, b1]; exact p1, by rw [a2, b2]; exact p2,
    by rw [a3, b3]; exact p3, by rw [a4, b4]; exact p4⟩⟩
  · rw [self_node_b_cur, self_node_b_cur]
    split_ifs
    · linarith [hc.1, mul_le_mul_of_nonneg_left p4 hlp]
    · linarith [hc.1]
  · rw [self_node_nb_cur_eq, self_node_nb_cur_eq, p1]
    split_ifs
    · linarith [hc.2, mul_le_mul_of_nonneg_left p3 hlp]
    · linarith [hc.2]

/-- The comparison of two runs at a pointer survives the writes of the loop
body to the object itself, made in the second run whenever they are made in the
first. -/
theorem FrameLe_self (blank_id c : Nat) (lp : LogProb) (hlp : 0 ≤ lp.exp) (inK aK aF : Prop)
    [Decidable aK] [Decidable aF] (hKF : aK → aF) (hK : aK → inK) (oK oF : Option Node)
    (h : FrameLe inK oK oF) :
    FrameLe inK (if aK then oK.map (self_node blank_id c lp) else oK)
      (if aF then oF.map (self_node blank_id c lp) else oF) := by
  obtain ⟨j1, j2, j3⟩ := h
  by_cases hF : aF
  · rw [if_pos hF]
    have j2' : ∀ m, oF.map (self_node blank_id c lp) = some m → m.exists_ = true ∧ NodeNonneg m := by
      intro m hm
      cases oF with
      | none => cases hm
      | some m0 =>
        injection hm with hm
        rw [← hm]
        obtain ⟨e, g⟩ := j2 m0 rfl
        exact ⟨(self_node_keeps blank_id c lp m0).2.2.2.2.1.trans e,
          (self_node_grows blank_id c lp m0 hlp g).1⟩
    by_cases hKa : aK
    · rw [if_pos hKa]
      obtain ⟨n, hn, hne⟩ := j3 (hK hKa)
      obtain ⟨m, hm, hc, hp⟩ := j1 n hn hne
      subst hn hm
      refine ⟨?_, j2', fun _ => ⟨_, rfl, (self_node_keeps blank_id c lp n).2.2.2.2.1.trans hne⟩⟩
      intro n' hn' _
      injection hn' with hn'
      rw [← hn']
      obtain ⟨g1, g2⟩ := self_node_mono blank_id c lp n m hlp hc (hp (hK hKa))
      exact ⟨_, rfl, g1, fun _ => g2⟩
    · rw [if_neg hKa]
      refine ⟨?_, j2', j3⟩
      intro n hn hne
      obtain ⟨m, hm, hc, hp⟩ := j1 n hn hne
      subst hm
      obtain ⟨g1, g2⟩ := self_node_grows blank_id c lp m hlp (j2 m rfl).2
      obtain ⟨b1, b2, b3, b4, _, _⟩ := self_node_keeps blank_id c lp m
      refine ⟨_, rfl, ⟨le_trans hc.1 g2.1, le_trans hc.2 g2.2⟩, fun hi => ?_⟩
      obtain ⟨p1, p2, p3, p4⟩ := hp hi
      exact ⟨by rw [b1]; exact p1, by rw [b2]; exact p2, by rw [b3]; exact p3,
        by rw [b4]; exact p4⟩
  · rw [if_neg hF, if_neg (fun h' => hF (hKF h'))]
    exact ⟨j1, j2, j3⟩

/-- In a run that never prunes, the node `get_path_trie` returns is live, with
non-negative probabilities; it is the child found, when there is one. -/
theorem child_node_all_live (c : Int) (oF : Option Node)
    (h : ∀ m, oF = some m → m.exists_ = true ∧ NodeNonneg m) :
    (child_node c oF).exists_ = true ∧ NodeNonneg (child_node c oF)
      ∧ ∀ m, oF = some m → child_node c oF = m := by
  cases oF with
  | none =>
    refine ⟨rfl, ?_, fun m hm => by cases hm⟩
    unfold child_node NodeNonneg
    exact ⟨le_refl _, le_refl _, le_refl _, le_refl _, le_refl _⟩
  | some m =>
    obtain ⟨e, g⟩ := h m rfl
    rw [child_node_of_live c m e]
    exact ⟨e, g, fun m' hm' => by injection hm' with hm'⟩

theorem NodeNonneg_write_node (offset : Option Nat) (v : LogProb) (m : Node) (hv : 0 ≤ v.exp)
    (hm : NodeNonneg m) : NodeNonneg (write_node offset v m) := by
  obtain ⟨w1, w2, w3, w4, w5, _, _⟩ := write_node_fields offset v m
  obtain ⟨m1, m2, m3, m4, m5⟩ := hm
  exact ⟨by rw [w3]; exact m1, by rw [w4]; exact m2, by rw [w5]; exact m3, by rw [w2]; exact m4,
    by rw [w1]; linarith⟩

/-- The comparison of two runs at a pointer survives the writes of the loop
body to the child it gets from `get_path_trie`, made in the second run whenever
they are made in the first, with at least the same `log_p`. -/
theorem FrameLe_child (offset : Option Nat) (c : Int) (vK vF : LogProb) (inK CK CF : Prop)
    [Decidable CK] [Decidable CF] (hKF : CK → CF) (hv : CK → vK.exp ≤ vF.exp)
    (hv0 : 0 ≤ vF.exp) (oK oF : Option Node) (h : FrameLe inK oK oF) :
    FrameLe inK (if CK then some (write_node offset vK (child_node c oK)) else oK)
      (if CF then some (write_node offset vF (child_node c oF)) else oF) := by
  obtain ⟨j1, j2, j3⟩ := h
  by_cases hF : CF
  · rw [if_pos hF]
    obtain ⟨f1, f2, f3⟩ := child_node_all_live c oF j2
    obtain ⟨w1, w2, w3, w4, w5, w6, w7⟩ := write_node_fields offset vF (child_node c oF)
    have j2' : ∀ m, some (write_node offset vF (child_node c oF)) = some m →
        m.exists_ = true ∧ NodeNonneg m := by
      intro m hm
      injection hm with hm
      rw [← hm]
      exact ⟨w7.trans f1, NodeNonneg_write_node offset vF _ hv0 f2⟩
    by_cases hKc : CK
    · rw [if_pos hKc]
      obtain ⟨u1, u2, u3, u4, u5, u6, u7⟩ := write_node_fields offset vK (child_node c oK)
      by_cases hlive : ∃ n, oK = some n ∧ n.exists_ = true
      · obtain ⟨n, hn, hne⟩ := hlive
        obtain ⟨m, hm, hc, hp⟩ := j1 n hn hne
        have e1 : child_node c oK = n := by rw [hn]; exact child_node_of_live c n hne
        have e2 : child_node c oF = m := f3 m hm
        refine ⟨?_, j2', fun _ => ⟨_, rfl, by rw [u7, e1]; exact hne⟩⟩
        intro n' hn' _
        injection hn' with hn'
        rw [← hn']
        refine ⟨_, rfl, ⟨?_, ?_⟩, fun hi => ?_⟩
        · rw [u2, w2, e1, e2]; exact hc.1
        · rw [u1, w1, e1, e2]; linarith [hc.2, hv hKc]
        · obtain ⟨p1, p2, p3, p4⟩ := hp hi
          exact ⟨by rw [u6, w6, e1, e2]; exact p1, by rw [u3, w3, e1, e2]; exact p2,
            by rw [u4, w4, e1, e2]; exact p3, by rw [u5, w5, e1, e2]; exact p4⟩
      · have hdead : ∀ n, oK = some n → n.exists_ = false := by
          intro n hn
          cases hx : n.exists_
          · rfl
          · exact absurd ⟨n, hn, hx⟩ hlive
        obtain ⟨d1, d2, d3, _, _⟩ := child_node_not_live c oK hdead
        refine ⟨?_, j2', fun hi => absurd (j3 hi) hlive⟩
        intro n' hn' _
        injection hn' with hn'
        rw [← hn']
        refine ⟨_, rfl, ⟨?_, ?_⟩, fun hi => absurd (j3 hi) hlive⟩
        · rw [u2, w2, d2]; exact f2.2.2.2.1
        · rw [u1, w1, d3]
          have := f2.2.2.2.2
          have e0 : NEG_NUM_FLT_INF.exp = 0 := rfl
          rw [e0]
          linarith [hv hKc]
    · rw [if_neg hKc]
      refine ⟨?_, j2', j3⟩
      intro n hn hne
      obtain ⟨m, hm, hc, hp⟩ := j1 n hn hne
      have e2 : child_node c oF = m := f3 m hm
      refine ⟨_, rfl, ⟨?_, ?_⟩, fun hi => ?_⟩
      · rw [w2, e2]; exact hc.1
      · rw [w1, e2]; linarith [hc.2]
      · obtain ⟨p1, p2, p3, p4⟩ := hp hi
        exact ⟨by rw [w6, e2]; exact p1, by rw [w3, e2]; exact p2, by rw [w4, e2]; exact p3,
          by rw [w5, e2]; exact p4⟩
  · rw [if_neg hF, if_neg (fun h' => hF (hKF h'))]
    exact ⟨j1, j2, j3⟩

/-- One pass of the loops over the two beams for the same symbol keeps the
comparison of the two runs at a pointer. -/
theorem FrameLe_pass_node (blank_id : Nat) (offset : Option Nat) (x : Nat × LogProb)
    (BK BF : List Path) (q : Path) (vK vF : LogProb) (hlp : 0 ≤ x.2.exp)
    (hq : q ∈ BK → q ∈ BF) (hp : q.dropLast ∈ BK → q.dropLast ∈ BF)
    (hv : q.dropLast ∈ BK → vK.exp ≤ vF.exp) (hv0 : 0 ≤ vF.exp) (oK oF : Option Node)
    (h : FrameLe (q ∈ BK) oK oF) :
    FrameLe (q ∈ BK) (pass_node blank_id offset x BK q vK oK)
      (pass_node blank_id offset x BF q vF oF) := by
  unfold pass_node
  exact FrameLe_child offset x.1 vK vF (q ∈ BK) _ _
    (fun h' => ⟨h'.1, h'.2.1, hp h'.2.2⟩) (fun h' => hv h'.2.2) hv0 _ _
    (FrameLe_self blank_id x.1 x.2 hlp (q ∈ BK) (q ∈ BK) (q ∈ BF) hq (fun h' => h') oK oF h)

/-- A pass of the loops made in the second run only keeps the comparison. -/
theorem FrameLe_pass_node_right (blank_id : Nat) (offset : Option Nat) (x : Nat × LogProb)
    (BK BF : List Path) (q : Path) (vF : LogProb) (hlp : 0 ≤ x.2.exp) (hv0 : 0 ≤ vF.exp)
    (oK oF : Option Node) (h : FrameLe (q ∈ BK) oK oF) :
    FrameLe (q ∈ BK) oK (pass_node blank_id offset x BF q vF oF) := by
  unfold pass_node
  have h1 := FrameLe_self blank_id x.1 x.2 hlp (q ∈ BK) False (q ∈ BF) (fun h' => h'.elim)
    (fun h' => h'.elim) oK oF h
  rw [if_neg (fun h' => h')] at h1
  have h2 := FrameLe_child offset x.1 vF vF (q ∈ BK) False
    (x.1 ≠ blank_id ∧ q = q.dropLast ++ [(x.1 : Int)] ∧ q.dropLast ∈ BF)
    (fun h' => h'.elim) (fun h' => h'.elim) hv0 _ _ h1
  rw [if_neg (fun h' => h')] at h2
  exact h2

/-- In a well-formed trie the symbol of a node is the last symbol of its
pointer (`ROOT_` for the root). -/
theorem PathTrie.node?_character (V : Nat) (t : PathTrie) (h : t.WF V) (q : Path) (n : Node)
    (hn : t.node? q = some n) : n.character = q.getLast?.getD ROOT_ := by
  rcases List.eq_nil_or_concat q with rfl | ⟨p, c, rfl⟩
  · rw [PathTrie.node?_nil] at hn
    injection hn with hn
    rw [← hn]
    exact h.1
  · rw [List.concat_eq_append] at hn ⊢
    rw [PathTrie.node?_append] at hn
    cases hx : t.at? p with
    | none => rw [hx] at hn; cases hn
    | some x =>
      rw [hx, Option.some_bind, PathTrie.node?_cons] at hn
      cases hc : x.children_.find? c with
      | none => rw [hc] at hn; cases hn
      | some child =>
        rw [hc, Option.some_bind, PathTrie.node?_nil] at hn
        injection hn with hn
        rw [← hn, (Children.WF_find? V _ c child (PathTrie.WF_at? V t x p h.2 hx) hc).1]
        simp

theorem FrameLe_foldl (blank_id : Nat) (offset : Option Nat) (BK BF : List Path) (q : Path)
    (gK gF : Nat × LogProb → LogProb) (hq : q ∈ BK → q ∈ BF)
    (hp : q.dropLast ∈ BK → q.dropLast ∈ BF) :
    ∀ (X : List (Nat × LogProb)) (oK oF : Option Node), (∀ x ∈ X, 0 ≤ x.2.exp) →
      (q.dropLast ∈ BK → ∀ x ∈ X, (gK x).exp ≤ (gF x).exp) → (∀ x ∈ X, 0 ≤ (gF x).exp) →
      FrameLe (q ∈ BK) oK oF →
      FrameLe (q ∈ BK) (X.foldl (fun o x => pass_node blank_id offset x BK q (gK x) o) oK)
        (X.foldl (fun o x => pass_node blank_id offset x BF q (gF x) o) oF) := by
  intro X
  induction X with
  | nil => intro oK oF _ _ _ h; exact h
  | cons x rest ih =>
    intro oK oF h1 h2 h3 h
    rw [List.foldl_cons, List.foldl_cons]
    apply ih _ _ (fun y hy => h1 y (List.mem_cons_of_mem _ hy))
      (fun hd y hy => h2 hd y (List.mem_cons_of_mem _ hy))
      (fun y hy => h3 y (List.mem_cons_of_mem _ hy))
    exact FrameLe_pass_node blank_id offset x BK BF q (gK x) (gF x)
      (h1 x (List.mem_cons_self _ _)) hq hp (fun hd => h2 hd x (List.mem_cons_self _ _))
      (h3 x (List.mem_cons_self _ _)) oK oF h

theorem FrameLe_foldl_right (blank_id : Nat) (offset : Option Nat) (BK BF : List Path)
    (q : Path) (gF : Nat × LogProb → LogProb) :
    ∀ (Y : List (Nat × LogProb)) (oK oF : Option Node), (∀ x ∈ Y, 0 ≤ x.2.exp) →
      (∀ x ∈ Y, 0 ≤ (gF x).exp) → FrameLe (q ∈ BK) oK oF →
      FrameLe (q ∈ BK) oK
        (Y.foldl (fun o x => pass_node blank_id offset x BF q (gF x) o) oF) := by
  intro Y
  induction Y with
  | nil => intro oK oF _ _ h; exact h
  | cons x rest ih =>
    intro oK oF h1 h3 h
    rw [List.foldl_cons]
    apply ih _ _ (fun y hy => h1 y (List.mem_cons_of_mem _ hy))
      (fun y hy => h3 y (List.mem_cons_of_mem _ hy))
    exact FrameLe_pass_node_right blank_id offset x BK BF q (gF x)
      (h1 x (List.mem_cons_self _ _)) (h3 x (List.mem_cons_self _ _)) oK oF h

/-- The passes of a frame keep the comparison of two runs at a pointer when
the second run goes through every symbol of the first, in any order, and maybe
through more. -/
theorem FrameLe_foldl_perm (blank_id : Nat) (offset : Option Nat) (BK BF : List Path)
    (q : Path) (gK gF : Nat × LogProb → LogProb) (hq : q ∈ BK → q ∈ BF)
    (hp : q.dropLast ∈ BK → q.dropLast ∈ BF) (XK XF Y : List (Nat × LogProb))
    (hperm : XF.Perm (XK ++ Y)) (hnd : (XF.map Prod.fst).Nodup) (oK oF : Option Node)
    (h1 : ∀ x ∈ XF, 0 ≤ x.2.exp)
    (h2 : q.dropLast ∈ BK → ∀ x ∈ XK, (gK x).exp ≤ (gF x).exp)
    (h3 : ∀ x ∈ XF, 0 ≤ (gF x).exp)
    (hlive : q ∈ BF → ∃ n, oF = some n ∧ n.exists_ = true)
    (h : FrameLe (q ∈ BK) oK oF) :
    FrameLe (q ∈ BK) (XK.foldl (fun o x => pass_node blank_id offset x BK q (gK x) o) oK)
      (XF.foldl (fun o x => pass_node blank_id offset x BF q (gF x) o) oF) := by
  rw [foldl_pass_node_perm blank_id offset BF q gF XF (XK ++ Y) hperm hnd oF hlive,
    List.foldl_append]
  have hmem : ∀ x, x ∈ XK ++ Y → x ∈ XF := fun x hx => hperm.mem_iff.2 hx
  apply FrameLe_foldl_right blank_id offset BK BF q gF Y _ _
    (fun x hx => h1 x (hmem x (List.mem_append_right _ hx)))
    (fun x hx => h3 x (hmem x (List.mem_append_right _ hx)))
  exact FrameLe_foldl blank_id offset BK BF q gK gF hq hp XK oK oF
    (fun x hx => h1 x (hmem x (List.mem_append_left _ hx))) h2
    (fun x hx => h3 x (hmem x (List.mem_append_left _ hx))) h

theorem NodeNonneg_new : NodeNonneg PathTrie.new.node :=
  ⟨le_refl _, le_refl _, le_refl _, le_refl _, le_refl _⟩

theorem Dominates.get_nonneg (s f : PathTrie) (h : Dominates s f) (p : Path) :
    NodeNonneg (f.get p) := by
  rw [PathTrie.get_eq_node?]
  cases hm : f.node? p with
  | none => exact NodeNonneg_new
  | some m => exact (h.2 p m hm).2

/-- The loops of a frame keep the comparison of two runs at every pointer:
the first run with the beam `BK` and the symbols `XK`, the second with a beam
`BF` that holds every live node of the first run and symbols `XF` that hold
`XK`. -/
theorem expand_symbols_FrameLe (blank_id : Nat) (reset : Nat × LogProb → Bool)
    (offset : Option Nat) (s f : PathTrie) (BK BF : List Path)
    (XK XF Y : List (Nat × LogProb)) (hndK : BK.Nodup) (hndF : BF.Nodup)
    (hlK : ∀ p ∈ BK, s.isLive p = true) (hlF : ∀ p ∈ BF, f.isLive p = true)
    (hF : ∀ q, f.isLive q = true → q ∈ BF) (hdK : NoDict s) (hdF : NoDict f)
    (hdom : Dominates s f) (hperm : XF.Perm (XK ++ Y)) (hnd : (XF.map Prod.fst).Nodup)
    (hX : ∀ x ∈ XF, 0 ≤ x.2.exp) (q : Path) :
    FrameLe (q ∈ BK)
      ((expand_symbols (fun _ _ => false)
        (fun x _ => expand blank_id x.1 x.2 (reset x) (fun _ => fun l => l) offset) BK XK
        s).node? q)
      ((expand_symbols (fun _ _ => false)
        (fun x _ => expand blank_id x.1 x.2 (reset x) (fun _ => fun l => l) offset) BF XF
        f).node? q) := by
  have hsub : ∀ p, p ∈ BK → p ∈ BF := by
    intro p hp
    obtain ⟨n, hn, hne⟩ := PathTrie.node?_of_isLive s p (hlK p hp)
    obtain ⟨m, hm, _, _⟩ := hdom.1 p n hn hne
    apply hF
    rw [PathTrie.isLive_eq_node?, hm]
    exact (hdom.2 p m hm).1
  rw [node?_expand_symbols_pass blank_id reset (fun l => l) offset
      (fun x p => new_log_p x.1 x.2 (s.get p)) BK hndK XK s hlK hdK (fun _ _ _ _ => rfl) q,
    node?_expand_symbols_pass blank_id reset (fun l => l) offset
      (fun x p => new_log_p x.1 x.2 (f.get p)) BF hndF XF f hlF hdF (fun _ _ _ _ => rfl) q]
  apply FrameLe_foldl_perm blank_id offset BK BF q
    (fun x => new_log_p x.1 x.2 (s.get q.dropLast))
    (fun x => new_log_p x.1 x.2 (f.get q.dropLast)) (hsub q) (hsub q.dropLast) XK XF Y hperm hnd
    _ _ hX
  · intro hp x hx
    obtain ⟨n, hn, hne⟩ := PathTrie.node?_of_isLive s _ (hlK _ hp)
    obtain ⟨m, hm, hpl, _⟩ := hdom.1 _ n hn hne
    have e1 : s.get q.dropLast = n := by rw [PathTrie.get_eq_node?, hn]; rfl
    have e2 : f.get q.dropLast = m := by rw [PathTrie.get_eq_node?, hm]; rfl
    show (new_log_p x.1 x.2 (s.get q.dropLast)).exp ≤ (new_log_p x.1 x.2 (f.get q.dropLast)).exp
    rw [e1, e2]
    exact (new_log_p_mono x.1 x.2 n m
      (hX x (hperm.mem_iff.2 (List.mem_append_left _ hx))) hpl (hdom.2 _ m hm).2).1
  · intro x hx
    exact new_log_p_nonneg x.1 x.2 _ (hX x hx) (Dominates.get_nonneg s f hdom _)
  · intro hq
    exact PathTrie.node?_of_isLive f q (hlF q hq)
  · refine ⟨?_, fun m hm => hdom.2 q m hm, fun hq => PathTrie.node?_of_isLive s q (hlK q hq)⟩
    intro n hn hne
    obtain ⟨m, hm, hpl, hcl⟩ := hdom.1 q n hn hne
    exact ⟨m, hm, hcl, fun _ => hpl⟩

/-- After the roll of `iterate_to_vec` the comparison during the frame is the
comparison between two frames. -/
theorem Dominates_rolled (V : Nat) (s f : PathTrie) (BK : List Path) (hs : s.WF V)
    (hf : f.WF V) (h : ∀ q, FrameLe (q ∈ BK) (s.node? q) (f.node? q)) :
    Dominates s.rolled f.rolled := by
  constructor
  · intro q n' hn' hne'
    rw [node?_rolled] at hn'
    cases hn : s.node? q with
    | none => rw [hn] at hn'; cases hn'
    | some n =>
      rw [hn, Option.map_some'] at hn'
      injection hn' with hn'
      have hne : n.exists_ = true := by
        cases hx : n.exists_
        · rw [hx] at hn'
          simp only [Bool.false_eq_true, if_false] at hn'
          rw [← hn', hx] at hne'
          cases hne'
        · rfl
      rw [hne, if_pos rfl] at hn'
      obtain ⟨m, hm, hc, _⟩ := (h q).1 n hn hne
      obtain ⟨hme, hmn⟩ := (h q).2.1 m hm
      refine ⟨m.roll, by rw [node?_rolled, hm, Option.map_some', hme, if_pos rfl], ?_, ?_⟩
      · rw [← hn']
        refine ⟨?_, hc.1, hc.2, ?_⟩
        · show n.character = m.character
          rw [PathTrie.node?_character V s hs q n hn, PathTrie.node?_character V f hf q m hm]
        · show n.log_prob_b_cur.exp + n.log_prob_nb_cur.exp
            ≤ m.log_prob_b_cur.exp + m.log_prob_nb_cur.exp
          linarith [hc.1, hc.2]
      · rw [← hn']
        exact ⟨le_refl _, le_refl _⟩
  · intro q m' hm'
    rw [node?_rolled] at hm'
    cases hm : f.node? q with
    | none => rw [hm] at hm'; cases hm'
    | some m =>
      obtain ⟨hme, m1, m2, m3, m4, m5⟩ := (h q).2.1 m hm
      rw [hm, Option.map_some', hme, if_pos rfl] at hm'
      injection hm' with hm'
      rw [← hm']
      refine ⟨hme, m4, m5, ?_, le_refl _, le_refl _⟩
      show 0 ≤ m.log_prob_b_cur.exp + m.log_prob_nb_cur.exp
      linarith

/-- Pruning the first run keeps the comparison. -/
theorem Dominates_of_Shrinks (s s' f : PathTrie) (hsh : s.Shrinks s') (h : Dominates s f) :
    Dominates s' f := by
  refine ⟨?_, h.2⟩
  intro q n hn hne
  have hl : s'.isLive q = true := by
    rw [PathTrie.isLive_eq_node?, hn]
    exact hne
  rw [PathTrie.Shrinks.node?_eq_of_isLive s s' hsh q hl] at hn
  exact h.1 q n hn hne

theorem cutoff_loop_ge (cutoff_prob : ℚ) (cutoff_top_n : Nat) :
    ∀ (l : List (Nat × ℚ)) (cum : ℚ) (len : Nat),
      len ≤ cutoff_loop cutoff_prob cutoff_top_n l cum len := by
  intro l
  induction l with
  | nil => intro cum len; simp [cutoff_loop]
  | cons x rest ih =>
    intro cum len
    unfold cutoff_loop
    split_ifs
    · omega
    · exact le_trans (Nat.le_succ len) (ih _ _)

/-- A larger `cutoff_top_n` never shortens what the cumulative loop keeps. -/
theorem cutoff_loop_mono (cutoff_prob : ℚ) (n n' : Nat) (h : n ≤ n') :
    ∀ (l : List (Nat × ℚ)) (cum : ℚ) (len : Nat),
      cutoff_loop cutoff_prob n l cum len ≤ cutoff_loop cutoff_prob n' l cum len := by
  intro l
  induction l with
  | nil => intro cum len; simp [cutoff_loop]
  | cons x rest ih =>
    intro cum len
    unfold cutoff_loop
    by_cases hc : to_double (cum + x.2) ≥ cutoff_prob ∨ len + 1 ≥ n
    · rw [if_pos hc]
      split_ifs
      · exact le_refl _
      · exact cutoff_loop_ge _ _ _ _ _
    · rw [if_neg hc, if_neg (fun h' => hc (h'.imp id (fun h'' => by omega)))]
      exact ih _ _

/-- The symbols kept with a larger `cutoff_top_n` are, in some order, the
symbols kept with a smaller one and maybe more. -/
theorem get_pruned_log_probs_mono (prob_step : List ℚ) (cutoff_prob : ℚ) (n n' : Nat)
    (h : n ≤ n') :
    ∃ Y, (get_pruned_log_probs prob_step cutoff_prob n').Perm
      (get_pruned_log_probs prob_step cutoff_prob n ++ Y) := by
  by_cases hcp : cutoff_prob < 1
  · rw [get_pruned_log_probs_of_lt_one _ _ _ hcp, get_pruned_log_probs_of_lt_one _ _ _ hcp]
    have hle := cutoff_loop_mono cutoff_prob n n' h
      (std_sort pair_comp_second_rev prob_step.enum) 0 0
    refine ⟨(((std_sort pair_comp_second_rev prob_step.enum).take
      (cutoff_loop cutoff_prob n' (std_sort pair_comp_second_rev prob_step.enum) 0 0)).drop
      (cutoff_loop cutoff_prob n (std_sort pair_comp_second_rev prob_step.enum) 0 0)).map
        (fun p => (p.1, (log (to_double (p.2 + NUM_FLT_MIN))).narrow)), ?_⟩
    have e : (std_sort pair_comp_second_rev prob_step.enum).take
          (cutoff_loop cutoff_prob n' (std_sort pair_comp_second_rev prob_step.enum) 0 0)
        = (std_sort pair_comp_second_rev prob_step.enum).take
            (cutoff_loop cutoff_prob n (std_sort pair_comp_second_rev prob_step.enum) 0 0)
          ++ ((std_sort pair_comp_second_rev prob_step.enum).take
            (cutoff_loop cutoff_prob n' (std_sort pair_comp_second_rev prob_step.enum) 0 0)).drop
            (cutoff_loop cutoff_prob n (std_sort pair_comp_second_rev prob_step.enum) 0 0) := by
      conv_lhs => rw [← List.take_append_drop
        (cutoff_loop cutoff_prob n (std_sort pair_comp_second_rev prob_step.enum) 0 0)
        ((std_sort pair_comp_second_rev prob_step.enum).take
          (cutoff_loop cutoff_prob n' (std_sort pair_comp_second_rev prob_step.enum) 0 0))]
      rw [List.take_take, min_eq_left hle]
    rw [← List.map_append, ← e]
  · have key : ∀ m : Nat, (get_pruned_log_probs prob_step cutoff_prob m).Perm
        (prob_step.enum.map (fun p => (p.1, (log (to_double (p.2 + NUM_FLT_MIN))).narrow))) := by
      intro m
      unfold get_pruned_log_probs pruned_prob_idx
      by_cases hm : m < prob_step.length
      · simp only [if_pos (Or.inr hm : cutoff_prob < 1 ∨ m < prob_step.length), if_neg hcp]
        rw [List.take_of_length_le (by rw [List.length_take, length_std_sort, List.enum_length]; simp),
          List.take_of_length_le (by rw [length_std_sort, List.enum_length])]
        exact (perm_std_sort _ _).map _
      · have hm' : ¬ (cutoff_prob < 1 ∨ m < prob_step.length) := fun h' => h'.elim hcp hm
        simp only [if_neg hm']
        rw [List.take_of_length_le (by rw [List.enum_length])]
    exact ⟨[], by rw [List.append_nil]; exact (key n').trans (key n).symm⟩

theorem get_pruned_log_probs_nodup (prob_step : List ℚ) (cutoff_prob : ℚ) (n : Nat) :
    ((get_pruned_log_probs prob_step cutoff_prob n).map Prod.fst).Nodup := by
  unfold get_pruned_log_probs pruned_prob_idx
  rw [List.map_map]
  have e : (Prod.fst ∘ fun p : Nat × ℚ => (p.1, (log (to_double (p.2 + NUM_FLT_MIN))).narrow))
      = Prod.fst := rfl
  rw [e]
  simp only
  split_ifs
  · rw [List.map_take, List.map_take]
    exact ((nodup_fst_std_sort_enum prob_step).sublist (List.take_sublist _ _)).sublist
      (List.take_sublist _ _)
  · rw [List.map_take, List.map_take]
    exact ((nodup_fst_std_sort_enum prob_step).sublist (List.take_sublist _ _)).sublist
      (List.take_sublist _ _)
  · rw [List.map_take]
    exact (List.nodup_enum_map_fst prob_step).sublist (List.take_sublist _ _)

theorem get_pruned_log_probs_nonneg (prob_step : List ℚ) (cutoff_prob : ℚ) (n : Nat)
    (h : ∀ p ∈ prob_step, 0 ≤ p) :
    ∀ x ∈ get_pruned_log_probs prob_step cutoff_prob n, 0 ≤ x.2.exp := by
  intro x hx
  unfold get_pruned_log_probs at hx
  rw [List.mem_map] at hx
  obtain ⟨p, hp, rfl⟩ := hx
  have hp1 : p ∈ prob_step.enum := by
    have hp2 := List.mem_of_mem_take hp
    unfold pruned_prob_idx at hp2
    simp only at hp2
    split_ifs at hp2
    · exact (perm_std_sort _ _).mem_iff.1 (List.mem_of_mem_take hp2)
    · exact (perm_std_sort _ _).mem_iff.1 (List.mem_of_mem_take hp2)
    · exact hp2
  have h0 := h p.2 (List.snd_mem_of_mem_enum hp1)
  exact le_of_lt (stored_log_prob_pos p.2 h0)

/-- A frame after which the beam is not full was not pruned. -/
theorem roll_and_prune_not_full (K : Nat) (root : PathTrie) (st : PathTrie × List Path)
    (h : roll_and_prune K root = Except.ok st) (hlen : st.2.length < K) :
    st = (root.rolled, root.live_paths []) := by
  unfold roll_and_prune at h
  simp only [PathTrie.iterate_to_vec_eq, List.nil_append] at h
  split_ifs at h with hc
  · split at h
    · injection h with h
      rw [← h] at hlen
      simp only [length_std_nth_element] at hlen
      omega
    · cases h
  · injection h with h
    exact h.symm

theorem frame_step_none (K blank_id : Nat) (cutoff_prob : ℚ) (cutoff_top_n : Nat)
    (body : Nat × LogProb → Path → PathTrie → PathTrie) (prob : List ℚ)
    (st : PathTrie × List Path) :
    frame_step K blank_id cutoff_prob cutoff_top_n none body prob st
      = roll_and_prune K (expand_symbols (fun _ _ => false) body (st.2.take K)
          (get_pruned_log_probs prob cutoff_prob cutoff_top_n) st.1) := by
  unfold frame_step
  simp only [pre_sort, Bool.false_and]

/-- One frame keeps the comparison of two runs, when the second run is not
pruned after the frame and its `cutoff_top_n` is at least the one of the first
run. -/
theorem frame_step_RunLe (vocabulary : List String) (K K' : Nat) (hK : 1 ≤ K) (hK' : 1 ≤ K')
    (cutoff_prob : ℚ) (n n' : Nat) (hn : n ≤ n') (prob : List ℚ)
    (hlen : prob.length = vocabulary.length + 1) (hnonneg : ∀ p ∈ prob, 0 ≤ p)
    (stK stF stF' : PathTrie × List Path) (h : RunLe vocabulary.length K K' stK stF)
    (hF : frame_step K' vocabulary.length cutoff_prob n' none (body_one_shot none vocabulary)
      prob stF = Except.ok stF')
    (hfull : stF'.2.length < K') :
    ∃ stK', frame_step K vocabulary.length cutoff_prob n none (body_one_shot none vocabulary)
        prob stK = Except.ok stK'
      ∧ RunLe vocabulary.length K K' stK' stF' := by
  obtain ⟨iK, iF, dK, dF, hdom⟩ := h
  have hbody : ∀ m : Nat, ∀ s ∈ get_pruned_log_probs prob cutoff_prob m, ∀ p x,
      x.children_.WF vocabulary.length →
        (body_one_shot none vocabulary s p x).node.character = x.node.character
          ∧ (body_one_shot none vocabulary s p x).children_.WF vocabulary.length
          ∧ ∀ r, x.isLive r = true → (body_one_shot none vocabulary s p x).isLive r = true := by
    intro m s hs p x hx
    have := get_pruned_log_probs_index_lt prob cutoff_prob m s hs
    exact body_one_shot_spec none vocabulary s (by omega) p x hx
  have okK := expand_symbols_StateOK vocabulary.length (fun _ _ => false)
    (body_one_shot none vocabulary) _ (hbody n) (stK.2.take K) stK.1
    (BeamInv.stateOK _ K stK iK)
  have okF := expand_symbols_StateOK vocabulary.length (fun _ _ => false)
    (body_one_shot none vocabulary) _ (hbody n') (stF.2.take K') stF.1
    (BeamInv.stateOK _ K' stF iF)
  obtain ⟨stK', eK, iK', shK, _⟩ := roll_and_prune_spec vocabulary.length K _ hK okK
  obtain ⟨stF'', eF, iF', _, _⟩ := roll_and_prune_spec vocabulary.length K' _ hK' okF
  rw [frame_step_none] at hF
  have e1 : stF'' = stF' := by
    rw [eF] at hF
    injection hF
  subst e1
  have e2 := roll_and_prune_not_full K' _ stF'' eF hfull
  have hlK : ∀ p ∈ stK.2.take K, stK.1.isLive p = true := fun p hp => (iK.2.2.1 p).1 hp
  have hlF : ∀ p ∈ stF.2.take K', stF.1.isLive p = true := fun p hp => (iF.2.2.1 p).1 hp
  obtain ⟨Y, hY⟩ := get_pruned_log_probs_mono prob cutoff_prob n n' hn
  have hfr := expand_symbols_FrameLe vocabulary.length (fun x => word_end vocabulary x.1) none
    stK.1 stF.1 (stK.2.take K) (stF.2.take K')
    (get_pruned_log_probs prob cutoff_prob n) (get_pruned_log_probs prob cutoff_prob n') Y
    iK.2.1 iF.2.1 hlK hlF (fun q hq => (iF.2.2.1 q).2 hq) dK dF hdom hY
    (get_pruned_log_probs_nodup prob cutoff_prob n')
    (get_pruned_log_probs_nonneg prob cutoff_prob n' hnonneg)
  have ndK := NoDict_expand_symbols vocabulary.length (fun x => word_end vocabulary x.1)
    (fun l => l) none (stK.2.take K) (get_pruned_log_probs prob cutoff_prob n) stK.1 hlK dK
  have ndF := NoDict_expand_symbols vocabulary.length (fun x => word_end vocabulary x.1)
    (fun l => l) none (stF.2.take K') (get_pruned_log_probs prob cutoff_prob n') stF.1 hlF dF
  have hroll := Dominates_rolled vocabulary.length _ _ (stK.2.take K) okK.1 okF.1 hfr
  refine ⟨stK', by rw [frame_step_none]; exact eK, iK', iF',
    NoDict_of_Shrinks _ _ shK (NoDict_rolled _ ndK), ?_, ?_⟩
  · rw [e2]
    exact NoDict_rolled _ ndF
  · rw [e2]
    exact Dominates_of_Shrinks _ _ _ shK hroll

/-- The loop over time keeps the comparison of two runs, when the second run
is never pruned. -/
theorem time_loop_RunLe (vocabulary : List String) (K K' : Nat) (hK : 1 ≤ K) (hK' : 1 ≤ K')
    (cutoff_prob : ℚ) (n n' : Nat) (hn : n ≤ n') (frames : List (List ℚ)) :
    (∀ prob ∈ frames, prob.length = vocabulary.length + 1) →
    (∀ prob ∈ frames, ∀ p ∈ prob, 0 ≤ p) →
    ∀ (t : Nat) (stK stF : PathTrie × List Path), RunLe vocabulary.length K K' stK stF →
      beam_never_full
        (fun _ prob st => frame_step K' vocabulary.length cutoff_prob n' none
          (body_one_shot none vocabulary) prob st) K' frames t stF = true →
      ∃ stK' stF',
        time_loop (fun _ prob st => frame_step K vocabulary.length cutoff_prob n none
          (body_one_shot none vocabulary) prob st) frames t stK = Except.ok stK'
        ∧ time_loop (fun _ prob st => frame_step K' vocabulary.length cutoff_prob n' none
          (body_one_shot none vocabulary) prob st) frames t stF = Except.ok stF'
        ∧ RunLe vocabulary.length K K' stK' stF' := by
  induction frames with
  | nil =>
    intro _ _ t stK stF h _
    exact ⟨stK, stF, rfl, rfl, h⟩
  | cons prob rest ih =>
    intro hlen hnonneg t stK stF h hb
    unfold beam_never_full at hb
    cases hF : frame_step K' vocabulary.length cutoff_prob n' none
        (body_one_shot none vocabulary) prob stF with
    | error e => simp only [hF] at hb; cases hb
    | ok stF1 =>
      simp only [hF, Bool.and_eq_true, decide_eq_true_eq] at hb
      obtain ⟨stK1, eK, h1⟩ := frame_step_RunLe vocabulary K K' hK hK' cutoff_prob n n' hn prob
        (hlen prob (List.mem_cons_self _ _)) (hnonneg prob (List.mem_cons_self _ _))
        stK stF stF1 h hF hb.1
      obtain ⟨stK', stF', g1, g2, g3⟩ := ih
        (fun p hp => hlen p (List.mem_cons_of_mem _ hp))
        (fun p hp => hnonneg p (List.mem_cons_of_mem _ hp)) (t + 1) stK1 stF1 h1 hb.2
      refine ⟨stK', stF', ?_, ?_, g3⟩
      · rw [time_loop]
        simp only [eK]
        exact g1
      · rw [time_loop]
        simp only [hF]
        exact g2

theorem Dominates_init_root : Dominates (init_root none) (init_root none) := by
  constructor
  · intro q n hn _
    exact ⟨n, hn, ⟨rfl, le_refl _, le_refl _, le_refl _⟩, le_refl _, le_refl _⟩
  · intro q m hm
    rw [init_root_node?] at hm
    split_ifs at hm
    injection hm with hm
    rw [← hm]
    refine ⟨rfl, ?_, ?_, ?_, ?_, ?_⟩
    · show (0 : ℚ) ≤ 1
      norm_num
    · exact le_refl _
    · show (0 : ℚ) ≤ 1
      norm_num
    · exact le_refl _
    · exact le_refl _

/-- The scores `ctc_beam_search_decoder` returns without scorer: the scores of
the prefixes of the beam, the largest first. -/
theorem one_shot_finish_scores (V K : Nat) (root : PathTrie) (prefixes : List Path)
    (vocabulary : List String) (hV : V = vocabulary.length) (htok : TokensOK vocabulary)
    (h : BeamInv V K (root, prefixes)) :
    ∃ (r : List (LogProb × String)) (P : List Path),
      one_shot_finish vocabulary K none (root, prefixes) = Except.ok r
      ∧ P.Perm (prefixes.take K)
      ∧ r.map Prod.fst = P.map (fun p => (root.get p).score)
      ∧ (r.map Prod.fst).Pairwise (fun a b => b ≤ a) := by
  obtain ⟨hwf, hnd, hmem, hne⟩ := h
  unfold one_shot_finish
  simp only
  generalize hpre1 : sort_first (prefix_compare_at root) (min prefixes.length K) prefixes
    = prefixes1
  have htake : prefixes1.take K = std_sort (prefix_compare_at root) (prefixes.take K) := by
    rw [← hpre1]; exact take_sort_first _ _ _
  have hperm : (prefixes1.take K).Perm (prefixes.take K) := by
    rw [htake]; exact perm_std_sort _ _
  generalize hroot2 : approx_scores vocabulary none (prefixes1.take K) root = root2
  have hs2 : SameShape V root root2 := by
    rw [← hroot2]
    exact approx_scores_SameShape V vocabulary none _ root
  have hvalid : ∀ p ∈ prefixes1.take K, (root2.at? p).isSome = true := by
    intro p hp
    have hl : root.isLive p = true := (hmem p).1 (hperm.mem_iff.1 hp)
    rw [at?_isSome_eq_node?, hs2.2.2 p, ← at?_isSome_eq_node?]
    exact at?_isSome_of_isLive root p hl
  have hne1 : prefixes1.take K ≠ [] := by
    intro h0
    apply hne
    have := hperm.length_eq
    rw [h0] at this
    exact List.eq_nil_of_length_eq_zero this.symm
  obtain ⟨r, g1, _, g3, g4, _⟩ := get_beam_search_result_ok V K root2 prefixes1 vocabulary hV
    htok (hs2.1 hwf) hvalid hne1
  rw [g1]
  refine ⟨r.1, std_sort (prefix_compare_at root2) (prefixes1.take K), rfl,
    (perm_std_sort _ _).trans hperm, ?_, g3⟩
  rw [g4]
  apply List.map_congr_left
  intro p _
  rw [← hroot2]
  exact (approx_scores_get vocabulary _ root p).1

theorem head_of_pairwise_ge (a : LogProb) (l : List LogProb)
    (h : (a :: l).Pairwise (fun x y => y ≤ x)) : ∀ x ∈ a :: l, x ≤ a := by
  intro x hx
  rcases List.mem_cons.1 hx with rfl | hx
  · exact le_refl _
  · exact (List.pairwise_cons.1 h).1 x hx

/-- C17 (amended): for the one-shot decoder without scorer, a well-shaped
sequence of frames of non-negative numbers and a vocabulary whose tokens
beginning with `#` have two characters at least: if the beam of size `K'` is
never full on the input with `cutoff_top_n'` (after every frame fewer than `K'`
prefixes are live, so that no prefix is pruned), then for every beam size `K`
with `1 ≤ K ≤ K'` and every `cutoff_top_n ≤ cutoff_top_n'` both calls return a
best hypothesis and the best score for `K'`, `cutoff_top_n'` is at least the best
score for `K`, `cutoff_top_n`. -/
theorem unpruned_beam_bounds_top1_score (probs_seq : List (List ℚ)) (vocabulary : List String)
    (K K' : Nat) (cutoff_prob : ℚ) (n n' : Nat) (hK : 1 ≤ K) (hKK : K ≤ K') (hn : n ≤ n')
    (hshape : shape_ok probs_seq (vocabulary.length + 1) = true)
    (hnonneg : ∀ prob ∈ probs_seq, ∀ p ∈ prob, 0 ≤ p) (htok : TokensOK vocabulary)
    (hfull : beam_never_full
      (fun _ prob st => frame_step K' vocabulary.length cutoff_prob n' none
        (body_one_shot none vocabulary) prob st)
      K' probs_seq 0 (init_root none, [[]]) = true) :
    ∃ s s', top1_score (ctc_beam_search_decoder probs_seq vocabulary K cutoff_prob n none)
          = some s
      ∧ top1_score (ctc_beam_search_decoder probs_seq vocabulary K' cutoff_prob n' none)
          = some s'
      ∧ s ≤ s' := by
  have hK' : 1 ≤ K' := le_trans hK hKK
  obtain ⟨stK, stF, eK, eF, iK, iF, _, _, hdom⟩ := time_loop_RunLe vocabulary K K' hK hK'
    cutoff_prob n n' hn probs_seq (shape_ok_mem _ _ hshape) hnonneg 0 (init_root none, [[]])
    (init_root none, [[]])
    ⟨init_BeamInv _ K hK none, init_BeamInv _ K' hK' none, NoDict_init_root, NoDict_init_root,
      Dominates_init_root⟩ hfull
  obtain ⟨rK, PK, fK, pK, sK, _⟩ := one_shot_finish_scores vocabulary.length K stK.1 stK.2
    vocabulary rfl htok iK
  obtain ⟨rF, PF, fF, pF, sF, gF⟩ := one_shot_finish_scores vocabulary.length K' stF.1 stF.2
    vocabulary rfl htok iF
  have hs : ¬ shape_ok probs_seq (vocabulary.length + 1) = false := by rw [hshape]; simp
  have dK : ctc_beam_search_decoder probs_seq vocabulary K cutoff_prob n none = Except.ok rK := by
    unfold ctc_beam_search_decoder one_shot_loop
    rw [if_neg hs, eK]
    exact fK
  have dF : ctc_beam_search_decoder probs_seq vocabulary K' cutoff_prob n' none
      = Except.ok rF := by
    unfold ctc_beam_search_decoder one_shot_loop
    rw [if_neg hs, eF]
    exact fF
  rw [dK, dF]
  cases PK with
  | nil => exact absurd (List.Perm.nil_eq pK) (fun h => iK.2.2.2 h.symm)
  | cons p PK' =>
    cases rK with
    | nil => simp at sK
    | cons x rK' =>
      have hx : x.1 = (stK.1.get p).score := by
        simp only [List.map_cons, List.cons.injEq] at sK
        exact sK.1
      have hp : p ∈ stK.2.take K := pK.mem_iff.1 (List.mem_cons_self _ _)
      obtain ⟨nd, hnd, hne⟩ := PathTrie.node?_of_isLive stK.1 p ((iK.2.2.1 p).1 hp)
      obtain ⟨m, hm, hpl, _⟩ := hdom.1 p nd hnd hne
      have hpF : p ∈ PF := by
        apply pF.mem_iff.2
        apply (iF.2.2.1 p).2
        rw [PathTrie.isLive_eq_node?, hm]
        exact (hdom.2 p m hm).1
      have hmem : (stF.1.get p).score ∈ rF.map Prod.fst := by
        rw [sF]
        exact List.mem_map_of_mem (fun p => (stF.1.get p).score) hpF
      cases rF with
      | nil => simp at hmem
      | cons y rF' =>
        refine ⟨x.1, y.1, rfl, rfl, ?_⟩
        have h1 := head_of_pairwise_ge y.1 (rF'.map Prod.fst) gF _ hmem
        have e1 : stK.1.get p = nd := by rw [PathTrie.get_eq_node?, hnd]; rfl
        have e2 : stF.1.get p = m := by rw [PathTrie.get_eq_node?, hm]; rfl
        rw [hx, e1]
        rw [e2] at h1
        exact le_trans hpl.2.2.2 h1

theorem unpruned_beam_bounds_top1_score_witness :
    1 ≤ 2 ∧ 2 ≤ 40 ∧ 2 ≤ 3
    ∧ shape_ok [[3/5, 1/5, 1/5], [3/5, 1/5, 1/5], [1/5, 3/5, 1/5]] (["a", "b"].length + 1) = true
    ∧ (∀ prob ∈ [[(3 : ℚ)/5, 1/5, 1/5], [3/5, 1/5, 1/5], [1/5, 3/5, 1/5]], ∀ p ∈ prob, 0 ≤ p)
    ∧ TokensOK ["a", "b"]
    ∧ beam_never_full
        (fun _ prob st => frame_step 40 (["a", "b"] : List String).length (99/100) 3 none
          (body_one_shot none ["a", "b"]) prob st)
        40 [[3/5, 1/5, 1/5], [3/5, 1/5, 1/5], [1/5, 3/5, 1/5]] 0 (init_root none, [[]]) = true
    ∧ ∃ s s', top1_score (ctc_beam_search_decoder
            [[3/5, 1/5, 1/5], [3/5, 1/5, 1/5], [1/5, 3/5, 1/5]] ["a", "b"] 2 (99/100) 2 none)
          = some s
      ∧ top1_score (ctc_beam_search_decoder
            [[3/5, 1/5, 1/5], [3/5, 1/5, 1/5], [1/5, 3/5, 1/5]] ["a", "b"] 40 (99/100) 3 none)
          = some s'
      ∧ s ≤ s' :=
  ⟨by decide, by decide, by decide, by decide!, by decide!, by decide, by decide!,
    unpruned_beam_bounds_top1_score [[3/5, 1/5, 1/5], [3/5, 1/5, 1/5], [1/5, 3/5, 1/5]]
      ["a", "b"] 2 40 (99/100) 2 3 (by decide) (by decide) (by decide) (by decide!) (by decide!)
      (by decide) (by decide!)⟩

/-! ### `get_path_trie` on a node with a dictionary (C21) -/

theorem find?_eq_none_iff_arcs (arcs : List StdArc) (label : Int) :
    arcs.find? (fun a => decide (a.ilabel = label)) = none
      ↔ ∀ arc ∈ arcs, arc.ilabel ≠ label := by
  rw [List.find?_eq_none]
  simp

theorem find?_eq_some_arcs (arcs : List StdArc) (label : Int) (arc : StdArc)
    (h : arcs.find? (fun a => decide (a.ilabel = label)) = some arc) :
    arc.ilabel = label ∧ ∃ before after, arcs = before ++ arc :: after
      ∧ ∀ a ∈ before, a.ilabel ≠ label := by
  induction arcs with
  | nil => cases h
  | cons x rest ih =>
    rw [List.find?_cons] at h
    by_cases hx : x.ilabel = label
    · simp only [hx, decide_True] at h
      cases h
      exact ⟨hx, [], rest, rfl, fun a ha => by cases ha⟩
    · simp only [hx, decide_False] at h
      obtain ⟨h1, before, after, h2, h3⟩ := ih h
      refine ⟨h1, x :: before, after, by rw [h2]; rfl, fun a ha => ?_⟩
      rcases List.mem_cons.1 ha with rfl | ha
      · exact hx
      · exact h3 a ha

/-- C21: `get_path_trie(c, word_end)` on a node that has a dictionary and a
matcher and no child labelled `c`, for a symbol `c ≥ 0`.  Let `s` be
`dictionary_->Start()` when `word_end` is true and the node's
`dictionary_state_` otherwise.  The call returns `nullptr` (the result `none`,
the object untouched) if and only if no arc leaving `s` in the automaton the
matcher reads has the input label `c + 1`.  Otherwise the data members of the
object are unchanged and one pair `(c, new_path)` is put at the end of its child
list, where `new_path` is a childless node with the symbol `c`, the dictionary
and the matcher of the object, and, as `dictionary_state_`, the `nextstate` of
the first arc leaving `s` with the input label `c + 1` (never the label `0` of
an epsilon arc); its other data members are those the constructor sets. -/
theorem get_path_trie_with_dictionary (this : PathTrie) (c : Int) (word_end : Bool)
    (dictionary matcher : StdVectorFst) (hc : 0 ≤ c)
    (hd : this.node.has_dictionary_ = true)
    (hdict : this.node.dictionary_ = some dictionary)
    (hm : this.node.matcher_ = some matcher)
    (hnone : this.children_.find? c = none) :
    (this.get_path_trie c word_end = none
        ↔ ∀ arc ∈ matcher.arcsOf
              (if word_end then dictionary.Start else this.node.dictionary_state_),
            arc.ilabel ≠ c + 1)
      ∧ ∀ t, this.get_path_trie c word_end = some t →
          ∃ arc before after,
            matcher.arcsOf (if word_end then dictionary.Start else this.node.dictionary_state_)
                = before ++ arc :: after
              ∧ (∀ a ∈ before, a.ilabel ≠ c + 1) ∧ arc.ilabel = c + 1 ∧ arc.ilabel ≠ 0
              ∧ t.node = this.node
              ∧ t.children_.toList = this.children_.toList
                  ++ [(c, ⟨{ PathTrie.new.node with character := c,
                                                    dictionary_ := some dictionary,
                                                    dictionary_state_ := arc.nextstate,
                                                    has_dictionary_ := true,
                                                    matcher_ := some matcher },
                          Children.nil⟩)] := by
  have e : this.get_path_trie c word_end
      = ((matcher.arcsOf (if word_end then dictionary.Start else this.node.dictionary_state_)).find?
          (fun a => decide (a.ilabel = c + 1))).map
        (fun arc => ⟨this.node, this.children_.push_back c
          ⟨{ PathTrie.new.node with character := c,
                                    dictionary_ := some dictionary,
                                    dictionary_state_ := arc.nextstate,
                                    has_dictionary_ := true,
                                    matcher_ := some matcher }, Children.nil⟩⟩) := by
    unfold PathTrie.get_path_trie
    rw [hnone]
    simp only [hd, if_true, hdict, hm, StdVectorFst.Find]
    cases (matcher.arcsOf (if word_end then dictionary.Start
      else this.node.dictionary_state_)).find? (fun a => decide (a.ilabel = c + 1)) <;> rfl
  rw [e]
  constructor
  · rw [Option.map_eq_none', find?_eq_none_iff_arcs]
  · intro t ht
    rw [Option.map_eq_some'] at ht
    obtain ⟨arc, harc, rfl⟩ := ht
    obtain ⟨h1, before, after, h2, h3⟩ := find?_eq_some_arcs _ _ _ harc
    exact ⟨arc, before, after, h2, h3, h1, by omega, rfl, Children.toList_push_back _ _ _⟩

theorem get_path_trie_with_dictionary_witness :
    (0 : Int) ≤ 0
      ∧ (init_root (some scorer_ab)).node.has_dictionary_ = true
      ∧ (init_root (some scorer_ab)).node.dictionary_ = some lexicon_ab
      ∧ (init_root (some scorer_ab)).node.matcher_ = some lexicon_ab
      ∧ (init_root (some scorer_ab)).children_.find? 0 = none
      ∧ (((init_root (some scorer_ab)).get_path_trie 0 true = none
          ↔ ∀ arc ∈ lexicon_ab.arcsOf
                (if true = true then lexicon_ab.Start
                  else (init_root (some scorer_ab)).node.dictionary_state_),
              arc.ilabel ≠ 0 + 1)) :=
  ⟨le_refl 0, rfl, rfl, rfl, rfl,
    (get_path_trie_with_dictionary (init_root (some scorer_ab)) 0 true lexicon_ab lexicon_ab
      (le_refl 0) rfl rfl rfl rfl).1⟩

/-! ### `iterate_to_vec` (C22) -/

theorem Children.live_paths_children_eq_filter (cs : Children) (here : Path) :
    cs.live_paths here
      = ((cs.preorder here).filter (fun x => x.2.exists_)).map Prod.fst := by
  induction cs generalizing here with
  | nil => rfl
  | cons first second kids rest ih1 ih2 =>
    simp only [Children.live_paths, Children.preorder, List.filter_cons, List.filter_append,
      List.map_append, ih1, ih2]
    by_cases h : second.exists_ = true <;> simp [h]

theorem PathTrie.live_paths_eq_filter (t : PathTrie) (here : Path) :
    t.live_paths here = ((t.preorder here).filter (fun x => x.2.exists_)).map Prod.fst := by
  simp only [PathTrie.live_paths, PathTrie.preorder, List.filter_cons,
    Children.live_paths_children_eq_filter]
  by_cases h : t.node.exists_ = true <;> simp [h]

/-- The pre-order list of a well-formed child list holds exactly the nodes
below the owner of the list, each with its pointer. -/
theorem Children.mem_preorder_children (V : Nat) (cs : Children) (h : cs.WF V) (here q : Path)
    (n : Node) :
    (q, n) ∈ cs.preorder here ↔
      ∃ c r child, q = here ++ c :: r ∧ cs.find? c = some child ∧ child.node? r = some n := by
  induction cs generalizing here q with
  | nil => simp [Children.preorder, Children.find?]
  | cons first second kids rest ih1 ih2 =>
    obtain ⟨_, _, _, h4, h5, h6⟩ := h
    simp only [Children.preorder, List.mem_cons, List.mem_append, ih1 h5, ih2 h6]
    constructor
    · rintro (hA | ⟨c, r, child, rfl, hf, hl⟩ | ⟨c, r, child, rfl, hf, hl⟩)
      · rw [Prod.mk.injEq] at hA
        obtain ⟨rfl, rfl⟩ := hA
        exact ⟨first, [], ⟨n, kids⟩, rfl, by simp [Children.find?], rfl⟩
      · refine ⟨first, c :: r, ⟨second, kids⟩, by simp, by simp [Children.find?], ?_⟩
        rw [PathTrie.node?_cons]
        simp only [hf]
        exact hl
      · have hne : first ≠ c := by
          intro hc
          rw [← hc, h4] at hf
          cases hf
        exact ⟨c, r, child, rfl, by simp [Children.find?, hne, hf], hl⟩
    · rintro ⟨c, r, child, rfl, hf, hl⟩
      by_cases hc : first = c
      · subst hc
        simp only [Children.find?, if_true] at hf
        cases hf
        cases r with
        | nil =>
          left
          have hl' : some second = some n := hl
          cases hl'
          rfl
        | cons d r =>
          right; left
          rw [PathTrie.node?_cons] at hl
          cases hk : kids.find? d with
          | none => simp [hk] at hl
          | some child =>
            simp only [hk] at hl
            exact ⟨d, r, child, by simp, hk, hl⟩
      · right; right
        simp only [Children.find?, hc, if_false] at hf
        exact ⟨c, r, child, rfl, hf, hl⟩

theorem PathTrie.mem_preorder (V : Nat) (t : PathTrie) (h : t.children_.WF V) (q : Path)
    (n : Node) : (q, n) ∈ t.preorder [] ↔ t.node? q = some n := by
  simp only [PathTrie.preorder, List.mem_cons, Children.mem_preorder_children V _ h,
    List.nil_append]
  constructor
  · rintro (hA | ⟨c, r, child, rfl, hf, hl⟩)
    · rw [Prod.mk.injEq] at hA
      obtain ⟨rfl, rfl⟩ := hA
      rfl
    · rw [PathTrie.node?_cons, hf]
      exact hl
  · intro hq
    cases q with
    | nil =>
      left
      have hq' : some t.node = some n := hq
      cases hq'
      rfl
    | cons c r =>
      right
      rw [PathTrie.node?_cons] at hq
      cases hk : t.children_.find? c with
      | none => simp [hk] at hq
      | some child =>
        simp only [hk] at hq
        exact ⟨c, r, child, rfl, hk, hq⟩

theorem Children.labels_rolled (cs : Children) :
    cs.rolled.toList.map Prod.fst = cs.toList.map Prod.fst := by
  induction cs with
  | nil => rfl
  | cons first second kids rest _ ih =>
    simp only [Children.rolled, Children.toList, List.map_cons, ih]

/-- C22: `iterate_to_vec(output)` called on the root of a well-formed trie.
What the call appends to `output` is the list of the pointers of the nodes whose
`exists_` is true, taken out of the depth-first pre-order list of all nodes (so
a tombstoned node is left out and its descendants are still listed); every node
of that list is a node of the trie, no pointer is appended twice, and a pointer
is appended exactly when its node is live.  After the call a node that was live
has `log_prob_b_prev` and `log_prob_nb_prev` equal to its former
`log_prob_b_cur` and `log_prob_nb_cur`, both `_cur` members at minus infinity,
`score = log_sum_exp(log_prob_b_prev, log_prob_nb_prev)` and every other data
member as before; a tombstoned node has every data member as before; and every
child list holds the same symbols in the same order. -/
theorem iterate_to_vec_spec (V : Nat) (root : PathTrie) (output : List Path)
    (hwf : root.children_.WF V) :
    (root.iterate_to_vec [] output).2
        = output ++ ((root.preorder []).filter (fun x => x.2.exists_)).map Prod.fst
      ∧ (∀ q n, (q, n) ∈ root.preorder [] ↔ root.node? q = some n)
      ∧ (((root.preorder []).filter (fun x => x.2.exists_)).map Prod.fst).Nodup
      ∧ (∀ q, q ∈ ((root.preorder []).filter (fun x => x.2.exists_)).map Prod.fst
          ↔ root.isLive q = true)
      ∧ (∀ q, (root.iterate_to_vec [] output).1.node? q
          = (root.node? q).map (fun n =>
              if n.exists_ = true then
                { n with log_prob_b_prev := n.log_prob_b_cur,
                         log_prob_nb_prev := n.log_prob_nb_cur,
                         log_prob_b_cur := NEG_NUM_FLT_INF,
                         log_prob_nb_cur := NEG_NUM_FLT_INF,
                         score := log_sum_exp n.log_prob_b_cur n.log_prob_nb_cur }
              else n))
      ∧ (∀ q, ((root.iterate_to_vec [] output).1.at? q).map
            (fun x => x.children_.toList.map Prod.fst)
          = (root.at? q).map (fun x => x.children_.toList.map Prod.fst)) := by
  rw [PathTrie.iterate_to_vec_eq, ← PathTrie.live_paths_eq_filter]
  refine ⟨rfl, fun q n => PathTrie.mem_preorder V root hwf q n,
    PathTrie.nodup_live_paths V root hwf [], fun q => ?_, fun q => ?_, fun q => ?_⟩
  · rw [PathTrie.mem_live_paths V root hwf]
    simp
  · show root.rolled.node? q = _
    rw [node?_rolled]
    rfl
  · show (root.rolled.at? q).map _ = _
    rw [PathTrie.at?_rolled]
    cases root.at? q with
    | none => rfl
    | some x =>
      simp only [Option.map_some', PathTrie.rolled_children, Children.labels_rolled]

theorem iterate_to_vec_spec_witness :
    trie_with_tombstone.children_.WF 2
      ∧ (trie_with_tombstone.iterate_to_vec [] []).2 = [[], [0, 1]] :=
  ⟨⟨rfl, by decide, by decide, rfl, ⟨rfl, by decide, by decide, rfl, trivial, trivial⟩, trivial⟩,
    (iterate_to_vec_spec 2 trie_with_tombstone []
      ⟨rfl, by decide, by decide, rfl, ⟨rfl, by decide, by decide, rfl, trivial, trivial⟩,
        trivial⟩).1.trans rfl⟩

/-! ### Top-K pruning (C23) -/

/-- The removal loop over the pointers past position `K` of any arrangement of
the live prefixes: it ends without undefined behaviour and leaves live exactly
the first `K` entries. -/
theorem remove_past_beam (V K : Nat) (root : PathTrie) (hK : 1 ≤ K) (hwf : root.WF V)
    (prefixes : List Path) (hnd : prefixes.Nodup)
    (hmem : ∀ q, q ∈ prefixes ↔ root.isLive q = true) (hlen : K ≤ prefixes.length) :
    ∃ root1, remove_all (prefixes.drop K) root = Except.ok root1 ∧ root1.WF V
      ∧ root.Shrinks root1
      ∧ (∀ q, root1.isLive q = true ↔ q ∈ prefixes.take K)
      ∧ root1.liveCount = K := by
  have hsplit : (prefixes.take K ++ prefixes.drop K).Nodup := by
    rw [List.take_append_drop]; exact hnd
  rw [List.nodup_append] at hsplit
  have hne : prefixes.take K ≠ [] := by
    intro h
    have := congrArg List.length h
    rw [List.length_take, List.length_nil] at this
    omega
  obtain ⟨q1, hq1⟩ := List.exists_mem_of_ne_nil _ hne
  obtain ⟨root1, g1, g2, g3, g4, g5⟩ := remove_all_spec V (prefixes.drop K) root
    hwf.2 hsplit.2.1
    (fun p hp => (hmem p).1 (List.mem_of_mem_drop hp))
    ⟨q1, (hmem q1).1 (List.mem_of_mem_take hq1), fun h => hsplit.2.2 hq1 h⟩
  have hlive : ∀ q, root1.isLive q = true ↔ q ∈ prefixes.take K := by
    intro q
    rw [g4]
    constructor
    · intro hq
      simp only [Bool.and_eq_true, decide_eq_true_eq] at hq
      have : q ∈ prefixes.take K ++ prefixes.drop K := by
        rw [List.take_append_drop]
        exact (hmem q).2 hq.1
      rcases List.mem_append.1 this with h | h
      · exact h
      · exact absurd h hq.2
    · intro hq
      rw [(hmem q).1 (List.mem_of_mem_take hq)]
      simp only [Bool.true_and, decide_eq_true_eq]
      exact fun h => hsplit.2.2 hq h
  refine ⟨root1, g1, ⟨g3.trans hwf.1, g2⟩, g5, hlive, ?_⟩
  rw [liveCount_eq_length V root1 g2 (prefixes.take K) hsplit.1 (fun q => (hlive q).symm),
    List.length_take]
  omega

theorem BeamInv.liveCount_le (V K : Nat) (st : PathTrie × List Path) (h : BeamInv V K st) :
    1 ≤ st.1.liveCount ∧ st.1.liveCount ≤ K := by
  rw [liveCount_eq_length V st.1 h.1.2 (st.2.take K) h.2.1 h.2.2.1]
  constructor
  · cases hl : st.2.take K with
    | nil => exact absurd hl h.2.2.2
    | cons _ _ => simp
  · rw [List.length_take]
    exact min_le_left _ _

/-- The roll-and-prune block on a well-formed trie with a live node, for a
beam size `K ≥ 1`. -/
theorem roll_and_prune_top_k (V K : Nat) (root : PathTrie) (hK : 1 ≤ K) (h : StateOK V root) :
    ∃ st, roll_and_prune K root = Except.ok st
      ∧ st.2.Perm (root.iterate_to_vec [] []).2
      ∧ st.1.liveCount = min K (root.iterate_to_vec [] []).2.length
      ∧ st.1.liveCount ≤ K
      ∧ (∀ q, st.1.isLive q = true ↔ q ∈ st.2.take K)
      ∧ (∀ r ∈ st.2.drop K, st.1.isLive r = false)
      ∧ (∀ k ∈ st.2.take K, st.1.node? k = (root.iterate_to_vec [] []).1.node? k)
      ∧ (∀ r ∈ st.2.drop K, ∀ k ∈ st.2.take K,
          prefix_compare_at (root.iterate_to_vec [] []).1 r k = false) := by
  have hwf := h.1
  have hnd := PathTrie.nodup_live_paths V root hwf.2 []
  simp only [PathTrie.iterate_to_vec_eq, List.nil_append]
  obtain ⟨st, h1, hinv, hshr, hperm⟩ := roll_and_prune_spec V K root hK h
  have hpre := roll_and_prune_prefixes K root st h1
  have hnd2 : st.2.Nodup := hperm.nodup_iff.2 hnd
  have hsplit : (st.2.take K ++ st.2.drop K).Nodup := by
    rw [List.take_append_drop]; exact hnd2
  rw [List.nodup_append] at hsplit
  have hcount : st.1.liveCount = min K (root.live_paths []).length := by
    rw [liveCount_eq_length V st.1 hinv.1.2 (st.2.take K) hinv.2.1 hinv.2.2.1,
      List.length_take, hperm.length_eq]
  refine ⟨st, h1, hperm, hcount, ?_, fun q => (hinv.2.2.1 q).symm, ?_, ?_, ?_⟩
  · rw [hcount]; exact min_le_left _ _
  · intro r hr
    cases hl : st.1.isLive r with
    | false => rfl
    | true => exact absurd hr (hsplit.2.2 ((hinv.2.2.1 r).2 hl))
  · intro k hk
    exact PathTrie.Shrinks.node?_eq_of_isLive _ _ hshr k ((hinv.2.2.1 k).1 hk)
  · intro r hr k hk
    by_cases hn : (root.live_paths []).length ≥ K
    · rw [if_pos hn] at hpre
      unfold std_nth_element at hpre
      by_cases hle : (root.live_paths []).length ≤ K
      · have : st.2.drop K = [] := by
          apply List.drop_of_length_le
          rw [hperm.length_eq]; exact hle
        rw [this] at hr
        cases hr
      · rw [if_neg hle] at hpre
        have hs := sorted_std_sort_prefix_compare root.rolled (root.live_paths [])
        rw [← hpre, ← List.take_append_drop K st.2, List.pairwise_append] at hs
        exact hs.2.2 k hk r hr
    · have : st.2.drop K = [] := by
        apply List.drop_of_length_le
        rw [hperm.length_eq]; omega
      rw [this] at hr
      cases hr

/-- C23: top-K pruning, for a beam size `K ≥ 1`.  First part: the
roll-and-prune block at the end of a frame, on a well-formed trie with a live
node (what the loops of a frame leave in both decoders).  Let `n` be the number
of pointers `iterate_to_vec` puts in `prefixes`.  The block ends without
undefined behaviour; `prefixes` is then an arrangement of those `n` pointers;
the trie has `min(K, n)` live nodes, at most `K`; the live nodes are exactly the
first `K` entries of `prefixes` (the kept prefixes, each with the data members
the roll gave it) and the entries past position `K` (the removed prefixes) are
not live; and for no removed prefix `r` and kept prefix `k` does
`prefix_compare(r, k)` hold.  Second part: the count does not depend on the
arrangement `std::nth_element` chooses: for every arrangement of the `n`
pointers, `n ≥ K`, the removal loop leaves live exactly the first `K` entries.
Third and fourth part: after the last frame of the loop over time of
`ctc_beam_search_decoder`, and of a `decode` call in every state a `BeamDecoder`
reaches, the trie has at least one and at most `K` live nodes, for every
well-shaped frame sequence. -/
theorem top_k_pruning :
    (∀ (V K : Nat) (root : PathTrie), 1 ≤ K → StateOK V root →
      ∃ st, roll_and_prune K root = Except.ok st
        ∧ st.2.Perm (root.iterate_to_vec [] []).2
        ∧ st.1.liveCount = min K (root.iterate_to_vec [] []).2.length
        ∧ st.1.liveCount ≤ K
        ∧ (∀ q, st.1.isLive q = true ↔ q ∈ st.2.take K)
        ∧ (∀ r ∈ st.2.drop K, st.1.isLive r = false)
        ∧ (∀ k ∈ st.2.take K, st.1.node? k = (root.iterate_to_vec [] []).1.node? k)
        ∧ (∀ r ∈ st.2.drop K, ∀ k ∈ st.2.take K,
            prefix_compare_at (root.iterate_to_vec [] []).1 r k = false))
    ∧ (∀ (V K : Nat) (root : PathTrie) (prefixes : List Path), 1 ≤ K → StateOK V root →
        prefixes.Perm (root.iterate_to_vec [] []).2 → K ≤ prefixes.length →
        ∃ root1, remove_all (prefixes.drop K) (root.iterate_to_vec [] []).1 = Except.ok root1
          ∧ (∀ q, root1.isLive q = true ↔ q ∈ prefixes.take K)
          ∧ root1.liveCount = K)
    ∧ (∀ (probs_seq : List (List ℚ)) (vocabulary : List String) (K : Nat) (cutoff_prob : ℚ)
        (cutoff_top_n : Nat) (ext_scorer : Option Scorer),
        shape_ok probs_seq (vocabulary.length + 1) = true → 1 ≤ K →
        ∃ st, one_shot_loop probs_seq vocabulary K cutoff_prob cutoff_top_n ext_scorer
            = Except.ok st ∧ 1 ≤ st.1.liveCount ∧ st.1.liveCount ≤ K)
    ∧ (∀ (d : BeamDecoder) (probs_seq : List (List ℚ)),
        d.Reachable → shape_ok probs_seq d.vocabulary.length = true → 1 ≤ d.beam_size →
        (d.ext_scorer = none ∨ d.vocabulary ≠ []) →
        ∃ st, d.loop probs_seq = Except.ok st ∧ 1 ≤ st.1.liveCount
          ∧ st.1.liveCount ≤ d.beam_size) := by
  refine ⟨fun V K root hK h => roll_and_prune_top_k V K root hK h,
    fun V K root prefixes hK h hperm hlen => ?_,
    fun probs_seq vocabulary K cutoff_prob cutoff_top_n ext_scorer hshape hK => ?_,
    fun d probs_seq hr hshape hK hs => ?_⟩
  · have hwf := h.1
    have hnd := PathTrie.nodup_live_paths V root hwf.2 []
    have hmem : ∀ q, q ∈ root.live_paths [] ↔ root.rolled.isLive q = true := by
      intro q
      rw [PathTrie.mem_live_paths V root hwf.2, PathTrie.isLive_rolled]
      simp
    simp only [PathTrie.iterate_to_vec_eq, List.nil_append] at hperm ⊢
    obtain ⟨root1, g1, _, _, g4, g5⟩ := remove_past_beam V K root.rolled hK
      (PathTrie.WF_rolled V root hwf) prefixes
      (hperm.nodup_iff.2 hnd) (fun q => by rw [hperm.mem_iff]; exact hmem q) hlen
    exact ⟨root1, g1, g4, g5⟩
  · obtain ⟨st, h1, h2⟩ := one_shot_loop_inv probs_seq vocabulary K cutoff_prob cutoff_top_n
      ext_scorer hshape hK
    exact ⟨st, h1, BeamInv.liveCount_le _ _ st h2⟩
  · obtain ⟨st, h1, h2⟩ := BeamDecoder.loop_inv d probs_seq hshape hK
      (BeamDecoder.reachable_inv d hr hK hs)
    exact ⟨st, h1, BeamInv.liveCount_le _ _ st h2⟩

theorem top_k_pruning_witness :
    (1 ≤ 2 ∧ StateOK 2 trie_three_live
      ∧ ∃ st, roll_and_prune 2 trie_three_live = Except.ok st ∧ st.1.liveCount = 2)
    ∧ (shape_ok [[1/5, 1/2, 3/10], [1/5, 1/2, 3/10]] (["a", "b"].length + 1) = true ∧ 1 ≤ 2
      ∧ ∃ st, one_shot_loop [[1/5, 1/2, 3/10], [1/5, 1/2, 3/10]] ["a", "b"] 2 1 40 none
          = Except.ok st ∧ 1 ≤ st.1.liveCount ∧ st.1.liveCount ≤ 2) :=
  ⟨⟨by decide, ⟨⟨rfl, rfl, by decide, by decide, rfl, trivial,
        rfl, by decide, by decide, rfl, trivial, trivial⟩, [], rfl⟩,
      (top_k_pruning.1 2 2 trie_three_live (by decide)
        ⟨⟨rfl, rfl, by decide, by decide, rfl, trivial,
          rfl, by decide, by decide, rfl, trivial, trivial⟩, [], rfl⟩).imp
        (fun _ hst => ⟨hst.1, hst.2.2.1.trans rfl⟩)⟩,
    ⟨by decide!, by decide,
      top_k_pruning.2.2.1 [[1/5, 1/2, 3/10], [1/5, 1/2, 3/10]] ["a", "b"] 2 1 40 none
        (by decide!) (by decide)⟩⟩

/-! ### No tombstoned node is a leaf (C24) -/

theorem Children.size_update (cs : Children) (c : Int) (f : PathTrie → PathTrie) :
    (cs.update c f).size = cs.size := by
  induction cs with
  | nil => rfl
  | cons first second kids rest _ ih =>
    by_cases h : first = c
    · simp [Children.update, h, Children.size]
    · simp [Children.update, h, Children.size, ih]

theorem Children.size_push_back (cs : Children) (c : Int) (t : PathTrie) :
    (cs.push_back c t).size = cs.size + 1 := by
  induction cs with
  | nil => rfl
  | cons first second kids rest _ ih => simp [Children.push_back, Children.size, ih]

theorem Children.size_rolled (cs : Children) : cs.rolled.size = cs.size := by
  induction cs with
  | nil => rfl
  | cons first second kids rest _ ih => simp [Children.rolled, Children.size, ih]

/-- The property, node by node: it holds of the node itself and of the trie
below each child. -/
theorem NoTombstonedLeaf_iff (t : PathTrie) :
    NoTombstonedLeaf t ↔
      (t.node.exists_ = false → t.children_.size ≠ 0)
        ∧ ∀ c child, t.children_.find? c = some child → NoTombstonedLeaf child := by
  constructor
  · intro h
    refine ⟨h [] t rfl, fun c child hc q x hx => h (c :: q) x ?_⟩
    rw [PathTrie.at?_cons, hc]
    exact hx
  · rintro ⟨h1, h2⟩ q x hx
    cases q with
    | nil =>
      cases hx
      exact h1
    | cons c r =>
      rw [PathTrie.at?_cons] at hx
      cases hc : t.children_.find? c with
      | none => rw [hc] at hx; cases hx
      | some child =>
        rw [hc] at hx
        exact h2 c child hc r x hx

/-- A write to data members other than `exists_` and the child list keeps the
property. -/
theorem NoTombstonedLeaf_of_fields (t t' : PathTrie) (h : NoTombstonedLeaf t)
    (he : t'.node.exists_ = true ∨ t'.node.exists_ = t.node.exists_)
    (hc : t'.children_ = t.children_) : NoTombstonedLeaf t' := by
  rw [NoTombstonedLeaf_iff] at h ⊢
  rw [hc]
  refine ⟨fun hf => ?_, h.2⟩
  rcases he with he | he
  · rw [he] at hf; cases hf
  · exact h.1 (he ▸ hf)

theorem NoTombstonedLeaf_update (p : Path) (f : PathTrie → PathTrie)
    (hf : ∀ x, NoTombstonedLeaf x → NoTombstonedLeaf (f x)) :
    ∀ t : PathTrie, NoTombstonedLeaf t → NoTombstonedLeaf (t.update p f) := by
  induction p with
  | nil => intro t h; exact hf t h
  | cons c p ih =>
    intro t h
    rw [PathTrie.update_cons, NoTombstonedLeaf_iff]
    rw [NoTombstonedLeaf_iff] at h
    refine ⟨fun he => ?_, fun c' child hc' => ?_⟩
    · show (t.children_.update c _).size ≠ 0
      rw [Children.size_update]
      exact h.1 he
    · have hc'' : (t.children_.update c (fun child => child.update p f)).find? c'
          = some child := hc'
      by_cases hcc : c' = c
      · subst hcc
        rw [Children.find?_update_self] at hc''
        cases hx : t.children_.find? c' with
        | none => rw [hx] at hc''; cases hc''
        | some x =>
          rw [hx] at hc''
          cases hc''
          exact ih x (h.2 c' x hx)
      · rw [Children.find?_update_ne _ _ _ _ hcc] at hc''
        exact h.2 c' child hc''

theorem NoTombstonedLeaf_push_back (t : PathTrie) (c : Int) (x : PathTrie)
    (h : NoTombstonedLeaf t) (hx : NoTombstonedLeaf x) (hnone : t.children_.find? c = none) :
    NoTombstonedLeaf ⟨t.node, t.children_.push_back c x⟩ := by
  rw [NoTombstonedLeaf_iff] at h ⊢
  refine ⟨fun _ => ?_, fun c' child hc' => ?_⟩
  · show (t.children_.push_back c x).size ≠ 0
    rw [Children.size_push_back]
    omega
  · have hc'' : (t.children_.push_back c x).find? c' = some child := hc'
    by_cases hcc : c' = c
    · subst hcc
      rw [Children.find?_push_back_self _ _ _ hnone] at hc''
      cases hc''
      exact hx
    · rw [Children.find?_push_back_ne _ _ _ _ hcc] at hc''
      exact h.2 c' child hc''

theorem NoTombstonedLeaf_new_child (n : Node) (c : Int) (reset : Bool) (x : PathTrie)
    (h : new_child? n c reset = some x) : NoTombstonedLeaf x := by
  have hx : x.node.exists_ = true ∧ x.children_ = Children.nil := by
    unfold new_child? at h
    by_cases hd : n.has_dictionary_ = true
    · rw [if_pos hd] at h
      cases hdd : n.dictionary_ with
      | none => simp only [hdd] at h; cases h
      | some dictionary =>
        cases hm : n.matcher_ with
        | none => simp only [hdd, hm] at h; cases h
        | some matcher =>
          simp only [hdd, hm] at h
          split at h
          · cases h
          · injection h with h
            subst h
            exact ⟨rfl, rfl⟩
    · rw [if_neg hd] at h
      injection h with h
      subst h
      exact ⟨rfl, rfl⟩
  rw [NoTombstonedLeaf_iff]
  refine ⟨fun hf => ?_, fun c' child hc' => ?_⟩
  · rw [hx.1] at hf; cases hf
  · rw [hx.2] at hc'
    cases hc'

theorem get_path_trie_NoTombstonedLeaf (this t : PathTrie) (c : Int) (reset : Bool)
    (h : NoTombstonedLeaf this) (ht : this.get_path_trie c reset = some t) :
    NoTombstonedLeaf t := by
  rw [PathTrie.get_path_trie_eq] at ht
  cases hf : this.children_.find? c with
  | some child =>
    rw [hf] at ht
    simp only [Option.some.injEq] at ht
    subst ht
    by_cases hd : child.node.exists_ = false
    · rw [if_pos hd]
      have := NoTombstonedLeaf_update [c] PathTrie.revive
        (fun x hx => NoTombstonedLeaf_of_fields x _ hx (Or.inl rfl) rfl) this h
      exact this
    · rw [if_neg hd]
      exact h
  | none =>
    rw [hf] at ht
    simp only [Option.map_eq_some'] at ht
    obtain ⟨x, hx, rfl⟩ := ht
    exact NoTombstonedLeaf_push_back this c x h (NoTombstonedLeaf_new_child _ _ _ _ hx) hf

/-- The loop body keeps the property: it creates live nodes, revives
tombstoned ones and writes probabilities and offsets. -/
theorem expand_NoTombstonedLeaf (blank_id c : Nat) (log_prob_c : LogProb) (reset : Bool)
    (lm : Node → LogProb → LogProb) (offset : Option Nat) (pre : PathTrie)
    (h : NoTombstonedLeaf pre) :
    NoTombstonedLeaf (expand blank_id c log_prob_c reset lm offset pre) := by
  by_cases hc : c = blank_id
  · rw [expand_of_blank _ _ _ _ _ _ _ hc]
    exact NoTombstonedLeaf_of_fields pre _ h (Or.inr rfl) rfl
  · rw [expand_of_ne _ _ _ _ _ _ _ hc]
    have ha : NoTombstonedLeaf (after_repeat c log_prob_c pre) :=
      NoTombstonedLeaf_of_fields pre _ h (Or.inr (after_repeat_exists _ _ _))
        (after_repeat_children _ _ _)
    cases hg : (after_repeat c log_prob_c pre).get_path_trie c reset with
    | none => exact ha
    | some pre2 =>
      have h2 := get_path_trie_NoTombstonedLeaf _ pre2 c reset ha hg
      exact NoTombstonedLeaf_update [(c : Int)]
        (write_new offset (lm pre.node (new_log_p c log_prob_c pre.node)))
        (fun x hx => NoTombstonedLeaf_of_fields x _ hx (Or.inr rfl) rfl) pre2 h2

theorem expand_prefixes_NoTombstonedLeaf (stop : Node → Bool)
    (body : Path → PathTrie → PathTrie)
    (hbody : ∀ p x, NoTombstonedLeaf x → NoTombstonedLeaf (body p x)) (beam : List Path) :
    ∀ root : PathTrie, NoTombstonedLeaf root →
      NoTombstonedLeaf (expand_prefixes stop body beam root) := by
  induction beam with
  | nil => intro root h; exact h
  | cons p rest ih =>
    intro root h
    unfold expand_prefixes
    split_ifs
    · exact h
    · exact ih _ (NoTombstonedLeaf_update p (body p) (hbody p) root h)

theorem expand_symbols_NoTombstonedLeaf (stop : Nat × LogProb → Node → Bool)
    (body : Nat × LogProb → Path → PathTrie → PathTrie)
    (hbody : ∀ s p x, NoTombstonedLeaf x → NoTombstonedLeaf (body s p x)) (beam : List Path)
    (symbols : List (Nat × LogProb)) :
    ∀ root : PathTrie, NoTombstonedLeaf root →
      NoTombstonedLeaf (expand_symbols stop body beam symbols root) := by
  induction symbols with
  | nil => intro root h; exact h
  | cons s rest ih =>
    intro root h
    unfold expand_symbols
    exact ih _ (expand_prefixes_NoTombstonedLeaf (stop s) (body s) (hbody s) beam root h)

theorem NoTombstonedLeaf_rolled (t : PathTrie) (h : NoTombstonedLeaf t) :
    NoTombstonedLeaf t.rolled := by
  intro q x hx he
  rw [PathTrie.at?_rolled] at hx
  cases hy : t.at? q with
  | none => rw [hy] at hx; cases hx
  | some y =>
    rw [hy] at hx
    cases hx
    rw [PathTrie.rolled_children, Children.size_rolled]
    rw [PathTrie.rolled_exists] at he
    exact h q y hy he

theorem NoTombstonedLeaf_init_root (ext_scorer : Option Scorer) :
    NoTombstonedLeaf (init_root ext_scorer) := by
  rw [NoTombstonedLeaf_iff]
  refine ⟨fun hf => ?_, fun c child hc => ?_⟩
  · have := init_root_isLive ext_scorer
    rw [PathTrie.isLive_nil, hf] at this
    cases this
  · rw [init_root_children] at hc
    cases hc

/-- A write that keeps the child list of the node it is applied to: every
node keeps its number of children, and every node but the written one its data
members. -/
theorem at?_update_keep_children (t : PathTrie) (p : Path) (f : PathTrie → PathTrie)
    (hf : ∀ x, (f x).children_ = x.children_) (q : Path) (x' : PathTrie)
    (h : (t.update p f).at? q = some x') :
    ∃ x, t.at? q = some x ∧ x'.children_.size = x.children_.size
      ∧ x'.node = (if q = p then (f x).node else x.node) := by
  rcases Path.trichotomy p q with ⟨r, rfl⟩ | ⟨c, r, rfl⟩ | ⟨h1, h2⟩
  · rw [PathTrie.at?_update_append] at h
    rw [PathTrie.at?_append]
    cases hy : t.at? p with
    | none => rw [hy] at h; cases h
    | some y =>
      rw [hy] at h
      simp only [Option.some_bind] at h ⊢
      cases r with
      | nil =>
        rw [PathTrie.at?_nil] at h
        cases h
        refine ⟨y, rfl, by rw [hf], ?_⟩
        simp
      | cons d r =>
        rw [PathTrie.at?_cons, hf] at h
        refine ⟨x', ?_, rfl, ?_⟩
        · rw [PathTrie.at?_cons]; exact h
        · rw [if_neg]
          intro e
          have := congrArg List.length e
          simp at this
  · rw [PathTrie.at?_update_above] at h
    cases hy : t.at? q with
    | none => rw [hy] at h; cases h
    | some y =>
      rw [hy] at h
      cases h
      refine ⟨y, rfl, ?_, ?_⟩
      · show (y.update (c :: r) f).children_.size = _
        rw [PathTrie.update_cons]
        exact Children.size_update _ _ _
      · rw [if_neg]
        · exact PathTrie.update_node_of_ne_nil _ _ _ _
        · intro e
          have := congrArg List.length e
          simp at this
  · rw [PathTrie.at?_update_off _ _ _ _ h1 h2] at h
    refine ⟨x', h, rfl, ?_⟩
    rw [if_neg]
    intro e
    exact h1 (e ▸ List.prefix_refl _)

/-- Erasing the child labelled `c` of the node at `parent`: every node that is
left keeps its data members, and every node but the one at `parent` its number
of children. -/
theorem at?_update_erase (V : Nat) (t : PathTrie) (parent : Path) (c : Int)
    (hwf : t.children_.WF V) (q : Path) (x' : PathTrie)
    (h : (t.update parent (fun y => { y with children_ := y.children_.erase c })).at? q
      = some x') :
    ∃ x, t.at? q = some x ∧ x'.node = x.node
      ∧ (q ≠ parent → x'.children_.size = x.children_.size) := by
  rcases Path.trichotomy parent q with ⟨r, rfl⟩ | ⟨d, r, rfl⟩ | ⟨h1, h2⟩
  · rw [PathTrie.at?_update_append] at h
    rw [PathTrie.at?_append]
    cases hy : t.at? parent with
    | none => rw [hy] at h; cases h
    | some y =>
      rw [hy] at h
      simp only [Option.some_bind] at h ⊢
      have hwy := PathTrie.WF_at? V t y parent hwf hy
      cases r with
      | nil =>
        rw [PathTrie.at?_nil] at h
        cases h
        exact ⟨y, rfl, rfl, fun hne => absurd (List.append_nil _) hne⟩
      | cons d r =>
        rw [PathTrie.at?_cons] at h
        by_cases hd : d = c
        · subst hd
          simp only [Children.find?_erase_self V _ _ hwy, Option.none_bind] at h
          cases h
        · simp only [Children.find?_erase_ne _ _ _ hd] at h
          refine ⟨x', ?_, rfl, fun _ => rfl⟩
          rw [PathTrie.at?_cons]
          exact h
  · rw [PathTrie.at?_update_above] at h
    cases hy : t.at? q with
    | none => rw [hy] at h; cases h
    | some y =>
      rw [hy] at h
      cases h
      refine ⟨y, rfl, PathTrie.update_node_of_ne_nil _ _ _ _, fun _ => ?_⟩
      show (y.update (d :: r) _).children_.size = _
      rw [PathTrie.update_cons]
      exact Children.size_update _ _ _
  · rw [PathTrie.at?_update_off _ _ _ _ h1 h2] at h
    exact ⟨x', h, rfl, fun _ => rfl⟩

theorem PathTrie.at?_snoc (t this : PathTrie) (p : Path) (c : Int)
    (h : t.at? (p ++ [c]) = some this) :
    ∃ par, t.at? p = some par ∧ par.children_.find? c = some this := by
  rw [PathTrie.at?_append] at h
  cases hpar : t.at? p with
  | none => rw [hpar] at h; cases h
  | some par =>
    rw [hpar] at h
    simp only [Option.some_bind, PathTrie.at?_cons] at h
    cases hf : par.children_.find? c with
    | none => rw [hf] at h; cases h
    | some z =>
      rw [hf] at h
      simp only [Option.some_bind, PathTrie.at?_nil] at h
      cases h
      exact ⟨par, rfl, hf⟩

/-- The method `remove()`: if no tombstoned node other than the one the
method is called on is a leaf, no tombstoned node is a leaf after the call. -/
theorem PathTrie.remove_rev_NoTombstonedLeaf (V : Nat) :
    ∀ (rp : List Int) (root root' : PathTrie), root.children_.WF V →
      (∀ q x, q ≠ rp.reverse → root.at? q = some x → x.node.exists_ = false →
        x.children_.size ≠ 0) →
      PathTrie.remove_rev rp root = Except.ok root' → NoTombstonedLeaf root' := by
  intro rp
  induction rp with
  | nil =>
    intro root root' _ hex h
    rw [PathTrie.remove_rev] at h
    by_cases hsize : root.children_.size = 0
    · rw [if_pos hsize] at h; cases h
    · rw [if_neg hsize] at h
      injection h with h
      subst h
      intro q x' hx' he
      cases q with
      | nil =>
        cases hx'
        exact hsize
      | cons c r => exact hex (c :: r) x' (by simp) hx' he
  | cons c rparent ih =>
    intro root root' hwf hex h
    have hp : (c :: rparent).reverse = rparent.reverse ++ [c] := by simp
    cases hthis : root.at? (c :: rparent).reverse with
    | none =>
      rw [PathTrie.remove_rev] at h
      simp only [hthis] at h
      cases h
    | some this =>
      have hwf1 : (root.update (c :: rparent).reverse tombstone).children_.WF V :=
        (PathTrie.WF_update V root (c :: rparent).reverse tombstone hwf
          (fun x hx => ⟨rfl, hx⟩)).2
      -- the nodes of the trie after the write `exists_ = false`
      have h1 : ∀ q x1, (root.update (c :: rparent).reverse tombstone).at? q = some x1 →
          x1.node.exists_ = false → q ≠ (c :: rparent).reverse → x1.children_.size ≠ 0 := by
        intro q x1 hx1 he hq
        obtain ⟨x0, g1, g2, g3⟩ := at?_update_keep_children root _ tombstone (fun _ => rfl)
          q x1 hx1
        rw [if_neg hq] at g3
        rw [g2]
        exact hex q x0 hq g1 (g3 ▸ he)
      by_cases hsize : this.children_.size = 0
      · have hnil := Children.size_eq_zero _ hsize
        obtain ⟨par, hpar, hfind⟩ := PathTrie.at?_snoc root this rparent.reverse c (hp ▸ hthis)
        have hchar : this.node.character = c :=
          (Children.WF_find? V _ _ _ (PathTrie.WF_at? V root par _ hwf hpar) hfind).1
        have hthis1 : (root.update (c :: rparent).reverse tombstone).at?
            (rparent.reverse ++ [c]) = some (tombstone this) := by
          rw [← hp, PathTrie.at?_update_self, hthis]; rfl
        have hn2 := PathTrie.node?_update_erase V _ rparent.reverse c (tombstone this)
          hwf1 hthis1 hnil
        have hwf2 := PathTrie.WF_update V (root.update (c :: rparent).reverse tombstone)
          rparent.reverse (fun y => { y with children_ := y.children_.erase c }) hwf1
          (fun x hx => ⟨rfl, Children.WF_erase V _ _ hx⟩)
        have h2 : ∀ q x2, ((root.update (c :: rparent).reverse tombstone).update
            rparent.reverse (fun y => { y with children_ := y.children_.erase c })).at? q
              = some x2 →
            x2.node.exists_ = false → q ≠ rparent.reverse → x2.children_.size ≠ 0 := by
          intro q x2 hx2 he hq
          have hq' : q ≠ (c :: rparent).reverse := by
            intro e
            have := hn2 q
            rw [← hp, if_pos e] at this
            unfold PathTrie.node? at this
            rw [hx2] at this
            cases this
          obtain ⟨x1, g1, g2, g3⟩ := at?_update_erase V _ rparent.reverse c hwf1 q x2 hx2
          rw [g3 hq]
          exact h1 q x1 g1 (g2 ▸ he) hq'
        generalize hroot2 : (root.update (c :: rparent).reverse tombstone).update
          rparent.reverse (fun y => { y with children_ := y.children_.erase c }) = root2
          at h2 hwf2
        have hpar2 : ∃ par2, root2.at? rparent.reverse = some par2 := by
          rw [← hroot2, PathTrie.at?_update_self]
          have := PathTrie.at?_update_above root rparent.reverse c [] tombstone
          rw [← hp] at this
          rw [this, hpar]
          exact ⟨_, rfl⟩
        obtain ⟨par2, hpar2⟩ := hpar2
        have hrem : PathTrie.remove_rev (c :: rparent) root
            = if par2.children_.size = 0 ∧ par2.node.exists_ = false then
                PathTrie.remove_rev rparent root2
              else Except.ok root2 := by
          rw [PathTrie.remove_rev]
          simp only [hthis, hsize, if_true, hchar]
          have e : (root.update (c :: rparent).reverse
              (fun t => { t with node := { t.node with exists_ := false } })).update
              rparent.reverse (fun parent => { parent with children_ := parent.children_.erase c })
              = root2 := hroot2
          rw [e, hpar2]
        rw [hrem] at h
        by_cases hcas : par2.children_.size = 0 ∧ par2.node.exists_ = false
        · rw [if_pos hcas] at h
          exact ih root2 root' hwf2.2 (fun q x hq hx he => h2 q x hx he hq) h
        · rw [if_neg hcas] at h
          injection h with h
          subst h
          intro q x2 hx2 he
          by_cases hq : q = rparent.reverse
          · subst hq
            rw [hpar2] at hx2
            cases hx2
            intro hs
            exact hcas ⟨hs, he⟩
          · exact h2 q x2 hx2 he hq
      · have hrem : PathTrie.remove_rev (c :: rparent) root
            = Except.ok (root.update (c :: rparent).reverse tombstone) := by
          rw [PathTrie.remove_rev]
          simp only [hthis, hsize, if_false]
          rfl
        rw [hrem] at h
        injection h with h
        subst h
        intro q x1 hx1 he
        by_cases hq : q = (c :: rparent).reverse
        · obtain ⟨x0, g1, g2, _⟩ := at?_update_keep_children root _ tombstone (fun _ => rfl)
            q x1 hx1
          rw [hq, hthis] at g1
          cases g1
          rw [g2]
          exact hsize
        · exact h1 q x1 hx1 he hq

theorem remove_all_NoTombstonedLeaf (V : Nat) :
    ∀ (l : List Path) (root root' : PathTrie), root.children_.WF V → l.Nodup →
      (∀ p ∈ l, root.isLive p = true) → (∃ q, root.isLive q = true ∧ q ∉ l) →
      NoTombstonedLeaf root → remove_all l root = Except.ok root' →
      NoTombstonedLeaf root' := by
  intro l
  induction l with
  | nil =>
    intro root root' _ _ _ _ hno h
    cases h
    exact hno
  | cons p rest ih =>
    intro root root' hwf hnd hlive ⟨q0, hq0, hq0l⟩ hno h
    have hp_live := hlive p (List.mem_cons_self _ _)
    have hvalid : (root.at? p.reverse.reverse).isSome = true := by
      rw [List.reverse_reverse]
      exact at?_isSome_of_isLive root p hp_live
    have hq0p : q0 ≠ p := fun h => hq0l (h ▸ List.mem_cons_self _ _)
    obtain ⟨root1, h1, h2, _, h4, _⟩ := PathTrie.remove_rev_spec V p.reverse root hwf hvalid
      ⟨q0, hq0, by rw [List.reverse_reverse]; exact hq0p⟩
    rw [List.reverse_reverse] at h4
    have hno1 := PathTrie.remove_rev_NoTombstonedLeaf V p.reverse root root1 hwf
      (fun q x _ hx he => hno q x hx he) h1
    have hnd' := List.nodup_cons.1 hnd
    unfold remove_all PathTrie.remove at h
    rw [h1] at h
    exact ih root1 root' h2 hnd'.2
      (fun p' hp' => by
        rw [h4, hlive p' (List.mem_cons_of_mem _ hp')]
        have : p' ≠ p := fun h => hnd'.1 (h ▸ hp')
        simp [this])
      ⟨q0, by rw [h4, hq0]; simp [hq0p], fun h => hq0l (List.mem_cons_of_mem _ h)⟩
      hno1 h

/-- The roll-and-prune block keeps the property. -/
theorem roll_and_prune_NoTombstonedLeaf (V K : Nat) (root : PathTrie) (hK : 1 ≤ K)
    (h : StateOK V root) (hno : NoTombstonedLeaf root) (st : PathTrie × List Path)
    (hst : roll_and_prune K root = Except.ok st) : NoTombstonedLeaf st.1 := by
  obtain ⟨hwf, q0, hq0⟩ := h
  have hwfr := PathTrie.WF_rolled V root hwf
  have hnd := PathTrie.nodup_live_paths V root hwf.2 []
  have hmem : ∀ q, q ∈ root.live_paths [] ↔ root.rolled.isLive q = true := by
    intro q
    rw [PathTrie.mem_live_paths V root hwf.2, PathTrie.isLive_rolled]
    simp
  have hnor := NoTombstonedLeaf_rolled root hno
  unfold roll_and_prune at hst
  simp only [PathTrie.iterate_to_vec_eq, List.nil_append] at hst
  by_cases hn : (root.live_paths []).length ≥ K
  · rw [if_pos hn] at hst
    generalize hpre : std_nth_element (prefix_compare_at root.rolled) K (root.live_paths [])
      = prefixes at hst
    have hperm : prefixes.Perm (root.live_paths []) := by
      rw [← hpre]; exact perm_std_nth_element _ _ _
    have hnd' : prefixes.Nodup := hperm.nodup_iff.2 hnd
    have hsplit : (prefixes.take K ++ prefixes.drop K).Nodup := by
      rw [List.take_append_drop]; exact hnd'
    rw [List.nodup_append] at hsplit
    have hlen : prefixes.length ≥ K := by rw [hperm.length_eq]; exact hn
    have hne : prefixes.take K ≠ [] := by
      intro h
      have := congrArg List.length h
      rw [List.length_take, List.length_nil] at this
      omega
    obtain ⟨q1, hq1⟩ := List.exists_mem_of_ne_nil _ hne
    cases hr : remove_all (prefixes.drop K) root.rolled with
    | error e => rw [hr] at hst; cases hst
    | ok root1 =>
      rw [hr] at hst
      injection hst with hst
      subst hst
      exact remove_all_NoTombstonedLeaf V (prefixes.drop K) root.rolled root1 hwfr.2 hsplit.2.1
        (fun p hp => (hmem p).1 (hperm.mem_iff.1 (List.mem_of_mem_drop hp)))
        ⟨q1, (hmem q1).1 (hperm.mem_iff.1 (List.mem_of_mem_take hq1)),
          fun h => hsplit.2.2 hq1 h⟩
        hnor hr
  · rw [if_neg hn] at hst
    injection hst with hst
    subst hst
    exact hnor

theorem frame_step_NoTombstonedLeaf (V K blank_id : Nat) (cutoff_prob : ℚ) (cutoff_top_n : Nat)
    (ext_scorer : Option Scorer) (body : Nat × LogProb → Path → PathTrie → PathTrie)
    (prob : List ℚ) (st : PathTrie × List Path) (hK : 1 ≤ K) (h : BeamInv V K st)
    (hbody : ∀ s ∈ get_pruned_log_probs prob cutoff_prob cutoff_top_n, ∀ p x,
      x.children_.WF V →
        (body s p x).node.character = x.node.character ∧ (body s p x).children_.WF V
          ∧ ∀ r, x.isLive r = true → (body s p x).isLive r = true)
    (hbody2 : ∀ s p x, NoTombstonedLeaf x → NoTombstonedLeaf (body s p x))
    (hno : NoTombstonedLeaf st.1) (st' : PathTrie × List Path)
    (hst : frame_step K blank_id cutoff_prob cutoff_top_n ext_scorer body prob st
      = Except.ok st') : NoTombstonedLeaf st'.1 := by
  have hok := BeamInv.stateOK V K st h
  unfold frame_step at hst
  cases hpre : pre_sort K blank_id ext_scorer prob st.1 st.2 with
  | error e => rw [hpre] at hst; cases hst
  | ok r =>
    obtain ⟨prefixes, min_cutoff, full_beam⟩ := r
    rw [hpre] at hst
    exact roll_and_prune_NoTombstonedLeaf V K _ hK
      (expand_symbols_StateOK V _ body _ hbody _ st.1 hok)
      (expand_symbols_NoTombstonedLeaf _ body hbody2 _ _ st.1 hno) st' hst

theorem time_loop_invariant (P : PathTrie × List Path → Prop)
    (step : Nat → List ℚ → PathTrie × List Path → Except DecodeError (PathTrie × List Path))
    (frames : List (List ℚ))
    (hstep : ∀ t, ∀ prob ∈ frames, ∀ st, P st → ∃ st', step t prob st = Except.ok st' ∧ P st') :
    ∀ (t : Nat) (st : PathTrie × List Path), P st →
      ∃ st', time_loop step frames t st = Except.ok st' ∧ P st' := by
  induction frames with
  | nil => intro t st h; exact ⟨st, rfl, h⟩
  | cons prob rest ih =>
    intro t st h
    obtain ⟨st1, h1, h2⟩ := hstep t prob (List.mem_cons_self _ _) st h
    obtain ⟨st', g1, g2⟩ := ih
      (fun t' prob' hp st'' => hstep t' prob' (List.mem_cons_of_mem _ hp) st'') (t + 1) st1 h2
    refine ⟨st', ?_, g2⟩
    unfold time_loop
    rw [h1]
    exact g1

/-- The loop over time of the one-shot decoder ends without undefined
behaviour, and no tombstoned node of the trie it leaves is a leaf. -/
theorem one_shot_loop_NoTombstonedLeaf (probs_seq : List (List ℚ)) (vocabulary : List String)
    (K : Nat) (cutoff_prob : ℚ) (cutoff_top_n : Nat) (ext_scorer : Option Scorer)
    (hshape : shape_ok probs_seq (vocabulary.length + 1) = true) (hK : 1 ≤ K) :
    ∃ st, one_shot_loop probs_seq vocabulary K cutoff_prob cutoff_top_n ext_scorer
        = Except.ok st ∧ BeamInv vocabulary.length K st ∧ NoTombstonedLeaf st.1 := by
  unfold one_shot_loop
  apply time_loop_invariant (fun st => BeamInv vocabulary.length K st ∧ NoTombstonedLeaf st.1)
    _ probs_seq _ 0 _
    ⟨init_BeamInv vocabulary.length K hK ext_scorer, NoTombstonedLeaf_init_root ext_scorer⟩
  intro t prob hprob st hst
  have hw := shape_ok_mem probs_seq _ hshape prob hprob
  have hbody : ∀ s ∈ get_pruned_log_probs prob cutoff_prob cutoff_top_n, ∀ p x,
      x.children_.WF vocabulary.length →
        (body_one_shot ext_scorer vocabulary s p x).node.character = x.node.character
          ∧ (body_one_shot ext_scorer vocabulary s p x).children_.WF vocabulary.length
          ∧ ∀ r, x.isLive r = true →
              (body_one_shot ext_scorer vocabulary s p x).isLive r = true := by
    intro s hs p x hx
    have := get_pruned_log_probs_index_lt prob cutoff_prob cutoff_top_n s hs
    exact body_one_shot_spec ext_scorer vocabulary s (by omega) p x hx
  obtain ⟨st', h1, h2⟩ := frame_step_inv vocabulary.length K vocabulary.length cutoff_prob
    cutoff_top_n ext_scorer _ prob st hK hst.1 (Or.inr (by omega)) hbody
  exact ⟨st', h1, h2, frame_step_NoTombstonedLeaf vocabulary.length K vocabulary.length
    cutoff_prob cutoff_top_n ext_scorer _ prob st hK hst.1 hbody
    (fun s p x hx => expand_NoTombstonedLeaf _ _ _ _ _ _ x hx) hst.2 st' h1⟩

/-- The loop over time of `decode` ends without undefined behaviour, and no
tombstoned node of the trie it leaves is a leaf. -/
theorem BeamDecoder.loop_NoTombstonedLeaf (d : BeamDecoder) (probs_seq : List (List ℚ))
    (hshape : shape_ok probs_seq d.vocabulary.length = true) (hK : 1 ≤ d.beam_size)
    (hinv : d.Inv) (hno : NoTombstonedLeaf d.root) :
    ∃ st, d.loop probs_seq = Except.ok st ∧ BeamInv d.vocabulary.length d.beam_size st
      ∧ NoTombstonedLeaf st.1 := by
  unfold BeamDecoder.loop
  apply time_loop_invariant
    (fun st => BeamInv d.vocabulary.length d.beam_size st ∧ NoTombstonedLeaf st.1)
    _ probs_seq _ 0 _ ⟨hinv.1, hno⟩
  intro t prob hprob st hst
  have hw := shape_ok_mem probs_seq _ hshape prob hprob
  have hbody : ∀ s ∈ get_pruned_log_probs prob d.cutoff_prob d.cutoff_top_n, ∀ p x,
      x.children_.WF d.vocabulary.length →
        (d.body t s p x).node.character = x.node.character
          ∧ (d.body t s p x).children_.WF d.vocabulary.length
          ∧ ∀ r, x.isLive r = true → (d.body t s p x).isLive r = true := by
    intro s hs p x hx
    have := get_pruned_log_probs_index_lt prob d.cutoff_prob d.cutoff_top_n s hs
    exact BeamDecoder.body_spec d t s (by omega) p x hx
  have hsc : d.ext_scorer = none ∨ d.blank_id < prob.length := by
    rcases hinv.2 with h | h
    · exact Or.inl h
    · exact Or.inr (by omega)
  obtain ⟨st', h1, h2⟩ := frame_step_inv d.vocabulary.length d.beam_size d.blank_id
    d.cutoff_prob d.cutoff_top_n d.ext_scorer _ prob st hK hst.1 hsc hbody
  exact ⟨st', h1, h2, frame_step_NoTombstonedLeaf d.vocabulary.length d.beam_size d.blank_id
    d.cutoff_prob d.cutoff_top_n d.ext_scorer _ prob st hK hst.1 hbody
    (fun s p x hx => expand_NoTombstonedLeaf _ _ _ _ _ _ x hx) hst.2 st' h1⟩

theorem BeamDecoder.decode_root (d : BeamDecoder) (probs_seq : List (List ℚ))
    (st : PathTrie × List Path) (hshape : shape_ok probs_seq d.vocabulary.length = true)
    (hst : d.loop probs_seq = Except.ok st) : (d.decode probs_seq).1.root = st.1 := by
  rw [BeamDecoder.decode_eq, if_neg (by rw [hshape]; simp), hst]
  obtain ⟨root, prefixes⟩ := st
  simp only
  split <;> rfl

/-- In every state of a streaming decoder with a beam size of at least one, no
tombstoned node of the trie is a leaf. -/
theorem BeamDecoder.reachable_NoTombstonedLeaf (d : BeamDecoder) (hr : d.Reachable) :
    1 ≤ d.beam_size → (d.ext_scorer = none ∨ d.vocabulary ≠ []) →
      NoTombstonedLeaf d.root := by
  induction hr with
  | new vocabulary beam_size cutoff_prob cutoff_top_n ext_scorer reset_default =>
    intro _ _
    exact NoTombstonedLeaf_init_root ext_scorer
  | decode d probs_seq hr ih =>
    intro hK hs
    have hspec := fun h1 h2 => BeamDecoder.decode_spec d probs_seq h1 h2
    by_cases hshape : shape_ok probs_seq d.vocabulary.length = false
    · have e : d.decode probs_seq = (d, Except.error DecodeError.check_failed) := by
        rw [BeamDecoder.decode_eq, if_pos hshape]
      rw [e] at hK hs ⊢
      exact ih hK hs
    · have hshape' : shape_ok probs_seq d.vocabulary.length = true := by
        cases h : shape_ok probs_seq d.vocabulary.length
        · exact absurd h hshape
        · rfl
      have hK' : 1 ≤ d.beam_size := by
        rw [BeamDecoder.decode_eq] at hK
        split_ifs at hK
        split at hK
        · exact hK
        · split at hK <;> exact hK
      have hs' : d.ext_scorer = none ∨ d.vocabulary ≠ [] := by
        rw [BeamDecoder.decode_eq] at hs
        split_ifs at hs
        split at hs
        · exact hs
        · split at hs <;> exact hs
      obtain ⟨st, h1, _, h3⟩ := BeamDecoder.loop_NoTombstonedLeaf d probs_seq hshape' hK'
        (BeamDecoder.reachable_inv d hr hK' hs') (ih hK' hs')
      rw [BeamDecoder.decode_root d probs_seq st hshape' h1]
      exact h3
  | reset d keep_offset keep_words _ _ =>
    intro _ _
    exact NoTombstonedLeaf_init_root d.ext_scorer

/-- C24: the call `remove()` on a root without children is the call that
would unlink the root from the parent it does not have (undefined behaviour);
for a beam size `K ≥ 1` it never happens, by a direct call or by the cascade.
The roll-and-prune block, entered with a well-formed trie that has a live node
and no tombstoned leaf, ends without undefined behaviour and leaves a trie in
which no tombstoned node is a leaf.  So do, from their first state on, the loop
over time of `ctc_beam_search_decoder` for every vocabulary, scorer and
well-shaped frame sequence, and the loop over time of every `decode` call on a
well-shaped frame sequence in every state a `BeamDecoder` reaches (with a scorer
the vocabulary of the streaming decoder is to be non-empty, since `blank_id` is
`vocabulary.size() - 1`). -/
theorem root_never_unlinked :
    (∀ root : PathTrie, root.children_.size = 0 →
        root.remove [] = Except.error DecodeError.undefined_behaviour)
    ∧ (∀ (V K : Nat) (root : PathTrie), 1 ≤ K → StateOK V root → NoTombstonedLeaf root →
        ∃ st, roll_and_prune K root = Except.ok st ∧ NoTombstonedLeaf st.1)
    ∧ (∀ (probs_seq : List (List ℚ)) (vocabulary : List String) (K : Nat) (cutoff_prob : ℚ)
        (cutoff_top_n : Nat) (ext_scorer : Option Scorer),
        shape_ok probs_seq (vocabulary.length + 1) = true → 1 ≤ K →
        ∃ st, one_shot_loop probs_seq vocabulary K cutoff_prob cutoff_top_n ext_scorer
            = Except.ok st ∧ NoTombstonedLeaf st.1)
    ∧ (∀ (d : BeamDecoder) (probs_seq : List (List ℚ)),
        d.Reachable → shape_ok probs_seq d.vocabulary.length = true → 1 ≤ d.beam_size →
        (d.ext_scorer = none ∨ d.vocabulary ≠ []) →
        ∃ st, d.loop probs_seq = Except.ok st ∧ NoTombstonedLeaf st.1
          ∧ (d.decode probs_seq).1.root = st.1) := by
  refine ⟨fun root h => ?_, fun V K root hK hok hno => ?_,
    fun probs_seq vocabulary K cutoff_prob cutoff_top_n ext_scorer hshape hK => ?_,
    fun d probs_seq hr hshape hK hs => ?_⟩
  · unfold PathTrie.remove
    rw [List.reverse_nil, PathTrie.remove_rev, if_pos h]
  · obtain ⟨st, h1, _⟩ := roll_and_prune_spec V K root hK hok
    exact ⟨st, h1, roll_and_prune_NoTombstonedLeaf V K root hK hok hno st h1⟩
  · obtain ⟨st, h1, _, h3⟩ := one_shot_loop_NoTombstonedLeaf probs_seq vocabulary K cutoff_prob
      cutoff_top_n ext_scorer hshape hK
    exact ⟨st, h1, h3⟩
  · obtain ⟨st, h1, _, h3⟩ := BeamDecoder.loop_NoTombstonedLeaf d probs_seq hshape hK
      (BeamDecoder.reachable_inv d hr hK hs) (BeamDecoder.reachable_NoTombstonedLeaf d hr hK hs)
    exact ⟨st, h1, h3, BeamDecoder.decode_root d probs_seq st hshape h1⟩

theorem root_never_unlinked_witness :
    (shape_ok [[1/5, 1/2, 3/10], [1/5, 1/2, 3/10]] (["a", "b"].length + 1) = true ∧ 1 ≤ 1
      ∧ ∃ st, one_shot_loop [[1/5, 1/2, 3/10], [1/5, 1/2, 3/10]] ["a", "b"] 1 1 40 none
          = Except.ok st ∧ NoTombstonedLeaf st.1)
    ∧ (decoder_a.Reachable ∧ shape_ok [[6/10, 4/10]] decoder_a.vocabulary.length = true
      ∧ 1 ≤ decoder_a.beam_size ∧ (decoder_a.ext_scorer = none ∨ decoder_a.vocabulary ≠ [])
      ∧ ∃ st, decoder_a.loop [[6/10, 4/10]] = Except.ok st ∧ NoTombstonedLeaf st.1
          ∧ (decoder_a.decode [[6/10, 4/10]]).1.root = st.1) :=
  ⟨⟨by decide!, by decide,
      root_never_unlinked.2.2.1 [[1/5, 1/2, 3/10], [1/5, 1/2, 3/10]] ["a", "b"] 1 1 40 none
        (by decide!) (by decide)⟩,
    ⟨BeamDecoder.Reachable.new _ _ _ _ _ _, by decide!, by decide, Or.inl rfl,
      root_never_unlinked.2.2.2 decoder_a [[6/10, 4/10]]
        (BeamDecoder.Reachable.new _ _ _ _ _ _) (by decide!) (by decide) (Or.inl rfl)⟩⟩

/-! ### The member `time_offset` (C25) -/

/-- The loop body writes the offset it is given to the node `get_path_trie`
returns. -/
theorem expand_writes_offset (blank_id c : Nat) (log_prob_c : LogProb) (reset : Bool)
    (lm : Node → LogProb → LogProb) (o : Nat) (pre : PathTrie) (hc : c ≠ blank_id)
    (h : (pre.get_path_trie c reset).isSome = true) :
    ((expand blank_id c log_prob_c reset lm (some o) pre).children_.find? c).map
      (fun t => t.node.offset) = some o := by
  unfold expand
  simp only [hc, if_false]
  have h1 : ((after_repeat c log_prob_c pre).get_path_trie c reset).isSome = true := by
    rw [← h]
    apply PathTrie.get_path_trie_isSome_congr <;> (unfold after_repeat; split_ifs <;> rfl)
  cases h2 : (after_repeat c log_prob_c pre).get_path_trie c reset with
  | none => rw [h2] at h1; cases h1
  | some pre2 =>
    have h3 := PathTrie.get_path_trie_find? _ pre2 c reset h2
    simp only [Children.find?_update_self]
    cases h4 : pre2.children_.find? (c : Int) with
    | none => rw [h4] at h3; cases h3
    | some child => simp [write_new]

/-- The method `decode` writes neither `time_offset` nor `prev_time_offset`. -/
theorem BeamDecoder.decode_offsets (d : BeamDecoder) (probs_seq : List (List ℚ)) :
    (d.decode probs_seq).1.time_offset = d.time_offset
      ∧ (d.decode probs_seq).1.prev_time_offset = d.prev_time_offset := by
  rw [BeamDecoder.decode_eq]
  split_ifs
  · exact ⟨rfl, rfl⟩
  · split
    · exact ⟨rfl, rfl⟩
    · split <;> exact ⟨rfl, rfl⟩

theorem BeamDecoder.reachable_time_offset (d : BeamDecoder) (hr : d.Reachable) :
    d.time_offset = 0 := by
  induction hr with
  | new vocabulary beam_size cutoff_prob cutoff_top_n ext_scorer reset_default => rfl
  | decode d probs_seq _ ih => rw [(BeamDecoder.decode_offsets d probs_seq).1, ih]
  | reset d keep_offset keep_words _ _ => rfl

/-- C25: in every state a `BeamDecoder` reaches from its constructor by
`decode` and `reset` calls, `time_offset` is `0`.  So the offset the loop body
of a `decode` call writes at the frame index `time_step` (to the node
`get_path_trie` returns for a non-blank symbol) is
`prev_time_offset + time_step`; and a `decode` call, whatever the number of its
frames, leaves `time_offset` at `0` and `prev_time_offset` as it was, so that the
next `decode` call counts its frames from the same value again. -/
theorem time_offset_is_zero (d : BeamDecoder) (hr : d.Reachable) :
    d.time_offset = 0
      ∧ (∀ (time_step c : Nat) (log_prob_c : LogProb) (p : Path) (pre : PathTrie),
          c ≠ d.blank_id → (pre.get_path_trie c d.reset_default).isSome = true →
          ((d.body time_step (c, log_prob_c) p pre).children_.find? c).map
              (fun t => t.node.offset)
            = some (d.prev_time_offset + time_step))
      ∧ (∀ probs_seq : List (List ℚ),
          (d.decode probs_seq).1.time_offset = 0
            ∧ (d.decode probs_seq).1.prev_time_offset = d.prev_time_offset) := by
  have h0 := BeamDecoder.reachable_time_offset d hr
  refine ⟨h0, fun time_step c log_prob_c p pre hc h => ?_, fun probs_seq => ?_⟩
  · unfold BeamDecoder.body
    simp only [h0, Nat.add_zero]
    exact expand_writes_offset d.blank_id c log_prob_c d.reset_default
      (BeamDecoder.lm_streaming d c p) (d.prev_time_offset + time_step) pre hc h
  · have := BeamDecoder.decode_offsets d probs_seq
    exact ⟨this.1.trans h0, this.2⟩

theorem time_offset_is_zero_witness :
    (decoder_a.decode [[6/10, 4/10]]).1.Reachable
      ∧ (decoder_a.decode [[6/10, 4/10]]).1.time_offset = 0
      ∧ (((decoder_a.decode [[6/10, 4/10]]).1.decode [[6/10, 4/10]]).1.root.at? [0]).map
          (fun t => t.node.offset) = some 0 :=
  ⟨BeamDecoder.Reachable.decode _ _ (BeamDecoder.Reachable.new _ _ _ _ _ _),
    (time_offset_is_zero (decoder_a.decode [[6/10, 4/10]]).1
      (BeamDecoder.Reachable.decode _ _ (BeamDecoder.Reachable.new _ _ _ _ _ _))).1,
    by decide!⟩

/-! ### Rendering appends token by token (C4) -/

theorem render_append_spec (vocabulary : List String) (output : List Int) (ind : Int)
    (htok : TokensOK vocabulary)
    (hout : ∀ c ∈ output, 0 ≤ c ∧ c < (vocabulary.length : Int))
    (h0 : 0 ≤ ind) (h1 : ind < (vocabulary.length : Int)) :
    ∃ s, render vocabulary output = Except.ok s
      ∧ render vocabulary (output ++ [ind]) = Except.ok
          (if (vocabulary.getD ind.toNat "").data.take 1 = ['#'] then
            s ++ String.mk ((vocabulary.getD ind.toNat "").data.drop 2)
          else
            (if output = [] then s else s ++ " ")
              ++ (if vocabulary.getD ind.toNat "" ≠ "???" then vocabulary.getD ind.toNat ""
                  else "")) := by
  obtain ⟨s, hs⟩ := render_loop_ok vocabulary htok output hout 0 ""
  have hs' : render vocabulary output = Except.ok s := hs
  refine ⟨s, hs', ?_⟩
  rw [render_snoc, hs']
  simp only
  unfold render_token
  have hlt : ¬ (ind < 0 ∨ vocabulary.length ≤ ind.toNat) := by
    intro h
    rcases h with h | h
    · omega
    · have : (ind.toNat : Int) = ind := Int.toNat_of_nonneg h0
      omega
  rw [if_neg hlt]
  by_cases h2 : (vocabulary.getD ind.toNat "").data.take 1 = ['#']
  · rw [if_pos h2, if_pos h2]
    have hmem : vocabulary.getD ind.toNat "" ∈ vocabulary := by
      have hl : ind.toNat < vocabulary.length := by
        have : (ind.toNat : Int) = ind := Int.toNat_of_nonneg h0
        omega
      rw [List.getD_eq_getElem _ _ hl]
      exact List.getElem_mem _
    have h3 : ¬ (vocabulary.getD ind.toNat "").data.length < 2 := by
      have := htok _ hmem h2
      omega
    rw [if_neg h3]
  · rw [if_neg h2, if_neg h2]
    by_cases h4 : output = []
    · simp [h4]
    · simp [h4]

/-- C4 (amended): strings are byte strings.  For a vocabulary in which every
token that begins with `#` has at least two bytes and a sequence of symbol
indices of the vocabulary, the rendering returns a text, and the rendering of
the sequence extended by one symbol appends to it: for a token that begins with
`#`, the token without its first two bytes, directly after the preceding text;
for any other token, a single space (unless the token is the first) and then
the token (nothing for the token `"???"`).  With the vocabulary
`["hel","##lo","ne","##twork"," "]` the sequence `[0,1,2,3]` renders as
`"hello network"`; after the token `a`, the token of the bytes `23 C3 A9 62`
(`#` and the two bytes of `é`, then `b`) leaves the bytes `61 A9 62`. -/
theorem render_appends_token :
    (∀ (vocabulary : List String) (output : List Int) (ind : Int),
      (∀ tok ∈ vocabulary, is_byte_string tok) → TokensOK vocabulary →
      (∀ c ∈ output, 0 ≤ c ∧ c < (vocabulary.length : Int)) →
      0 ≤ ind → ind < (vocabulary.length : Int) →
      ∃ s, render vocabulary output = Except.ok s
        ∧ render vocabulary (output ++ [ind]) = Except.ok
            (if (vocabulary.getD ind.toNat "").data.take 1 = ['#'] then
              s ++ String.mk ((vocabulary.getD ind.toNat "").data.drop 2)
            else
              (if output = [] then s else s ++ " ")
                ++ (if vocabulary.getD ind.toNat "" ≠ "???" then vocabulary.getD ind.toNat ""
                    else "")))
      ∧ render ["hel", "##lo", "ne", "##twork", " "] [0, 1, 2, 3] = Except.ok "hello network"
      ∧ render ["a", std_string [0x23, 0xC3, 0xA9, 0x62]] [0, 1]
          = Except.ok (std_string [0x61, 0xA9, 0x62]) :=
  ⟨fun vocabulary output ind _ htok hout h0 h1 =>
      render_append_spec vocabulary output ind htok hout h0 h1,
    rfl, by decide⟩

theorem render_appends_token_witness :
    (∀ tok ∈ ["hel", "##lo", "ne", "##twork", " "], is_byte_string tok)
      ∧ TokensOK ["hel", "##lo", "ne", "##twork", " "]
      ∧ (∀ c ∈ ([0, 1, 2] : List Int),
          0 ≤ c ∧ c < ((["hel", "##lo", "ne", "##twork", " "] : List String).length : Int))
      ∧ (0 : Int) ≤ 3
      ∧ (3 : Int) < ((["hel", "##lo", "ne", "##twork", " "] : List String).length : Int)
      ∧ ∃ s, render ["hel", "##lo", "ne", "##twork", " "] [0, 1, 2] = Except.ok s
        ∧ render ["hel", "##lo", "ne", "##twork", " "] ([0, 1, 2] ++ [3]) = Except.ok
            (if ((["hel", "##lo", "ne", "##twork", " "] : List String).getD (3 : Int).toNat
                "").data.take 1 = ['#'] then
              s ++ String.mk
                (((["hel", "##lo", "ne", "##twork", " "] : List String).getD (3 : Int).toNat
                  "").data.drop 2)
            else
              (if ([0, 1, 2] : List Int) = [] then s else s ++ " ")
                ++ (if (["hel", "##lo", "ne", "##twork", " "] : List String).getD
                      (3 : Int).toNat "" ≠ "???"
                    then (["hel", "##lo", "ne", "##twork", " "] : List String).getD
                      (3 : Int).toNat ""
                    else "")) :=
  ⟨by decide, by decide, by decide, by decide, by decide,
    render_appends_token.1 ["hel", "##lo", "ne", "##twork", " "] [0, 1, 2] 3 (by decide)
      (by decide) (by decide) (by decide) (by decide)⟩

/-! ### The lexicon `ab` under `word_end` (C7) -/

/-- The property, node by node. -/
theorem OnlyA_iff (t : PathTrie) :
    OnlyA t ↔
      (t.node.has_dictionary_ = true ∧ t.node.dictionary_ = some lexicon_ab
          ∧ t.node.matcher_ = some lexicon_ab)
        ∧ ∀ c child, t.children_.find? c = some child → c = 0 ∧ OnlyA child := by
  constructor
  · intro h
    refine ⟨(h [] t rfl).2, fun c child hc => And.intro ?_ ?_⟩
    · have h1 : t.at? [c] = some child := by
        rw [PathTrie.at?_cons, hc]
        rfl
      exact (h [c] child h1).1 c (List.mem_singleton.2 rfl)
    · intro q x hx
      have h1 : t.at? (c :: q) = some x := by
        rw [PathTrie.at?_cons, hc]
        exact hx
      have h2 := h (c :: q) x h1
      exact ⟨fun d hd => h2.1 d (List.mem_cons_of_mem _ hd), h2.2⟩
  · rintro ⟨h1, h2⟩ q x hx
    cases q with
    | nil =>
      cases hx
      exact ⟨fun c hc => absurd hc (List.not_mem_nil c), h1⟩
    | cons c r =>
      rw [PathTrie.at?_cons] at hx
      cases hc : t.children_.find? c with
      | none => rw [hc] at hx; cases hx
      | some child =>
        rw [hc] at hx
        obtain ⟨g1, g2⟩ := h2 c child hc
        have g3 := g2 r x hx
        refine ⟨fun d hd => ?_, g3.2⟩
        rcases List.mem_cons.1 hd with rfl | hd
        · exact g1
        · exact g3.1 d hd

/-- A write to data members other than the dictionary, the matcher and the
child list keeps the property. -/
theorem OnlyA_of_fields (t t' : PathTrie) (h : OnlyA t)
    (h1 : t'.node.has_dictionary_ = t.node.has_dictionary_)
    (h2 : t'.node.dictionary_ = t.node.dictionary_)
    (h3 : t'.node.matcher_ = t.node.matcher_)
    (hc : t'.children_ = t.children_) : OnlyA t' := by
  rw [OnlyA_iff] at h ⊢
  rw [hc, h1, h2, h3]
  exact h

theorem OnlyA_update (p : Path) (f : PathTrie → PathTrie)
    (hf : ∀ x, OnlyA x → OnlyA (f x)) :
    ∀ t : PathTrie, OnlyA t → OnlyA (t.update p f) := by
  induction p with
  | nil => intro t h; exact hf t h
  | cons c p ih =>
    intro t h
    rw [PathTrie.update_cons, OnlyA_iff]
    rw [OnlyA_iff] at h
    refine ⟨h.1, fun c' child hc' => ?_⟩
    have hc'' : (t.children_.update c (fun child => child.update p f)).find? c'
        = some child := hc'
    by_cases hcc : c' = c
    · subst hcc
      rw [Children.find?_update_self] at hc''
      cases hx : t.children_.find? c' with
      | none => rw [hx] at hc''; cases hc''
      | some x =>
        rw [hx] at hc''
        cases hc''
        exact ⟨(h.2 c' x hx).1, ih x (h.2 c' x hx).2⟩
    · rw [Children.find?_update_ne _ _ _ _ hcc] at hc''
      exact h.2 c' child hc''

theorem OnlyA_push_back (t : PathTrie) (x : PathTrie)
    (h : OnlyA t) (hx : OnlyA x) (hnone : t.children_.find? 0 = none) :
    OnlyA ⟨t.node, t.children_.push_back 0 x⟩ := by
  rw [OnlyA_iff] at h ⊢
  refine ⟨h.1, fun c' child hc' => ?_⟩
  have hc'' : (t.children_.push_back 0 x).find? c' = some child := hc'
  by_cases hcc : c' = 0
  · subst hcc
    rw [Children.find?_push_back_self _ _ _ hnone] at hc''
    cases hc''
    exact ⟨rfl, hx⟩
  · rw [Children.find?_push_back_ne _ _ _ _ hcc] at hc''
    exact h.2 c' child hc''

/-- From its start state the dictionary `lexicon_ab` has an arc for the
symbol `0` only. -/
theorem lexicon_ab_Find (c : Int) :
    lexicon_ab.Find lexicon_ab.Start (c + 1) = if c = 0 then some ⟨1, 1, 1⟩ else none := by
  rw [lexicon_ab_eq]
  by_cases h : c = 0
  · subst h
    rfl
  · rw [if_neg h]
    have h1 : ¬ (1 : Int) = c + 1 := by omega
    simp [StdVectorFst.Find, StdVectorFst.arcsOf, StdVectorFst.Start, h1]

theorem get_path_trie_OnlyA (this t : PathTrie) (c : Int)
    (h : OnlyA this) (ht : this.get_path_trie c true = some t) : OnlyA t := by
  rw [PathTrie.get_path_trie_eq] at ht
  cases hf : this.children_.find? c with
  | some child =>
    rw [hf] at ht
    simp only [Option.some.injEq] at ht
    subst ht
    by_cases hd : child.node.exists_ = false
    · rw [if_pos hd]
      have := OnlyA_update [c] PathTrie.revive
        (fun x hx => OnlyA_of_fields x _ hx rfl rfl rfl rfl) this h
      exact this
    · rw [if_neg hd]
      exact h
  | none =>
    rw [hf] at ht
    simp only [Option.map_eq_some'] at ht
    obtain ⟨x, hx, rfl⟩ := ht
    obtain ⟨f1, f2, f3⟩ := ((OnlyA_iff this).1 h).1
    unfold new_child? at hx
    rw [if_pos f1] at hx
    simp only [f2, f3, if_true] at hx
    rw [lexicon_ab_Find] at hx
    by_cases hc : c = 0
    · subst hc
      simp only [if_true, Option.some.injEq] at hx
      subst hx
      refine OnlyA_push_back this _ h ?_ hf
      rw [OnlyA_iff]
      exact ⟨⟨rfl, rfl, rfl⟩, fun c' child hc' => by cases hc'⟩
    · rw [if_neg hc] at hx
      cases hx

theorem after_repeat_dictionary (c : Nat) (log_prob_c : LogProb) (pre : PathTrie) :
    (after_repeat c log_prob_c pre).node.has_dictionary_ = pre.node.has_dictionary_
      ∧ (after_repeat c log_prob_c pre).node.dictionary_ = pre.node.dictionary_
      ∧ (after_repeat c log_prob_c pre).node.matcher_ = pre.node.matcher_ := by
  unfold after_repeat
  split_ifs <;> exact ⟨rfl, rfl, rfl⟩

/-- The loop body called with `reset = true` keeps the property: it creates a
child for the symbol `0` only. -/
theorem expand_OnlyA (blank_id c : Nat) (log_prob_c : LogProb)
    (lm : Node → LogProb → LogProb) (offset : Option Nat) (pre : PathTrie)
    (h : OnlyA pre) :
    OnlyA (expand blank_id c log_prob_c true lm offset pre) := by
  by_cases hc : c = blank_id
  · rw [expand_of_blank _ _ _ _ _ _ _ hc]
    exact OnlyA_of_fields pre _ h rfl rfl rfl rfl
  · rw [expand_of_ne _ _ _ _ _ _ _ hc]
    obtain ⟨a1, a2, a3⟩ := after_repeat_dictionary c log_prob_c pre
    have ha : OnlyA (after_repeat c log_prob_c pre) :=
      OnlyA_of_fields pre _ h a1 a2 a3 (after_repeat_children _ _ _)
    cases hg : (after_repeat c log_prob_c pre).get_path_trie c true with
    | none => exact ha
    | some pre2 =>
      have h2 := get_path_trie_OnlyA _ pre2 c ha hg
      exact OnlyA_update [(c : Int)]
        (write_new offset (lm pre.node (new_log_p c log_prob_c pre.node)))
        (fun x hx => OnlyA_of_fields x _ hx rfl rfl rfl rfl) pre2 h2

theorem body_one_shot_OnlyA (ext_scorer : Option Scorer) (s : Nat × LogProb) (hs : s.1 < 3)
    (p : Path) (x : PathTrie) (h : OnlyA x) :
    OnlyA (body_one_shot ext_scorer ["a", "b"] s p x) := by
  unfold body_one_shot
  obtain ⟨c, v⟩ := s
  have hc : c = 0 ∨ c = 1 ∨ c = 2 := by
    have : c < 3 := hs
    omega
  rcases hc with rfl | rfl | rfl
  · exact expand_OnlyA _ _ _ _ _ x h
  · exact expand_OnlyA _ _ _ _ _ x h
  · show OnlyA (expand 2 2 v (word_end ["a", "b"] 2) (lm_one_shot ext_scorer ["a", "b"] 2 p)
      none x)
    rw [expand_of_blank _ _ _ _ _ _ _ rfl]
    exact OnlyA_of_fields x _ h rfl rfl rfl rfl

theorem expand_prefixes_OnlyA (stop : Node → Bool)
    (body : Path → PathTrie → PathTrie)
    (hbody : ∀ p x, OnlyA x → OnlyA (body p x)) (beam : List Path) :
    ∀ root : PathTrie, OnlyA root → OnlyA (expand_prefixes stop body beam root) := by
  induction beam with
  | nil => intro root h; exact h
  | cons p rest ih =>
    intro root h
    unfold expand_prefixes
    split_ifs
    · exact h
    · exact ih _ (OnlyA_update p (body p) (hbody p) root h)

theorem expand_symbols_OnlyA (stop : Nat × LogProb → Node → Bool)
    (body : Nat × LogProb → Path → PathTrie → PathTrie) (beam : List Path)
    (symbols : List (Nat × LogProb))
    (hbody : ∀ s ∈ symbols, ∀ p x, OnlyA x → OnlyA (body s p x)) :
    ∀ root : PathTrie, OnlyA root → OnlyA (expand_symbols stop body beam symbols root) := by
  induction symbols with
  | nil => intro root h; exact h
  | cons s rest ih =>
    intro root h
    unfold expand_symbols
    exact ih (fun s' hs' => hbody s' (List.mem_cons_of_mem _ hs')) _
      (expand_prefixes_OnlyA (stop s) (body s) (hbody s (List.mem_cons_self _ _)) beam root h)

theorem OnlyA_rolled (t : PathTrie) (h : OnlyA t) : OnlyA t.rolled := by
  intro q x hx
  rw [PathTrie.at?_rolled] at hx
  cases hy : t.at? q with
  | none => rw [hy] at hx; cases hx
  | some y =>
    rw [hy] at hx
    cases hx
    obtain ⟨g1, g2, g3, g4⟩ := h q y hy
    refine ⟨g1, ?_⟩
    unfold PathTrie.rolled
    simp only
    split_ifs
    · exact ⟨g2, g3, g4⟩
    · exact ⟨g2, g3, g4⟩

theorem OnlyA_of_Shrinks (t t' : PathTrie) (hs : t.Shrinks t') (h : OnlyA t) : OnlyA t' := by
  intro q x hx
  have hn : t'.node? q = some x.node := by
    unfold PathTrie.node?
    rw [hx]
    rfl
  rcases hs q with h0 | ⟨n, hm, h1⟩
  · rw [h0] at hn; cases hn
  · unfold PathTrie.node? at hm
    cases hy : t.at? q with
    | none => rw [hy] at hm; cases hm
    | some y =>
      rw [hy] at hm
      simp only [Option.map_some', Option.some.injEq] at hm
      obtain ⟨g1, g2, g3, g4⟩ := h q y hy
      refine ⟨g1, ?_⟩
      rcases h1 with h1 | h1
      · rw [h1] at hn
        injection hn with hn
        rw [← hn, ← hm]
        exact ⟨g2, g3, g4⟩
      · rw [h1] at hn
        injection hn with hn
        rw [← hn, ← hm]
        exact ⟨g2, g3, g4⟩

theorem OnlyA_init_root (scorer : Scorer) (h1 : scorer.is_character_based = false)
    (h2 : scorer.dictionary = lexicon_ab) : OnlyA (init_root (some scorer)) := by
  unfold init_root
  simp only [h1, if_true]
  rw [OnlyA_iff]
  refine ⟨⟨rfl, ?_, ?_⟩, fun c child hc => by cases hc⟩
  · show some scorer.dictionary = some lexicon_ab
    rw [h2]
  · show some scorer.dictionary = some lexicon_ab
    rw [h2]

/-- One frame of the one-shot decoder over `["a", "b"]` keeps the property. -/
theorem frame_step_OnlyA (K : Nat) (cutoff_prob : ℚ) (cutoff_top_n : Nat)
    (ext_scorer : Option Scorer) (prob : List ℚ) (hprob : prob.length = 3)
    (st : PathTrie × List Path) (hK : 1 ≤ K) (h : BeamInv 2 K st) (ho : OnlyA st.1)
    (st' : PathTrie × List Path)
    (hst : frame_step K 2 cutoff_prob cutoff_top_n ext_scorer
      (body_one_shot ext_scorer ["a", "b"]) prob st = Except.ok st') : OnlyA st'.1 := by
  have hok := BeamInv.stateOK 2 K st h
  have hidx : ∀ s ∈ get_pruned_log_probs prob cutoff_prob cutoff_top_n, s.1 < 3 := by
    intro s hs
    have := get_pruned_log_probs_index_lt prob cutoff_prob cutoff_top_n s hs
    omega
  have hbody : ∀ s ∈ get_pruned_log_probs prob cutoff_prob cutoff_top_n, ∀ p x,
      x.children_.WF 2 →
        (body_one_shot ext_scorer ["a", "b"] s p x).node.character = x.node.character
          ∧ (body_one_shot ext_scorer ["a", "b"] s p x).children_.WF 2
          ∧ ∀ r, x.isLive r = true →
              (body_one_shot ext_scorer ["a", "b"] s p x).isLive r = true := by
    intro s hs p x hx
    exact body_one_shot_spec ext_scorer ["a", "b"] s (hidx s hs) p x hx
  unfold frame_step at hst
  cases hpre : pre_sort K 2 ext_scorer prob st.1 st.2 with
  | error e => rw [hpre] at hst; cases hst
  | ok r =>
    obtain ⟨prefixes, min_cutoff, full_beam⟩ := r
    rw [hpre] at hst
    simp only at hst
    obtain ⟨st1, e1, _, hsh, _⟩ := roll_and_prune_spec 2 K _ hK
      (expand_symbols_StateOK 2
        (fun x pre => full_beam && decide (x.2 + pre.score < min_cutoff))
        (body_one_shot ext_scorer ["a", "b"]) _ hbody (prefixes.take K) st.1 hok)
    rw [e1] at hst
    injection hst with hst
    subst hst
    exact OnlyA_of_Shrinks _ _ hsh (OnlyA_rolled _
      (expand_symbols_OnlyA _ _ _ _
        (fun s hs p x hx => body_one_shot_OnlyA ext_scorer s (hidx s hs) p x hx) st.1 ho))

/-- The loop over time of the one-shot decoder over `["a", "b"]` with the
dictionary `lexicon_ab` ends with a trie all of whose pointers consist of the
symbol `0`. -/
theorem one_shot_loop_OnlyA (probs_seq : List (List ℚ)) (K : Nat) (cutoff_prob : ℚ)
    (cutoff_top_n : Nat) (scorer : Scorer) (h1 : scorer.is_character_based = false)
    (h2 : scorer.dictionary = lexicon_ab)
    (hshape : shape_ok probs_seq 3 = true) (hK : 1 ≤ K) :
    ∃ st, one_shot_loop probs_seq ["a", "b"] K cutoff_prob cutoff_top_n (some scorer)
        = Except.ok st ∧ BeamInv 2 K st ∧ OnlyA st.1 := by
  unfold one_shot_loop
  apply time_loop_invariant (fun st => BeamInv 2 K st ∧ OnlyA st.1)
    _ probs_seq _ 0 _
    ⟨init_BeamInv 2 K hK (some scorer), OnlyA_init_root scorer h1 h2⟩
  intro t prob hprob st hst
  have hw : prob.length = 3 := shape_ok_mem probs_seq _ hshape prob hprob
  have hbody : ∀ s ∈ get_pruned_log_probs prob cutoff_prob cutoff_top_n, ∀ p x,
      x.children_.WF 2 →
        (body_one_shot (some scorer) ["a", "b"] s p x).node.character = x.node.character
          ∧ (body_one_shot (some scorer) ["a", "b"] s p x).children_.WF 2
          ∧ ∀ r, x.isLive r = true →
              (body_one_shot (some scorer) ["a", "b"] s p x).isLive r = true := by
    intro s hs p x hx
    have := get_pruned_log_probs_index_lt prob cutoff_prob cutoff_top_n s hs
    exact body_one_shot_spec (some scorer) ["a", "b"] s (by
      show s.1 < 2 + 1
      omega) p x hx
  obtain ⟨st', g1, g2⟩ := frame_step_inv 2 K 2 cutoff_prob
    cutoff_top_n (some scorer) _ prob st hK hst.1 (Or.inr (by omega)) hbody
  exact ⟨st', g1, g2, frame_step_OnlyA K cutoff_prob cutoff_top_n (some scorer) prob hw st hK
    hst.1 hst.2 st' g1⟩

/-- A pointer of symbols `0` renders over `["a", "b"]` as a text without `b`. -/
theorem render_loop_only_a : ∀ (p : List Int), (∀ c ∈ p, c = 0) →
    ∀ (i : Nat) (acc : String), 'b' ∉ acc.data →
      ∃ s, render_loop ["a", "b"] p i acc = Except.ok s ∧ 'b' ∉ s.data := by
  intro p
  induction p with
  | nil => intro _ i acc h; exact ⟨acc, rfl, h⟩
  | cons c rest ih =>
    intro hp i acc h
    have hc : c = 0 := hp c (List.mem_cons_self _ _)
    subst hc
    have hrest := ih (fun d hd => hp d (List.mem_cons_of_mem _ hd))
    rw [render_loop]
    simp only [Int.toNat_zero, List.length_cons, List.length_nil, List.getD_cons_zero]
    rw [if_neg (by decide), if_neg (by decide)]
    apply hrest
    by_cases hi : i ≠ 0
    · simp only [if_pos hi, String.data_append]
      simp only [List.mem_append, not_or]
      exact ⟨⟨h, by decide⟩, by decide⟩
    · simp only [if_neg hi, String.data_append]
      simp only [List.mem_append, not_or]
      exact ⟨h, by decide⟩

theorem get_beam_search_result_transcripts (V K : Nat) (root root1 : PathTrie)
    (prefixes : List Path) (vocabulary : List String) (ext_scorer : Option Scorer)
    (hV : V = vocabulary.length) (htok : TokensOK vocabulary)
    (h : BeamInv V K (root, prefixes)) (hs1 : SameShape V root root1) :
    ∃ r, get_beam_search_result
          (approx_scores vocabulary ext_scorer
            ((sort_first (prefix_compare_at root1) (min prefixes.length K) prefixes).take K)
            root1)
          (sort_first (prefix_compare_at root1) (min prefixes.length K) prefixes)
          vocabulary K = Except.ok r
      ∧ ∀ x ∈ r.1, ∃ p, root.isLive p = true
          ∧ x.2 = (render vocabulary p).toOption.getD "" := by
  obtain ⟨hwf, hnd, hmem, hne⟩ := h
  generalize hpre1 : sort_first (prefix_compare_at root1) (min prefixes.length K) prefixes
    = prefixes1
  have htake : prefixes1.take K = std_sort (prefix_compare_at root1) (prefixes.take K) := by
    rw [← hpre1]; exact take_sort_first _ _ _
  have hperm : (prefixes1.take K).Perm (prefixes.take K) := by
    rw [htake]; exact perm_std_sort _ _
  generalize hroot2 : approx_scores vocabulary ext_scorer (prefixes1.take K) root1 = root2
  have hs2 : SameShape V root root2 := by
    rw [← hroot2]
    exact SameShape.sameShape_trans V _ _ _ hs1
      (approx_scores_SameShape V vocabulary ext_scorer _ root1)
  have hvalid : ∀ p ∈ prefixes1.take K, (root2.at? p).isSome = true := by
    intro p hp
    have hl : root.isLive p = true := (hmem p).1 (hperm.mem_iff.1 hp)
    rw [at?_isSome_eq_node?, hs2.2.2 p, ← at?_isSome_eq_node?]
    exact at?_isSome_of_isLive root p hl
  have hne1 : prefixes1.take K ≠ [] := by
    intro h0
    apply hne
    have := hperm.length_eq
    rw [h0] at this
    exact List.eq_nil_of_length_eq_zero this.symm
  obtain ⟨r, g1, _, _, _, g5⟩ := get_beam_search_result_ok V K root2 prefixes1 vocabulary hV htok
    (hs2.1 hwf) hvalid hne1
  refine ⟨r, g1, ?_⟩
  intro x hx
  have hx2 : x.2 ∈ r.1.map Prod.snd := List.mem_map_of_mem _ hx
  rw [g5, List.mem_map] at hx2
  obtain ⟨p, hp, hpx⟩ := hx2
  have hp1 : p ∈ prefixes1.take K := (perm_std_sort _ _).mem_iff.1 hp
  exact ⟨p, (hmem p).1 (hperm.mem_iff.1 hp1), hpx.symm⟩

/-- From the invariant of the beam to the transcripts of
`ctc_beam_search_decoder`: each is the rendering of a live prefix. -/
theorem one_shot_transcripts (V K : Nat) (root : PathTrie) (prefixes : List Path)
    (vocabulary : List String) (ext_scorer : Option Scorer) (hV : V = vocabulary.length)
    (htok : TokensOK vocabulary) (h : BeamInv V K (root, prefixes)) :
    ∃ r, one_shot_finish vocabulary K ext_scorer (root, prefixes) = Except.ok r
      ∧ ∀ x ∈ r, ∃ p, root.isLive p = true
          ∧ x.2 = (render vocabulary p).toOption.getD "" := by
  unfold one_shot_finish
  cases ext_scorer with
  | none =>
    dsimp only
    obtain ⟨r, g1, g2⟩ := get_beam_search_result_transcripts V K root root prefixes vocabulary
      none hV htok h (SameShape.sameShape_refl V root)
    rw [g1]
    exact ⟨r.1, rfl, g2⟩
  | some scorer =>
    dsimp only
    by_cases hc : scorer.is_character_based = false
    · simp only [if_pos hc]
      obtain ⟨r, g1, g2⟩ := get_beam_search_result_transcripts V K root
        (final_scores scorer (prefixes.take K) root) prefixes vocabulary
        (some scorer) hV htok h (final_scores_SameShape V scorer _ root)
      rw [g1]
      exact ⟨r.1, rfl, g2⟩
    · simp only [if_neg hc]
      obtain ⟨r, g1, g2⟩ := get_beam_search_result_transcripts V K root root prefixes vocabulary
        (some scorer) hV htok h (SameShape.sameShape_refl V root)
      rw [g1]
      exact ⟨r.1, rfl, g2⟩

/-- With the dictionary `lexicon_ab` the one-shot decoder over `["a", "b"]`
returns, on every well-shaped input, transcripts without `b`. -/
theorem lexicon_ab_no_b (scorer : Scorer) (probs_seq : List (List ℚ)) (K : Nat)
    (cutoff_prob : ℚ) (cutoff_top_n : Nat) (h1 : scorer.is_character_based = false)
    (h2 : scorer.dictionary = lexicon_ab) (hshape : shape_ok probs_seq 3 = true) (hK : 1 ≤ K) :
    ∃ r, ctc_beam_search_decoder probs_seq ["a", "b"] K cutoff_prob cutoff_top_n (some scorer)
        = Except.ok r ∧ ∀ x ∈ r, 'b' ∉ x.2.data := by
  obtain ⟨⟨root, prefixes⟩, g1, g2, g3⟩ := one_shot_loop_OnlyA probs_seq K cutoff_prob
    cutoff_top_n scorer h1 h2 hshape hK
  obtain ⟨r, k1, k2⟩ := one_shot_transcripts 2 K root prefixes ["a", "b"] (some scorer) rfl
    (by decide) g2
  refine ⟨r, ?_, ?_⟩
  · unfold ctc_beam_search_decoder
    have hs : ¬ shape_ok probs_seq ((["a", "b"] : List String).length + 1) = false := by
      show ¬ shape_ok probs_seq 3 = false
      rw [hshape]; simp
    rw [if_neg hs, g1]
    exact k1
  · intro x hx
    obtain ⟨p, hp, hpx⟩ := k2 x hx
    obtain ⟨y, hy, _⟩ := PathTrie.at?_of_isLive root p hp
    have hzero := (g3 p y hy).1
    obtain ⟨s, hs1, hs2⟩ := render_loop_only_a p hzero 0 "" (by decide)
    have : render ["a", "b"] p = Except.ok s := hs1
    rw [hpx, this]
    exact hs2

/-- C7 (amended): `word_end` is true for both tokens of `["a","b"]`, so the
matcher is set to the start state of the dictionary at each extension: the
prefix `"a"` accepts the symbol `a` (the start state has an arc labelled `1`)
and rejects the symbol `b` (it has no arc labelled `2`).  With `reset = false`
(the value passed for a token that begins with `#`) it is the other way round.
On frames favouring `a` then `b` the decoder with this dictionary returns
`"a"`, `""` and `"a a"`.  For every word-based scorer holding this dictionary,
every well-shaped input, every beam size `K ≥ 1` and all cut-offs, the one-shot
decoder returns, and no transcript it returns contains a `b`. -/
theorem lexicon_ab_extensions :
    (prefix_a.isSome = true
      ∧ word_end ["a", "b"] 0 = true ∧ word_end ["a", "b"] 1 = true
      ∧ (prefix_a.bind (fun p => p.get_path_trie 0 (word_end ["a", "b"] 0))).isSome = true
      ∧ prefix_a.bind (fun p => p.get_path_trie 1 (word_end ["a", "b"] 1)) = none
      ∧ prefix_a.bind (fun p => p.get_path_trie 0 false) = none
      ∧ (prefix_a.bind (fun p => p.get_path_trie 1 false)).isSome = true
      ∧ transcripts (ctc_beam_search_decoder [[8/10, 1/10, 1/10], [1/10, 8/10, 1/10]]
          ["a", "b"] 10 1 40 (some scorer_ab)) = some ["a", "", "a a"])
    ∧ ∀ (scorer : Scorer) (probs_seq : List (List ℚ)) (K : Nat) (cutoff_prob : ℚ)
        (cutoff_top_n : Nat),
        scorer.is_character_based = false → scorer.dictionary = lexicon_ab →
        shape_ok probs_seq ((["a", "b"] : List String).length + 1) = true → 1 ≤ K →
        ∃ r, ctc_beam_search_decoder probs_seq ["a", "b"] K cutoff_prob cutoff_top_n
              (some scorer) = Except.ok r
          ∧ ∀ x ∈ r, 'b' ∉ x.2.data :=
  ⟨by decide!,
    fun scorer probs_seq K cutoff_prob cutoff_top_n h1 h2 hshape hK =>
      lexicon_ab_no_b scorer probs_seq K cutoff_prob cutoff_top_n h1 h2 hshape hK⟩

theorem lexicon_ab_extensions_witness :
    scorer_ab.is_character_based = false ∧ scorer_ab.dictionary = lexicon_ab
      ∧ shape_ok [[8/10, 1/10, 1/10], [1/10, 8/10, 1/10]]
          ((["a", "b"] : List String).length + 1) = true
      ∧ 1 ≤ 10
      ∧ ∃ r, ctc_beam_search_decoder [[8/10, 1/10, 1/10], [1/10, 8/10, 1/10]] ["a", "b"] 10 1 40
              (some scorer_ab) = Except.ok r
          ∧ ∀ x ∈ r, 'b' ∉ x.2.data :=
  ⟨rfl, rfl, by decide, by decide,
    lexicon_ab_extensions.2 scorer_ab [[8/10, 1/10, 1/10], [1/10, 8/10, 1/10]] 10 1 40 rfl rfl
      (by decide) (by decide)⟩

end PrefixBeamSearch
